import Mathlib

/-!
# GraphAligner: the split-node alignment graph and traceback

A shallow embedding of `src/AlignmentGraph.cpp` and `GraphAlignerVGAlignment.h`.

* `std::vector<T>` is `List T`; `size_t` values are `Nat` (machine arithmetic is written with an
  explicit `% 2^64` where a sum is compared, and the `size_t → int → size_t` narrowing of the
  split helper's `int offset` parameter is `intOffset`).
* `std::unordered_map<int, T>` is an association list with unique keys.
* A failed `assert`, an out-of-range `std::vector` access, `std::map::at` on a missing key and a
  throwing `std::string::substr` are all `none`.
* The `int32` fields of `vg::Edit` are `Int`; a `size_t` value stored in them is narrowed with
  `toInt32`.
-/

namespace GraphAligner

/-! ## Constants of `AlignmentGraph.h` -/

/-- Modelled from the spec: `AlignmentGraph.h` is not part of the sources. The split width `W`
is the machine-word bit count, 64 in the source. -/
def SPLIT_NODE_SIZE : Nat := 64

/-- Modelled from the spec: `AlignmentGraph.h` is not part of the sources. `BP_IN_CHUNK = W/2`,
two bits per base in one machine word. -/
def BP_IN_CHUNK : Nat := 32

/-- Modelled from the spec: `AlignmentGraph.h` is not part of the sources. A definite split is an
array of `CHUNKS_IN_NODE` machine words holding `SPLIT_NODE_SIZE` bases, `BP_IN_CHUNK` each. -/
def CHUNKS_IN_NODE : Nat := 2

/-- The value `std::numeric_limits<size_t>::max()`. -/
def SIZE_MAX : Nat := 2 ^ 64 - 1

/-! ## Data model -/

/-- The four parallel bit masks of an ambiguous split (`AmbiguousChunkSequence`). -/
structure AmbiguousChunkSequence where
  A : Nat
  C : Nat
  G : Nat
  T : Nat
deriving DecidableEq, Repr

/-- The members of `class AlignmentGraph` that `AlignmentGraph.cpp` reads and writes. -/
structure AlignmentGraph where
  nodeLength : List Nat
  nodeLookup : List (Int × List Nat)
  originalNodeSize : List (Int × Nat)
  originalNodeName : List (Int × String)
  nodeOffset : List Nat
  nodeIDs : List Int
  inNeighbors : List (List Nat)
  outNeighbors : List (List Nat)
  reverse : List Bool
  linearizable : List Bool
  ambiguousNodes : List Bool
  nodeSequences : List (List Nat)
  ambiguousNodeSequences : List AmbiguousChunkSequence
  componentNumber : List Nat
  firstAmbiguous : Nat
  finalized : Bool
deriving DecidableEq, Repr

namespace AlignmentGraph

/-- The constructor `AlignmentGraph::AlignmentGraph()`: every container empty,
`firstAmbiguous` at `size_t` max, not finalized. -/
def empty : AlignmentGraph where
  nodeLength := []
  nodeLookup := []
  originalNodeSize := []
  originalNodeName := []
  nodeOffset := []
  nodeIDs := []
  inNeighbors := []
  outNeighbors := []
  reverse := []
  linearizable := []
  ambiguousNodes := []
  nodeSequences := []
  ambiguousNodeSequences := []
  componentNumber := []
  firstAmbiguous := SIZE_MAX
  finalized := false

end AlignmentGraph

/-! ## Small container helpers -/

/-- Sequencing of two steps that can fail: the second runs on the value of the first. It is
`Option.bind`, kept out of line. -/
@[noinline] def stepBind {α β : Type} (x : Option α) (f : α → Option β) : Option β :=
  match x with
  | none => none
  | some a => f a

/-- The monad of steps that can fail, with `stepBind` as its sequencing. -/
instance instMonadStep : Monad Option where
  pure := fun a => some a
  bind := stepBind

/-- The statement `assert(c)`: continue when `c` holds, fail otherwise. -/
def assert (c : Bool) : Option Unit := if c then some () else none

/-- The assignment `vec[i] = v`; `i` out of range is undefined behaviour. -/
def setAt {α : Type} (vec : List α) (i : Nat) (v : α) : Option (List α) :=
  if i < vec.length then some (vec.set i v) else none

/-- The call `vec.resize(n, v)`: the first `n` elements, padded with `v` up to length `n`. -/
def resize {α : Type} (vec : List α) (n : Nat) (v : α) : List α :=
  vec.take n ++ List.replicate (n - vec.length) v

/-- The expression `m[k]` on an `unordered_map<int, size_t>` read as a value: the stored value,
and the map, in which a missing key has been inserted with value `0`. -/
def mapIndex (m : List (Int × Nat)) (k : Int) : Nat × List (Int × Nat) :=
  match m.lookup k with
  | some v => (v, m)
  | none => (0, m ++ [(k, 0)])

/-- The assignment `m[k] = v` on an `unordered_map`. -/
def mapAssign {β : Type} (m : List (Int × β)) (k : Int) (v : β) : List (Int × β) :=
  match m with
  | [] => [(k, v)]
  | (k0, v0) :: rest => if k0 = k then (k0, v) :: rest else (k0, v0) :: mapAssign rest k v

/-- The statement `m[k].push_back(x)` on an `unordered_map<int, vector>`: a missing key is first
inserted with an empty vector. -/
def mapPushBack (m : List (Int × List Nat)) (k : Int) (x : Nat) : List (Int × List Nat) :=
  match m with
  | [] => [(k, [x])]
  | (k0, l) :: rest => if k0 = k then (k0, l ++ [x]) :: rest else (k0, l) :: mapPushBack rest k x

/-- The call `sequence.substr(pos, n)`: throws when `pos > size()`, otherwise at most `n`
characters from `pos` on. -/
def substr (sequence : List Char) (pos n : Nat) : Option (List Char) :=
  if pos ≤ sequence.length then some ((sequence.drop pos).take n) else none

/-- The statement `vec[i].push_back(x)` on a vector of vectors; `i` out of range is undefined
behaviour. -/
def pushBackAt (vec : List (List Nat)) (i x : Nat) : Option (List (List Nat)) :=
  match vec[i]? with
  | some l => some (vec.set i (l ++ [x]))
  | none => none

/-- The value stored by `nodeOffset.push_back(offset)` in the split helper: the caller's `size_t`
offset has been narrowed to the parameter `int offset` (two's complement, 32 bits) and is widened
back to `size_t` (sign extension to 64 bits). -/
def intOffset (offset : Nat) : Nat :=
  if offset % 2 ^ 32 < 2 ^ 31 then offset % 2 ^ 32 else 2 ^ 64 - 2 ^ 32 + offset % 2 ^ 32

/-! ## The split helper `AddNode(int nodeId, int offset, const std::string&, bool)` -/

/-- One arm of the `switch` over `sequence[i]`: which of the masks `A`, `C`, `G`, `T` get bit `i`,
and the two-bit code that is or-ed into `normalSeq` (`none` for the arms that set
`ambiguous = true` instead). -/
structure SwitchArm where
  a : Bool
  c : Bool
  g : Bool
  t : Bool
  normal : Option Nat
deriving DecidableEq, Repr

/-- The `switch (sequence[i])` of the split helper; the `default:` arm is `assert(false)`. -/
def switchArm (ch : Char) : Option SwitchArm :=
  if ch = 'a' ∨ ch = 'A' then some ⟨true, false, false, false, some 0⟩
  else if ch = 'c' ∨ ch = 'C' then some ⟨false, true, false, false, some 1⟩
  else if ch = 'g' ∨ ch = 'G' then some ⟨false, false, true, false, some 2⟩
  else if ch = 't' ∨ ch = 'T' ∨ ch = 'u' ∨ ch = 'U' then some ⟨false, false, false, true, some 3⟩
  else if ch = 'r' ∨ ch = 'R' then some ⟨true, false, true, false, none⟩
  else if ch = 'y' ∨ ch = 'Y' then some ⟨false, true, false, true, none⟩
  else if ch = 's' ∨ ch = 'S' then some ⟨false, true, true, false, none⟩
  else if ch = 'w' ∨ ch = 'W' then some ⟨true, false, false, true, none⟩
  else if ch = 'k' ∨ ch = 'K' then some ⟨false, false, true, true, none⟩
  else if ch = 'm' ∨ ch = 'M' then some ⟨true, true, false, false, none⟩
  else if ch = 'b' ∨ ch = 'B' then some ⟨false, true, true, true, none⟩
  else if ch = 'd' ∨ ch = 'D' then some ⟨true, false, true, true, none⟩
  else if ch = 'h' ∨ ch = 'H' then some ⟨true, true, false, true, none⟩
  else if ch = 'v' ∨ ch = 'V' then some ⟨true, true, true, false, none⟩
  else if ch = 'n' ∨ ch = 'N' then some ⟨true, true, true, true, none⟩
  else none

/-- The locals `normalSeq`, `ambiguousSeq` and `ambiguous` of the split helper. -/
structure EncodeState where
  normalSeq : List Nat
  ambiguousSeq : AmbiguousChunkSequence
  ambiguous : Bool
deriving DecidableEq, Repr

/-- The statement `mask |= ((size_t)1) << i`, executed when the arm names the mask. -/
def orBit (mask : Nat) (set : Bool) (i : Nat) : Nat :=
  if set then mask ||| (1 <<< i) else mask

/-- One iteration of the encoding loop `for (size_t i = 0; i < sequence.size(); i++)`. -/
def encodeStep (st : EncodeState) (i : Nat) (ch : Char) : Option EncodeState := do
  let chunk := i / BP_IN_CHUNK
  assert (decide (chunk < CHUNKS_IN_NODE))
  let offset := (i % BP_IN_CHUNK) * 2
  let arm ← switchArm ch
  let amb : AmbiguousChunkSequence :=
    { A := orBit st.ambiguousSeq.A arm.a i
      C := orBit st.ambiguousSeq.C arm.c i
      G := orBit st.ambiguousSeq.G arm.g i
      T := orBit st.ambiguousSeq.T arm.t i }
  match arm.normal with
  | some code =>
    let word ← st.normalSeq[chunk]?
    pure { normalSeq := st.normalSeq.set chunk (word ||| (code <<< offset))
           ambiguousSeq := amb
           ambiguous := st.ambiguous }
  | none => some { normalSeq := st.normalSeq, ambiguousSeq := amb, ambiguous := true }

/-- The encoding loop from index `i` on. -/
def encodeLoop : List Char → Nat → EncodeState → Option EncodeState
  | [], _, st => some st
  | ch :: rest, i, st => do
    let st1 ← encodeStep st i ch
    encodeLoop rest (i + 1) st1

/-- The locals before the encoding loop: all chunks and all four masks zero. -/
def encodeInit : EncodeState :=
  { normalSeq := List.replicate CHUNKS_IN_NODE 0
    ambiguousSeq := ⟨0, 0, 0, 0⟩
    ambiguous := false }

namespace AlignmentGraph

/-- The overload `AlignmentGraph::AddNode(int nodeId, int offset, const std::string& sequence,
bool reverseNode)`, called once per stride. `offset` is the caller's `size_t` value; it is
narrowed to `int` on entry. -/
def AddNodeSplit (g : AlignmentGraph) (nodeId : Int) (offset : Nat) (sequence : List Char)
    (reverseNode : Bool) : Option AlignmentGraph := do
  assert (decide (g.firstAmbiguous = SIZE_MAX))
  assert (!g.finalized)
  assert (decide (sequence.length ≤ SPLIT_NODE_SIZE))
  assert (decide (sequence.length ≤ 64))
  let enc ← encodeLoop sequence 0 encodeInit
  let g1 : AlignmentGraph :=
    { g with
      nodeLookup := mapPushBack g.nodeLookup nodeId g.nodeLength.length
      nodeLength := g.nodeLength ++ [sequence.length]
      nodeIDs := g.nodeIDs ++ [nodeId]
      inNeighbors := g.inNeighbors ++ [[]]
      outNeighbors := g.outNeighbors ++ [[]]
      reverse := g.reverse ++ [reverseNode]
      nodeOffset := g.nodeOffset ++ [intOffset offset]
      ambiguousNodes := g.ambiguousNodes ++ [enc.ambiguous]
      ambiguousNodeSequences :=
        if enc.ambiguous then g.ambiguousNodeSequences ++ [enc.ambiguousSeq]
        else g.ambiguousNodeSequences
      nodeSequences :=
        if enc.ambiguous then g.nodeSequences else g.nodeSequences ++ [enc.normalSeq] }
  assert (decide (g1.nodeIDs.length = g1.nodeLength.length))
  assert (decide (g1.nodeLength.length = g1.inNeighbors.length))
  assert (decide (g1.inNeighbors.length = g1.outNeighbors.length))
  some g1

/-- The body of the stride loop of `AddNode` after `size` has been computed: the helper call and,
for `offset > 0`, the link from the previous split. -/
def addStride (g : AlignmentGraph) (nodeId : Int) (sequence : List Char) (reverseNode : Bool)
    (offset size : Nat) : Option AlignmentGraph := do
  assert (decide (size > 0))
  let piece ← substr sequence offset size
  let g1 ← AddNodeSplit g nodeId offset piece reverseNode
  if offset > 0 then
    let n := g1.outNeighbors.length
    assert (decide (n ≥ 2))
    assert (decide (n = g1.inNeighbors.length))
    assert (decide (g1.nodeIDs.length = n))
    assert (decide (g1.nodeOffset.length = n))
    let idPrev ← g1.nodeIDs[n - 2]?
    let idLast ← g1.nodeIDs[n - 1]?
    assert (decide (idPrev = idLast))
    let offPrev ← g1.nodeOffset[n - 2]?
    let lenPrev ← g1.nodeLength[n - 2]?
    let offLast ← g1.nodeOffset[n - 1]?
    assert (decide ((offPrev + lenPrev) % 2 ^ 64 = offLast))
    let outs ← pushBackAt g1.outNeighbors (n - 2) (n - 1)
    let ins ← pushBackAt g1.inNeighbors (g1.inNeighbors.length - 1) (g1.inNeighbors.length - 2)
    some { g1 with outNeighbors := outs, inNeighbors := ins }
  else
    some g1

/-- The loop `for (size_t offset = breakpoints[breakpoint-1]; offset < breakpoints[breakpoint];
offset += SPLIT_NODE_SIZE)`. `fuel` bounds the number of iterations; `bpEnd - offset` is always
enough because every iteration advances `offset`. -/
def strideLoop (nodeId : Int) (sequence : List Char) (reverseNode : Bool) (bpEnd : Nat) :
    Nat → Nat → AlignmentGraph → Option AlignmentGraph
  | 0, offset, g => if offset < bpEnd then none else some g
  | fuel + 1, offset, g =>
    if offset < bpEnd then do
      let size := if bpEnd - offset < SPLIT_NODE_SIZE then bpEnd - offset else SPLIT_NODE_SIZE
      let g1 ← addStride g nodeId sequence reverseNode offset size
      strideLoop nodeId sequence reverseNode bpEnd fuel (offset + SPLIT_NODE_SIZE) g1
    else some g

/-- The loop `for (size_t breakpoint = 1; breakpoint < breakpoints.size(); breakpoint++)`, over
the remaining breakpoints, the first of which is `breakpoints[breakpoint-1]`. -/
def breakpointLoop (nodeId : Int) (sequence : List Char) (reverseNode : Bool) :
    List Nat → AlignmentGraph → Option AlignmentGraph
  | [], g => some g
  | [_], g => some g
  | bpPrev :: bpCur :: rest, g =>
    if bpCur = bpPrev then breakpointLoop nodeId sequence reverseNode (bpCur :: rest) g
    else do
      assert (decide (bpCur > bpPrev))
      let g1 ← strideLoop nodeId sequence reverseNode bpCur (bpCur - bpPrev) bpPrev g
      breakpointLoop nodeId sequence reverseNode (bpCur :: rest) g1

/-- The overload `AlignmentGraph::AddNode(int nodeId, const std::string& sequence,
const std::string& name, bool reverseNode, const std::vector<size_t>& breakpoints)`. -/
def AddNode (g : AlignmentGraph) (nodeId : Int) (sequence : List Char) (name : String)
    (reverseNode : Bool) (breakpoints : List Nat) : Option AlignmentGraph := do
  assert (decide (g.firstAmbiguous = SIZE_MAX))
  assert (!g.finalized)
  if (g.nodeLookup.lookup nodeId).isSome then some g
  else do
    let g1 : AlignmentGraph :=
      { g with
        originalNodeSize := mapAssign g.originalNodeSize nodeId sequence.length
        originalNodeName := mapAssign g.originalNodeName nodeId name }
    assert (decide (breakpoints.length ≥ 2))
    assert (decide (breakpoints[0]? = some 0))
    assert (decide (breakpoints.getLast? = some sequence.length))
    breakpointLoop nodeId sequence reverseNode breakpoints g1

/-- The scan `for (auto node : nodeLookup[node_id_to]) if (nodeOffset[node] == startOffset)
to = node;`, started with `to = size_t max`. -/
def findTo (nodeOffset : List Nat) (startOffset : Nat) : List Nat → Nat → Option Nat
  | [], dst => some dst
  | node :: rest, dst => do
    let off ← nodeOffset[node]?
    findTo nodeOffset startOffset rest (if off = startOffset then node else dst)

/-- The method `AlignmentGraph::AddEdgeNodeId(int node_id_from, int node_id_to,
size_t startOffset)`. -/
def AddEdgeNodeId (g : AlignmentGraph) (node_id_from node_id_to : Int) (startOffset : Nat) :
    Option AlignmentGraph := do
  assert (decide (g.firstAmbiguous = SIZE_MAX))
  assert (!g.finalized)
  assert (g.nodeLookup.lookup node_id_from).isSome
  assert (g.nodeLookup.lookup node_id_to).isSome
  let fromSplits ← g.nodeLookup.lookup node_id_from
  let src ← fromSplits.getLast?
  let offFrom ← g.nodeOffset[src]?
  let lenFrom ← g.nodeLength[src]?
  let (sizeFrom, sizes) := mapIndex g.originalNodeSize node_id_from
  assert (decide ((offFrom + lenFrom) % 2 ^ 64 = sizeFrom))
  let toSplits ← g.nodeLookup.lookup node_id_to
  let dst ← findTo g.nodeOffset startOffset toSplits SIZE_MAX
  assert (decide (dst ≠ SIZE_MAX))
  let insTo ← g.inNeighbors[dst]?
  let ins := if src ∈ insTo then g.inNeighbors else g.inNeighbors.set dst (insTo ++ [src])
  let outsFrom ← g.outNeighbors[src]?
  let outs := if dst ∈ outsFrom then g.outNeighbors else g.outNeighbors.set src (outsFrom ++ [dst])
  some { g with originalNodeSize := sizes, inNeighbors := ins, outNeighbors := outs }

end AlignmentGraph

/-! ## Renumbering: `renumber`, `reorder`, `RenumberAmbiguousToEnd` -/

/-- The free function `renumber(vec, renumbering)`: every entry mapped through `renumbering`,
with `assert(vec[i] < renumbering.size())`. -/
def renumber : List Nat → List Nat → Option (List Nat)
  | [], _ => some []
  | x :: rest, renumbering => do
    let y ← renumbering[x]?
    let ys ← renumber rest renumbering
    pure (y :: ys)

/-- The loop `result[renumbering[i]] = vec[i]` of `reorder`, over the remaining entries. -/
def reorderLoop {T : Type} : List T → List Nat → List T → Option (List T)
  | [], _, result => some result
  | _ :: _, [], _ => none
  | x :: xs, r :: rs, result => do
    let result1 ← setAt result r x
    reorderLoop xs rs result1

/-- The free function template `reorder(vec, renumbering)`: the entry at `i` moves to
`renumbering[i]` in a vector of the same size. -/
def reorder {T : Type} [Inhabited T] (vec : List T) (renumbering : List Nat) : Option (List T) := do
  assert (decide (vec.length = renumbering.length))
  reorderLoop vec renumbering (List.replicate vec.length default)

/-- The locals `renumbering`, `nonAmbiguousCount` and `ambiguousCount` of
`RenumberAmbiguousToEnd`. -/
structure RenumberState where
  renumbering : List Nat
  nonAmbiguousCount : Nat
  ambiguousCount : Nat
deriving DecidableEq, Repr

/-- The loop `for (size_t i = 0; i < ambiguousNodes.size(); i++)` that builds `renumbering`;
`total` is `ambiguousNodes.size()`. -/
def renumberingLoop (total : Nat) : List Bool → RenumberState → Option RenumberState
  | [], st => some st
  | false :: rest, st =>
    renumberingLoop total rest
      { st with renumbering := st.renumbering ++ [st.nonAmbiguousCount]
                nonAmbiguousCount := st.nonAmbiguousCount + 1 }
  | true :: rest, st => do
    assert (decide (st.ambiguousCount < total))
    assert (decide (total - 1 - st.ambiguousCount ≥ st.nonAmbiguousCount))
    renumberingLoop total rest
      { st with renumbering := st.renumbering ++ [total - 1 - st.ambiguousCount]
                ambiguousCount := st.ambiguousCount + 1 }

/-- The loop `for (auto& pair : nodeLookup) pair.second = renumber(pair.second, renumbering)`. -/
def renumberLookup : List (Int × List Nat) → List Nat → Option (List (Int × List Nat))
  | [], _ => some []
  | (k, l) :: rest, renumbering => do
    let l1 ← renumber l renumbering
    let rest1 ← renumberLookup rest renumbering
    pure ((k, l1) :: rest1)

/-- The loop `for i: neighbors[i] = renumber(neighbors[i], renumbering)` over one of the two
neighbour tables. -/
def renumberAll : List (List Nat) → List Nat → Option (List (List Nat))
  | [], _ => some []
  | l :: rest, renumbering => do
    let l1 ← renumber l renumbering
    let rest1 ← renumberAll rest renumbering
    pure (l1 :: rest1)

/-- The check `for (auto neighbor : from[i]) assert(std::find(to[neighbor]...) != end)` for one
vertex `i` of the debug block. -/
def checkMirror (other : List (List Nat)) (i : Nat) : List Nat → Option Unit
  | [] => some ()
  | neighbor :: rest => do
    let l ← other[neighbor]?
    assert (decide (i ∈ l))
    checkMirror other i rest

/-- The debug loop over `i` that checks both neighbour tables against each other, from vertex
`i` on. -/
def checkNeighbors (allIn allOut : List (List Nat)) : List (List Nat) → List (List Nat) → Nat →
    Option Unit
  | insI :: insRest, outsI :: outsRest, i => do
    checkMirror allOut i insI
    checkMirror allIn i outsI
    checkNeighbors allIn allOut insRest outsRest (i + 1)
  | [], _, _ => some ()
  | _ :: _, [], _ => none

/-- The locals `foundSize`, `offsets` and `lastOffset` of the debug loop over one `nodeLookup`
entry. -/
structure LookupCheck where
  foundSize : Nat
  offsets : List Nat
  lastOffset : Nat
deriving DecidableEq, Repr

/-- The debug loop `for (auto node : pair.second)` of `RenumberAmbiguousToEnd`. -/
def checkSplits (nodeOffset nodeLength : List Nat) (nodeIDs : List Int) (key : Int) :
    List Nat → LookupCheck → Option LookupCheck
  | [], st => some st
  | node :: rest, st => do
    let off ← nodeOffset[node]?
    assert (decide (off ∉ st.offsets))
    assert (decide (st.offsets.length = 0 ∨ off > st.lastOffset))
    let nid ← nodeIDs[node]?
    assert (decide (nid = key))
    let len ← nodeLength[node]?
    checkSplits nodeOffset nodeLength nodeIDs key rest
      { foundSize := (st.foundSize + len) % 2 ^ 64
        offsets := if off ∈ st.offsets then st.offsets else st.offsets ++ [off]
        lastOffset := off }

/-- The debug loop `for (auto pair : nodeLookup)` of `RenumberAmbiguousToEnd`; the result is
`originalNodeSize`, which `originalNodeSize[pair.first]` may have extended. -/
def checkLookup (nodeOffset nodeLength : List Nat) (nodeIDs : List Int) :
    List (Int × List Nat) → List (Int × Nat) → Option (List (Int × Nat))
  | [], sizes => some sizes
  | (key, splits) :: rest, sizes => do
    let st ← checkSplits nodeOffset nodeLength nodeIDs key splits ⟨0, [], 0⟩
    let (size, sizes1) := mapIndex sizes key
    assert (decide (st.foundSize = size))
    checkLookup nodeOffset nodeLength nodeIDs rest sizes1

namespace AlignmentGraph

/-- The method `AlignmentGraph::RenumberAmbiguousToEnd()`. -/
def RenumberAmbiguousToEnd (g : AlignmentGraph) : Option AlignmentGraph := do
  assert (decide (g.nodeSequences.length + g.ambiguousNodeSequences.length = g.nodeLength.length))
  assert (decide (g.inNeighbors.length = g.nodeLength.length))
  assert (decide (g.outNeighbors.length = g.nodeLength.length))
  assert (decide (g.reverse.length = g.nodeLength.length))
  assert (decide (g.nodeIDs.length = g.nodeLength.length))
  assert (decide (g.ambiguousNodes.length = g.nodeLength.length))
  assert (decide (g.firstAmbiguous = SIZE_MAX))
  assert (!g.finalized)
  let st ← renumberingLoop g.ambiguousNodes.length g.ambiguousNodes ⟨[], 0, 0⟩
  assert (decide (st.renumbering.length = g.ambiguousNodes.length))
  assert (decide (st.nonAmbiguousCount + st.ambiguousCount = g.ambiguousNodes.length))
  assert (decide (st.ambiguousCount = g.ambiguousNodeSequences.length))
  assert (decide (st.nonAmbiguousCount = g.nodeSequences.length))
  let g1 : AlignmentGraph := { g with firstAmbiguous := st.nonAmbiguousCount }
  if st.ambiguousCount = 0 then some g1
  else do
    let nodeLength1 ← reorder g1.nodeLength st.renumbering
    let nodeOffset1 ← reorder g1.nodeOffset st.renumbering
    let nodeIDs1 ← reorder g1.nodeIDs st.renumbering
    let inNeighbors1 ← reorder g1.inNeighbors st.renumbering
    let outNeighbors1 ← reorder g1.outNeighbors st.renumbering
    let reverse1 ← reorder g1.reverse st.renumbering
    let nodeLookup1 ← renumberLookup g1.nodeLookup st.renumbering
    assert (decide (inNeighbors1.length = outNeighbors1.length))
    let inNeighbors2 ← renumberAll inNeighbors1 st.renumbering
    let outNeighbors2 ← renumberAll outNeighbors1 st.renumbering
    assert (decide (inNeighbors2.length = outNeighbors2.length))
    checkNeighbors inNeighbors2 outNeighbors2 inNeighbors2 outNeighbors2 0
    let sizes ← checkLookup nodeOffset1 nodeLength1 nodeIDs1 nodeLookup1 g1.originalNodeSize
    some { g1 with
      ambiguousNodeSequences := g1.ambiguousNodeSequences.reverse
      nodeLength := nodeLength1
      nodeOffset := nodeOffset1
      nodeIDs := nodeIDs1
      inNeighbors := inNeighbors2
      outNeighbors := outNeighbors2
      reverse := reverse1
      nodeLookup := nodeLookup1
      originalNodeSize := sizes }

end AlignmentGraph

/-! ## `findLinearizable` -/

/-- The member `linearizable` and the locals `checked`, `stack`, `onStack` of
`findLinearizable`. The top of `stack` (`stack.back()`) is the last element. -/
structure LinearState where
  linearizable : List Bool
  checked : List Bool
  stack : List Nat
  onStack : List Bool
deriving DecidableEq, Repr

/-- The three assignments `checked[x] = true; linearizable[x] = lin; onStack[x] = false`. -/
def markVertex (st : LinearState) (x : Nat) (lin : Bool) : Option LinearState := do
  let checked1 ← setAt st.checked x true
  let linearizable1 ← setAt st.linearizable x lin
  let onStack1 ← setAt st.onStack x false
  pure { st with checked := checked1, linearizable := linearizable1, onStack := onStack1 }

/-- The loops `for (size_t i = ...; i < bound; i++)` that mark `stack[i]`: `count` iterations
remain, starting at `i`. With `withAssert` the body starts with
`assert(inNeighbors[stack[i]].size() == 1)`. -/
def markLoop (inNeighbors : List (List Nat)) (withAssert lin : Bool) :
    Nat → Nat → LinearState → Option LinearState
  | 0, _, st => some st
  | count + 1, i, st => do
    let x ← st.stack[i]?
    if withAssert then
      let ins ← inNeighbors[x]?
      assert (decide (ins.length = 1))
    let st1 ← markVertex st x lin
    markLoop inNeighbors withAssert lin count (i + 1) st1

/-- The loop `for (; i > 0; i--) { if (stack[i] == neighbor) break; ... }` of the on-stack branch,
entered with `i = stack.size()`; the result is the state and the final `i`. -/
def unwindLoop (neighbor : Nat) : Nat → LinearState → Option (LinearState × Nat)
  | 0, st => some (st, 0)
  | i + 1, st => do
    let x ← st.stack[i + 1]?
    if x = neighbor then some (st, i + 1)
    else do
      let st1 ← markVertex st x false
      unwindLoop neighbor i st1

/-- The common tail of the first two branches of the `while (true)` loop: the stack below its
top becomes linearizable, the top does not, the stack is cleared. -/
def closeChain (inNeighbors : List (List Nat)) (st : LinearState) : Option LinearState := do
  let st1 ← markLoop inNeighbors true true (st.stack.length - 1) 0 st
  let top ← st1.stack.getLast?
  let linearizable1 ← setAt st1.linearizable top false
  let checked1 ← setAt st1.checked top true
  let onStack1 ← setAt st1.onStack top false
  pure { linearizable := linearizable1, checked := checked1, stack := [], onStack := onStack1 }

/-- The loop `while (true)` of `findLinearizable` for the start vertex `node`. Every iteration
that does not leave the loop pushes one vertex and the loop asserts
`stack.size() <= nodeLength.size()`, so `nodeLength.size() + 1` iterations of `fuel` are never
used up. -/
def walkLoop (inNeighbors : List (List Nat)) (total node : Nat) :
    Nat → LinearState → Option LinearState
  | 0, _ => none
  | fuel + 1, st => do
    assert (decide (st.stack.length ≤ total))
    let top ← st.stack.getLast?
    let insTop ← inNeighbors[top]?
    if insTop.length ≠ 1 then closeChain inNeighbors st
    else do
      let checkedTop ← st.checked[top]?
      if checkedTop then closeChain inNeighbors st
      else do
        let neighbor ← insTop[0]?
        if neighbor = node then do
          let st1 ← markLoop inNeighbors false false st.stack.length 0 st
          pure { st1 with stack := [] }
        else do
          let onStackNeighbor ← st.onStack[neighbor]?
          if onStackNeighbor then do
            assert (decide (neighbor ≠ node))
            let (st1, i) ← unwindLoop neighbor st.stack.length st
            let st2 ← markLoop inNeighbors false true i 0 st1
            pure { st2 with stack := [] }
          else do
            let onStack1 ← setAt st.onStack neighbor true
            walkLoop inNeighbors total node fuel
              { st with stack := st.stack ++ [neighbor], onStack := onStack1 }

/-- One iteration of the loop `for (size_t node = 0; node < nodeLength.size(); node++)`. -/
def linearizableStep (inNeighbors : List (List Nat)) (total : Nat) (st : LinearState)
    (node : Nat) : Option LinearState := do
  let checkedNode ← st.checked[node]?
  if checkedNode then some st
  else do
    let ins ← inNeighbors[node]?
    let checked1 ← setAt st.checked node true
    if ins.length ≠ 1 then some { st with checked := checked1 }
    else do
      assert (decide (ins.length = 1))
      assert (decide (st.stack.length = 0))
      let onStack1 ← setAt st.onStack node true
      walkLoop inNeighbors total node (total + 1)
        { st with checked := checked1, stack := st.stack ++ [node], onStack := onStack1 }

/-- The loop over `node` of `findLinearizable`, `count` vertices from `node` on. -/
def linearizableLoop (inNeighbors : List (List Nat)) (total : Nat) :
    Nat → Nat → LinearState → Option LinearState
  | 0, _, st => some st
  | count + 1, node, st => do
    let st1 ← linearizableStep inNeighbors total st node
    linearizableLoop inNeighbors total count (node + 1) st1

namespace AlignmentGraph

/-- The method `AlignmentGraph::findLinearizable()`; only the member `linearizable` changes. -/
def findLinearizable (g : AlignmentGraph) : Option AlignmentGraph := do
  let total := g.nodeLength.length
  let st ← linearizableLoop g.inNeighbors total total 0
    { linearizable := resize g.linearizable total false
      checked := resize [] total false
      stack := []
      onStack := resize [] total false }
  pure { g with linearizable := st.linearizable }

end AlignmentGraph

/-! ## `doComponentOrder` -/

/-- The member `componentNumber` and the locals of `doComponentOrder`. The vectors `callStack`
and `stack` are kept with their `back()` at the head of the list; a call-stack entry is the
tuple `(v, state, neighborI)`. -/
structure ComponentState where
  callStack : List (Nat × Nat × Nat)
  i : Nat
  index : List Nat
  lowlink : List Nat
  onStack : List Bool
  stack : List Nat
  checknode : Nat
  nextComponent : Nat
  componentNumber : List Nat
deriving DecidableEq, Repr

/-- The loop `do { w = stack.back(); stack.pop_back(); onStack[w] = false;
componentNumber[w] = nextComponent; } while (w != v);`; the first argument is `stack`. -/
def popLoop (v nextComponent : Nat) :
    List Nat → List Bool → List Nat → Option (List Nat × List Bool × List Nat)
  | [], _, _ => none
  | w :: rest, onStack, componentNumber => do
    let onStack1 ← setAt onStack w false
    let componentNumber1 ← setAt componentNumber w nextComponent
    if w ≠ v then popLoop v nextComponent rest onStack1 componentNumber1
    else some (rest, onStack1, componentNumber1)

/-- The code at the label `endloop:` (`case 3`). -/
def endLoop (v : Nat) (st : ComponentState) : Option ComponentState := do
  let low ← st.lowlink[v]?
  let idx ← st.index[v]?
  if low = idx then do
    let (stack1, onStack1, componentNumber1) ←
      popLoop v st.nextComponent st.stack st.onStack st.componentNumber
    pure { st with stack := stack1, onStack := onStack1, componentNumber := componentNumber1
                   nextComponent := st.nextComponent + 1 }
  else some st

/-- The code at the label `startloop:` (`case 1`), which jumps back to itself for every
out-neighbour that is already indexed, leaves the `switch` through `continue` after pushing two
call-stack entries for one that is not, and reaches `endloop` after the last one. `fuel` bounds
the jumps; `outNeighbors[v].size() + 1 - neighborI` is enough. -/
def startLoop (outNeighbors : List (List Nat)) (v : Nat) :
    Nat → Nat → ComponentState → Option ComponentState
  | 0, _, _ => none
  | fuel + 1, neighborI, st => do
    let outs ← outNeighbors[v]?
    if neighborI ≥ outs.length then endLoop v st
    else do
      assert (decide (neighborI < outs.length))
      let w ← outs[neighborI]?
      let idxW ← st.index[w]?
      if idxW = SIZE_MAX then do
        let lowW ← st.lowlink[w]?
        assert (decide (lowW = SIZE_MAX))
        let onW ← st.onStack[w]?
        assert (!onW)
        some { st with callStack := (w, 0, 0) :: (v, 2, neighborI) :: st.callStack }
      else do
        let onW ← st.onStack[w]?
        if onW then do
          let lowV ← st.lowlink[v]?
          let lowlink1 ← setAt st.lowlink v (min lowV idxW)
          startLoop outNeighbors v fuel (neighborI + 1) { st with lowlink := lowlink1 }
        else startLoop outNeighbors v fuel (neighborI + 1) st

/-- The jump into `startloop` with the cursor `neighborI`. -/
def enterLoop (outNeighbors : List (List Nat)) (v neighborI : Nat) (st : ComponentState) :
    Option ComponentState :=
  startLoop outNeighbors v ((outNeighbors.getD v []).length + 1 - neighborI) neighborI st

/-- The `switch (state)` on the entry `(v, state, neighborI)` that has just been popped. -/
def switchState (outNeighbors : List (List Nat)) (v state neighborI : Nat)
    (st : ComponentState) : Option ComponentState :=
  if state = 0 then do
    let idx ← st.index[v]?
    assert (decide (idx = SIZE_MAX))
    let low ← st.lowlink[v]?
    assert (decide (low = SIZE_MAX))
    let onV ← st.onStack[v]?
    assert (!onV)
    let index1 ← setAt st.index v st.i
    let lowlink1 ← setAt st.lowlink v st.i
    let onStack1 ← setAt st.onStack v true
    enterLoop outNeighbors v neighborI
      { st with index := index1, lowlink := lowlink1, i := st.i + 1, stack := v :: st.stack
                onStack := onStack1 }
  else if state = 1 then enterLoop outNeighbors v neighborI st
  else if state = 2 then do
    let outs ← outNeighbors[v]?
    assert (decide (neighborI < outs.length))
    let w ← outs[neighborI]?
    let idxW ← st.index[w]?
    assert (decide (idxW ≠ SIZE_MAX))
    let lowW ← st.lowlink[w]?
    assert (decide (lowW ≠ SIZE_MAX))
    let lowV ← st.lowlink[v]?
    let lowlink1 ← setAt st.lowlink v (min lowV lowW)
    enterLoop outNeighbors v (neighborI + 1) { st with lowlink := lowlink1 }
  else if state = 3 then endLoop v st
  else some st

/-- The loop `while (checknode < nodeLength.size() && index[checknode] != max) checknode++`;
the result is the final `checknode`. -/
def scanLoop (index : List Nat) (total : Nat) : Nat → Nat → Option Nat
  | 0, checknode => if checknode < total then none else some checknode
  | fuel + 1, checknode =>
    if checknode < total then do
      let idx ← index[checknode]?
      if idx ≠ SIZE_MAX then scanLoop index total fuel (checknode + 1) else some checknode
    else some checknode

/-- The loop `while (true)` of `doComponentOrder`; it is left through `break` when the call
stack is empty and no vertex is left without an index. Every iteration handles one call-stack
entry. -/
def componentLoop (outNeighbors : List (List Nat)) (total : Nat) :
    Nat → ComponentState → Option ComponentState
  | 0, _ => none
  | fuel + 1, st =>
    match st.callStack with
    | [] => do
      let checknode1 ← scanLoop st.index total (total - st.checknode) st.checknode
      if checknode1 = total then some { st with checknode := checknode1 }
      else do
        let st1 ← switchState outNeighbors checknode1 0 0
          { st with checknode := checknode1 + 1, callStack := [] }
        componentLoop outNeighbors total fuel st1
    | (v, state, neighborI) :: rest => do
      let st1 ← switchState outNeighbors v state neighborI { st with callStack := rest }
      componentLoop outNeighbors total fuel st1

/-- The final loop `componentNumber[i] = nextComponent-1-componentNumber[i]` with its two
assertions; `last` is the `size_t` value `nextComponent-1`. -/
def flipLoop (last : Nat) : List Nat → Option (List Nat)
  | [] => some []
  | c :: rest => do
    assert (decide (c ≠ SIZE_MAX))
    assert (decide (c ≤ last))
    let rest1 ← flipLoop last rest
    pure ((last - c) :: rest1)

/-- The state of `doComponentOrder` before its `while (true)` loop. -/
def componentInit (total : Nat) (componentNumber : List Nat) : ComponentState :=
  { callStack := []
    i := 0
    index := resize [] total SIZE_MAX
    lowlink := resize [] total SIZE_MAX
    onStack := resize [] total false
    stack := []
    checknode := 0
    nextComponent := 0
    componentNumber := resize componentNumber total SIZE_MAX }

/-- The computation of `doComponentOrder` on the out-neighbour table alone: the new
`componentNumber`. The main loop handles every vertex once with state 0 and at most once more
per vertex with state 2, so `2 * total + 1` iterations are enough. -/
def componentOrder (outNeighbors : List (List Nat)) (total : Nat) (componentNumber : List Nat) :
    Option (List Nat) := do
  let st ← componentLoop outNeighbors total (2 * total + 1) (componentInit total componentNumber)
  assert (decide (st.stack.length = 0))
  flipLoop ((st.nextComponent + 2 ^ 64 - 1) % 2 ^ 64) st.componentNumber

/-- The final debug loop of `Finalize` over one `nodeLookup` entry:
`assert(nodeOffset[second[i-1]] < nodeOffset[second[i]])` for `i ≥ 1`. -/
def checkIncreasing (nodeOffset : List Nat) : List Nat → Option Unit
  | [] => some ()
  | [_] => some ()
  | a :: b :: rest => do
    let offA ← nodeOffset[a]?
    let offB ← nodeOffset[b]?
    assert (decide (offA < offB))
    checkIncreasing nodeOffset (b :: rest)

/-- The final debug loop `for (auto pair : nodeLookup)` of `Finalize`. -/
def checkAllIncreasing (nodeOffset : List Nat) : List (Int × List Nat) → Option Unit
  | [] => some ()
  | (_, splits) :: rest => do
    checkIncreasing nodeOffset splits
    checkAllIncreasing nodeOffset rest

namespace AlignmentGraph

/-- The method `AlignmentGraph::doComponentOrder()`; only the member `componentNumber`
changes. -/
def doComponentOrder (g : AlignmentGraph) : Option AlignmentGraph := do
  let componentNumber1 ← componentOrder g.outNeighbors g.nodeLength.length g.componentNumber
  pure { g with componentNumber := componentNumber1 }

/-- The sequence of size assertions at the start of `Finalize`. -/
def sizesAgree (g : AlignmentGraph) : Bool :=
  decide (g.nodeSequences.length + g.ambiguousNodeSequences.length = g.nodeLength.length) &&
  decide (g.inNeighbors.length = g.nodeLength.length) &&
  decide (g.outNeighbors.length = g.nodeLength.length) &&
  decide (g.reverse.length = g.nodeLength.length) &&
  decide (g.nodeIDs.length = g.nodeLength.length)

/-- The method `AlignmentGraph::Finalize(int wordSize, bool doComponents)`. The statistics
written to `std::cout` and the `shrink_to_fit` calls do not change the tables. -/
def Finalize (g : AlignmentGraph) (wordSize : Int) (doComponents : Bool) :
    Option AlignmentGraph := do
  let _ := wordSize
  assert (sizesAgree g)
  let g1 ← RenumberAmbiguousToEnd g
  let g2 : AlignmentGraph := { g1 with ambiguousNodes := [] }
  let g3 ← findLinearizable g2
  let g4 : AlignmentGraph := { g3 with finalized := true }
  assert (sizesAgree g4)
  assert (decide (g4.nodeOffset.length = g4.nodeLength.length))
  let g5 ← if doComponents then doComponentOrder g4 else some g4
  checkAllIncreasing g5.nodeOffset g5.nodeLookup
  some g5

/-- The method `AlignmentGraph::NodeLength(size_t index)`. -/
def NodeLength (g : AlignmentGraph) (index : Nat) : Option Nat := g.nodeLength[index]?

/-- The chain of `if (...) return` statements that turns the four mask bits of an ambiguous
position into an IUPAC letter; with no bit set the `assert(false)` is reached. -/
def decodeAmbiguous (A C G T : Bool) : Option Char :=
  if A && !C && !G && !T then some 'A'
  else if !A && C && !G && !T then some 'C'
  else if !A && !C && G && !T then some 'G'
  else if !A && !C && !G && T then some 'T'
  else if A && !C && G && !T then some 'R'
  else if !A && C && !G && T then some 'Y'
  else if !A && C && G && !T then some 'S'
  else if A && !C && !G && T then some 'W'
  else if !A && !C && G && T then some 'K'
  else if A && C && !G && !T then some 'M'
  else if !A && C && G && T then some 'B'
  else if A && !C && G && T then some 'D'
  else if A && C && !G && T then some 'H'
  else if A && C && G && !T then some 'V'
  else if A && C && G && T then some 'N'
  else none

/-- The expression `(mask >> pos) & 1` converted to `bool`. -/
def maskBit (mask pos : Nat) : Bool := decide ((mask >>> pos) &&& 1 ≠ 0)

/-- The method `AlignmentGraph::NodeSequences(size_t node, size_t pos)`. -/
def NodeSequences (g : AlignmentGraph) (node pos : Nat) : Option Char := do
  let len ← g.nodeLength[node]?
  assert (decide (pos < len))
  if node < g.firstAmbiguous then do
    assert (decide (node < g.nodeSequences.length))
    let chunk := pos / BP_IN_CHUNK
    let offset := (pos % BP_IN_CHUNK) * 2
    let chunks ← g.nodeSequences[node]?
    let word ← chunks[chunk]?
    ['A', 'C', 'G', 'T'][(word >>> offset) &&& 3]?
  else do
    assert (decide (node ≥ g.firstAmbiguous))
    assert (decide (node - g.firstAmbiguous < g.ambiguousNodeSequences.length))
    assert (decide (pos < 64))
    let masks ← g.ambiguousNodeSequences[node - g.firstAmbiguous]?
    let A := maskBit masks.A pos
    let C := maskBit masks.C pos
    let G := maskBit masks.G pos
    let T := maskBit masks.T pos
    assert (decide (A.toNat + C.toNat + G.toNat + T.toNat ≥ 1))
    assert (decide (A.toNat + C.toNat + G.toNat + T.toNat ≤ 4))
    decodeAmbiguous A C G T

/-- The loop `while (index < nodes.size()-1 && (nodeOffset[nodes[index]] +
NodeLength(nodes[index]) <= offset)) index++` of `GetUnitigNode`; `nodes` is not empty, and
`nodes.size()` steps of `fuel` are never used up. -/
def scanForward (g : AlignmentGraph) (nodes : List Nat) (offset : Nat) : Nat → Nat → Option Nat
  | 0, _ => none
  | fuel + 1, index =>
    if index < nodes.length - 1 then do
      let node ← nodes[index]?
      let off ← g.nodeOffset[node]?
      let len ← g.NodeLength node
      if (off + len) % 2 ^ 64 ≤ offset then scanForward g nodes offset fuel (index + 1)
      else some index
    else some index

/-- The loop `while (index > 0 && (nodeOffset[nodes[index]] > offset)) index--` of
`GetUnitigNode`. -/
def scanBackward (g : AlignmentGraph) (nodes : List Nat) (offset : Nat) : Nat → Option Nat
  | 0 => some 0
  | index + 1 => do
    let node ← nodes[index + 1]?
    let off ← g.nodeOffset[node]?
    if off > offset then scanBackward g nodes offset index else some (index + 1)

/-- The method `AlignmentGraph::GetUnitigNode(int nodeId, size_t offset)`. The initial guess
`nodes.size() * ((double)offset / (double)originalNodeSize.at(nodeId))` is floating-point
arithmetic; its value converted to `size_t` is the argument `guess`. -/
def GetUnitigNode (g : AlignmentGraph) (nodeId : Int) (offset : Nat) (guess : Nat) :
    Option Nat := do
  let nodes ← g.nodeLookup.lookup nodeId
  assert (decide (nodes.length > 0))
  let _ ← g.originalNodeSize.lookup nodeId
  let index0 := if guess ≥ nodes.length then nodes.length - 1 else guess
  let index1 ← scanForward g nodes offset nodes.length index0
  let index2 ← scanBackward g nodes offset index1
  assert (decide (index2 ≠ nodes.length))
  let result ← nodes[index2]?
  let off ← g.nodeOffset[result]?
  assert (decide (off ≤ offset))
  let len ← g.NodeLength result
  assert (decide ((off + len) % 2 ^ 64 > offset))
  some result

/-- The method `AlignmentGraph::GetReversePosition(int nodeId, size_t offset)`. The operators
`%` and `/` on `int` round toward zero (`Int.tmod`, `Int.tdiv`). -/
def GetReversePosition (g : AlignmentGraph) (nodeId : Int) (offset : Nat) :
    Option (Int × Nat) := do
  assert (g.nodeLookup.lookup nodeId).isSome
  let _ ← g.nodeLookup.lookup nodeId
  let originalSize ← g.originalNodeSize.lookup nodeId
  assert (decide (offset < originalSize))
  let newOffset := originalSize - offset - 1
  assert (decide (newOffset < originalSize))
  let reverseNodeId :=
    if Int.tmod nodeId 2 = 0 then (Int.tdiv nodeId 2) * 2 + 1 else (Int.tdiv nodeId 2) * 2
  pure (reverseNodeId, newOffset)

end AlignmentGraph

/-! ## Building a graph -/

/-- One call of the builder interface. -/
inductive BuildCall where
  | addNode (nodeId : Int) (sequence : List Char) (name : String) (reverseNode : Bool)
      (breakpoints : List Nat)
  | addEdge (node_id_from node_id_to : Int) (startOffset : Nat)
deriving DecidableEq, Repr

/-- The effect of one builder call. -/
def BuildCall.run (g : AlignmentGraph) : BuildCall → Option AlignmentGraph
  | .addNode nodeId sequence name reverseNode breakpoints =>
    g.AddNode nodeId sequence name reverseNode breakpoints
  | .addEdge a b startOffset => g.AddEdgeNodeId a b startOffset

/-- The effect of a sequence of builder calls on a graph. -/
def runCalls : List BuildCall → AlignmentGraph → Option AlignmentGraph
  | [], g => some g
  | c :: rest, g => do
    let g1 ← c.run g
    runCalls rest g1

/-- A freshly constructed graph after a sequence of builder calls. -/
def build (calls : List BuildCall) : Option AlignmentGraph :=
  runCalls calls AlignmentGraph.empty

/-- A freshly constructed graph after a sequence of builder calls and `Finalize`. -/
def buildFinal (calls : List BuildCall) (wordSize : Int) (doComponents : Bool) :
    Option AlignmentGraph := do
  let g ← build calls
  g.Finalize wordSize doComponents

/-! ## Traceback: `GraphAlignerVGAlignment.h` -/

/-- The class `MatrixPosition`: a cell `(node, nodeOffset, seqPos)` of the alignment matrix. -/
structure MatrixPosition where
  node : Nat
  nodeOffset : Nat
  seqPos : Nat
deriving DecidableEq, Repr

/-- The message `vg::Position`, with the fields the traceback sets. -/
structure Position where
  node_id : Int
  offset : Nat
  is_reverse : Bool
deriving DecidableEq, Repr

/-- The conversion of an integer value to a 32-bit signed integer (two's complement): what is
stored when a `size_t` or 64-bit value is passed where an `int` or `int32` is expected, as for
the `int` key of `nodeLookup` and the `int32` fields of `vg::Edit`. -/
def toInt32 (x : Int) : Int := (x + 2 ^ 31) % 2 ^ 32 - 2 ^ 31

/-- Modelled from the spec: `vg.pb.h` is not part of the sources. The message `vg::Edit`, the
spec's edit with `fromLength`, `toLength` and the literal `sequence`. The two lengths are the
`int32` fields `from_length` and `to_length` that `vg.proto` declares: they hold an integer in
`[-2^31, 2^31)`, and `set_from_length` and `set_to_length` take an `int32` argument. -/
structure Edit where
  from_length : Int
  to_length : Int
  sequence : List Char
deriving DecidableEq, Repr

/-- The message `vg::Mapping`. -/
structure Mapping where
  position : Position
  rank : Nat
  edit : List Edit
deriving DecidableEq, Repr

/-- The message `vg::Alignment`; `path` is the list of mappings of its `vg::Path`. -/
structure Alignment where
  name : String
  score : Int
  sequence : List Char
  path : List Mapping
deriving DecidableEq, Repr

/-- Modelled from the spec: `GraphAlignerCommon.h` is not part of the sources. The class
`AlignmentResult::AlignmentItem` with the members the traceback reads and writes; its
three-argument constructor leaves `alignmentStart` and `alignmentEnd` at 0. -/
structure AlignmentItem where
  alignment : Alignment
  cellsProcessed : Nat
  elapsedMilliseconds : Nat
  alignmentStart : Nat
  alignmentEnd : Nat
deriving DecidableEq, Repr

/-- The value `std::numeric_limits<decltype(result.score())>::max()` of the 32-bit score. -/
def SCORE_MAX : Int := 2 ^ 31 - 1

/-- The function `emptyAlignment(size_t elapsedMilliseconds, size_t cellsProcessed)`. -/
def emptyAlignment (elapsedMilliseconds cellsProcessed : Nat) : AlignmentItem :=
  { alignment := { name := "", score := SCORE_MAX, sequence := [], path := [] }
    cellsProcessed := cellsProcessed
    elapsedMilliseconds := elapsedMilliseconds
    alignmentStart := 0
    alignmentEnd := 0 }

/-- The locals of `traceToAlignment` inside its loop. `done` holds the mappings of the path
before the one `vgmapping` points to; `position`, `rank` and `edit` are that mapping's position,
rank and only edit. -/
structure TraceState where
  done : List Mapping
  position : Position
  rank : Nat
  edit : Edit
  currentNode : Nat
  currentNodeId : Int
  btNodeStart : MatrixPosition
  btNodeEnd : MatrixPosition
  btBeforeNode : MatrixPosition
deriving DecidableEq, Repr

/-- The value `is_reverse` given to a mapping on split `node`: the split's flag, negated for a
reverse alignment. -/
def strandOf (g : AlignmentGraph) (reverse : Bool) (node : Nat) : Option Bool := do
  let r ← g.reverse[node]?
  pure (if reverse then !r else r)

/-- The statements that close a run of trace positions inside one split: `to_length`, the
literal `sequence` and `from_length` of `*edit` are extended. The argument of `set_to_length` and
`set_from_length` is a `size_t` expression (the `int32` value read from the edit is converted to
`size_t` first) that is narrowed to `int32`; only its residue modulo `2^32` is stored, so the
wrap-around of the `size_t` arithmetic at `2^64` does not show and the expression is evaluated
over the integers before `toInt32`. The assertions on the node offsets are evaluated in
`size_t`, where `nodeOffset + 1` wraps around: inside the loop the forward case asserts
`btNodeEnd.nodeOffset + 1 >= btNodeStart.nodeOffset`, after the loop (`final`)
`btNodeEnd.nodeOffset >= btNodeStart.nodeOffset`. -/
def flushEdit (sequence : List Char) (reverse final : Bool) (st : TraceState) : Option Edit := do
  assert (decide (st.btNodeEnd.seqPos ≥ st.btBeforeNode.seqPos))
  let toLength := toInt32 (st.edit.to_length + st.btNodeEnd.seqPos - st.btBeforeNode.seqPos)
  let literal ←
    if st.btNodeEnd.seqPos ≠ st.btBeforeNode.seqPos then do
      assert (decide (st.btBeforeNode.seqPos < (sequence.length + 2 ^ 64 - 1) % 2 ^ 64))
      let piece ← substr sequence (st.btBeforeNode.seqPos + 1)
        (st.btNodeEnd.seqPos - st.btBeforeNode.seqPos)
      pure (st.edit.sequence ++ piece)
    else some st.edit.sequence
  if reverse then do
    assert (decide ((st.btNodeStart.nodeOffset + 1) % 2 ^ 64 ≥ st.btNodeEnd.nodeOffset))
    pure { from_length := toInt32 (st.edit.from_length + st.btNodeStart.nodeOffset
                            - st.btNodeEnd.nodeOffset + 1)
           to_length := toLength, sequence := literal }
  else do
    if final then assert (decide (st.btNodeEnd.nodeOffset ≥ st.btNodeStart.nodeOffset))
    else assert (decide ((st.btNodeEnd.nodeOffset + 1) % 2 ^ 64 ≥ st.btNodeStart.nodeOffset))
    pure { from_length := toInt32 (st.edit.from_length + st.btNodeEnd.nodeOffset
                            - st.btNodeStart.nodeOffset + 1)
           to_length := toLength, sequence := literal }

/-- The condition under which the loop opens a new mapping when the trace moves from the split
`previousNode` to the split `currentNode`; the three disjuncts are evaluated left to right. -/
def opensMapping (g : AlignmentGraph) (reverse : Bool) (currentNodeId : Int)
    (previousNode currentNode : Nat) : Option Bool := do
  let idCur ← g.nodeIDs[currentNode]?
  if idCur ≠ currentNodeId then some true
  else do
    let revCur ← g.reverse[currentNode]?
    let revPrev ← g.reverse[previousNode]?
    if revCur ≠ revPrev then some true
    else do
      let offCur ← g.nodeOffset[currentNode]?
      let offPrev ← g.nodeOffset[previousNode]?
      pure (decide ((offCur + (if reverse then SPLIT_NODE_SIZE else 0)) % 2 ^ 64 ≠
        (offPrev + (if reverse then 0 else SPLIT_NODE_SIZE)) % 2 ^ 64))

/-- The assertions at the head of the part of the loop body that handles a change of split;
`first` is `trace[0]`, `prev` is `trace[pos-1]` and `cur` is `trace[pos]`. -/
def runAsserts (g : AlignmentGraph) (reverse : Bool) (first prev cur : MatrixPosition)
    (st : TraceState) : Option Unit := do
  if !reverse && st.btNodeStart.seqPos ≠ first.seqPos then
    assert (decide (st.btNodeStart.nodeOffset = 0))
  if !reverse then
    let len ← g.NodeLength st.btNodeEnd.node
    assert (decide (st.btNodeEnd.nodeOffset = (len + 2 ^ 64 - 1) % 2 ^ 64))
  if reverse then
    assert (decide (st.btNodeEnd.nodeOffset = 0))
  if reverse && st.btNodeStart.seqPos ≠ first.seqPos then
    let len ← g.NodeLength st.btNodeEnd.node
    assert (decide (st.btNodeStart.nodeOffset = (len + 2 ^ 64 - 1) % 2 ^ 64))
  assert (decide (cur.seqPos ≥ prev.seqPos))
  assert (decide (st.btNodeEnd.node = st.btNodeStart.node))
  assert (decide (st.btNodeEnd.seqPos ≥ st.btNodeStart.seqPos))
  assert (reverse || decide (st.btNodeEnd.nodeOffset ≥ st.btNodeStart.nodeOffset))
  assert (!reverse || decide (st.btNodeEnd.nodeOffset ≤ st.btNodeStart.nodeOffset))

/-- One iteration of the loop `for (; pos < trace.size(); pos++)` of `traceToAlignment`. -/
def traceStep (g : AlignmentGraph) (sequence : List Char) (reverse : Bool)
    (first prev cur : MatrixPosition) (st : TraceState) : Option TraceState :=
  if cur.node = st.currentNode then some { st with btNodeEnd := cur }
  else do
    runAsserts g reverse first prev cur st
    let edit1 ← flushEdit sequence reverse false st
    let previousNode := st.currentNode
    let currentNode := cur.node
    let opens ← opensMapping g reverse st.currentNodeId previousNode currentNode
    if opens then do
      let idCur ← g.nodeIDs[currentNode]?
      let offCur ← g.nodeOffset[currentNode]?
      let strand ← strandOf g reverse currentNode
      pure { done := st.done ++ [{ position := st.position, rank := st.rank, edit := [edit1] }]
             position := { node_id := idCur, offset := offCur, is_reverse := strand }
             rank := st.rank + 1
             edit := { from_length := 0, to_length := 0, sequence := [] }
             currentNode := currentNode
             currentNodeId := idCur
             btNodeStart := cur
             btNodeEnd := cur
             btBeforeNode := st.btNodeEnd }
    else
      pure { st with edit := edit1, currentNode := currentNode, btNodeStart := cur
                     btNodeEnd := cur, btBeforeNode := st.btNodeEnd }

/-- The loop `for (; pos < trace.size(); pos++)` over the remaining trace positions; `prev` is
`trace[pos-1]` (at `pos = 0`, where the loop body does not read it, `trace[0]`). -/
def traceLoop (g : AlignmentGraph) (sequence : List Char) (reverse : Bool)
    (first : MatrixPosition) : List MatrixPosition → MatrixPosition → TraceState →
    Option TraceState
  | [], _, st => some st
  | cur :: rest, prev, st => do
    let st1 ← traceStep g sequence reverse first prev cur st
    traceLoop g sequence reverse first rest cur st1

/-- The function `traceToAlignment(params, seq_id, sequence, score, trace, cellsProcessed,
reverse)`; `g` is `params.graph`. -/
def traceToAlignment (g : AlignmentGraph) (seq_id : String) (sequence : List Char) (score : Int)
    (trace : List MatrixPosition) (cellsProcessed : Nat) (reverse : Bool) :
    Option AlignmentItem :=
  match trace with
  | [] => some (emptyAlignment 0 cellsProcessed)
  | first :: _ => do
    let currentNode := first.node
    let currentNodeId ← g.nodeIDs[currentNode]?
    let strand ← strandOf g reverse currentNode
    let st ← traceLoop g sequence reverse first trace first
      { done := []
        position := { node_id := currentNodeId, offset := first.nodeOffset, is_reverse := strand }
        rank := 0
        edit := { from_length := 0, to_length := 0, sequence := [] }
        currentNode := currentNode
        currentNodeId := currentNodeId
        btNodeStart := first
        btNodeEnd := first
        btBeforeNode := first }
    let edit1 ← flushEdit sequence reverse true st
    let last ← trace.getLast?
    pure { alignment :=
             { name := seq_id, score := score, sequence := sequence
               path := st.done ++ [{ position := st.position, rank := st.rank, edit := [edit1] }] }
           cellsProcessed := cellsProcessed
           elapsedMilliseconds := SIZE_MAX
           alignmentStart := first.seqPos
           alignmentEnd := last.seqPos }

/-- Modelled from the spec: `GraphAlignerCommon.h` is not part of the sources. The method
`AlignmentItem::alignmentFailed()`: the item is the sentinel, its score is the maximum
representable score. -/
def AlignmentItem.alignmentFailed (item : AlignmentItem) : Bool :=
  decide (item.alignment.score = SCORE_MAX)

/-- The function `posEqual(pos1, pos2)`. -/
def posEqual (pos1 pos2 : Position) : Bool :=
  decide (pos1.node_id = pos2.node_id) && decide (pos1.is_reverse = pos2.is_reverse)

/-- The function `mergeAlignments(params, first, second)`; `g` is `params.graph`. The 64-bit
`node_id()` of a position is narrowed to the `int` key of `nodeLookup`. The sum of the
two 32-bit scores is undefined when it is not representable, the two `size_t` sums wrap around.
The result is built from a default-constructed item, whose `alignmentStart` and `alignmentEnd`
are taken to be 0. -/
def mergeAlignments (g : AlignmentGraph) (first second : AlignmentItem) :
    Option AlignmentItem := do
  assert (!first.alignmentFailed || !second.alignmentFailed)
  if first.alignmentFailed then some second
  else if second.alignmentFailed then some first
  else if first.alignment.path.length = 0 then some second
  else if second.alignment.path.length = 0 then some first
  else do
    assert (!first.alignmentFailed)
    assert (!second.alignmentFailed)
    let cellsProcessed := (first.cellsProcessed + second.cellsProcessed) % 2 ^ 64
    let elapsedMilliseconds := (first.elapsedMilliseconds + second.elapsedMilliseconds) % 2 ^ 64
    let score := first.alignment.score + second.alignment.score
    assert (decide (-(2 ^ 31) ≤ score ∧ score < 2 ^ 31))
    let firstEnd ← first.alignment.path[first.alignment.path.length - 1]?
    let secondStart ← second.alignment.path[0]?
    let firstEndPos := firstEnd.position
    let secondStartPos := secondStart.position
    let firstSplits ← g.nodeLookup.lookup (toInt32 firstEndPos.node_id)
    let firstEndPosNodeId ← firstSplits.getLast?
    let secondSplits ← g.nodeLookup.lookup (toInt32 secondStartPos.node_id)
    let secondStartPosNodeId ← secondSplits[0]?
    let start ←
      if posEqual firstEndPos secondStartPos then some 1
      else do
        let outs ← g.outNeighbors[firstEndPosNodeId]?
        if secondStartPosNodeId ∈ outs then some 0 else some 0
    pure { alignment :=
             { name := first.alignment.name, score := score
               sequence := first.alignment.sequence
               path := first.alignment.path ++ second.alignment.path.drop start }
           cellsProcessed := cellsProcessed
           elapsedMilliseconds := elapsedMilliseconds
           alignmentStart := 0
           alignmentEnd := 0 }

/-! # Verification -/

/-! ## Basic facts about the failure monad -/

@[simp] theorem bind_eq_optionBind {α β : Type} (x : Option α) (f : α → Option β) :
    @bind Option instMonadStep.toBind α β x f = Option.bind x f := by
  cases x <;> rfl

@[simp] theorem pure_eq_some {α : Type} (a : α) :
    @pure Option instMonadStep.toApplicative.toPure α a = some a := rfl

@[simp] theorem assert_eq_some (c : Bool) (u : Unit) : assert c = some u ↔ c = true := by
  cases c <;> simp [assert]

theorem assert_of_true {c : Bool} (h : c = true) : assert c = some () := by
  simp [h]

@[simp] theorem assert_true : assert true = some () := rfl

theorem setAt_eq_some {α : Type} {vec : List α} {i : Nat} {v : α} {r : List α} :
    setAt vec i v = some r ↔ i < vec.length ∧ r = vec.set i v := by
  unfold setAt
  split <;> simp_all [eq_comm]

theorem setAt_of_lt {α : Type} {vec : List α} {i : Nat} (v : α) (h : i < vec.length) :
    setAt vec i v = some (vec.set i v) := by
  simp [setAt, h]

@[simp] theorem resize_nil_length {α : Type} (n : Nat) (v : α) : (resize [] n v).length = n := by
  simp [resize]

theorem resize_nil {α : Type} (n : Nat) (v : α) : resize [] n v = List.replicate n v := by
  simp [resize]

/-! ## `findLinearizable` leaves every flag false -/

/-- No entry of a flag vector is set. -/
def AllFalse (l : List Bool) : Prop := ∀ b ∈ l, b = false

theorem AllFalse.set {l : List Bool} (h : AllFalse l) (i : Nat) : AllFalse (l.set i false) := by
  intro b hb
  rcases List.mem_or_eq_of_mem_set hb with h1 | h1
  · exact h b h1
  · exact h1

theorem allFalse_replicate (n : Nat) : AllFalse (List.replicate n false) := by
  intro b hb
  exact (List.mem_replicate.mp hb).2

/-- The state of `findLinearizable` between two iterations of its outer loop. -/
structure LinearIdle (total : Nat) (st : LinearState) : Prop where
  stack : st.stack = []
  lin : st.linearizable.length = total
  chk : st.checked.length = total
  ons : st.onStack.length = total
  allFalse : AllFalse st.linearizable

theorem linearizableStep_idle {inNeighbors : List (List Nat)} {total node : Nat}
    {st : LinearState} (hin : inNeighbors.length = total) (hnode : node < total)
    (h : LinearIdle total st) :
    ∃ st1, linearizableStep inNeighbors total st node = some st1 ∧ LinearIdle total st1 := by
  obtain ⟨hs, hl, hc, ho, haf⟩ := h
  have hc1 : node < st.checked.length := by omega
  have hin1 : node < inNeighbors.length := by omega
  simp only [linearizableStep, bind_eq_optionBind, pure_eq_some]
  rw [List.getElem?_eq_getElem hc1, List.getElem?_eq_getElem hin1]
  simp only [Option.some_bind]
  by_cases hck : st.checked[node] = true
  · simp only [hck, if_true]
    exact ⟨st, rfl, ⟨hs, hl, hc, ho, haf⟩⟩
  · simp only [hck]
    rw [setAt_of_lt true hc1]
    simp only [Option.some_bind, Bool.false_eq_true, if_false]
    by_cases hdeg : inNeighbors[node].length ≠ 1
    · rw [if_pos hdeg]
      refine ⟨_, rfl, ⟨hs, hl, ?_, ho, haf⟩⟩
      simp [hc]
    · have hdeg1 : inNeighbors[node].length = 1 := by omega
      rw [if_neg hdeg]
      have ho1 : node < st.onStack.length := by omega
      rw [setAt_of_lt true ho1]
      simp only [hdeg1, hs, List.length_nil, decide_True, assert_true, Option.some_bind,
        List.nil_append]
      -- the first iteration of the walk
      simp only [walkLoop, bind_eq_optionBind, pure_eq_some, List.length_singleton]
      have h1 : decide (1 ≤ total) = true := by simp; omega
      simp only [h1, assert_true, Option.some_bind, List.getLast?_singleton]
      rw [List.getElem?_eq_getElem hin1]
      simp only [Option.some_bind]
      rw [if_neg hdeg]
      have h2 : (st.checked.set node true)[node]? = some true := by
        simp [List.getElem?_set, hc1]
      simp only [h2, Option.some_bind, if_true]
      simp only [closeChain, bind_eq_optionBind, pure_eq_some, List.length_singleton,
        Nat.sub_self, markLoop, Option.some_bind, List.getLast?_singleton]
      have hl1 : node < st.linearizable.length := by omega
      rw [setAt_of_lt false hl1]
      have hc2 : node < (st.checked.set node true).length := by simp; omega
      rw [setAt_of_lt true hc2]
      have ho2 : node < (st.onStack.set node true).length := by simp; omega
      rw [setAt_of_lt false ho2]
      simp only [Option.some_bind]
      refine ⟨_, rfl, ⟨rfl, ?_, ?_, ?_, ?_⟩⟩
      · simp [hl]
      · simp [hc]
      · simp [ho]
      · exact haf.set node

theorem linearizableLoop_idle {inNeighbors : List (List Nat)} {total : Nat}
    (hin : inNeighbors.length = total) :
    ∀ (count node : Nat) (st : LinearState), node + count ≤ total → LinearIdle total st →
      ∃ st1, linearizableLoop inNeighbors total count node st = some st1 ∧ LinearIdle total st1
  | 0, _, st, _, h => ⟨st, rfl, h⟩
  | count + 1, node, st, hle, h => by
    obtain ⟨st1, h1, hi1⟩ := linearizableStep_idle hin (by omega : node < total) h
    obtain ⟨st2, h2, hi2⟩ := linearizableLoop_idle hin count (node + 1) st1 (by omega) hi1
    refine ⟨st2, ?_, hi2⟩
    simp only [linearizableLoop, bind_eq_optionBind, h1, Option.some_bind, h2]

/-- On a graph whose in-neighbour table has one entry per vertex and whose `linearizable` member
is still empty, `findLinearizable` returns, changes no other member, and leaves every vertex
not linearizable. -/
theorem findLinearizable_spec {g : AlignmentGraph}
    (hin : g.inNeighbors.length = g.nodeLength.length) (hlin : g.linearizable = []) :
    g.findLinearizable =
      some { g with linearizable := List.replicate g.nodeLength.length false } := by
  have hidle : LinearIdle g.nodeLength.length
      { linearizable := resize g.linearizable g.nodeLength.length false
        checked := resize [] g.nodeLength.length false
        stack := []
        onStack := resize [] g.nodeLength.length false } := by
    refine ⟨rfl, ?_, ?_, ?_, ?_⟩
    · simp [hlin]
    · simp
    · simp
    · simp only [hlin, resize_nil]
      exact allFalse_replicate _
  obtain ⟨st1, h1, hi1⟩ := linearizableLoop_idle hin g.nodeLength.length 0 _ (by omega) hidle
  simp only [AlignmentGraph.findLinearizable, bind_eq_optionBind, h1, Option.some_bind,
    pure_eq_some]
  congr 2
  apply List.ext_getElem
  · simp [hi1.lin]
  · intro n hn1 hn2
    have := hi1.allFalse st1.linearizable[n] (List.getElem_mem _)
    simp [this]

/-! ## Encoding and decoding of split sequences -/

/-- The letter a stored base is read back as: the upper-case letter, with `U` read as `T`. -/
def canonical (c : Char) : Char :=
  if c.toUpper = 'U' then 'T' else c.toUpper

/-- The letters `A`, `C`, `G`, `T`, `U` in either case. -/
def isDefinite (c : Char) : Bool := decide (c.toUpper ∈ ['A', 'C', 'G', 'T', 'U'])

/-- The IUPAC ambiguity codes in either case. -/
def isAmbiguityCode (c : Char) : Bool :=
  decide (c.toUpper ∈ ['R', 'Y', 'S', 'W', 'K', 'M', 'B', 'D', 'H', 'V', 'N'])

/-- The letters that have an arm in the `switch` of the split helper. -/
def switchLetters : List Char :=
  ['a', 'A', 'c', 'C', 'g', 'G', 't', 'T', 'u', 'U', 'r', 'R', 'y', 'Y', 's', 'S', 'w', 'W',
   'k', 'K', 'm', 'M', 'b', 'B', 'd', 'D', 'h', 'H', 'v', 'V', 'n', 'N']

theorem switchArm_mem {c : Char} {arm : SwitchArm} (h : switchArm c = some arm) :
    c ∈ switchLetters := by
  by_contra hc
  simp only [switchLetters, List.mem_cons, List.mem_singleton, List.not_mem_nil, or_false,
    not_or] at hc
  obtain ⟨h1, h2, h3, h4, h5, h6, h7, h8, h9, h10, h11, h12, h13, h14, h15, h16, h17, h18, h19,
    h20, h21, h22, h23, h24, h25, h26, h27, h28, h29, h30, h31, h32⟩ := hc
  simp [switchArm, *] at h

/-- What the arm of a letter must satisfy for the stored masks and codes to read back as the
canonical letter. -/
def armReadsBack (c : Char) : Bool :=
  match switchArm c with
  | none => true
  | some arm =>
    decide (AlignmentGraph.decodeAmbiguous arm.a arm.c arm.g arm.t = some (canonical c)) &&
    (match arm.normal with
     | some code => decide (code < 4) && decide (['A', 'C', 'G', 'T'][code]? = some (canonical c))
        && isDefinite c && !isAmbiguityCode c
     | none => isAmbiguityCode c && !isDefinite c)

theorem armReadsBack_letters : ∀ c ∈ switchLetters, armReadsBack c = true := by
  decide

theorem switchArm_masks {c : Char} {arm : SwitchArm} (h : switchArm c = some arm) :
    AlignmentGraph.decodeAmbiguous arm.a arm.c arm.g arm.t = some (canonical c) := by
  have := armReadsBack_letters c (switchArm_mem h)
  simp only [armReadsBack, h, Bool.and_eq_true, decide_eq_true_eq] at this
  exact this.1

theorem switchArm_code {c : Char} {arm : SwitchArm} {code : Nat} (h : switchArm c = some arm)
    (hn : arm.normal = some code) :
    code < 4 ∧ ['A', 'C', 'G', 'T'][code]? = some (canonical c) ∧ isDefinite c = true := by
  have := armReadsBack_letters c (switchArm_mem h)
  simp only [armReadsBack, h, hn, Bool.and_eq_true, decide_eq_true_eq] at this
  exact ⟨this.2.1.1.1, this.2.1.1.2, this.2.1.2⟩

theorem switchArm_ambiguous {c : Char} {arm : SwitchArm} (h : switchArm c = some arm)
    (hn : arm.normal = none) : isAmbiguityCode c = true ∧ isDefinite c = false := by
  have := armReadsBack_letters c (switchArm_mem h)
  simp only [armReadsBack, h, hn, Bool.and_eq_true, Bool.not_eq_true'] at this
  exact this.2

theorem maskBit_eq_testBit (m p : Nat) : AlignmentGraph.maskBit m p = m.testBit p := by
  unfold AlignmentGraph.maskBit
  rw [Nat.testBit_to_div_mod, Nat.and_one_is_mod, Nat.shiftRight_eq_div_pow]
  have h := Nat.mod_two_eq_zero_or_one (m / 2 ^ p)
  rcases h with h | h <;> simp [h]

theorem testBit_orBit (mask : Nat) (set : Bool) (i p : Nat) :
    (orBit mask set i).testBit p = (mask.testBit p || (set && decide (p = i))) := by
  unfold orBit
  cases set
  · simp
  · simp only [if_true, Nat.testBit_or, Nat.testBit_shiftLeft, Bool.true_and]
    by_cases h : p = i
    · subst h
      simp
    · by_cases h2 : p ≥ i
      · have : p - i ≠ 0 := by omega
        simp [h, h2, Nat.testBit_one_eq_true_iff_self_eq_zero, this]
      · simp [h, h2]

theorem and_three_eq {x code : Nat} (hc : code < 4) (h0 : x.testBit 0 = code.testBit 0)
    (h1 : x.testBit 1 = code.testBit 1) : x &&& 3 = code := by
  apply Nat.eq_of_testBit_eq
  intro i
  rw [Nat.testBit_and]
  have h3 : (3 : Nat) = 2 ^ 2 - 1 := by norm_num
  rw [h3, Nat.testBit_two_pow_sub_one]
  match i with
  | 0 => simp [h0]
  | 1 => simp [h1]
  | i + 2 =>
    have : code.testBit (i + 2) = false := by
      apply Nat.testBit_lt_two_pow
      calc code < 4 := hc
        _ = 2 ^ 2 := by norm_num
        _ ≤ 2 ^ (i + 2) := Nat.pow_le_pow_right (by norm_num) (by omega)
    simp [this]

theorem getElem?_snoc_cases {α : Type} {l : List α} {x y : α} {p : Nat}
    (h : (l ++ [x])[p]? = some y) : (p < l.length ∧ l[p]? = some y) ∨ (p = l.length ∧ y = x) := by
  by_cases hp : p < l.length
  · left
    rw [List.getElem?_append_left hp] at h
    exact ⟨hp, h⟩
  · right
    rw [List.getElem?_append_right (by omega)] at h
    have hp2 : p - l.length = 0 := by
      by_contra hne
      obtain ⟨k, hk⟩ : ∃ k, p - l.length = k + 1 := ⟨p - l.length - 1, by omega⟩
      rw [hk] at h
      simp at h
    rw [hp2] at h
    simp only [List.getElem?_cons_zero, Option.some.injEq] at h
    exact ⟨by omega, h.symm⟩

/-- The state of the encoding loop after the letters `done` have been handled. -/
structure EncInv (done : List Char) (st : EncodeState) : Prop where
  chunks : st.normalSeq.length = 2
  arms : ∀ c ∈ done, ∃ arm, switchArm c = some arm
  masksDone : ∀ p c arm, done[p]? = some c → switchArm c = some arm →
    st.ambiguousSeq.A.testBit p = arm.a ∧ st.ambiguousSeq.C.testBit p = arm.c ∧
    st.ambiguousSeq.G.testBit p = arm.g ∧ st.ambiguousSeq.T.testBit p = arm.t
  masksRest : ∀ p, done.length ≤ p →
    st.ambiguousSeq.A.testBit p = false ∧ st.ambiguousSeq.C.testBit p = false ∧
    st.ambiguousSeq.G.testBit p = false ∧ st.ambiguousSeq.T.testBit p = false
  codesDone : st.ambiguous = false → ∀ p c arm, done[p]? = some c → switchArm c = some arm →
    ∃ code word, arm.normal = some code ∧ st.normalSeq[p / 32]? = some word ∧
      word.testBit (2 * (p % 32)) = code.testBit 0 ∧
      word.testBit (2 * (p % 32) + 1) = code.testBit 1
  codesRest : ∀ k word j, st.normalSeq[k]? = some word → word.testBit j = true →
    64 * k + j < 2 * done.length ∧ j < 64
  flag : st.ambiguous = true → ∃ c ∈ done, isAmbiguityCode c = true

theorem encInv_init : EncInv [] encodeInit := by
  refine ⟨rfl, by simp, by simp, ?_, by simp, ?_, by simp [encodeInit]⟩
  · intro p _
    simp [encodeInit]
  · intro k word j hw hj
    exfalso
    simp only [encodeInit, CHUNKS_IN_NODE] at hw
    obtain ⟨hk, rfl⟩ := List.getElem?_eq_some.mp hw
    rw [List.getElem_replicate] at hj
    simp at hj

theorem encodeStep_inv {done : List Char} {st st1 : EncodeState} {c : Char}
    (hinv : EncInv done st)
    (h : encodeStep st done.length c = some st1) : EncInv (done ++ [c]) st1 := by
  simp only [encodeStep, bind_eq_optionBind, BP_IN_CHUNK, CHUNKS_IN_NODE] at h
  obtain ⟨_, hchunk, h⟩ := Option.bind_eq_some.mp h
  obtain ⟨arm, harm, h⟩ := Option.bind_eq_some.mp h
  simp only [assert_eq_some, decide_eq_true_eq] at hchunk
  have hmasksDone : ∀ p c2 arm2, (done ++ [c])[p]? = some c2 → switchArm c2 = some arm2 →
      (orBit st.ambiguousSeq.A arm.a done.length).testBit p = arm2.a ∧
      (orBit st.ambiguousSeq.C arm.c done.length).testBit p = arm2.c ∧
      (orBit st.ambiguousSeq.G arm.g done.length).testBit p = arm2.g ∧
      (orBit st.ambiguousSeq.T arm.t done.length).testBit p = arm2.t := by
    intro p c2 arm2 hp harm2
    simp only [testBit_orBit]
    rcases getElem?_snoc_cases hp with ⟨hlt, hp2⟩ | ⟨rfl, rfl⟩
    · obtain ⟨hA, hC, hG, hT⟩ := hinv.masksDone p c2 arm2 hp2 harm2
      have hne : ¬ p = done.length := by omega
      simp [hA, hC, hG, hT, hne]
    · obtain ⟨hA, hC, hG, hT⟩ := hinv.masksRest done.length (Nat.le_refl _)
      rw [harm] at harm2
      cases Option.some.inj harm2
      simp [hA, hC, hG, hT]
  have hmasksRest : ∀ p, (done ++ [c]).length ≤ p →
      (orBit st.ambiguousSeq.A arm.a done.length).testBit p = false ∧
      (orBit st.ambiguousSeq.C arm.c done.length).testBit p = false ∧
      (orBit st.ambiguousSeq.G arm.g done.length).testBit p = false ∧
      (orBit st.ambiguousSeq.T arm.t done.length).testBit p = false := by
    intro p hp
    simp only [List.length_append, List.length_singleton] at hp
    obtain ⟨hA, hC, hG, hT⟩ := hinv.masksRest p (by omega)
    have hne : ¬ p = done.length := by omega
    simp [testBit_orBit, hA, hC, hG, hT, hne]
  have harms : ∀ c2 ∈ done ++ [c], ∃ arm2, switchArm c2 = some arm2 := by
    intro c2 hc2
    rcases List.mem_append.mp hc2 with h1 | h1
    · exact hinv.arms c2 h1
    · simp only [List.mem_singleton] at h1
      subst h1
      exact ⟨arm, harm⟩
  cases hn : arm.normal with
  | none =>
    simp only [hn, Option.some.injEq] at h
    subst h
    refine ⟨hinv.chunks, harms, hmasksDone, hmasksRest, by simp, ?_, ?_⟩
    · intro k word j hw hj
      obtain ⟨h1, h2⟩ := hinv.codesRest k word j hw hj
      simp only [List.length_append, List.length_singleton]
      omega
    · intro _
      exact ⟨c, by simp, (switchArm_ambiguous harm hn).1⟩
  | some code =>
    simp only [hn, bind_eq_optionBind, pure_eq_some] at h
    obtain ⟨word, hword, h⟩ := Option.bind_eq_some.mp h
    cases Option.some.inj h
    obtain ⟨hcode, -, -⟩ := switchArm_code harm hn
    have hdiv : done.length / 32 < st.normalSeq.length := by rw [hinv.chunks]; exact hchunk
    have hshift : ∀ j, (code <<< (done.length % 32 * 2)).testBit j = true →
        done.length % 32 * 2 ≤ j ∧ j < done.length % 32 * 2 + 2 := by
      intro j hj
      rw [Nat.testBit_shiftLeft] at hj
      simp only [Bool.and_eq_true, decide_eq_true_eq] at hj
      refine ⟨hj.1, ?_⟩
      by_contra hge
      have : code.testBit (j - done.length % 32 * 2) = false := by
        apply Nat.testBit_lt_two_pow
        calc code < 4 := hcode
          _ = 2 ^ 2 := by norm_num
          _ ≤ 2 ^ (j - done.length % 32 * 2) := Nat.pow_le_pow_right (by norm_num) (by omega)
      rw [this] at hj
      simp at hj
    refine ⟨by simp [hinv.chunks], harms, hmasksDone, hmasksRest, ?_, ?_, ?_⟩
    · intro hamb p c2 arm2 hp harm2
      simp only at hamb
      rcases getElem?_snoc_cases hp with ⟨hlt, hp2⟩ | ⟨rfl, rfl⟩
      · obtain ⟨code2, word2, hn2, hw2, hb0, hb1⟩ := hinv.codesDone hamb p c2 arm2 hp2 harm2
        by_cases hsame : done.length / 32 = p / 32
        · rw [← hsame] at hw2
          rw [hword] at hw2
          cases Option.some.inj hw2
          refine ⟨code2, word ||| code <<< (done.length % 32 * 2), hn2, ?_, ?_, ?_⟩
          · rw [← hsame]
            simp [List.getElem?_set, hdiv]
          · rw [Nat.testBit_or, hb0]
            have : (code <<< (done.length % 32 * 2)).testBit (2 * (p % 32)) = false := by
              by_contra hne
              have := hshift _ (by simpa using hne)
              omega
            simp [this]
          · rw [Nat.testBit_or, hb1]
            have : (code <<< (done.length % 32 * 2)).testBit (2 * (p % 32) + 1) = false := by
              by_contra hne
              have := hshift _ (by simpa using hne)
              omega
            simp [this]
        · refine ⟨code2, word2, hn2, ?_, hb0, hb1⟩
          simp only
          rw [List.getElem?_set_ne hsame]
          exact hw2
      · rw [harm] at harm2
        cases Option.some.inj harm2
        refine ⟨code, word ||| code <<< (done.length % 32 * 2), hn, ?_, ?_, ?_⟩
        · simp [List.getElem?_set, hdiv]
        · rw [Nat.testBit_or, Nat.testBit_shiftLeft]
          have hz : word.testBit (2 * (done.length % 32)) = false := by
            by_contra hne
            have := hinv.codesRest _ word _ hword (by simpa using hne)
            omega
          have e : done.length % 32 * 2 = 2 * (done.length % 32) := by omega
          simp [hz, e]
        · rw [Nat.testBit_or, Nat.testBit_shiftLeft]
          have hz : word.testBit (2 * (done.length % 32) + 1) = false := by
            by_contra hne
            have := hinv.codesRest _ word _ hword (by simpa using hne)
            omega
          have e : done.length % 32 * 2 = 2 * (done.length % 32) := by omega
          have e2 : 2 * (done.length % 32) + 1 - 2 * (done.length % 32) = 1 := by omega
          simp [hz, e, e2]
    · intro k word2 j hw hj
      simp only [List.length_append, List.length_singleton]
      simp only [List.getElem?_set, hdiv] at hw
      split at hw
      · rename_i hk
        simp only [if_true, Option.some.injEq] at hw
        subst hw
        rw [Nat.testBit_or] at hj
        simp only [Bool.or_eq_true] at hj
        rcases hj with hj | hj
        · have := hinv.codesRest _ word j hword hj
          omega
        · have := hshift j hj
          omega
      · have := hinv.codesRest k word2 j hw hj
        omega
    · intro hamb
      obtain ⟨c2, hc2, hc3⟩ := hinv.flag hamb
      exact ⟨c2, by simp [hc2], hc3⟩

theorem encodeLoop_inv : ∀ (rest done : List Char) (st enc : EncodeState), EncInv done st →
    done.length + rest.length ≤ 64 → encodeLoop rest done.length st = some enc →
    EncInv (done ++ rest) enc
  | [], done, st, enc, hinv, _, h => by
    simp only [encodeLoop, Option.some.injEq] at h
    subst h
    simpa using hinv
  | c :: rest, done, st, enc, hinv, hlen, h => by
    simp only [encodeLoop, bind_eq_optionBind] at h
    obtain ⟨st1, hst1, h⟩ := Option.bind_eq_some.mp h
    simp only [List.length_cons] at hlen
    have hinv1 := encodeStep_inv hinv hst1
    have := encodeLoop_inv rest (done ++ [c]) st1 enc hinv1 (by simp; omega)
      (by simpa using h)
    simpa using this

/-- The letter at position `p` of a definite split with chunks `chunks`. -/
def decodeChunks (chunks : List Nat) (p : Nat) : Option Char :=
  (chunks[p / BP_IN_CHUNK]?).bind fun word =>
    ['A', 'C', 'G', 'T'][(word >>> ((p % BP_IN_CHUNK) * 2)) &&& 3]?

/-- The letter at position `p` of an ambiguous split with masks `m`. -/
def decodeMasks (m : AmbiguousChunkSequence) (p : Nat) : Option Char :=
  AlignmentGraph.decodeAmbiguous (AlignmentGraph.maskBit m.A p) (AlignmentGraph.maskBit m.C p)
    (AlignmentGraph.maskBit m.G p) (AlignmentGraph.maskBit m.T p)

/-- What the encoding loop of the split helper produces for the letters `piece`: the four masks
read back as the canonical letters, the chunks do whenever no ambiguity code occurred, and the
flag `ambiguous` is set exactly when one occurred. -/
theorem encodeLoop_spec {piece : List Char} {enc : EncodeState}
    (h : encodeLoop piece 0 encodeInit = some enc) (hlen : piece.length ≤ 64) :
    (∀ p c, piece[p]? = some c → decodeMasks enc.ambiguousSeq p = some (canonical c)) ∧
    (enc.ambiguous = false → ∀ p c, piece[p]? = some c →
      decodeChunks enc.normalSeq p = some (canonical c) ∧ isDefinite c = true) ∧
    (enc.ambiguous = true → ∃ c ∈ piece, isAmbiguityCode c = true) := by
  have hinv := encodeLoop_inv piece [] encodeInit enc encInv_init (by simpa using hlen)
    (by simpa using h)
  simp only [List.nil_append] at hinv
  refine ⟨?_, ?_, hinv.flag⟩
  · intro p c hp
    obtain ⟨arm, harm⟩ := hinv.arms c (List.getElem?_mem hp)
    obtain ⟨hA, hC, hG, hT⟩ := hinv.masksDone p c arm hp harm
    simp only [decodeMasks, maskBit_eq_testBit, hA, hC, hG, hT]
    exact switchArm_masks harm
  · intro hamb p c hp
    obtain ⟨arm, harm⟩ := hinv.arms c (List.getElem?_mem hp)
    obtain ⟨code, word, hn, hw, hb0, hb1⟩ := hinv.codesDone hamb p c arm hp harm
    obtain ⟨hcode, hletter, hdef⟩ := switchArm_code harm hn
    refine ⟨?_, hdef⟩
    simp only [decodeChunks, BP_IN_CHUNK, hw, Option.some_bind]
    have : (word >>> (p % 32 * 2)) &&& 3 = code := by
      apply and_three_eq hcode
      · rw [Nat.testBit_shiftRight]
        have e : p % 32 * 2 + 0 = 2 * (p % 32) := by omega
        rw [e, hb0]
      · rw [Nat.testBit_shiftRight]
        have e : p % 32 * 2 + 1 = 2 * (p % 32) + 1 := by omega
        rw [e, hb1]
    rw [this]
    exact hletter

/-! ## What one stride of `AddNode` does -/

/-- The graph after the split helper has appended one vertex: original id `nodeId`, stored
offset `off`, length `len`, strand `rev` and the encoded sequence `enc`. -/
def appendSplit (g : AlignmentGraph) (nodeId : Int) (off len : Nat) (rev : Bool)
    (enc : EncodeState) : AlignmentGraph :=
  { g with
    nodeLookup := mapPushBack g.nodeLookup nodeId g.nodeLength.length
    nodeLength := g.nodeLength ++ [len]
    nodeIDs := g.nodeIDs ++ [nodeId]
    inNeighbors := g.inNeighbors ++ [[]]
    outNeighbors := g.outNeighbors ++ [[]]
    reverse := g.reverse ++ [rev]
    nodeOffset := g.nodeOffset ++ [off]
    ambiguousNodes := g.ambiguousNodes ++ [enc.ambiguous]
    ambiguousNodeSequences :=
      if enc.ambiguous then g.ambiguousNodeSequences ++ [enc.ambiguousSeq]
      else g.ambiguousNodeSequences
    nodeSequences :=
      if enc.ambiguous then g.nodeSequences else g.nodeSequences ++ [enc.normalSeq] }

theorem AddNodeSplit_eq_some {g g1 : AlignmentGraph} {nodeId : Int} {offset : Nat}
    {sequence : List Char} {rev : Bool}
    (h : g.AddNodeSplit nodeId offset sequence rev = some g1) :
    ∃ enc, encodeLoop sequence 0 encodeInit = some enc ∧ sequence.length ≤ 64 ∧
      g.nodeIDs.length = g.nodeLength.length ∧ g.inNeighbors.length = g.nodeLength.length ∧
      g.outNeighbors.length = g.nodeLength.length ∧
      g1 = appendSplit g nodeId (intOffset offset) sequence.length rev enc := by
  simp only [AlignmentGraph.AddNodeSplit, bind_eq_optionBind, Option.bind_eq_some,
    assert_eq_some, decide_eq_true_eq, List.length_append, List.length_singleton] at h
  obtain ⟨_, _, _, _, _, _, _, hlen, enc, henc, _, h1, _, h2, _, h3, h⟩ := h
  exact ⟨enc, henc, hlen, by omega, by omega, by omega, (Option.some.inj h).symm⟩

/-- The graph after the link from the vertex before the last to the last vertex has been
stored in both neighbour tables. -/
def linkLast (g : AlignmentGraph) : AlignmentGraph :=
  { g with
    outNeighbors := g.outNeighbors.set (g.outNeighbors.length - 2)
      ((g.outNeighbors.getD (g.outNeighbors.length - 2) []) ++ [g.outNeighbors.length - 1])
    inNeighbors := g.inNeighbors.set (g.inNeighbors.length - 1)
      ((g.inNeighbors.getD (g.inNeighbors.length - 1) []) ++ [g.inNeighbors.length - 2]) }

theorem pushBackAt_eq_some {vec r : List (List Nat)} {i x : Nat}
    (h : pushBackAt vec i x = some r) : i < vec.length ∧ r = vec.set i (vec.getD i [] ++ [x]) := by
  unfold pushBackAt at h
  split at h
  · rename_i l hl
    obtain ⟨hi, rfl⟩ := List.getElem?_eq_some.mp hl
    refine ⟨hi, ?_⟩
    simp [← Option.some.inj h, List.getD_eq_getElem?_getD, List.getElem?_eq_getElem hi]
  · simp at h

theorem addStride_eq_some {g g2 : AlignmentGraph} {nodeId : Int} {sequence : List Char}
    {rev : Bool} {offset size : Nat}
    (h : g.addStride nodeId sequence rev offset size = some g2) :
    ∃ enc, 0 < size ∧ offset ≤ sequence.length ∧
      encodeLoop ((sequence.drop offset).take size) 0 encodeInit = some enc ∧
      ((sequence.drop offset).take size).length ≤ 64 ∧
      ((offset = 0 ∧ g2 = appendSplit g nodeId (intOffset offset)
          ((sequence.drop offset).take size).length rev enc) ∨
       (0 < offset ∧
        (∃ offPrev lenPrev, g.nodeOffset.getLast? = some offPrev ∧
          g.nodeLength.getLast? = some lenPrev ∧ g.nodeOffset.length = g.nodeLength.length ∧
          g.outNeighbors.length = g.nodeLength.length ∧
          g.inNeighbors.length = g.nodeLength.length ∧
          (offPrev + lenPrev) % 2 ^ 64 = intOffset offset) ∧
        g2 = linkLast (appendSplit g nodeId (intOffset offset)
          ((sequence.drop offset).take size).length rev enc))) := by
  simp only [AlignmentGraph.addStride, bind_eq_optionBind] at h
  obtain ⟨_, hsize, h1⟩ := Option.bind_eq_some.mp h
  obtain ⟨piece, hpiece, h2⟩ := Option.bind_eq_some.mp h1
  obtain ⟨g1, hg1, h3⟩ := Option.bind_eq_some.mp h2
  clear h h1 h2
  simp only [assert_eq_some, decide_eq_true_eq] at hsize
  simp only [substr, Option.ite_none_right_eq_some, Option.some.injEq] at hpiece
  obtain ⟨hoff, rfl⟩ := hpiece
  obtain ⟨enc, henc, hlen, hl1, hl2, hl3, hg1eq⟩ := AddNodeSplit_eq_some hg1
  refine ⟨enc, hsize, hoff, henc, hlen, ?_⟩
  by_cases hpos : offset > 0
  · rw [if_pos hpos] at h3
    right
    simp only [bind_eq_optionBind, Option.bind_eq_some, assert_eq_some,
      decide_eq_true_eq] at h3
    obtain ⟨_, hn2, _, hin, _, hids, _, hoffl, idPrev, hidPrev, idLast, hidLast, _, hid,
      offPrev, hoffPrev, lenPrev, hlenPrev, offLast, hoffLast, _, hsum, outs, houts, ins,
      hins, h⟩ := h3
    obtain ⟨ho1, rfl⟩ := pushBackAt_eq_some houts
    obtain ⟨hi1, rfl⟩ := pushBackAt_eq_some hins
    have hg2 : g2 = linkLast g1 := by
      rw [← Option.some.inj h]
      rfl
    subst hg1eq
    simp only [appendSplit, List.length_append,
      List.length_singleton] at hn2 hin hids hoffl hoffPrev hlenPrev hoffLast
    have e1 : g.outNeighbors.length + 1 - 2 = g.outNeighbors.length - 1 := by omega
    have hnl : g.nodeOffset.length = g.outNeighbors.length := by omega
    simp only [Nat.add_sub_cancel, e1] at hoffPrev hlenPrev hoffLast
    rw [List.getElem?_append_right (by omega)] at hoffLast
    rw [List.getElem?_append_left (by omega)] at hoffPrev
    rw [List.getElem?_append_left (by omega)] at hlenPrev
    simp only [hnl, Nat.sub_self, List.getElem?_cons_zero, Option.some.injEq] at hoffLast
    refine ⟨hpos, ⟨offPrev, lenPrev, ?_, ?_, by omega, by omega, by omega, ?_⟩, hg2⟩
    · rw [List.getLast?_eq_getElem?, hnl]; exact hoffPrev
    · rw [List.getLast?_eq_getElem?, ← hl3]; exact hlenPrev
    · rw [hsum, hoffLast]
  · rw [if_neg hpos] at h3
    left
    exact ⟨by omega, by rw [← hg1eq]; exact (Option.some.inj h3).symm⟩

/-! ## Tilings of an original node by its splits -/

/-- The list `l2` continues the list `l1`. -/
def ListExt {α : Type} (l1 l2 : List α) : Prop := ∃ t, l2 = l1 ++ t

theorem ListExt.ext_refl {α : Type} (l : List α) : ListExt l l := ⟨[], by simp⟩

theorem ListExt.ext_trans {α : Type} {l1 l2 l3 : List α} (h1 : ListExt l1 l2) (h2 : ListExt l2 l3) :
    ListExt l1 l3 := by
  obtain ⟨t1, rfl⟩ := h1
  obtain ⟨t2, rfl⟩ := h2
  exact ⟨t1 ++ t2, by simp⟩

theorem ListExt.append {α : Type} (l t : List α) : ListExt l (l ++ t) := ⟨t, rfl⟩

theorem ListExt.getElem? {α : Type} {l1 l2 : List α} (h : ListExt l1 l2) {i : Nat} {x : α}
    (hx : l1[i]? = some x) : l2[i]? = some x := by
  obtain ⟨t, rfl⟩ := h
  obtain ⟨hi, rfl⟩ := List.getElem?_eq_some.mp hx
  rw [List.getElem?_append_left hi, List.getElem?_eq_getElem hi]

theorem ListExt.ext_mem {α : Type} {l1 l2 : List α} (h : ListExt l1 l2) {x : α} (hx : x ∈ l1) :
    x ∈ l2 := by
  obtain ⟨t, rfl⟩ := h
  exact List.mem_append_left t hx

theorem ListExt.length_le {α : Type} {l1 l2 : List α} (h : ListExt l1 l2) :
    l1.length ≤ l2.length := by
  obtain ⟨t, rfl⟩ := h
  simp

theorem ListExt.take {α : Type} {l1 l2 : List α} (h : ListExt l1 l2) {n : Nat}
    (hn : n ≤ l1.length) : l2.take n = l1.take n := by
  obtain ⟨t, rfl⟩ := h
  exact List.take_append_of_le_length hn

/-- The vertex `s` is a split of the original node `id` that starts at offset `e` and has
`len` bases. -/
structure VertexAt (g : AlignmentGraph) (id : Int) (s e len : Nat) : Prop where
  offEq : g.nodeOffset[s]? = some e
  lenEq : g.nodeLength[s]? = some len
  idsEq : g.nodeIDs[s]? = some id
  pos : 1 ≤ len
  bound : len ≤ 64
  small : e < 2 ^ 31

/-- The graph has the edge `a → b` in its out-neighbour table. -/
def Linked (g : AlignmentGraph) (a b : Nat) : Prop :=
  ∃ outs, g.outNeighbors[a]? = some outs ∧ b ∈ outs

/-- The splits `l`, in this order, cover the offsets `e0 ≤ o < e1` of the original node `id`
without gap or overlap, and each split has an edge to the next. -/
inductive Tiles (g : AlignmentGraph) (id : Int) : Nat → List Nat → Nat → Prop
  | nil (e : Nat) : Tiles g id e [] e
  | cons {e len e1 s : Nat} {rest : List Nat} (hv : VertexAt g id s e len)
      (hl : ∀ b, rest.head? = some b → Linked g s b) (ht : Tiles g id (e + len) rest e1) :
      Tiles g id e (s :: rest) e1

theorem Tiles.le {g : AlignmentGraph} {id : Int} {e0 e1 : Nat} {l : List Nat}
    (h : Tiles g id e0 l e1) : e0 ≤ e1 := by
  induction h with
  | nil e => exact Nat.le_refl e
  | cons hv _ _ ih => have := hv.pos; omega

theorem Tiles.snoc {g : AlignmentGraph} {id : Int} {e0 e len s : Nat} {l : List Nat}
    (h : Tiles g id e0 l e) (hv : VertexAt g id s e len)
    (hl : ∀ a, l.getLast? = some a → Linked g a s) : Tiles g id e0 (l ++ [s]) (e + len) := by
  induction h with
  | nil e => exact Tiles.cons hv (by simp) (Tiles.nil _)
  | @cons e2 len2 e3 s2 rest hv2 hl2 ht ih =>
    rw [List.cons_append]
    refine Tiles.cons hv2 ?_ (ih hv ?_)
    · intro b hb
      cases rest with
      | nil =>
        simp only [List.nil_append, List.head?_cons, Option.some.injEq] at hb
        subst hb
        exact hl s2 (by simp)
      | cons r rs =>
        simp only [List.cons_append, List.head?_cons, Option.some.injEq] at hb
        exact hl2 b (by simp [hb])
    · intro a ha
      cases rest with
      | nil => simp at ha
      | cons r rs =>
        apply hl
        rw [List.getLast?_cons_cons]
        exact ha

theorem Tiles.last {g : AlignmentGraph} {id : Int} {e0 e1 a : Nat} {l : List Nat}
    (h : Tiles g id e0 l e1) (ha : l.getLast? = some a) :
    ∃ ea la, VertexAt g id a ea la ∧ ea + la = e1 := by
  induction h with
  | nil e => simp at ha
  | @cons e2 len2 e3 s2 rest hv2 hl2 ht ih =>
    cases rest with
    | nil =>
      simp only [List.getLast?_singleton, Option.some.injEq] at ha
      subst ha
      cases ht
      exact ⟨_, _, hv2, rfl⟩
    | cons r rs =>
      rw [List.getLast?_cons_cons] at ha
      exact ih ha

theorem Tiles.tiles_mem {g : AlignmentGraph} {id : Int} {e0 e1 s : Nat} {l : List Nat}
    (h : Tiles g id e0 l e1) (hs : s ∈ l) :
    ∃ es ls, VertexAt g id s es ls ∧ e0 ≤ es ∧ es + ls ≤ e1 := by
  induction h with
  | nil e => simp at hs
  | @cons e2 len2 e3 s2 rest hv2 hl2 ht ih =>
    rcases List.mem_cons.mp hs with rfl | hs
    · exact ⟨_, _, hv2, Nat.le_refl _, ht.le⟩
    · obtain ⟨es, ls, hv, h1, h2⟩ := ih hs
      exact ⟨es, ls, hv, by omega, h2⟩

/-! ## Growth of the tables during the build -/

/-- Everything recorded in `g` is still recorded, at the same place, in `g2`: the per-vertex
tables and the sequence stores have only been appended to, and neighbour lists have only
grown at their ends. -/
structure Grows (g g2 : AlignmentGraph) : Prop where
  len : ListExt g.nodeLength g2.nodeLength
  off : ListExt g.nodeOffset g2.nodeOffset
  ids : ListExt g.nodeIDs g2.nodeIDs
  rev : ListExt g.reverse g2.reverse
  amb : ListExt g.ambiguousNodes g2.ambiguousNodes
  seqs : ListExt g.nodeSequences g2.nodeSequences
  aseqs : ListExt g.ambiguousNodeSequences g2.ambiguousNodeSequences
  out : ∀ (a : Nat) (outs : List Nat), g.outNeighbors[a]? = some outs →
    ∃ outs2, g2.outNeighbors[a]? = some outs2 ∧ ListExt outs outs2
  inn : ∀ (a : Nat) (ins : List Nat), g.inNeighbors[a]? = some ins →
    ∃ ins2, g2.inNeighbors[a]? = some ins2 ∧ ListExt ins ins2
  sizes : ∀ id l v, g.nodeLookup.lookup id = some l → g.originalNodeSize.lookup id = some v →
    g2.originalNodeSize.lookup id = some v
  look : ∀ id l, g.nodeLookup.lookup id = some l →
    ∃ l2, g2.nodeLookup.lookup id = some l2 ∧ ListExt l l2

theorem Grows.grows_refl (g : AlignmentGraph) : Grows g g :=
  { len := ListExt.ext_refl _, off := ListExt.ext_refl _, ids := ListExt.ext_refl _, rev := ListExt.ext_refl _
    amb := ListExt.ext_refl _, seqs := ListExt.ext_refl _, aseqs := ListExt.ext_refl _
    out := fun _ outs h => ⟨outs, h, ListExt.ext_refl _⟩
    inn := fun _ ins h => ⟨ins, h, ListExt.ext_refl _⟩
    sizes := fun _ _ _ _ h => h
    look := fun _ l h => ⟨l, h, ListExt.ext_refl _⟩ }

theorem Grows.grows_trans {g1 g2 g3 : AlignmentGraph} (h1 : Grows g1 g2) (h2 : Grows g2 g3) :
    Grows g1 g3 :=
  { len := h1.len.ext_trans h2.len, off := h1.off.ext_trans h2.off, ids := h1.ids.ext_trans h2.ids
    rev := h1.rev.ext_trans h2.rev, amb := h1.amb.ext_trans h2.amb, seqs := h1.seqs.ext_trans h2.seqs
    aseqs := h1.aseqs.ext_trans h2.aseqs
    out := fun a outs h => by
      obtain ⟨o2, ho2, e2⟩ := h1.out a outs h
      obtain ⟨o3, ho3, e3⟩ := h2.out a o2 ho2
      exact ⟨o3, ho3, e2.ext_trans e3⟩
    inn := fun a ins h => by
      obtain ⟨o2, ho2, e2⟩ := h1.inn a ins h
      obtain ⟨o3, ho3, e3⟩ := h2.inn a o2 ho2
      exact ⟨o3, ho3, e2.ext_trans e3⟩
    sizes := fun id l v hl hv => by
      obtain ⟨l2, hl2, _⟩ := h1.look id l hl
      exact h2.sizes id l2 v hl2 (h1.sizes id l v hl hv)
    look := fun id l h => by
      obtain ⟨l2, hl2, e2⟩ := h1.look id l h
      obtain ⟨l3, hl3, e3⟩ := h2.look id l2 hl2
      exact ⟨l3, hl3, e2.ext_trans e3⟩ }

theorem VertexAt.vertex_mono {g g2 : AlignmentGraph} {id : Int} {s e len : Nat}
    (h : VertexAt g id s e len) (hg : Grows g g2) : VertexAt g2 id s e len :=
  { offEq := hg.off.getElem? h.offEq, lenEq := hg.len.getElem? h.lenEq
    idsEq := hg.ids.getElem? h.idsEq, pos := h.pos, bound := h.bound, small := h.small }

theorem Linked.linked_mono {g g2 : AlignmentGraph} {a b : Nat} (h : Linked g a b) (hg : Grows g g2) :
    Linked g2 a b := by
  obtain ⟨outs, ho, hb⟩ := h
  obtain ⟨outs2, ho2, he⟩ := hg.out a outs ho
  exact ⟨outs2, ho2, he.ext_mem hb⟩

theorem Tiles.tiles_mono {g g2 : AlignmentGraph} {id : Int} {e0 e1 : Nat} {l : List Nat}
    (h : Tiles g id e0 l e1) (hg : Grows g g2) : Tiles g2 id e0 l e1 := by
  induction h with
  | nil e => exact Tiles.nil e
  | cons hv hl _ ih => exact Tiles.cons (hv.vertex_mono hg) (fun b hb => (hl b hb).linked_mono hg) ih

/-! ## The association lists -/

theorem lookup_cons_eq {β : Type} (k k0 : Int) (v : β) (m : List (Int × β)) :
    ((k0, v) :: m).lookup k = if k = k0 then some v else m.lookup k := by
  rw [List.lookup_cons]
  by_cases h : k = k0
  · simp [h]
  · rw [show (k == k0) = false from beq_false_of_ne h]
    simp [h]

theorem lookup_mapAssign_self {β : Type} (m : List (Int × β)) (k : Int) (v : β) :
    (mapAssign m k v).lookup k = some v := by
  induction m with
  | nil => simp [mapAssign, lookup_cons_eq]
  | cons p rest ih =>
    obtain ⟨k0, v0⟩ := p
    unfold mapAssign
    by_cases h : k0 = k
    · simp [h, lookup_cons_eq]
    · have h2 : ¬ k = k0 := fun e => h e.symm
      simp [h, h2, lookup_cons_eq, ih]

theorem lookup_mapAssign_ne {β : Type} (m : List (Int × β)) {k k2 : Int} (v : β)
    (hne : k2 ≠ k) : (mapAssign m k v).lookup k2 = m.lookup k2 := by
  induction m with
  | nil => simp [mapAssign, lookup_cons_eq, hne]
  | cons p rest ih =>
    obtain ⟨k0, v0⟩ := p
    unfold mapAssign
    by_cases h : k0 = k
    · subst h
      simp [lookup_cons_eq, hne]
    · simp [h, lookup_cons_eq, ih]

theorem lookup_mapPushBack_self (m : List (Int × List Nat)) (k : Int) (x : Nat) :
    (mapPushBack m k x).lookup k = some ((m.lookup k).getD [] ++ [x]) := by
  induction m with
  | nil => simp [mapPushBack, lookup_cons_eq]
  | cons p rest ih =>
    obtain ⟨k0, v0⟩ := p
    unfold mapPushBack
    by_cases h : k0 = k
    · simp [h, lookup_cons_eq]
    · have h2 : ¬ k = k0 := fun e => h e.symm
      simp [h, h2, lookup_cons_eq, ih]

theorem lookup_mapPushBack_ne (m : List (Int × List Nat)) {k k2 : Int} (x : Nat)
    (hne : k2 ≠ k) : (mapPushBack m k x).lookup k2 = m.lookup k2 := by
  induction m with
  | nil => simp [mapPushBack, lookup_cons_eq, hne]
  | cons p rest ih =>
    obtain ⟨k0, v0⟩ := p
    unfold mapPushBack
    by_cases h : k0 = k
    · subst h
      simp [lookup_cons_eq, hne]
    · simp [h, lookup_cons_eq, ih]

theorem lookup_append_of_some {β : Type} (m t : List (Int × β)) {k : Int} {v : β}
    (h : m.lookup k = some v) : (m ++ t).lookup k = some v := by
  induction m with
  | nil => simp at h
  | cons p rest ih =>
    obtain ⟨k0, v0⟩ := p
    rw [List.cons_append, lookup_cons_eq]
    rw [lookup_cons_eq] at h
    by_cases hk : k = k0
    · simpa [hk] using h
    · simp only [hk, if_false] at h ⊢
      exact ih h

theorem mapIndex_of_some {m : List (Int × Nat)} {k : Int} {v : Nat} (h : m.lookup k = some v) :
    mapIndex m k = (v, m) := by
  simp [mapIndex, h]

theorem mapIndex_lookup {m : List (Int × Nat)} (k : Int) {k2 : Int} {v : Nat}
    (h : m.lookup k2 = some v) : (mapIndex m k).2.lookup k2 = some v := by
  unfold mapIndex
  split
  · exact h
  · exact lookup_append_of_some m _ h

/-! ## The stored sequence of a vertex before renumbering -/

/-- The letter that the sequence stores hold for position `p` of vertex `s` while the graph is
being built: the definite vertices use `nodeSequences` in their order, the ambiguous ones
`ambiguousNodeSequences` in theirs. -/
def storedBase (g : AlignmentGraph) (s p : Nat) : Option Char :=
  match g.ambiguousNodes[s]? with
  | none => none
  | some false =>
    (g.nodeSequences[(g.ambiguousNodes.take s).count false]?).bind fun c => decodeChunks c p
  | some true =>
    (g.ambiguousNodeSequences[(g.ambiguousNodes.take s).count true]?).bind fun m =>
      decodeMasks m p

/-- The two neighbour tables mirror each other, and no neighbour list holds an index twice. -/
structure Neighbors (g : AlignmentGraph) : Prop where
  mirror : ∀ u v, v ∈ g.outNeighbors.getD u [] ↔ u ∈ g.inNeighbors.getD v []
  nodupOut : ∀ u, (g.outNeighbors.getD u []).Nodup
  nodupIn : ∀ v, (g.inNeighbors.getD v []).Nodup

theorem getD_append_nil (vec : List (List Nat)) (u : Nat) :
    (vec ++ [[]]).getD u [] = vec.getD u [] := by
  rw [List.getD_eq_getElem?_getD, List.getD_eq_getElem?_getD]
  by_cases hu : u < vec.length
  · rw [List.getElem?_append_left hu]
  · rw [List.getElem?_eq_none (Nat.le_of_not_lt hu)]
    by_cases hu2 : u = vec.length
    · subst hu2
      simp
    · rw [List.getElem?_eq_none (by simp; omega)]

theorem getD_set_snoc {vec : List (List Nat)} {i : Nat} (hi : i < vec.length) (x u : Nat) :
    (vec.set i (vec.getD i [] ++ [x])).getD u [] =
      if u = i then vec.getD i [] ++ [x] else vec.getD u [] := by
  rw [List.getD_eq_getElem?_getD, List.getElem?_set]
  by_cases h : i = u
  · subst h
    simp [hi]
  · rw [if_neg h, if_neg (fun e => h e.symm), List.getD_eq_getElem?_getD]

theorem mem_getD_set_snoc {vec : List (List Nat)} {i : Nat} (hi : i < vec.length) (x u v : Nat) :
    v ∈ (vec.set i (vec.getD i [] ++ [x])).getD u [] ↔ v ∈ vec.getD u [] ∨ (u = i ∧ v = x) := by
  rw [getD_set_snoc hi]
  by_cases h : u = i
  · subst h
    simp
  · simp [h]

theorem getD_of_getElem? {vec : List (List Nat)} {u : Nat} {l : List Nat}
    (h : vec[u]? = some l) : vec.getD u [] = l := by
  rw [List.getD_eq_getElem?_getD, h]
  rfl

theorem neighbors_snoc {outs ins : List (List Nat)} {src dst : Nat} (hsrc : src < outs.length) (hdst : dst < ins.length)
    (hmirror : ∀ u v, v ∈ outs.getD u [] ↔ u ∈ ins.getD v [])
    (hout : ∀ u, (outs.getD u []).Nodup) (hin : ∀ v, (ins.getD v []).Nodup)
    (hnew : dst ∉ outs.getD src []) :
    (∀ u v, v ∈ (outs.set src (outs.getD src [] ++ [dst])).getD u [] ↔
      u ∈ (ins.set dst (ins.getD dst [] ++ [src])).getD v []) ∧
    (∀ u, ((outs.set src (outs.getD src [] ++ [dst])).getD u []).Nodup) ∧
    (∀ v, ((ins.set dst (ins.getD dst [] ++ [src])).getD v []).Nodup) := by
  have hnew2 : src ∉ ins.getD dst [] := fun h => hnew ((hmirror src dst).mpr h)
  refine ⟨fun u v => ?_, fun u => ?_, fun v => ?_⟩
  · rw [mem_getD_set_snoc hsrc, mem_getD_set_snoc hdst, hmirror u v]
    constructor
    · rintro (h | ⟨h1, h2⟩)
      · exact Or.inl h
      · exact Or.inr ⟨h2, h1⟩
    · rintro (h | ⟨h1, h2⟩)
      · exact Or.inl h
      · exact Or.inr ⟨h2, h1⟩
  · rw [getD_set_snoc hsrc]
    by_cases h : u = src
    · rw [if_pos h]
      exact List.Nodup.append (hout src) (List.nodup_singleton _)
        (by
          intro a ha hb
          rw [List.mem_singleton] at hb
          exact hnew (hb ▸ ha))
    · rw [if_neg h]
      exact hout u
  · rw [getD_set_snoc hdst]
    by_cases h : v = dst
    · rw [if_pos h]
      exact List.Nodup.append (hin dst) (List.nodup_singleton _)
        (by
          intro a ha hb
          rw [List.mem_singleton] at hb
          exact hnew2 (hb ▸ ha))
    · rw [if_neg h]
      exact hin v

/-- The size relations between the tables of a graph under construction, and the members
that stay at their initial value until `Finalize`. -/
structure Basic (g : AlignmentGraph) : Prop where
  off : g.nodeOffset.length = g.nodeLength.length
  ids : g.nodeIDs.length = g.nodeLength.length
  inn : g.inNeighbors.length = g.nodeLength.length
  out : g.outNeighbors.length = g.nodeLength.length
  rev : g.reverse.length = g.nodeLength.length
  amb : g.ambiguousNodes.length = g.nodeLength.length
  lin : g.linearizable = []
  comp : g.componentNumber = []
  first : g.firstAmbiguous = SIZE_MAX
  fin : g.finalized = false
  seqs : g.nodeSequences.length = g.ambiguousNodes.count false
  aseqs : g.ambiguousNodeSequences.length = g.ambiguousNodes.count true
  edges : ∀ (u : Nat) (l : List Nat), g.outNeighbors[u]? = some l →
    ∀ w ∈ l, w < g.nodeLength.length
  nbrs : Neighbors g
  lens : ∀ (v len : Nat), g.nodeLength[v]? = some len → 1 ≤ len ∧ len ≤ SPLIT_NODE_SIZE

theorem count_take_lt {b : Bool} : ∀ {l : List Bool} {s : Nat}, l[s]? = some b →
    (l.take s).count b < l.count b
  | [], s, h => by simp at h
  | x :: xs, 0, h => by
    simp only [List.getElem?_cons_zero, Option.some.injEq] at h
    subst h
    simp
  | x :: xs, s + 1, h => by
    simp only [List.getElem?_cons_succ] at h
    have ih := count_take_lt h
    simp only [List.take_succ_cons, List.count_cons]
    omega

theorem storedBase_mono {g g2 : AlignmentGraph} (hg : Grows g g2) (hb : Basic g) {s : Nat}
    (hs : s < g.nodeLength.length) (p : Nat) : storedBase g2 s p = storedBase g s p := by
  have hs2 : s < g.ambiguousNodes.length := by rw [hb.amb]; exact hs
  have h1 : g.ambiguousNodes[s]? = some g.ambiguousNodes[s] := List.getElem?_eq_getElem hs2
  have h2 := hg.amb.getElem? h1
  have ht := hg.amb.take (Nat.le_of_lt hs2)
  unfold storedBase
  rw [h1, h2, ht]
  have hlt := count_take_lt h1
  cases hflag : g.ambiguousNodes[s] with
  | false =>
    rw [hflag] at hlt
    rw [← hb.seqs] at hlt
    simp only
    rw [hg.seqs.getElem? (List.getElem?_eq_getElem hlt), List.getElem?_eq_getElem hlt]
  | true =>
    rw [hflag] at hlt
    rw [← hb.aseqs] at hlt
    simp only
    rw [hg.aseqs.getElem? (List.getElem?_eq_getElem hlt), List.getElem?_eq_getElem hlt]

/-! ## The effect of one stride on the invariants -/

theorem basic_appendSplit {g : AlignmentGraph} (hb : Basic g) (nodeId : Int) (off : Nat)
    (len : Nat) (rev : Bool) (enc : EncodeState) (hpos : 1 ≤ len) (hle : len ≤ 64) :
    Basic (appendSplit g nodeId off len rev enc) := by
  obtain ⟨h1, h2, h3, h4, h5, h6, h7, h8, h9, h10, h11, h12, h13, h14, h15⟩ := hb
  have hedges : ∀ (u : Nat) (l : List Nat), (g.outNeighbors ++ [[]])[u]? = some l →
      ∀ w ∈ l, w < g.nodeLength.length + 1 := by
    intro u l hu w hw
    rcases getElem?_snoc_cases hu with ⟨_, hold⟩ | ⟨_, rfl⟩
    · exact Nat.lt_succ_of_lt (h13 u l hold w hw)
    · simp at hw
  have hnbrs : Neighbors (appendSplit g nodeId off len rev enc) := by
    refine ⟨fun u v => ?_, fun u => ?_, fun v => ?_⟩
    · simp only [appendSplit, getD_append_nil]
      exact h14.mirror u v
    · simp only [appendSplit, getD_append_nil]
      exact h14.nodupOut u
    · simp only [appendSplit, getD_append_nil]
      exact h14.nodupIn v
  have hlens : ∀ (v x : Nat), (g.nodeLength ++ [len])[v]? = some x →
      1 ≤ x ∧ x ≤ SPLIT_NODE_SIZE := by
    intro v x hv
    rcases getElem?_snoc_cases hv with ⟨_, hold⟩ | ⟨_, rfl⟩
    · exact h15 v x hold
    · exact ⟨hpos, hle⟩
  refine ⟨?_, ?_, ?_, ?_, ?_, ?_, h7, h8, h9, h10, ?_, ?_, ?_, hnbrs, ?_⟩
  all_goals simp only [appendSplit, List.length_append, List.length_singleton, List.count_append]
  all_goals try omega
  · cases enc.ambiguous <;> simp [h11]
  · cases enc.ambiguous <;> simp [h12]
  · exact hedges
  · exact hlens

theorem grows_appendSplit (g : AlignmentGraph) (nodeId : Int) (off len : Nat)
    (rev : Bool) (enc : EncodeState) : Grows g (appendSplit g nodeId off len rev enc) := by
  refine ⟨ListExt.append _ _, ListExt.append _ _, ListExt.append _ _, ListExt.append _ _,
    ListExt.append _ _, ?_, ?_, ?_, ?_, ?_, ?_⟩
  · simp only [appendSplit]
    split
    · exact ListExt.ext_refl _
    · exact ListExt.append _ _
  · simp only [appendSplit]
    split
    · exact ListExt.append _ _
    · exact ListExt.ext_refl _
  · intro a outs h
    exact ⟨outs, (ListExt.append _ _).getElem? h, ListExt.ext_refl _⟩
  · intro a ins h
    exact ⟨ins, (ListExt.append _ _).getElem? h, ListExt.ext_refl _⟩
  · intro id l v _ hv
    exact hv
  · intro id l h
    simp only [appendSplit]
    by_cases hid : id = nodeId
    · subst hid
      rw [lookup_mapPushBack_self, h]
      exact ⟨_, rfl, ListExt.append _ _⟩
    · rw [lookup_mapPushBack_ne _ _ hid]
      exact ⟨l, h, ListExt.ext_refl _⟩

theorem basic_linkLast {g : AlignmentGraph} (hb : Basic g)
    (hlast : g.inNeighbors.getD (g.inNeighbors.length - 1) [] = []) : Basic (linkLast g) := by
  obtain ⟨h1, h2, h3, h4, h5, h6, h7, h8, h9, h10, h11, h12, h13, h14, h15⟩ := hb
  have hnbrs : Neighbors (linkLast g) := by
    by_cases hn : g.outNeighbors.length = 0
    · have ho : g.outNeighbors = [] := List.length_eq_zero.mp hn
      have hi : g.inNeighbors = [] := List.length_eq_zero.mp (by rw [h3, ← h4]; exact hn)
      refine ⟨fun u v => ?_, fun u => ?_, fun v => ?_⟩
      · simp only [linkLast, ho, hi, List.set_nil]
        have := h14.mirror u v
        rw [ho, hi] at this
        exact this
      · simp only [linkLast, ho, List.set_nil]
        have := h14.nodupOut u
        rw [ho] at this
        exact this
      · simp only [linkLast, hi, List.set_nil]
        have := h14.nodupIn v
        rw [hi] at this
        exact this
    · have hlen : g.inNeighbors.length = g.outNeighbors.length := by rw [h3, h4]
      have hsrc : g.outNeighbors.length - 2 < g.outNeighbors.length := by omega
      have hdst : g.inNeighbors.length - 1 < g.inNeighbors.length := by omega
      have hnew : g.inNeighbors.length - 1 ∉
          g.outNeighbors.getD (g.outNeighbors.length - 2) [] := by
        intro hmem
        have := (h14.mirror _ _).mp hmem
        rw [hlast] at this
        simp at this
      have hall := neighbors_snoc hsrc hdst h14.mirror h14.nodupOut h14.nodupIn hnew
      simp only [linkLast]
      rw [hlen] at hall ⊢
      exact ⟨hall.1, hall.2.1, hall.2.2⟩
  refine ⟨h1, h2, ?_, ?_, h5, h6, h7, h8, h9, h10, h11, h12, ?_, hnbrs, h15⟩
  · simp [linkLast, h3]
  · simp [linkLast, h4]
  · intro u l hu w hw
    simp only [linkLast] at hu ⊢
    by_cases hu2 : g.outNeighbors.length - 2 = u
    · by_cases hlt : g.outNeighbors.length - 2 < g.outNeighbors.length
      · rw [List.getElem?_set, if_pos hu2, if_pos hlt] at hu
        cases Option.some.inj hu
        rcases List.mem_append.mp hw with hw | hw
        · have hget : g.outNeighbors[g.outNeighbors.length - 2]? =
              some (g.outNeighbors.getD (g.outNeighbors.length - 2) []) := by
            rw [List.getD_eq_getElem?_getD, List.getElem?_eq_getElem hlt]
            rfl
          exact h13 _ _ hget w hw
        · simp only [List.mem_singleton] at hw
          omega
      · rw [List.getElem?_set, if_pos hu2, if_neg hlt] at hu
        cases hu
    · rw [List.getElem?_set_ne hu2] at hu
      exact h13 u l hu w hw

theorem getElem?_set_ext {vec : List (List Nat)} {i a x : Nat} {l : List Nat}
    (h : vec[a]? = some l) :
    ∃ l2, (vec.set i (vec.getD i [] ++ [x]))[a]? = some l2 ∧ ListExt l l2 := by
  obtain ⟨ha, rfl⟩ := List.getElem?_eq_some.mp h
  by_cases hia : i = a
  · subst hia
    refine ⟨vec[i] ++ [x], ?_, ListExt.append _ _⟩
    simp [List.getElem?_set, ha, List.getD_eq_getElem?_getD]
  · exact ⟨vec[a], by rw [List.getElem?_set_ne hia]; exact h, ListExt.ext_refl _⟩

theorem grows_linkLast (g : AlignmentGraph) : Grows g (linkLast g) := by
  refine ⟨ListExt.ext_refl _, ListExt.ext_refl _, ListExt.ext_refl _, ListExt.ext_refl _, ListExt.ext_refl _,
    ListExt.ext_refl _, ListExt.ext_refl _, ?_, ?_, fun _ _ _ _ h => h,
    fun _ l h => ⟨l, h, ListExt.ext_refl _⟩⟩
  · intro a outs h
    exact getElem?_set_ext h
  · intro a ins h
    exact getElem?_set_ext h

/-- The stored sequence of every split in `l` reads back as the canonical letters of the part
of `seq` the split covers. -/
def Content (g : AlignmentGraph) (seq : List Char) (l : List Nat) : Prop :=
  ∀ s ∈ l, ∀ es ls p c, g.nodeOffset[s]? = some es → g.nodeLength[s]? = some ls → p < ls →
    seq[es + p]? = some c → storedBase g s p = some (canonical c)

/-- The flag of every split in `l` tells whether the part of `seq` the split covers holds an
ambiguity code: an unflagged split covers only definite letters, a flagged one covers a
letter that is an ambiguity code. -/
def Flags (g : AlignmentGraph) (seq : List Char) (l : List Nat) : Prop :=
  ∀ s ∈ l, ∀ es ls, g.nodeOffset[s]? = some es → g.nodeLength[s]? = some ls →
    (g.ambiguousNodes[s]? = some false →
      ∀ p c, p < ls → seq[es + p]? = some c → isDefinite c = true) ∧
    (g.ambiguousNodes[s]? = some true →
      ∃ p c, p < ls ∧ seq[es + p]? = some c ∧ isAmbiguityCode c = true)

theorem Flags.flags_mono {g g2 : AlignmentGraph} {seq : List Char} {l : List Nat}
    (h : Flags g seq l) (hg : Grows g g2) (hb : Basic g)
    (hl : ∀ s ∈ l, s < g.nodeLength.length) : Flags g2 seq l := by
  intro s hs es ls hoff hlen
  have hs1 := hl s hs
  have ho1 : g.nodeOffset[s]? = some es := by
    have hs2 : s < g.nodeOffset.length := by rw [hb.off]; exact hs1
    have := hg.off.getElem? (List.getElem?_eq_getElem hs2)
    rw [hoff] at this
    rw [List.getElem?_eq_getElem hs2, ← Option.some.inj this]
  have hl1 : g.nodeLength[s]? = some ls := by
    have := hg.len.getElem? (List.getElem?_eq_getElem hs1)
    rw [hlen] at this
    rw [List.getElem?_eq_getElem hs1, ← Option.some.inj this]
  have hs3 : s < g.ambiguousNodes.length := by rw [hb.amb]; exact hs1
  have hfl : g2.ambiguousNodes[s]? = g.ambiguousNodes[s]? := by
    rw [hg.amb.getElem? (List.getElem?_eq_getElem hs3), List.getElem?_eq_getElem hs3]
  rw [hfl]
  exact h s hs es ls ho1 hl1

theorem Content.content_mono {g g2 : AlignmentGraph} {seq : List Char} {l : List Nat}
    (h : Content g seq l) (hg : Grows g g2) (hb : Basic g)
    (hl : ∀ s ∈ l, s < g.nodeLength.length) : Content g2 seq l := by
  intro s hs es ls p c hoff hlen hp hc
  have hs1 := hl s hs
  rw [storedBase_mono hg hb hs1]
  have ho1 : g.nodeOffset[s]? = some es := by
    have hs2 : s < g.nodeOffset.length := by rw [hb.off]; exact hs1
    have := hg.off.getElem? (List.getElem?_eq_getElem hs2)
    rw [hoff] at this
    rw [List.getElem?_eq_getElem hs2, ← Option.some.inj this]
  have hl1 : g.nodeLength[s]? = some ls := by
    have := hg.len.getElem? (List.getElem?_eq_getElem hs1)
    rw [hlen] at this
    rw [List.getElem?_eq_getElem hs1, ← Option.some.inj this]
  exact h s hs es ls p c ho1 hl1 hp hc

/-- The state of `AddNode` for the new original node `id0` with sequence `seq`, when the
offsets below `e` have been split: `g0` is the graph before the first stride. -/
structure Progress (g0 g : AlignmentGraph) (id0 : Int) (seq : List Char) (e : Nat) : Prop where
  basic : Basic g
  grows : Grows g0 g
  others : ∀ id, id ≠ id0 → g.nodeLookup.lookup id = g0.nodeLookup.lookup id
  sizes : g.originalNodeSize = g0.originalNodeSize
  cur : (e = 0 ∧ g.nodeLookup.lookup id0 = none) ∨
    (∃ l, g.nodeLookup.lookup id0 = some l ∧ Tiles g id0 0 l e ∧
      l.getLast? = some (g.nodeLength.length - 1) ∧ 0 < g.nodeLength.length ∧ 0 < e ∧
      Content g seq l ∧ Flags g seq l)

theorem intOffset_eq {o : Nat} (h : o % 2 ^ 64 = intOffset o) (ho : o < 2 ^ 31 + 64) :
    intOffset o = o ∧ o < 2 ^ 31 := by
  unfold intOffset at h ⊢
  have h1 : o % 2 ^ 64 = o := Nat.mod_eq_of_lt (by omega)
  have h2 : o % 2 ^ 32 = o := Nat.mod_eq_of_lt (by omega)
  rw [h1, h2] at h
  rw [h2]
  split at h
  · rename_i hlt
    exact ⟨by rw [if_pos hlt], hlt⟩
  · omega

theorem intOffset_zero : intOffset 0 = 0 := by decide

theorem getElem?_length_append {α : Type} (l : List α) (x : α) :
    (l ++ [x])[l.length]? = some x := by
  rw [List.getElem?_append_right (Nat.le_refl _)]
  simp

theorem appendSplit_vertex {g : AlignmentGraph} (hb : Basic g) (nodeId : Int) {off len : Nat}
    (rev : Bool) (enc : EncodeState) (h1 : 1 ≤ len) (h2 : len ≤ 64) (h3 : off < 2 ^ 31) :
    VertexAt (appendSplit g nodeId off len rev enc) nodeId g.nodeLength.length off len := by
  refine ⟨?_, ?_, ?_, h1, h2, h3⟩
  · simp only [appendSplit]
    rw [← hb.off]
    exact getElem?_length_append _ _
  · simp only [appendSplit]
    exact getElem?_length_append _ _
  · simp only [appendSplit]
    rw [← hb.ids]
    exact getElem?_length_append _ _

theorem appendSplit_stored {g : AlignmentGraph} (hb : Basic g) (nodeId : Int) (off len : Nat)
    (rev : Bool) (enc : EncodeState) (p : Nat) :
    storedBase (appendSplit g nodeId off len rev enc) g.nodeLength.length p =
      if enc.ambiguous then decodeMasks enc.ambiguousSeq p else decodeChunks enc.normalSeq p := by
  have hamb : (g.ambiguousNodes ++ [enc.ambiguous])[g.nodeLength.length]? =
      some enc.ambiguous := by
    rw [← hb.amb]
    exact getElem?_length_append _ _
  have htake : (g.ambiguousNodes ++ [enc.ambiguous]).take g.nodeLength.length =
      g.ambiguousNodes := by
    rw [← hb.amb]
    simp
  simp only [storedBase, appendSplit, hamb, htake]
  cases hflag : enc.ambiguous with
  | false =>
    simp only [Bool.false_eq_true, if_false]
    rw [← hb.seqs, getElem?_length_append]
    rfl
  | true =>
    simp only [if_true]
    rw [← hb.aseqs, getElem?_length_append]
    rfl

theorem storedBase_linkLast (g : AlignmentGraph) (s p : Nat) :
    storedBase (linkLast g) s p = storedBase g s p := rfl

theorem linkLast_linked {g : AlignmentGraph} (h : 2 ≤ g.outNeighbors.length) :
    Linked (linkLast g) (g.outNeighbors.length - 2) (g.outNeighbors.length - 1) := by
  refine ⟨g.outNeighbors.getD (g.outNeighbors.length - 2) [] ++ [g.outNeighbors.length - 1],
    ?_, by simp⟩
  simp only [linkLast]
  have hlt : g.outNeighbors.length - 2 < g.outNeighbors.length := by omega
  rw [List.getElem?_set]
  simp only [if_true, hlt]

theorem piece_getElem? (seq : List Char) (o size p : Nat) (hp : p < size) :
    ((seq.drop o).take size)[p]? = seq[o + p]? := by
  rw [List.getElem?_take_of_lt hp, List.getElem?_drop]

theorem addStride_progress {g0 g g2 : AlignmentGraph} {id0 : Int} {seq : List Char} {rev : Bool}
    {o size bpEnd : Nat} (hp : Progress g0 g id0 seq o) (ho : o < bpEnd)
    (hend : bpEnd ≤ seq.length)
    (hsize : size = if bpEnd - o < SPLIT_NODE_SIZE then bpEnd - o else SPLIT_NODE_SIZE)
    (h : g.addStride id0 seq rev o size = some g2) :
    Progress g0 g2 id0 seq (o + size) := by
  obtain ⟨enc, hpos, hole, henc, hlen64, hcase⟩ := addStride_eq_some h
  have hsz : size ≤ bpEnd - o ∧ size ≤ 64 := by
    rw [hsize]
    unfold SPLIT_NODE_SIZE
    split <;> omega
  have hplen : ((seq.drop o).take size).length = size := by
    rw [List.length_take, List.length_drop]
    omega
  rw [hplen] at hcase
  obtain ⟨hmasks, hchunks, hambig⟩ := encodeLoop_spec henc hlen64
  -- the flag stored for the new vertex
  have hnewFlag : ∀ (gx : AlignmentGraph),
      gx.ambiguousNodes[g.nodeLength.length]? = some enc.ambiguous →
      (gx.ambiguousNodes[g.nodeLength.length]? = some false →
        ∀ p c, p < size → seq[o + p]? = some c → isDefinite c = true) ∧
      (gx.ambiguousNodes[g.nodeLength.length]? = some true →
        ∃ p c, p < size ∧ seq[o + p]? = some c ∧ isAmbiguityCode c = true) := by
    intro gx hfl
    rw [hfl]
    constructor
    · intro hf p c hp1 hc
      rw [← piece_getElem? seq o size p hp1] at hc
      exact (hchunks (Option.some.inj hf) p c hc).2
    · intro hf
      obtain ⟨c, hc, hcode⟩ := hambig (Option.some.inj hf)
      obtain ⟨p, hpc⟩ := List.mem_iff_getElem?.mp hc
      have hp1 : p < size := by
        rw [← hplen]
        exact (List.getElem?_eq_some.mp hpc).1
      rw [piece_getElem? seq o size p hp1] at hpc
      exact ⟨p, c, hp1, hpc, hcode⟩
  have hflagAt : (appendSplit g id0 (intOffset o) size rev enc).ambiguousNodes[
      g.nodeLength.length]? = some enc.ambiguous := by
    simp only [appendSplit]
    rw [← hp.basic.amb]
    exact getElem?_length_append _ _
  have hb1 := basic_appendSplit hp.basic id0 (intOffset o) size rev enc hpos hsz.2
  have hg1 := grows_appendSplit g id0 (intOffset o) size rev enc
  -- the sequence stored for the new vertex
  have hnew : ∀ p c, p < size → seq[o + p]? = some c →
      storedBase (appendSplit g id0 (intOffset o) size rev enc) g.nodeLength.length p =
        some (canonical c) := by
    intro p c hp1 hc
    rw [appendSplit_stored hp.basic]
    rw [← piece_getElem? seq o size p hp1] at hc
    cases hflag : enc.ambiguous with
    | false => simpa using (hchunks hflag p c hc).1
    | true => simpa using hmasks p c hc
  rcases hcase with ⟨ho0, rfl⟩ | ⟨hopos, ⟨offPrev, lenPrev, hoP, hlP, _, hout, _, hsum⟩, rfl⟩
  · -- the first stride of the node
    subst ho0
    rcases hp.cur with ⟨-, hnone⟩ | ⟨l, -, -, -, -, hbad, -⟩
    swap
    · omega
    have hv := appendSplit_vertex hp.basic id0 rev enc hpos hsz.2
      (show intOffset 0 < 2 ^ 31 by rw [intOffset_zero]; norm_num)
    rw [intOffset_zero] at hv hnew hb1 hg1 ⊢
    refine ⟨hb1, hp.grows.grows_trans hg1, ?_, ?_, ?_⟩
    · intro id hid
      simp only [appendSplit]
      rw [lookup_mapPushBack_ne _ _ hid]
      exact hp.others id hid
    · simp only [appendSplit]
      exact hp.sizes
    · right
      refine ⟨[g.nodeLength.length], ?_, ?_, ?_, ?_, by omega, ?_, ?_⟩
      · simp only [appendSplit]
        rw [lookup_mapPushBack_self, hnone]
        rfl
      · exact Tiles.cons hv (by simp) (Tiles.nil (0 + size))
      · simp [appendSplit]
      · simp [appendSplit]
      · intro s hs es ls p c hoff hlen hp1 hc
        simp only [List.mem_singleton] at hs
        subst hs
        rw [hv.offEq] at hoff
        rw [hv.lenEq] at hlen
        cases Option.some.inj hoff
        cases Option.some.inj hlen
        exact hnew p c hp1 hc
      · intro s hs es ls hoff hlen
        simp only [List.mem_singleton] at hs
        subst hs
        rw [hv.offEq] at hoff
        rw [hv.lenEq] at hlen
        cases Option.some.inj hoff
        cases Option.some.inj hlen
        have := hnewFlag _ hflagAt
        simpa using this
  · -- a later stride: the previous split is linked to the new one
    rcases hp.cur with ⟨hbad, -⟩ | ⟨l, hl, htiles, hlast, hN, -, hcontent, hflags⟩
    · omega
    obtain ⟨ea, la, hva, hsumo⟩ := htiles.last hlast
    have hoP2 : g.nodeOffset[g.nodeLength.length - 1]? = some offPrev := by
      rw [List.getLast?_eq_getElem?, hp.basic.off] at hoP
      exact hoP
    have hlP2 : g.nodeLength[g.nodeLength.length - 1]? = some lenPrev := by
      rw [List.getLast?_eq_getElem?] at hlP
      exact hlP
    rw [hva.offEq] at hoP2
    rw [hva.lenEq] at hlP2
    cases Option.some.inj hoP2
    cases Option.some.inj hlP2
    rw [hsumo] at hsum
    have hbound : o < 2 ^ 31 + 64 := by
      have := hva.small
      have := hva.bound
      omega
    obtain ⟨hio, hosmall⟩ := intOffset_eq hsum hbound
    rw [hio] at hb1 hg1 hnew hflagAt ⊢
    have hv := appendSplit_vertex hp.basic id0 rev enc hpos hsz.2 hosmall
    have hg2 := grows_linkLast (appendSplit g id0 o size rev enc)
    have hg12 := hg1.grows_trans hg2
    have hlin : ∀ s ∈ l, s < g.nodeLength.length := by
      intro s hs
      obtain ⟨es, ls, hvs, -, -⟩ := htiles.tiles_mem hs
      exact (List.getElem?_eq_some.mp hvs.lenEq).1
    refine ⟨basic_linkLast hb1 (by simp [appendSplit]), hp.grows.grows_trans hg12, ?_, ?_, ?_⟩
    · intro id hid
      simp only [linkLast, appendSplit]
      rw [lookup_mapPushBack_ne _ _ hid]
      exact hp.others id hid
    · simp only [linkLast, appendSplit]
      exact hp.sizes
    · right
      refine ⟨l ++ [g.nodeLength.length], ?_, ?_, ?_, ?_, by omega, ?_, ?_⟩
      · simp only [linkLast, appendSplit]
        rw [lookup_mapPushBack_self, hl]
        rfl
      · refine (htiles.tiles_mono hg12).snoc (hv.vertex_mono hg2) ?_
        intro a ha
        rw [hlast] at ha
        cases Option.some.inj ha
        have hlk := linkLast_linked (g := appendSplit g id0 o size rev enc)
          (by simp only [appendSplit, List.length_append, List.length_singleton]
              rw [hp.basic.out]; omega)
        simp only [appendSplit, List.length_append, List.length_singleton, hp.basic.out,
          Nat.add_sub_cancel] at hlk
        have e1 : g.nodeLength.length + 1 - 2 = g.nodeLength.length - 1 := by omega
        rw [e1] at hlk
        exact hlk
      · simp [linkLast, appendSplit]
      · simp [linkLast, appendSplit]
      · intro s hs
        rcases List.mem_append.mp hs with hs1 | hs1
        · exact (hcontent.content_mono hg12 hp.basic hlin) s hs1
        · simp only [List.mem_singleton] at hs1
          subst hs1
          intro es ls p c hoff hlen hp1 hc
          rw [(hv.vertex_mono hg2).offEq] at hoff
          rw [(hv.vertex_mono hg2).lenEq] at hlen
          cases Option.some.inj hoff
          cases Option.some.inj hlen
          rw [storedBase_linkLast]
          exact hnew p c hp1 hc
      · intro s hs
        rcases List.mem_append.mp hs with hs1 | hs1
        · exact (hflags.flags_mono hg12 hp.basic hlin) s hs1
        · simp only [List.mem_singleton] at hs1
          subst hs1
          intro es ls hoff hlen
          rw [(hv.vertex_mono hg2).offEq] at hoff
          rw [(hv.vertex_mono hg2).lenEq] at hlen
          cases Option.some.inj hoff
          cases Option.some.inj hlen
          exact hnewFlag (linkLast (appendSplit g id0 o size rev enc)) hflagAt

/-! ## The loops of `AddNode` -/

open AlignmentGraph

theorem strideLoop_progress {g0 : AlignmentGraph} {id0 : Int} {seq : List Char} {rev : Bool}
    {bpEnd : Nat} (hend : bpEnd ≤ seq.length) :
    ∀ (fuel o : Nat) (g g2 : AlignmentGraph),
      (o < bpEnd → Progress g0 g id0 seq o) → (bpEnd ≤ o → Progress g0 g id0 seq bpEnd) →
      strideLoop id0 seq rev bpEnd fuel o g = some g2 → Progress g0 g2 id0 seq bpEnd
  | 0, o, g, g2, _, h2, h => by
    simp only [strideLoop] at h
    split at h
    · simp at h
    · cases Option.some.inj h
      exact h2 (by omega)
  | fuel + 1, o, g, g2, h1, h2, h => by
    simp only [strideLoop] at h
    split at h
    · rename_i hlt
      simp only [bind_eq_optionBind] at h
      obtain ⟨g1, hg1, h⟩ := Option.bind_eq_some.mp h
      have hp1 := addStride_progress (h1 hlt) hlt hend rfl hg1
      refine strideLoop_progress hend fuel (o + SPLIT_NODE_SIZE) g1 g2 ?_ ?_ h
      · intro hlt2
        have e : (if bpEnd - o < SPLIT_NODE_SIZE then bpEnd - o else SPLIT_NODE_SIZE) =
            SPLIT_NODE_SIZE := by
          rw [if_neg]
          omega
        rw [e] at hp1
        exact hp1
      · intro hge
        have e : o + (if bpEnd - o < SPLIT_NODE_SIZE then bpEnd - o else SPLIT_NODE_SIZE) =
            bpEnd := by
          split <;> omega
        rw [e] at hp1
        exact hp1
    · cases Option.some.inj h
      exact h2 (by omega)

theorem breakpointLoop_sorted {id0 : Int} {seq : List Char} {rev : Bool} :
    ∀ (bps : List Nat) (g g2 : AlignmentGraph),
      breakpointLoop id0 seq rev bps g = some g2 → List.Chain' (fun a b => a ≤ b) bps
  | [], _, _, _ => List.chain'_nil
  | [_], _, _, _ => List.chain'_singleton _
  | bpPrev :: bpCur :: rest, g, g2, h => by
    simp only [breakpointLoop] at h
    split at h
    · rename_i heq
      exact List.Chain'.cons (by omega) (breakpointLoop_sorted _ _ _ h)
    · simp only [bind_eq_optionBind] at h
      obtain ⟨_, hgt, h⟩ := Option.bind_eq_some.mp h
      obtain ⟨g1, _, h⟩ := Option.bind_eq_some.mp h
      simp only [assert_eq_some, decide_eq_true_eq] at hgt
      exact List.Chain'.cons (by omega) (breakpointLoop_sorted _ _ _ h)

theorem le_last_of_sorted : ∀ (l : List Nat) (n : Nat), List.Chain' (fun a b => a ≤ b) l →
    l.getLast? = some n → ∀ b ∈ l, b ≤ n
  | [], _, _, h, _, _ => by simp at h
  | [a], n, _, h, b, hb => by
    simp only [List.getLast?_singleton, Option.some.injEq] at h
    simp only [List.mem_singleton] at hb
    omega
  | a :: c :: rest, n, hc, h, b, hb => by
    rw [List.getLast?_cons_cons] at h
    have hc2 := List.chain'_cons.mp hc
    have ih := le_last_of_sorted (c :: rest) n hc2.2 h
    rcases List.mem_cons.mp hb with rfl | hb
    · have := ih c (by simp)
      omega
    · exact ih b hb

theorem breakpointLoop_progress {g0 : AlignmentGraph} {id0 : Int} {seq : List Char}
    {rev : Bool} :
    ∀ (bps : List Nat) (g g2 : AlignmentGraph) (b0 : Nat), (∀ b ∈ bps, b ≤ seq.length) →
      bps.head? = some b0 → Progress g0 g id0 seq b0 →
      breakpointLoop id0 seq rev bps g = some g2 →
      ∃ bl, bps.getLast? = some bl ∧ Progress g0 g2 id0 seq bl
  | [], _, _, _, _, h, _, _ => by simp at h
  | [b], g, g2, b0, _, hhead, hp, h => by
    simp only [breakpointLoop, Option.some.injEq] at h
    simp only [List.head?_cons, Option.some.injEq] at hhead
    subst h hhead
    exact ⟨b, by simp, hp⟩
  | bpPrev :: bpCur :: rest, g, g2, b0, hle, hhead, hp, h => by
    simp only [List.head?_cons, Option.some.injEq] at hhead
    subst hhead
    have hle2 : ∀ b ∈ bpCur :: rest, b ≤ seq.length := fun b hb => hle b (by simp [hb])
    simp only [breakpointLoop] at h
    rw [List.getLast?_cons_cons]
    split at h
    · rename_i heq
      subst heq
      exact breakpointLoop_progress (bpCur :: rest) g g2 bpCur hle2 (by simp) hp h
    · simp only [bind_eq_optionBind] at h
      obtain ⟨_, hgt, h⟩ := Option.bind_eq_some.mp h
      obtain ⟨g1, hg1, h⟩ := Option.bind_eq_some.mp h
      simp only [assert_eq_some, decide_eq_true_eq] at hgt
      have hp1 := strideLoop_progress (hle bpCur (by simp)) (bpCur - bpPrev) bpPrev g g1
        (fun _ => hp) (fun hge => by omega) hg1
      exact breakpointLoop_progress (bpCur :: rest) g1 g2 bpCur hle2 (by simp) hp1 h

/-! ## The invariant of a graph under construction -/

/-- The invariant of a graph under construction: the table sizes agree and every entry of
`nodeLookup` tiles its original node, from offset 0 up to the recorded original size. -/
structure Built (g : AlignmentGraph) : Prop where
  basic : Basic g
  tiles : ∀ id l, g.nodeLookup.lookup id = some l →
    l ≠ [] ∧ g.originalNodeSize.lookup id ≠ none ∧
    ∀ size, g.originalNodeSize.lookup id = some size → Tiles g id 0 l size

/-- No entry of `nodeLookup` of `g` is changed in `g2`. -/
def Keeps (g g2 : AlignmentGraph) : Prop :=
  ∀ id l, g.nodeLookup.lookup id = some l → g2.nodeLookup.lookup id = some l

theorem built_empty : Built AlignmentGraph.empty := by
  refine ⟨⟨rfl, rfl, rfl, rfl, rfl, rfl, rfl, rfl, rfl, rfl, rfl, rfl, ?_, ?_, ?_⟩, ?_⟩
  · intro u l h
    simp [AlignmentGraph.empty] at h
  · refine ⟨fun u v => ?_, fun u => ?_, fun v => ?_⟩ <;> simp [AlignmentGraph.empty]
  · intro v len h
    simp [AlignmentGraph.empty] at h
  intro id l h
  simp [AlignmentGraph.empty] at h

/-- What `AddNode` does for an original id that is not in `nodeLookup` yet. -/
theorem AddNode_fresh_all {g g2 : AlignmentGraph} {id0 : Int} {seq : List Char} {name : String}
    {rev : Bool} {bps : List Nat} (hb : Built g) (hfresh : g.nodeLookup.lookup id0 = none)
    (h : g.AddNode id0 seq name rev bps = some g2) :
    Built g2 ∧ Grows g g2 ∧ Keeps g g2 ∧
    (∀ l, g2.nodeLookup.lookup id0 = some l → Content g2 seq l) ∧
    (seq ≠ [] → g2.nodeLookup.lookup id0 ≠ none) ∧
    g2.originalNodeSize.lookup id0 = some seq.length ∧
    (∀ l, g2.nodeLookup.lookup id0 = some l → Flags g2 seq l) := by
  simp only [AlignmentGraph.AddNode, bind_eq_optionBind, hfresh, Option.isSome_none,
    Bool.false_eq_true, if_false] at h
  obtain ⟨_, _, h⟩ := Option.bind_eq_some.mp h
  obtain ⟨_, _, h⟩ := Option.bind_eq_some.mp h
  obtain ⟨_, hlen2, h⟩ := Option.bind_eq_some.mp h
  obtain ⟨_, hfirst, h⟩ := Option.bind_eq_some.mp h
  obtain ⟨_, hlast, h⟩ := Option.bind_eq_some.mp h
  simp only [assert_eq_some, decide_eq_true_eq] at hlen2 hfirst hlast
  have hsorted := breakpointLoop_sorted _ _ _ h
  have hle := le_last_of_sorted bps seq.length hsorted hlast
  have hhead : bps.head? = some 0 := by
    cases bps with
    | nil => simp at hfirst
    | cons b rest => simpa using hfirst
  -- the graph before the first stride
  have hb1 : Basic { g with
      originalNodeSize := mapAssign g.originalNodeSize id0 seq.length
      originalNodeName := mapAssign g.originalNodeName id0 name } := by
    obtain ⟨h1, h2, h3, h4, h5, h6, h7, h8, h9, h10, h11, h12, h13, h14, h15⟩ := hb.basic
    exact ⟨h1, h2, h3, h4, h5, h6, h7, h8, h9, h10, h11, h12, h13,
      ⟨h14.mirror, h14.nodupOut, h14.nodupIn⟩, h15⟩
  have hg1 : Grows g { g with
      originalNodeSize := mapAssign g.originalNodeSize id0 seq.length
      originalNodeName := mapAssign g.originalNodeName id0 name } := by
    refine ⟨ListExt.ext_refl _, ListExt.ext_refl _, ListExt.ext_refl _, ListExt.ext_refl _, ListExt.ext_refl _,
      ListExt.ext_refl _, ListExt.ext_refl _, fun _ outs h => ⟨outs, h, ListExt.ext_refl _⟩,
      fun _ ins h => ⟨ins, h, ListExt.ext_refl _⟩, ?_, fun _ l h => ⟨l, h, ListExt.ext_refl _⟩⟩
    intro id l v hl hv
    have hne : id ≠ id0 := by
      rintro rfl
      rw [hfresh] at hl
      simp at hl
    simp only
    rw [lookup_mapAssign_ne _ _ hne]
    exact hv
  have hp0 : Progress _ { g with
      originalNodeSize := mapAssign g.originalNodeSize id0 seq.length
      originalNodeName := mapAssign g.originalNodeName id0 name } id0 seq 0 :=
    ⟨hb1, Grows.grows_refl _, fun _ _ => rfl, rfl, Or.inl ⟨rfl, hfresh⟩⟩
  obtain ⟨bl, hbl, hp⟩ := breakpointLoop_progress bps _ g2 0 hle hhead hp0 h
  rw [hlast] at hbl
  cases Option.some.inj hbl
  have hgrows : Grows g g2 := hg1.grows_trans hp.grows
  have hkeeps : Keeps g g2 := by
    intro id l hl
    have hne : id ≠ id0 := by
      rintro rfl
      rw [hfresh] at hl
      simp at hl
    rw [hp.others id hne]
    exact hl
  have hsize : g2.originalNodeSize.lookup id0 = some seq.length := by
    rw [hp.sizes]
    exact lookup_mapAssign_self _ _ _
  refine ⟨⟨hp.basic, ?_⟩, hgrows, hkeeps, ?_, ?_, hsize, ?_⟩
  · intro id l hl
    by_cases hid : id = id0
    · subst hid
      rcases hp.cur with ⟨_, hnone⟩ | ⟨l2, hl2, htiles, hlast2, _, _, _⟩
      · rw [hnone] at hl
        simp at hl
      · rw [hl2] at hl
        cases Option.some.inj hl
        refine ⟨?_, by rw [hsize]; simp, ?_⟩
        · rintro rfl
          simp at hlast2
        · intro size hs
          rw [hsize] at hs
          cases Option.some.inj hs
          exact htiles
    · have hl0 : g.nodeLookup.lookup id = some l := by
        rw [← hp.others id hid]
        exact hl
      obtain ⟨hne, hsome, ht⟩ := hb.tiles id l hl0
      obtain ⟨size, hsz⟩ := Option.ne_none_iff_exists'.mp hsome
      have hsz2 := hgrows.sizes id l size hl0 hsz
      refine ⟨hne, by rw [hsz2]; simp, ?_⟩
      intro size2 hs2
      rw [hsz2] at hs2
      cases Option.some.inj hs2
      exact (ht size hsz).tiles_mono hgrows
  · intro l hl
    rcases hp.cur with ⟨_, hnone⟩ | ⟨l2, hl2, _, _, _, _, hcontent, _⟩
    · rw [hnone] at hl
      simp at hl
    · rw [hl2] at hl
      cases Option.some.inj hl
      exact hcontent
  · intro hseq
    rcases hp.cur with ⟨hzero, _⟩ | ⟨l2, hl2, _⟩
    · exfalso
      exact hseq (List.length_eq_zero.mp hzero)
    · rw [hl2]
      simp
  · intro l hl
    rcases hp.cur with ⟨_, hnone⟩ | ⟨l2, hl2, _, _, _, _, _, hflags⟩
    · rw [hnone] at hl
      simp at hl
    · rw [hl2] at hl
      cases Option.some.inj hl
      exact hflags

theorem AddNode_fresh {g g2 : AlignmentGraph} {id0 : Int} {seq : List Char} {name : String}
    {rev : Bool} {bps : List Nat} (hb : Built g) (hfresh : g.nodeLookup.lookup id0 = none)
    (h : g.AddNode id0 seq name rev bps = some g2) :
    Built g2 ∧ Grows g g2 ∧ Keeps g g2 ∧
    (∀ l, g2.nodeLookup.lookup id0 = some l → Content g2 seq l) ∧
    (seq ≠ [] → g2.nodeLookup.lookup id0 ≠ none) ∧
    g2.originalNodeSize.lookup id0 = some seq.length := by
  obtain ⟨h1, h2, h3, h4, h5, h6, -⟩ := AddNode_fresh_all hb hfresh h
  exact ⟨h1, h2, h3, h4, h5, h6⟩

theorem AddNode_present {g g2 : AlignmentGraph} {id0 : Int} {seq : List Char} {name : String}
    {rev : Bool} {bps : List Nat} {l : List Nat} (hl : g.nodeLookup.lookup id0 = some l)
    (h : g.AddNode id0 seq name rev bps = some g2) : g2 = g := by
  simp only [AlignmentGraph.AddNode, bind_eq_optionBind, hl, Option.isSome_some, if_true] at h
  obtain ⟨_, _, h⟩ := Option.bind_eq_some.mp h
  obtain ⟨_, _, h⟩ := Option.bind_eq_some.mp h
  exact (Option.some.inj h).symm

theorem getElem?_set_snoc {vec : List (List Nat)} {i a x : Nat} {l li : List Nat}
    (hi : vec[i]? = some li) (h : vec[a]? = some l) :
    ∃ l2, (vec.set i (li ++ [x]))[a]? = some l2 ∧ ListExt l l2 := by
  have := getElem?_set_ext (i := i) (x := x) h
  simpa [List.getD_eq_getElem?_getD, hi] using this

theorem AddEdgeNodeId_built {g g2 : AlignmentGraph} {a b : Int} {startOffset : Nat}
    (hb : Built g) (h : g.AddEdgeNodeId a b startOffset = some g2) :
    Built g2 ∧ Grows g g2 ∧ Keeps g g2 := by
  simp only [AlignmentGraph.AddEdgeNodeId, bind_eq_optionBind] at h
  obtain ⟨_, _, h⟩ := Option.bind_eq_some.mp h
  obtain ⟨_, _, h⟩ := Option.bind_eq_some.mp h
  obtain ⟨_, _, h⟩ := Option.bind_eq_some.mp h
  obtain ⟨_, _, h⟩ := Option.bind_eq_some.mp h
  obtain ⟨fromSplits, hfrom, h⟩ := Option.bind_eq_some.mp h
  obtain ⟨src, hsrc, h⟩ := Option.bind_eq_some.mp h
  obtain ⟨offFrom, hoffFrom, h⟩ := Option.bind_eq_some.mp h
  obtain ⟨lenFrom, hlenFrom, h⟩ := Option.bind_eq_some.mp h
  obtain ⟨_, _, h⟩ := Option.bind_eq_some.mp h
  obtain ⟨toSplits, hto, h⟩ := Option.bind_eq_some.mp h
  obtain ⟨dst, hdst, h⟩ := Option.bind_eq_some.mp h
  obtain ⟨_, _, h⟩ := Option.bind_eq_some.mp h
  obtain ⟨insTo, hinsTo, h⟩ := Option.bind_eq_some.mp h
  obtain ⟨outsFrom, houtsFrom, h⟩ := Option.bind_eq_some.mp h
  cases Option.some.inj h
  have hgrows : Grows g
      { g with
        originalNodeSize := (mapIndex g.originalNodeSize a).2
        inNeighbors := if src ∈ insTo then g.inNeighbors
          else g.inNeighbors.set dst (insTo ++ [src])
        outNeighbors := if dst ∈ outsFrom then g.outNeighbors
          else g.outNeighbors.set src (outsFrom ++ [dst]) } := by
    refine ⟨ListExt.ext_refl _, ListExt.ext_refl _, ListExt.ext_refl _, ListExt.ext_refl _, ListExt.ext_refl _,
      ListExt.ext_refl _, ListExt.ext_refl _, ?_, ?_, ?_, fun _ l h => ⟨l, h, ListExt.ext_refl _⟩⟩
    · intro v outs hv
      simp only
      split
      · exact ⟨outs, hv, ListExt.ext_refl _⟩
      · exact getElem?_set_snoc houtsFrom hv
    · intro v ins hv
      simp only
      split
      · exact ⟨ins, hv, ListExt.ext_refl _⟩
      · exact getElem?_set_snoc hinsTo hv
    · intro id l v _ hv
      exact mapIndex_lookup a hv
  refine ⟨⟨?_, ?_⟩, hgrows, fun _ _ hl => hl⟩
  · obtain ⟨h1, h2, h3, h4, h5, h6, h7, h8, h9, h10, h11, h12, h13, h14, h15⟩ := hb.basic
    have hoD : g.outNeighbors.getD src [] = outsFrom := getD_of_getElem? houtsFrom
    have hiD : g.inNeighbors.getD dst [] = insTo := getD_of_getElem? hinsTo
    have hnbrs : Neighbors
        { g with
          originalNodeSize := (mapIndex g.originalNodeSize a).2
          inNeighbors := if src ∈ insTo then g.inNeighbors
            else g.inNeighbors.set dst (insTo ++ [src])
          outNeighbors := if dst ∈ outsFrom then g.outNeighbors
            else g.outNeighbors.set src (outsFrom ++ [dst]) } := by
      have hiff : dst ∈ outsFrom ↔ src ∈ insTo := by
        rw [← hoD, ← hiD]
        exact h14.mirror src dst
      by_cases hmem : dst ∈ outsFrom
      · simp only [if_pos hmem, if_pos (hiff.mp hmem)]
        exact ⟨h14.mirror, h14.nodupOut, h14.nodupIn⟩
      · simp only [if_neg hmem, if_neg (fun e => hmem (hiff.mpr e))]
        have hall := neighbors_snoc (List.getElem?_eq_some.mp houtsFrom).1
          (List.getElem?_eq_some.mp hinsTo).1 h14.mirror h14.nodupOut h14.nodupIn
          (by rw [hoD]; exact hmem)
        rw [hoD, hiD] at hall
        exact ⟨hall.1, hall.2.1, hall.2.2⟩
    refine ⟨h1, h2, ?_, ?_, h5, h6, h7, h8, h9, h10, h11, h12, ?_, hnbrs, h15⟩
    · simp only
      split <;> simp [h3]
    · simp only
      split <;> simp [h4]
    · intro u l hu w hw
      simp only at hu ⊢
      split at hu
      · exact h13 u l hu w hw
      · rw [List.getElem?_set] at hu
        split at hu
        · split at hu
          · cases Option.some.inj hu
            rcases List.mem_append.mp hw with hw | hw
            · exact h13 _ _ houtsFrom w hw
            · simp only [List.mem_singleton] at hw
              rw [hw, ← h3]
              exact (List.getElem?_eq_some.mp hinsTo).1
          · cases hu
        · exact h13 u l hu w hw
  · intro id l hl
    obtain ⟨hne, hsome, ht⟩ := hb.tiles id l hl
    obtain ⟨size, hsz⟩ := Option.ne_none_iff_exists'.mp hsome
    have hsz2 := hgrows.sizes id l size hl hsz
    refine ⟨hne, by rw [hsz2]; simp, ?_⟩
    intro size2 hs2
    rw [hsz2] at hs2
    cases Option.some.inj hs2
    exact (ht size hsz).tiles_mono hgrows

theorem run_built {g g2 : AlignmentGraph} {c : BuildCall} (hb : Built g)
    (h : c.run g = some g2) : Built g2 ∧ Grows g g2 ∧ Keeps g g2 := by
  cases c with
  | addNode nodeId sequence name reverseNode breakpoints =>
    simp only [BuildCall.run] at h
    cases hl : g.nodeLookup.lookup nodeId with
    | none =>
      obtain ⟨h1, h2, h3, -⟩ := AddNode_fresh hb hl h
      exact ⟨h1, h2, h3⟩
    | some l =>
      cases AddNode_present hl h
      exact ⟨hb, Grows.grows_refl g, fun _ _ h => h⟩
  | addEdge a b startOffset =>
    exact AddEdgeNodeId_built hb h

theorem runCalls_built : ∀ (calls : List BuildCall) (g g2 : AlignmentGraph), Built g →
    runCalls calls g = some g2 → Built g2 ∧ Grows g g2 ∧ Keeps g g2
  | [], g, g2, hb, h => by
    cases Option.some.inj h
    exact ⟨hb, Grows.grows_refl g, fun _ _ h => h⟩
  | c :: rest, g, g2, hb, h => by
    simp only [runCalls, bind_eq_optionBind] at h
    obtain ⟨g1, hg1, h⟩ := Option.bind_eq_some.mp h
    obtain ⟨hb1, hgr1, hk1⟩ := run_built hb hg1
    obtain ⟨hb2, hgr2, hk2⟩ := runCalls_built rest g1 g2 hb1 h
    exact ⟨hb2, hgr1.grows_trans hgr2, fun id l hl => hk2 id l (hk1 id l hl)⟩

theorem build_built {calls : List BuildCall} {g : AlignmentGraph} (h : build calls = some g) :
    Built g :=
  (runCalls_built calls _ g built_empty h).1

open AlignmentGraph

/-! ## The renumbering computed by `RenumberAmbiguousToEnd` -/

/-- The new index of vertex `i` when `flags` is `ambiguousNodes` and `total` its size: definite
vertices keep their order at the front, ambiguous ones are placed from the back. -/
def newIndex (total : Nat) (flags : List Bool) (i : Nat) : Nat :=
  if flags.getD i false then total - 1 - (flags.take i).count true
  else (flags.take i).count false

theorem count_false_add_count_true : ∀ (l : List Bool), l.count false + l.count true = l.length
  | [] => rfl
  | b :: rest => by
    have := count_false_add_count_true rest
    cases b <;> simp [List.count_cons] <;> omega

theorem newIndex_snoc_lt {total : Nat} {pre : List Bool} (b : Bool) {i : Nat}
    (hi : i < pre.length) : newIndex total (pre ++ [b]) i = newIndex total pre i := by
  unfold newIndex
  rw [List.getD_eq_getElem?_getD, List.getD_eq_getElem?_getD, List.getElem?_append_left hi,
    List.take_append_of_le_length (Nat.le_of_lt hi)]

theorem newIndex_snoc_eq (total : Nat) (pre : List Bool) (b : Bool) :
    newIndex total (pre ++ [b]) pre.length =
      if b then total - 1 - pre.count true else pre.count false := by
  unfold newIndex
  rw [List.getD_eq_getElem?_getD, getElem?_length_append]
  simp

/-- The state of the loop that builds `renumbering`, after the flags `pre`. -/
structure RenumberInv (total : Nat) (pre : List Bool) (st : RenumberState) : Prop where
  nonAmb : st.nonAmbiguousCount = pre.count false
  amb : st.ambiguousCount = pre.count true
  len : st.renumbering.length = pre.length
  val : ∀ i, i < pre.length → st.renumbering[i]? = some (newIndex total pre i)

theorem renumberInv_snoc {total : Nat} {pre : List Bool} {st : RenumberState} (b : Bool)
    (h : RenumberInv total pre st) :
    RenumberInv total (pre ++ [b])
      (if b then { st with renumbering := st.renumbering ++ [total - 1 - st.ambiguousCount]
                           ambiguousCount := st.ambiguousCount + 1 }
       else { st with renumbering := st.renumbering ++ [st.nonAmbiguousCount]
                      nonAmbiguousCount := st.nonAmbiguousCount + 1 }) := by
  obtain ⟨h1, h2, h3, h4⟩ := h
  cases b with
  | false =>
    refine ⟨by simp [h1], by simp [h2], by simp [h3], ?_⟩
    intro i hi
    simp only [List.length_append, List.length_singleton] at hi
    by_cases hlt : i < pre.length
    · simp only [Bool.false_eq_true, if_false]
      rw [List.getElem?_append_left (by omega), newIndex_snoc_lt _ hlt]
      exact h4 i hlt
    · have : i = pre.length := by omega
      subst this
      simp only [Bool.false_eq_true, if_false]
      rw [newIndex_snoc_eq, ← h3, getElem?_length_append, h1]
      simp
  | true =>
    refine ⟨by simp [h1], by simp [h2], by simp [h3], ?_⟩
    intro i hi
    simp only [List.length_append, List.length_singleton] at hi
    by_cases hlt : i < pre.length
    · simp only [if_true]
      rw [List.getElem?_append_left (by omega), newIndex_snoc_lt _ hlt]
      exact h4 i hlt
    · have : i = pre.length := by omega
      subst this
      simp only [if_true]
      rw [newIndex_snoc_eq, ← h3, getElem?_length_append, h2]
      simp

theorem renumberingLoop_inv {total : Nat} : ∀ (rest pre : List Bool) (st st2 : RenumberState),
    RenumberInv total pre st → renumberingLoop total rest st = some st2 →
    RenumberInv total (pre ++ rest) st2
  | [], pre, st, st2, hinv, h => by
    simp only [renumberingLoop, Option.some.injEq] at h
    subst h
    simpa using hinv
  | false :: rest, pre, st, st2, hinv, h => by
    simp only [renumberingLoop] at h
    have := renumberingLoop_inv rest (pre ++ [false]) _ st2 (renumberInv_snoc false hinv) h
    simpa using this
  | true :: rest, pre, st, st2, hinv, h => by
    simp only [renumberingLoop, bind_eq_optionBind] at h
    obtain ⟨_, _, h⟩ := Option.bind_eq_some.mp h
    obtain ⟨_, _, h⟩ := Option.bind_eq_some.mp h
    have := renumberingLoop_inv rest (pre ++ [true]) _ st2 (renumberInv_snoc true hinv) h
    simpa using this

theorem renumberingLoop_spec {flags : List Bool} {st : RenumberState}
    (h : renumberingLoop flags.length flags ⟨[], 0, 0⟩ = some st) :
    RenumberInv flags.length flags st := by
  have := renumberingLoop_inv flags [] ⟨[], 0, 0⟩ st ⟨rfl, rfl, rfl, by simp⟩ h
  simpa using this

theorem count_take_lt_take {b : Bool} {l : List Bool} {i j : Nat} (hij : i < j)
    (hb : l[i]? = some b) : (l.take i).count b < (l.take j).count b := by
  have h1 : (l.take j)[i]? = some b := by
    rw [List.getElem?_take_of_lt hij]
    exact hb
  have := count_take_lt h1
  rw [List.take_take, Nat.min_eq_left (Nat.le_of_lt hij)] at this
  exact this

theorem newIndex_lt {flags : List Bool} {i : Nat} (hi : i < flags.length) :
    newIndex flags.length flags i < flags.length := by
  unfold newIndex
  have hsum := count_false_add_count_true flags
  have hget : flags[i]? = some flags[i] := List.getElem?_eq_getElem hi
  rw [List.getD_eq_getElem?_getD, hget]
  cases hb : flags[i] with
  | false =>
    rw [hb] at hget
    have := count_take_lt hget
    simp only [Option.getD_some, Bool.false_eq_true, if_false]
    omega
  | true =>
    simp only [Option.getD_some, if_true]
    omega

theorem newIndex_injective {flags : List Bool} {i j : Nat} (hi : i < flags.length)
    (hj : j < flags.length) (hij : i < j) :
    newIndex flags.length flags i ≠ newIndex flags.length flags j := by
  unfold newIndex
  have hsum := count_false_add_count_true flags
  have hgi : flags[i]? = some flags[i] := List.getElem?_eq_getElem hi
  have hgj : flags[j]? = some flags[j] := List.getElem?_eq_getElem hj
  rw [List.getD_eq_getElem?_getD, List.getD_eq_getElem?_getD, hgi, hgj]
  simp only [Option.getD_some]
  cases hbi : flags[i] <;> cases hbj : flags[j] <;> rw [hbi] at hgi <;> rw [hbj] at hgj <;>
    simp only [Bool.false_eq_true, if_false, if_true]
  · have := count_take_lt_take hij hgi
    omega
  · have h1 := count_take_lt hgi
    have h2 := count_take_lt hgj
    omega
  · have h1 := count_take_lt hgi
    have h2 := count_take_lt hgj
    omega
  · have := count_take_lt_take hij hgi
    have h2 := count_take_lt hgj
    omega

/-! ## `reorder` and `renumber` -/

theorem reorderLoop_spec {T : Type} : ∀ (xs : List T) (rs : List Nat) (res res2 : List T),
    rs.Nodup → reorderLoop xs rs res = some res2 →
    res2.length = res.length ∧
    (∀ (k : Nat) (x : T), xs[k]? = some x → ∃ r : Nat, rs[k]? = some r ∧ res2[r]? = some x) ∧
    (∀ j : Nat, j ∉ rs → res2[j]? = res[j]?)
  | [], rs, res, res2, _, h => by
    simp only [reorderLoop, Option.some.injEq] at h
    subst h
    exact ⟨rfl, by simp, fun _ _ => rfl⟩
  | x :: xs, [], res, res2, _, h => by simp [reorderLoop] at h
  | x :: xs, r :: rs, res, res2, hnd, h => by
    simp only [reorderLoop, bind_eq_optionBind] at h
    obtain ⟨res1, hres1, h⟩ := Option.bind_eq_some.mp h
    obtain ⟨hr, rfl⟩ := setAt_eq_some.mp hres1
    have hnd2 := List.nodup_cons.mp hnd
    obtain ⟨h1, h2, h3⟩ := reorderLoop_spec xs rs _ res2 hnd2.2 h
    refine ⟨by simpa using h1, ?_, ?_⟩
    · intro k y hk
      cases k with
      | zero =>
        simp only [List.getElem?_cons_zero, Option.some.injEq] at hk
        subst hk
        refine ⟨r, by simp, ?_⟩
        rw [h3 r hnd2.1]
        simp [List.getElem?_set, hr]
      | succ k =>
        simp only [List.getElem?_cons_succ] at hk
        obtain ⟨r2, hr2, hres⟩ := h2 k y hk
        exact ⟨r2, by simpa using hr2, hres⟩
    · intro j hj
      simp only [List.mem_cons, not_or] at hj
      rw [h3 j hj.2, List.getElem?_set_ne (fun e => hj.1 e.symm)]

theorem reorder_spec {T : Type} [Inhabited T] {vec vec2 : List T} {ren : List Nat}
    (hnd : ren.Nodup) (h : reorder vec ren = some vec2) :
    vec2.length = vec.length ∧
    ∀ (k : Nat) (x : T), vec[k]? = some x → ∃ r : Nat, ren[k]? = some r ∧ vec2[r]? = some x := by
  simp only [reorder, bind_eq_optionBind] at h
  obtain ⟨_, _, h⟩ := Option.bind_eq_some.mp h
  obtain ⟨h1, h2, _⟩ := reorderLoop_spec vec ren _ vec2 hnd h
  exact ⟨by simpa using h1, h2⟩

/-- The vertex `x` has the new index `y` under `ren`. -/
def MapsTo (ren : List Nat) (x y : Nat) : Prop := ren[x]? = some y

theorem renumber_spec : ∀ (l ren l2 : List Nat), renumber l ren = some l2 →
    List.Forall₂ (MapsTo ren) l l2
  | [], _, l2, h => by
    simp only [renumber, Option.some.injEq] at h
    subst h
    exact List.Forall₂.nil
  | x :: rest, ren, l2, h => by
    simp only [renumber, bind_eq_optionBind, pure_eq_some] at h
    obtain ⟨y, hy, h⟩ := Option.bind_eq_some.mp h
    obtain ⟨ys, hys, h⟩ := Option.bind_eq_some.mp h
    cases Option.some.inj h
    exact List.Forall₂.cons hy (renumber_spec rest ren ys hys)

theorem renumberLookup_spec : ∀ (m : List (Int × List Nat)) (ren : List Nat)
    (m2 : List (Int × List Nat)), renumberLookup m ren = some m2 →
    (∀ id l, m.lookup id = some l → ∃ l2, m2.lookup id = some l2 ∧ List.Forall₂ (MapsTo ren) l l2)
    ∧ (∀ id l2, m2.lookup id = some l2 →
        ∃ l, m.lookup id = some l ∧ List.Forall₂ (MapsTo ren) l l2)
  | [], _, m2, h => by
    simp only [renumberLookup, Option.some.injEq] at h
    subst h
    simp
  | (k, l) :: rest, ren, m2, h => by
    simp only [renumberLookup, bind_eq_optionBind, pure_eq_some] at h
    obtain ⟨l1, hl1, h⟩ := Option.bind_eq_some.mp h
    obtain ⟨rest1, hrest1, h⟩ := Option.bind_eq_some.mp h
    cases Option.some.inj h
    obtain ⟨ih1, ih2⟩ := renumberLookup_spec rest ren rest1 hrest1
    constructor
    · intro id l0 hl0
      rw [lookup_cons_eq] at hl0 ⊢
      split at hl0
      · rename_i hid
        cases Option.some.inj hl0
        exact ⟨l1, by simp [hid], renumber_spec _ _ _ hl1⟩
      · rename_i hid
        simp only [hid, if_false]
        exact ih1 id l0 hl0
    · intro id l0 hl0
      rw [lookup_cons_eq] at hl0 ⊢
      split at hl0
      · rename_i hid
        cases Option.some.inj hl0
        exact ⟨l, by simp [hid], renumber_spec _ _ _ hl1⟩
      · rename_i hid
        simp only [hid, if_false]
        exact ih2 id l0 hl0

theorem renumberAll_spec : ∀ (vec : List (List Nat)) (ren : List Nat) (vec2 : List (List Nat)),
    renumberAll vec ren = some vec2 →
    vec2.length = vec.length ∧
    ∀ (k : Nat) (l : List Nat), vec[k]? = some l →
      ∃ l2, vec2[k]? = some l2 ∧ List.Forall₂ (MapsTo ren) l l2
  | [], _, vec2, h => by
    simp only [renumberAll, Option.some.injEq] at h
    subst h
    simp
  | l :: rest, ren, vec2, h => by
    simp only [renumberAll, bind_eq_optionBind, pure_eq_some] at h
    obtain ⟨l1, hl1, h⟩ := Option.bind_eq_some.mp h
    obtain ⟨rest1, hrest1, h⟩ := Option.bind_eq_some.mp h
    cases Option.some.inj h
    obtain ⟨ih1, ih2⟩ := renumberAll_spec rest ren rest1 hrest1
    refine ⟨by simp [ih1], ?_⟩
    intro k l0 hk
    cases k with
    | zero =>
      simp only [List.getElem?_cons_zero, Option.some.injEq] at hk
      subst hk
      exact ⟨l1, by simp, renumber_spec _ _ _ hl1⟩
    | succ k =>
      simp only [List.getElem?_cons_succ] at hk ⊢
      exact ih2 k l0 hk

theorem checkLookup_lookup {nodeOffset nodeLength : List Nat} {nodeIDs : List Int} :
    ∀ (m : List (Int × List Nat)) (sizes sizes2 : List (Int × Nat)),
      checkLookup nodeOffset nodeLength nodeIDs m sizes = some sizes2 →
      ∀ id v, sizes.lookup id = some v → sizes2.lookup id = some v
  | [], sizes, sizes2, h, id, v, hv => by
    simp only [checkLookup, Option.some.injEq] at h
    subst h
    exact hv
  | (key, splits) :: rest, sizes, sizes2, h, id, v, hv => by
    simp only [checkLookup, bind_eq_optionBind] at h
    obtain ⟨st, _, h⟩ := Option.bind_eq_some.mp h
    obtain ⟨_, _, h⟩ := Option.bind_eq_some.mp h
    exact checkLookup_lookup rest _ sizes2 h id v (mapIndex_lookup key hv)

/-! ## Reading a base of the finalized graph -/

theorem NodeSequences_definite {g : AlignmentGraph} {v p len : Nat} {chunks : List Nat}
    (hlen : g.nodeLength[v]? = some len) (hp : p < len) (hv : v < g.firstAmbiguous)
    (hc : g.nodeSequences[v]? = some chunks) :
    g.NodeSequences v p = decodeChunks chunks p := by
  have hv2 : v < g.nodeSequences.length := (List.getElem?_eq_some.mp hc).1
  simp only [NodeSequences, bind_eq_optionBind, hlen, Option.some_bind, hp, decide_True,
    assert_true, hv, if_true, hv2, hc, decodeChunks]

theorem decodeAmbiguous_some {A C G T : Bool} {c : Char}
    (h : decodeAmbiguous A C G T = some c) :
    A.toNat + C.toNat + G.toNat + T.toNat ≥ 1 ∧ A.toNat + C.toNat + G.toNat + T.toNat ≤ 4 := by
  cases A <;> cases C <;> cases G <;> cases T <;> simp_all [decodeAmbiguous]

theorem NodeSequences_ambiguous {g : AlignmentGraph} {v p len : Nat}
    {m : AmbiguousChunkSequence} {c : Char}
    (hlen : g.nodeLength[v]? = some len) (hp : p < len) (hp64 : p < 64)
    (hv : ¬ v < g.firstAmbiguous) (hm : g.ambiguousNodeSequences[v - g.firstAmbiguous]? = some m)
    (hc : decodeMasks m p = some c) : g.NodeSequences v p = some c := by
  have hv2 : v - g.firstAmbiguous < g.ambiguousNodeSequences.length :=
    (List.getElem?_eq_some.mp hm).1
  have hv3 : g.firstAmbiguous ≤ v := by omega
  obtain ⟨h1, h2⟩ := decodeAmbiguous_some hc
  simp only [NodeSequences, bind_eq_optionBind, hlen, Option.some_bind, hp, decide_True,
    assert_true, hv, if_false, hv2, hm, ge_iff_le, hv3, hp64, h1, h2]
  exact hc

/-! ## The graph after `RenumberAmbiguousToEnd` -/

/-- The tables of `g2` are those of `g` with every vertex `s` moved to the index `ren[s]`. -/
structure Renumbered (g g2 : AlignmentGraph) (ren : List Nat) : Prop where
  total : g2.nodeLength.length = g.nodeLength.length
  innLen : g2.inNeighbors.length = g.nodeLength.length
  outLen : g2.outNeighbors.length = g.nodeLength.length
  dom : ∀ s, s < g.nodeLength.length → ∃ s2, MapsTo ren s s2
  len : ∀ s s2 x, MapsTo ren s s2 → g.nodeLength[s]? = some x → g2.nodeLength[s2]? = some x
  off : ∀ s s2 x, MapsTo ren s s2 → g.nodeOffset[s]? = some x → g2.nodeOffset[s2]? = some x
  ids : ∀ s s2 x, MapsTo ren s s2 → g.nodeIDs[s]? = some x → g2.nodeIDs[s2]? = some x
  rev : ∀ s s2 x, MapsTo ren s s2 → g.reverse[s]? = some x → g2.reverse[s2]? = some x
  link : ∀ a a2 b b2, MapsTo ren a a2 → MapsTo ren b b2 → Linked g a b → Linked g2 a2 b2
  look : ∀ id l, g.nodeLookup.lookup id = some l →
    ∃ l2, g2.nodeLookup.lookup id = some l2 ∧ List.Forall₂ (MapsTo ren) l l2
  lookBack : ∀ id l2, g2.nodeLookup.lookup id = some l2 →
    ∃ l, g.nodeLookup.lookup id = some l ∧ List.Forall₂ (MapsTo ren) l l2
  sizes : ∀ id v, g.originalNodeSize.lookup id = some v →
    g2.originalNodeSize.lookup id = some v
  stored : ∀ s s2 p c len, MapsTo ren s s2 → g.nodeLength[s]? = some len → p < len → len ≤ 64 →
    storedBase g s p = some c → g2.NodeSequences s2 p = some c
  edges : ∀ (u : Nat) (l : List Nat), g2.outNeighbors[u]? = some l →
    ∀ w ∈ l, w < g.nodeLength.length
  nbrs : Neighbors g2
  first : g2.firstAmbiguous = g.ambiguousNodes.count false
  low : ∀ s s2, MapsTo ren s s2 → g.ambiguousNodes[s]? = some false →
    s2 < g.ambiguousNodes.count false
  high : ∀ s s2, MapsTo ren s s2 → g.ambiguousNodes[s]? = some true →
    g.ambiguousNodes.count false ≤ s2
  seqs : g2.nodeSequences.length = g.ambiguousNodes.count false
  aseqs : g2.ambiguousNodeSequences.length = g.ambiguousNodes.count true
  index : ∀ s s2, MapsTo ren s s2 → s2 = newIndex g.nodeLength.length g.ambiguousNodes s
  outs : ∀ (s s2 : Nat) (l : List Nat), MapsTo ren s s2 → g.outNeighbors[s]? = some l →
    ∃ l2, g2.outNeighbors[s2]? = some l2 ∧ List.Forall₂ (MapsTo ren) l l2
  inns : ∀ (s s2 : Nat) (l : List Nat), MapsTo ren s s2 → g.inNeighbors[s]? = some l →
    ∃ l2, g2.inNeighbors[s2]? = some l2 ∧ List.Forall₂ (MapsTo ren) l l2

theorem forall₂_mapsTo_mem {ren l l2 : List Nat} (h : List.Forall₂ (MapsTo ren) l l2)
    {b b2 : Nat} (hb : b ∈ l) (hm : MapsTo ren b b2) : b2 ∈ l2 := by
  induction h with
  | nil => simp at hb
  | @cons x y xs ys hxy _ ih =>
    rcases List.mem_cons.mp hb with rfl | hb
    · unfold MapsTo at hm hxy
      rw [hm] at hxy
      cases Option.some.inj hxy
      simp
    · exact List.mem_cons_of_mem _ (ih hb)

theorem forall₂_mapsTo_source {ren l l2 : List Nat} (h : List.Forall₂ (MapsTo ren) l l2)
    {w : Nat} (hw : w ∈ l2) : ∃ x ∈ l, MapsTo ren x w := by
  induction h with
  | nil => simp at hw
  | @cons x y xs ys hxy _ ih =>
    rcases List.mem_cons.mp hw with rfl | hw
    · exact ⟨x, List.mem_cons_self _ _, hxy⟩
    · obtain ⟨x2, hx2, hm⟩ := ih hw
      exact ⟨x2, List.mem_cons_of_mem _ hx2, hm⟩

theorem forall₂_self_of_mapsTo {ren : List Nat} : ∀ (l : List Nat),
    (∀ s ∈ l, MapsTo ren s s) → List.Forall₂ (MapsTo ren) l l
  | [], _ => List.Forall₂.nil
  | x :: rest, h =>
    List.Forall₂.cons (h x (by simp)) (forall₂_self_of_mapsTo rest
      (fun s hs => h s (by simp [hs])))

theorem count_take_false_eq {l : List Bool} (h : l.count true = 0) (i : Nat)
    (hi : i ≤ l.length) : (l.take i).count false = i := by
  have h1 := count_false_add_count_true (l.take i)
  have h2 : (l.take i).count true ≤ l.count true :=
    List.Sublist.count_le (List.take_sublist i l) true
  rw [List.length_take] at h1
  omega

theorem newIndex_of_no_true {l : List Bool} (h : l.count true = 0) {i : Nat}
    (hi : i < l.length) : newIndex l.length l i = i := by
  unfold newIndex
  have hget : l[i]? = some l[i] := List.getElem?_eq_getElem hi
  rw [List.getD_eq_getElem?_getD, hget]
  cases hb : l[i] with
  | false =>
    simp only [Option.getD_some, Bool.false_eq_true, if_false]
    exact count_take_false_eq h i (Nat.le_of_lt hi)
  | true =>
    exfalso
    have : l[i] ∈ l := List.getElem_mem _
    rw [hb] at this
    have := List.count_pos_iff.mpr this
    omega

theorem renumbering_nodup {flags : List Bool} {st : RenumberState}
    (h : RenumberInv flags.length flags st) : st.renumbering.Nodup := by
  rw [List.Nodup, List.pairwise_iff_getElem]
  intro i j hi hj hij
  rw [h.len] at hi hj
  have h1 := h.val i hi
  have h2 := h.val j hj
  rw [List.getElem?_eq_getElem (by rw [h.len]; exact hi)] at h1
  rw [List.getElem?_eq_getElem (by rw [h.len]; exact hj)] at h2
  rw [Option.some.inj h1, Option.some.inj h2]
  exact newIndex_injective hi hj hij

theorem mapsTo_renumbering {flags : List Bool} {st : RenumberState}
    (h : RenumberInv flags.length flags st) {s s2 : Nat} (hm : MapsTo st.renumbering s s2) :
    s < flags.length ∧ s2 = newIndex flags.length flags s := by
  unfold MapsTo at hm
  have hs : s < flags.length := by
    rw [← h.len]
    exact (List.getElem?_eq_some.mp hm).1
  rw [h.val s hs] at hm
  exact ⟨hs, (Option.some.inj hm).symm⟩

/-- Reading a base after the renumbering gives what was stored for the vertex before it. -/
theorem stored_of_renumbering {g g2 : AlignmentGraph} {st : RenumberState} (hb : Basic g)
    (hinv : RenumberInv g.ambiguousNodes.length g.ambiguousNodes st)
    (hseqs : g2.nodeSequences = g.nodeSequences)
    (haseqs : g.ambiguousNodes.count true ≠ 0 →
      g2.ambiguousNodeSequences = g.ambiguousNodeSequences.reverse)
    (hfirst : g2.firstAmbiguous = g.ambiguousNodes.count false)
    (hlen : ∀ s s2 x, MapsTo st.renumbering s s2 → g.nodeLength[s]? = some x →
      g2.nodeLength[s2]? = some x)
    {s s2 p len : Nat} {c : Char} (hm : MapsTo st.renumbering s s2)
    (hl : g.nodeLength[s]? = some len) (hp : p < len) (hle : len ≤ 64)
    (hst : storedBase g s p = some c) : g2.NodeSequences s2 p = some c := by
  obtain ⟨hs, rfl⟩ := mapsTo_renumbering hinv hm
  have hl2 := hlen s _ len hm hl
  obtain ⟨flag, hget⟩ : ∃ flag, g.ambiguousNodes[s]? = some flag :=
    ⟨_, List.getElem?_eq_getElem hs⟩
  have hsum := count_false_add_count_true g.ambiguousNodes
  unfold storedBase at hst
  rw [hget] at hst
  unfold newIndex at hl2 ⊢
  rw [List.getD_eq_getElem?_getD, hget] at hl2 ⊢
  cases flag with
  | false =>
    simp only [Option.getD_some, Bool.false_eq_true, if_false] at hst hl2 ⊢
    obtain ⟨chunks, hchunks, hdec⟩ := Option.bind_eq_some.mp hst
    have hlt := count_take_lt hget
    rw [NodeSequences_definite hl2 hp (by rw [hfirst]; exact hlt)
      (by rw [hseqs]; exact hchunks)]
    exact hdec
  | true =>
    simp only [Option.getD_some, if_true] at hst hl2 ⊢
    obtain ⟨m, hm2, hdec⟩ := Option.bind_eq_some.mp hst
    have hlt := count_take_lt hget
    have hne : g.ambiguousNodes.count true ≠ 0 := by omega
    refine NodeSequences_ambiguous hl2 hp (by omega) (by rw [hfirst]; omega) ?_ hdec
    rw [haseqs hne, hfirst]
    have hidx : g.ambiguousNodes.length - 1 - (g.ambiguousNodes.take s).count true -
        g.ambiguousNodes.count false =
        g.ambiguousNodeSequences.length - 1 - (g.ambiguousNodes.take s).count true := by
      rw [hb.aseqs]
      omega
    rw [hidx, List.getElem?_reverse (by rw [hb.aseqs]; omega)]
    have hidx2 : g.ambiguousNodeSequences.length - 1 -
        (g.ambiguousNodeSequences.length - 1 - (g.ambiguousNodes.take s).count true) =
        (g.ambiguousNodes.take s).count true := by
      rw [hb.aseqs]
      omega
    rw [hidx2]
    exact hm2

theorem linked_of_moved {g g2 : AlignmentGraph} {ren : List Nat}
    (hout : ∀ (k : Nat) (outs : List Nat), g.outNeighbors[k]? = some outs →
      ∃ r outs2, ren[k]? = some r ∧ g2.outNeighbors[r]? = some outs2 ∧
        List.Forall₂ (MapsTo ren) outs outs2)
    {a a2 b b2 : Nat} (ha : MapsTo ren a a2) (hb : MapsTo ren b b2) (h : Linked g a b) :
    Linked g2 a2 b2 := by
  obtain ⟨outs, houts, hmem⟩ := h
  obtain ⟨r, outs2, hr, houts2, hall⟩ := hout a outs houts
  unfold MapsTo at ha
  rw [ha] at hr
  cases Option.some.inj hr
  exact ⟨outs2, houts2, forall₂_mapsTo_mem hall hmem hb⟩

theorem mapsTo_injective {ren : List Nat} (hnd : ren.Nodup) {a b y : Nat}
    (ha : MapsTo ren a y) (hb : MapsTo ren b y) : a = b := by
  unfold MapsTo at ha hb
  obtain ⟨ha1, ha2⟩ := List.getElem?_eq_some.mp ha
  obtain ⟨hb1, hb2⟩ := List.getElem?_eq_some.mp hb
  exact (List.Nodup.getElem_inj_iff hnd).mp (ha2.trans hb2.symm)

theorem forall₂_mapsTo_nodup {ren l l2 : List Nat} (hnd : ren.Nodup)
    (h : List.Forall₂ (MapsTo ren) l l2) (hl : l.Nodup) : l2.Nodup := by
  induction h with
  | nil => exact List.nodup_nil
  | @cons x y xs ys hxy hrest ih =>
    obtain ⟨hx, hxs⟩ := List.nodup_cons.mp hl
    refine List.nodup_cons.mpr ⟨?_, ih hxs⟩
    intro hy
    obtain ⟨x2, hx2, hm⟩ := forall₂_mapsTo_source hrest hy
    cases mapsTo_injective hnd hxy hm
    exact hx hx2

theorem reorder_source {vec vec2 : List (List Nat)} {ren : List Nat} (hnd : ren.Nodup)
    (hlen : ren.length = vec.length) (h : reorder vec ren = some vec2) {r : Nat}
    {l1 : List Nat} (hr : vec2[r]? = some l1) :
    l1 = [] ∨ ∃ k : Nat, ren[k]? = some r ∧ vec[k]? = some l1 := by
  simp only [reorder, bind_eq_optionBind] at h
  obtain ⟨_, _, h⟩ := Option.bind_eq_some.mp h
  obtain ⟨_, h2, h3⟩ := reorderLoop_spec vec ren _ vec2 hnd h
  by_cases hmem : r ∈ ren
  · right
    obtain ⟨k, hk⟩ := List.mem_iff_getElem?.mp hmem
    have hklt : k < vec.length := by
      rw [← hlen]
      exact (List.getElem?_eq_some.mp hk).1
    obtain ⟨r2, hr2, hres⟩ := h2 k _ (List.getElem?_eq_getElem hklt)
    rw [hk] at hr2
    cases Option.some.inj hr2
    rw [hr] at hres
    refine ⟨k, hk, ?_⟩
    rw [List.getElem?_eq_getElem hklt, Option.some.inj hres]
  · left
    rw [h3 r hmem, List.getElem?_replicate] at hr
    split at hr
    · exact (Option.some.inj hr).symm
    · cases hr

/-- The neighbour table `tbl2`, obtained from `tbl` by `reorder` and `renumber`, holds `w` in
the list of `r` exactly when `tbl` holds a vertex that moves to `w` in the list of a vertex
that moves to `r`. -/
theorem moved_mem {tbl tbl1 tbl2 : List (List Nat)} {ren : List Nat} (hnd : ren.Nodup)
    (hlen : ren.length = tbl.length) (h1 : reorder tbl ren = some tbl1)
    (h2 : renumberAll tbl1 ren = some tbl2) (r w : Nat) :
    w ∈ tbl2.getD r [] ↔
      ∃ k x, MapsTo ren k r ∧ MapsTo ren x w ∧ x ∈ tbl.getD k [] := by
  obtain ⟨ha1, ha2⟩ := reorder_spec hnd h1
  obtain ⟨hb1, hb2⟩ := renumberAll_spec _ _ _ h2
  constructor
  · intro hw
    have hrlt : r < tbl2.length := by
      by_contra hge
      rw [List.getD_eq_getElem?_getD, List.getElem?_eq_none (Nat.le_of_not_lt hge)] at hw
      simp at hw
    have hrlt1 : r < tbl1.length := by rw [← hb1]; exact hrlt
    obtain ⟨l2, hl2, hall⟩ := hb2 r _ (List.getElem?_eq_getElem hrlt1)
    rw [getD_of_getElem? hl2] at hw
    obtain ⟨x, hx, hm⟩ := forall₂_mapsTo_source hall hw
    rcases reorder_source hnd hlen h1 (List.getElem?_eq_getElem hrlt1) with hnil | ⟨k, hk, hl⟩
    · rw [hnil] at hx
      simp at hx
    · exact ⟨k, x, hk, hm, by rw [getD_of_getElem? hl]; exact hx⟩
  · rintro ⟨k, x, hk, hx, hmem⟩
    have hklt : k < tbl.length := by
      by_contra hge
      rw [List.getD_eq_getElem?_getD, List.getElem?_eq_none (Nat.le_of_not_lt hge)] at hmem
      simp at hmem
    have hget : tbl[k]? = some tbl[k] := List.getElem?_eq_getElem hklt
    rw [getD_of_getElem? hget] at hmem
    obtain ⟨r2, hr2, hres⟩ := ha2 k _ hget
    unfold MapsTo at hk
    rw [hk] at hr2
    cases Option.some.inj hr2
    obtain ⟨l2, hl2, hall⟩ := hb2 r _ hres
    rw [getD_of_getElem? hl2]
    exact forall₂_mapsTo_mem hall hmem hx

theorem moved_nodup {tbl tbl1 tbl2 : List (List Nat)} {ren : List Nat} (hnd : ren.Nodup)
    (hlen : ren.length = tbl.length) (h1 : reorder tbl ren = some tbl1)
    (h2 : renumberAll tbl1 ren = some tbl2) (hall : ∀ k, (tbl.getD k []).Nodup) (r : Nat) :
    (tbl2.getD r []).Nodup := by
  obtain ⟨hb1, hb2⟩ := renumberAll_spec _ _ _ h2
  by_cases hrlt : r < tbl2.length
  · have hrlt1 : r < tbl1.length := by rw [← hb1]; exact hrlt
    obtain ⟨l2, hl2, hf⟩ := hb2 r _ (List.getElem?_eq_getElem hrlt1)
    rw [getD_of_getElem? hl2]
    refine forall₂_mapsTo_nodup hnd hf ?_
    rcases reorder_source hnd hlen h1 (List.getElem?_eq_getElem hrlt1) with hnil | ⟨k, _, hl⟩
    · rw [hnil]
      exact List.nodup_nil
    · have := hall k
      rw [getD_of_getElem? hl] at this
      exact this
  · rw [List.getD_eq_getElem?_getD, List.getElem?_eq_none (Nat.le_of_not_lt hrlt)]
    exact List.nodup_nil

theorem newIndex_low {flags : List Bool} {s : Nat} (h : flags[s]? = some false) :
    newIndex flags.length flags s < flags.count false := by
  unfold newIndex
  rw [List.getD_eq_getElem?_getD, h]
  simp only [Option.getD_some, Bool.false_eq_true, if_false]
  exact count_take_lt h

theorem newIndex_high {flags : List Bool} {s : Nat} (h : flags[s]? = some true) :
    flags.count false ≤ newIndex flags.length flags s := by
  unfold newIndex
  rw [List.getD_eq_getElem?_getD, h]
  simp only [Option.getD_some, if_true]
  have h1 := count_take_lt h
  have h2 := count_false_add_count_true flags
  omega

theorem Basic.inEdges {g : AlignmentGraph} (hb : Basic g) (v : Nat) (ins : List Nat)
    (hv : g.inNeighbors[v]? = some ins) : ∀ u ∈ ins, u < g.nodeLength.length := by
  intro u hu
  have hmem : v ∈ g.outNeighbors.getD u [] := by
    rw [hb.nbrs.mirror u v, getD_of_getElem? hv]
    exact hu
  by_contra hge
  rw [List.getD_eq_getElem?_getD, List.getElem?_eq_none (by rw [hb.out]; omega)] at hmem
  simp at hmem

theorem RenumberAmbiguousToEnd_spec {g g2 : AlignmentGraph} (hb : Built g)
    (h : g.RenumberAmbiguousToEnd = some g2) :
    ∃ ren, Renumbered g g2 ren ∧ g2.linearizable = [] ∧ g2.componentNumber = [] ∧
      g2.nodeOffset.length = g.nodeLength.length ∧ g2.nodeIDs.length = g.nodeLength.length ∧
      g2.reverse.length = g.nodeLength.length ∧
      g2.nodeSequences.length + g2.ambiguousNodeSequences.length = g.nodeLength.length := by
  have hbasic := hb.basic
  simp only [RenumberAmbiguousToEnd, bind_eq_optionBind] at h
  obtain ⟨_, _, h⟩ := Option.bind_eq_some.mp h
  obtain ⟨_, _, h⟩ := Option.bind_eq_some.mp h
  obtain ⟨_, _, h⟩ := Option.bind_eq_some.mp h
  obtain ⟨_, _, h⟩ := Option.bind_eq_some.mp h
  obtain ⟨_, _, h⟩ := Option.bind_eq_some.mp h
  obtain ⟨_, _, h⟩ := Option.bind_eq_some.mp h
  obtain ⟨_, _, h⟩ := Option.bind_eq_some.mp h
  obtain ⟨_, _, h⟩ := Option.bind_eq_some.mp h
  obtain ⟨st, hst, h⟩ := Option.bind_eq_some.mp h
  obtain ⟨_, _, h⟩ := Option.bind_eq_some.mp h
  obtain ⟨_, _, h⟩ := Option.bind_eq_some.mp h
  obtain ⟨_, _, h⟩ := Option.bind_eq_some.mp h
  obtain ⟨_, _, h⟩ := Option.bind_eq_some.mp h
  have hinv := renumberingLoop_spec hst
  have hN : g.ambiguousNodes.length = g.nodeLength.length := hbasic.amb
  have hsum := count_false_add_count_true g.ambiguousNodes
  have hdom : ∀ s, s < g.nodeLength.length → ∃ s2, MapsTo st.renumbering s s2 := by
    intro s hs
    exact ⟨_, hinv.val s (by rw [hN]; exact hs)⟩
  have hcounts : g.nodeSequences.length + g.ambiguousNodeSequences.length =
      g.nodeLength.length := by
    rw [hbasic.seqs, hbasic.aseqs]
    omega
  have hlow : ∀ s s2, MapsTo st.renumbering s s2 → g.ambiguousNodes[s]? = some false →
      s2 < g.ambiguousNodes.count false := by
    intro s s2 hm hf
    rw [(mapsTo_renumbering hinv hm).2]
    exact newIndex_low hf
  have hhigh : ∀ s s2, MapsTo st.renumbering s s2 → g.ambiguousNodes[s]? = some true →
      g.ambiguousNodes.count false ≤ s2 := by
    intro s s2 hm hf
    rw [(mapsTo_renumbering hinv hm).2]
    exact newIndex_high hf
  have hindex : ∀ s s2, MapsTo st.renumbering s s2 →
      s2 = newIndex g.nodeLength.length g.ambiguousNodes s := by
    intro s s2 hm
    rw [← hN]
    exact (mapsTo_renumbering hinv hm).2
  refine ⟨st.renumbering, ?_⟩
  by_cases hzero : st.ambiguousCount = 0
  · -- no ambiguous vertex: nothing moves
    rw [if_pos hzero] at h
    cases Option.some.inj h
    have hnone : g.ambiguousNodes.count true = 0 := by rw [← hinv.amb]; exact hzero
    have hid : ∀ s s2, MapsTo st.renumbering s s2 → s2 = s := by
      intro s s2 hm
      obtain ⟨hs, rfl⟩ := mapsTo_renumbering hinv hm
      exact newIndex_of_no_true hnone hs
    have hself : ∀ s, s < g.nodeLength.length → MapsTo st.renumbering s s := by
      intro s hs
      obtain ⟨s2, hs2⟩ := hdom s hs
      have := hid s s2 hs2
      subst this
      exact hs2
    have hlook : ∀ id l, g.nodeLookup.lookup id = some l →
        List.Forall₂ (MapsTo st.renumbering) l l := by
      intro id l hl
      apply forall₂_self_of_mapsTo
      intro s hs
      obtain ⟨_, hsome, ht⟩ := hb.tiles id l hl
      obtain ⟨size, hsz⟩ := Option.ne_none_iff_exists'.mp hsome
      obtain ⟨es, ls, hv, _, _⟩ := (ht size hsz).tiles_mem hs
      exact hself s (List.getElem?_eq_some.mp hv.lenEq).1
    refine ⟨⟨rfl, hbasic.inn, hbasic.out, hdom, ?_, ?_, ?_, ?_, ?_, ?_, ?_, fun _ _ hv => hv,
      ?_, hbasic.edges, ⟨hbasic.nbrs.mirror, hbasic.nbrs.nodupOut, hbasic.nbrs.nodupIn⟩,
      hinv.nonAmb, hlow, hhigh, hbasic.seqs, hbasic.aseqs, hindex, ?_, ?_⟩,
      hbasic.lin, hbasic.comp, hbasic.off, hbasic.ids, hbasic.rev, hcounts⟩
    · intro s s2 x hm hx
      cases hid s s2 hm
      exact hx
    · intro s s2 x hm hx
      cases hid s s2 hm
      exact hx
    · intro s s2 x hm hx
      cases hid s s2 hm
      exact hx
    · intro s s2 x hm hx
      cases hid s s2 hm
      exact hx
    · intro a a2 b b2 ha hb2 hl
      cases hid a a2 ha
      cases hid b b2 hb2
      exact hl
    · intro id l hl
      exact ⟨l, hl, hlook id l hl⟩
    · intro id l hl
      exact ⟨l, hl, hlook id l hl⟩
    · intro s s2 p c len hm hl hp hle hstored
      refine stored_of_renumbering hbasic hinv ?_ ?_ ?_ ?_ hm hl hp hle hstored
      · rfl
      · intro hne
        exact absurd hnone hne
      · exact hinv.nonAmb
      · intro s s2 x hm hx
        cases hid s s2 hm
        exact hx
    · intro s s2 l hm hl
      cases hid s s2 hm
      exact ⟨l, hl, forall₂_self_of_mapsTo l
        (fun w hw => hself w (hbasic.edges _ l hl w hw))⟩
    · intro s s2 l hm hl
      cases hid s s2 hm
      exact ⟨l, hl, forall₂_self_of_mapsTo l
        (fun w hw => hself w (hbasic.inEdges _ l hl w hw))⟩
  · -- the tables are reordered
    rw [if_neg hzero] at h
    have hnd := renumbering_nodup hinv
    obtain ⟨nodeLength1, hlen1, h⟩ := Option.bind_eq_some.mp h
    obtain ⟨nodeOffset1, hoff1, h⟩ := Option.bind_eq_some.mp h
    obtain ⟨nodeIDs1, hids1, h⟩ := Option.bind_eq_some.mp h
    obtain ⟨inNeighbors1, hin1, h⟩ := Option.bind_eq_some.mp h
    obtain ⟨outNeighbors1, hout1, h⟩ := Option.bind_eq_some.mp h
    obtain ⟨reverse1, hrev1, h⟩ := Option.bind_eq_some.mp h
    obtain ⟨nodeLookup1, hlook1, h⟩ := Option.bind_eq_some.mp h
    obtain ⟨_, _, h⟩ := Option.bind_eq_some.mp h
    obtain ⟨inNeighbors2, hin2, h⟩ := Option.bind_eq_some.mp h
    obtain ⟨outNeighbors2, hout2, h⟩ := Option.bind_eq_some.mp h
    obtain ⟨_, _, h⟩ := Option.bind_eq_some.mp h
    obtain ⟨_, _, h⟩ := Option.bind_eq_some.mp h
    obtain ⟨sizes, hsizes, h⟩ := Option.bind_eq_some.mp h
    cases Option.some.inj h
    obtain ⟨hl1, hl2⟩ := reorder_spec hnd hlen1
    obtain ⟨ho1, ho2⟩ := reorder_spec hnd hoff1
    obtain ⟨hi1, hi2⟩ := reorder_spec hnd hids1
    obtain ⟨hn1, hn2⟩ := reorder_spec hnd hin1
    obtain ⟨hu1, hu2⟩ := reorder_spec hnd hout1
    obtain ⟨hr1, hr2⟩ := reorder_spec hnd hrev1
    obtain ⟨hk1, hk2⟩ := renumberLookup_spec _ _ _ hlook1
    obtain ⟨hn3, hn4⟩ := renumberAll_spec _ _ _ hin2
    obtain ⟨hu3, hu4⟩ := renumberAll_spec _ _ _ hout2
    have hmove : ∀ {T : Type} {vec vec2 : List T},
        (∀ (k : Nat) (x : T), vec[k]? = some x →
          ∃ r : Nat, st.renumbering[k]? = some r ∧ vec2[r]? = some x) →
        ∀ s s2 x, MapsTo st.renumbering s s2 → vec[s]? = some x → vec2[s2]? = some x := by
      intro T vec vec2 hspec s s2 x hm hx
      obtain ⟨r, hr, hres⟩ := hspec s x hx
      unfold MapsTo at hm
      rw [hm] at hr
      cases Option.some.inj hr
      exact hres
    have hlenMove := hmove hl2
    have hedges : ∀ (u : Nat) (l : List Nat), outNeighbors2[u]? = some l →
        ∀ w ∈ l, w < g.nodeLength.length := by
      intro u l hu w hw
      have hlt : u < outNeighbors1.length := by
        rw [← hu3]
        exact (List.getElem?_eq_some.mp hu).1
      obtain ⟨l2, hl2', hall⟩ := hu4 u _ (List.getElem?_eq_getElem hlt)
      rw [hu] at hl2'
      cases Option.some.inj hl2'
      obtain ⟨x, _, hx⟩ := forall₂_mapsTo_source hall hw
      have := (mapsTo_renumbering hinv hx).2
      rw [this, ← hN]
      exact newIndex_lt (mapsTo_renumbering hinv hx).1
    have hmirror : ∀ u v, v ∈ outNeighbors2.getD u [] ↔ u ∈ inNeighbors2.getD v [] := by
      intro u v
      rw [moved_mem hnd (hinv.len.trans (hN.trans hbasic.out.symm)) hout1 hout2,
        moved_mem hnd (hinv.len.trans (hN.trans hbasic.inn.symm)) hin1 hin2]
      constructor
      · rintro ⟨k, x, hk, hx, hmem⟩
        exact ⟨x, k, hx, hk, (hbasic.nbrs.mirror k x).mp hmem⟩
      · rintro ⟨k, x, hk, hx, hmem⟩
        exact ⟨x, k, hx, hk, (hbasic.nbrs.mirror x k).mpr hmem⟩
    have hnbrs2 : ∀ u, (outNeighbors2.getD u []).Nodup :=
      moved_nodup hnd (hinv.len.trans (hN.trans hbasic.out.symm)) hout1 hout2
        hbasic.nbrs.nodupOut
    have hnbrs3 : ∀ v, (inNeighbors2.getD v []).Nodup :=
      moved_nodup hnd (hinv.len.trans (hN.trans hbasic.inn.symm)) hin1 hin2
        hbasic.nbrs.nodupIn
    refine ⟨⟨hl1, ?_, ?_, hdom, hlenMove, hmove ho2, hmove hi2, hmove hr2, ?_, hk1, hk2, ?_,
      ?_, hedges, ⟨hmirror, hnbrs2, hnbrs3⟩, hinv.nonAmb, hlow, hhigh, hbasic.seqs, ?_,
      hindex, ?_, ?_⟩,
      hbasic.lin, hbasic.comp, ?_, ?_, ?_, ?_⟩
    · simp only
      rw [hn3, hn1, hbasic.inn]
    · simp only
      rw [hu3, hu1, hbasic.out]
    · intro a a2 b b2 ha hb2 hl
      refine linked_of_moved ?_ ha hb2 hl
      intro k outs hk
      obtain ⟨r, hr, hres⟩ := hu2 k outs hk
      obtain ⟨outs2, houts2, hall⟩ := hu4 r outs hres
      exact ⟨r, outs2, hr, houts2, hall⟩
    · intro id v hv
      exact checkLookup_lookup _ _ _ hsizes id v hv
    · intro s s2 p c len hm hl hp hle hstored
      refine stored_of_renumbering hbasic hinv ?_ ?_ ?_ ?_ hm hl hp hle hstored
      · rfl
      · intro _
        rfl
      · exact hinv.nonAmb
      · exact hlenMove
    · simp only [List.length_reverse]
      exact hbasic.aseqs
    · intro s s2 l hm hl
      obtain ⟨r, hr, hres⟩ := hu2 s l hl
      unfold MapsTo at hm
      rw [hm] at hr
      cases Option.some.inj hr
      exact hu4 s2 l hres
    · intro s s2 l hm hl
      obtain ⟨r, hr, hres⟩ := hn2 s l hl
      unfold MapsTo at hm
      rw [hm] at hr
      cases Option.some.inj hr
      exact hn4 s2 l hres
    · simp only
      rw [ho1, hbasic.off]
    · simp only
      rw [hi1, hbasic.ids]
    · simp only
      rw [hr1, hbasic.rev]
    · simp only [List.length_reverse]
      exact hcounts

open AlignmentGraph

/-! ## The graph after `Finalize` -/

/-- The graph `Finalize` returns when `RenumberAmbiguousToEnd` has produced `g1`: the flags
`ambiguousNodes` are dropped, no vertex is linearizable, and `componentNumber` is `comp`. -/
def finalizedFrom (g1 : AlignmentGraph) (comp : List Nat) : AlignmentGraph :=
  { g1 with
    ambiguousNodes := []
    linearizable := List.replicate g1.nodeLength.length false
    finalized := true
    componentNumber := comp }

theorem Renumbered.finalizedFrom {g g1 : AlignmentGraph} {ren : List Nat}
    (h : Renumbered g g1 ren) (comp : List Nat) :
    Renumbered g (finalizedFrom g1 comp) ren :=
  ⟨h.total, h.innLen, h.outLen, h.dom, h.len, h.off, h.ids, h.rev, h.link, h.look, h.lookBack,
    h.sizes, h.stored, h.edges, ⟨h.nbrs.mirror, h.nbrs.nodupOut, h.nbrs.nodupIn⟩, h.first,
    h.low, h.high, h.seqs, h.aseqs, h.index, h.outs, h.inns⟩

theorem Finalize_spec {g gF : AlignmentGraph} {wordSize : Int} {doComponents : Bool}
    (hb : Built g) (h : g.Finalize wordSize doComponents = some gF) :
    ∃ ren g1 comp, Renumbered g g1 ren ∧ gF = finalizedFrom g1 comp ∧
      g1.nodeLength.length = g.nodeLength.length ∧
      (doComponents = true →
        componentOrder g1.outNeighbors g1.nodeLength.length [] = some comp) ∧
      (doComponents = false → comp = []) := by
  simp only [Finalize, bind_eq_optionBind] at h
  obtain ⟨_, _, h⟩ := Option.bind_eq_some.mp h
  obtain ⟨g1, hg1, h⟩ := Option.bind_eq_some.mp h
  obtain ⟨g3, hg3, h⟩ := Option.bind_eq_some.mp h
  obtain ⟨_, _, h⟩ := Option.bind_eq_some.mp h
  obtain ⟨_, _, h⟩ := Option.bind_eq_some.mp h
  obtain ⟨ren, hren, hlin, hcomp, -, -, -, -⟩ := RenumberAmbiguousToEnd_spec hb hg1
  have hfl := findLinearizable_spec (g := { g1 with ambiguousNodes := [] })
    (by simp only; rw [hren.innLen, hren.total]) hlin
  rw [hfl] at hg3
  cases Option.some.inj hg3
  cases doComponents with
  | false =>
    simp only [Bool.false_eq_true, if_false, Option.some_bind] at h
    obtain ⟨_, _, h⟩ := Option.bind_eq_some.mp h
    cases Option.some.inj h
    refine ⟨ren, g1, [], hren, ?_, hren.total, by simp, fun _ => rfl⟩
    simp only [finalizedFrom, hcomp]
  | true =>
    simp only [if_true, doComponentOrder, bind_eq_optionBind, pure_eq_some] at h
    obtain ⟨g5, hg5, h⟩ := Option.bind_eq_some.mp h
    obtain ⟨comp, hc, hg5⟩ := Option.bind_eq_some.mp hg5
    obtain ⟨_, _, h⟩ := Option.bind_eq_some.mp h
    cases Option.some.inj h
    cases Option.some.inj hg5
    refine ⟨ren, g1, comp, hren, rfl, hren.total, ?_, by simp⟩
    intro _
    rw [hcomp] at hc
    exact hc

/-- The graph a sequence of builder calls and `Finalize` produce, in terms of the graph before
`Finalize`. -/
theorem buildFinal_spec {calls : List BuildCall} {wordSize : Int} {doComponents : Bool}
    {gF : AlignmentGraph} (h : buildFinal calls wordSize doComponents = some gF) :
    ∃ g ren g1 comp, build calls = some g ∧ Built g ∧ Renumbered g gF ren ∧
      gF = finalizedFrom g1 comp ∧ g1.nodeLength.length = g.nodeLength.length ∧
      (doComponents = true →
        componentOrder g1.outNeighbors g1.nodeLength.length [] = some comp) := by
  simp only [buildFinal, bind_eq_optionBind] at h
  obtain ⟨g, hg, h⟩ := Option.bind_eq_some.mp h
  have hb := build_built hg
  obtain ⟨ren, g1, comp, hren, rfl, hN, hc, _⟩ := Finalize_spec hb h
  exact ⟨g, ren, g1, comp, hg, hb, hren.finalizedFrom comp, rfl, hN, hc⟩

/-! ## Tilings after the renumbering -/

theorem Tiles.renumbered {g g2 : AlignmentGraph} {ren : List Nat} {id : Int} {e0 e1 : Nat}
    {l l2 : List Nat} (h : Tiles g id e0 l e1) (hren : Renumbered g g2 ren)
    (hl : List.Forall₂ (MapsTo ren) l l2) : Tiles g2 id e0 l2 e1 := by
  induction h generalizing l2 with
  | nil e =>
    cases hl
    exact Tiles.nil e
  | @cons e len e1 s rest hv hlink _ ih =>
    cases hl with
    | @cons _ s2 _ rest2 hs hrest =>
      refine Tiles.cons ⟨hren.off s s2 e hs hv.offEq, hren.len s s2 len hs hv.lenEq,
        hren.ids s s2 id hs hv.idsEq, hv.pos, hv.bound, hv.small⟩ ?_ (ih hrest)
      intro b2 hb2
      cases hrest with
      | nil => simp at hb2
      | @cons b _ _ _ hb _ =>
        simp only [List.head?_cons, Option.some.injEq] at hb2
        subst hb2
        exact hren.link s s2 b _ hs hb (hlink b (by simp))

/-- After `Finalize`, every entry of `nodeLookup` tiles its original node from offset 0 to the
recorded original size. -/
theorem tiles_final {calls : List BuildCall} {wordSize : Int} {doComponents : Bool}
    {gF : AlignmentGraph} (h : buildFinal calls wordSize doComponents = some gF) {id : Int}
    {l : List Nat} (hl : gF.nodeLookup.lookup id = some l) :
    l ≠ [] ∧ ∃ size, gF.originalNodeSize.lookup id = some size ∧ Tiles gF id 0 l size := by
  obtain ⟨g, ren, g1, comp, hg, hb, hren, -, -, -⟩ := buildFinal_spec h
  obtain ⟨l0, hl0, hall⟩ := hren.lookBack id l hl
  obtain ⟨hne, hsome, ht⟩ := hb.tiles id l0 hl0
  obtain ⟨size, hsz⟩ := Option.ne_none_iff_exists'.mp hsome
  refine ⟨?_, size, hren.sizes id size hsz, (ht size hsz).renumbered hren hall⟩
  rintro rfl
  cases hall
  exact hne rfl

/-! ## C1: the splits of an original node -/

/-- The split `b` directly continues the split `a`: it starts where `a` ends, at a larger
offset, and `b` is among the out-neighbours of `a`. -/
def Continues (g : AlignmentGraph) (a b : Nat) : Prop :=
  ∃ oa la ob, g.nodeOffset[a]? = some oa ∧ g.nodeLength[a]? = some la ∧
    g.nodeOffset[b]? = some ob ∧ oa < ob ∧ oa + la = ob ∧
    ∃ outs, g.outNeighbors[a]? = some outs ∧ b ∈ outs

theorem Tiles.facts {g : AlignmentGraph} {id : Int} {e0 e1 : Nat} {l : List Nat}
    (h : Tiles g id e0 l e1) :
    (∀ s, l.head? = some s → g.nodeOffset[s]? = some e0) ∧ List.Chain' (Continues g) l ∧
    (l.map (fun s => g.nodeLength.getD s 0)).sum + e0 = e1 ∧
    List.Pairwise (fun a b => g.nodeOffset.getD a 0 < g.nodeOffset.getD b 0) l := by
  induction h with
  | nil e => simp
  | @cons e len e1 s rest hv hlink ht ih =>
    obtain ⟨ih1, ih2, ih3, ih4⟩ := ih
    refine ⟨?_, ?_, ?_, ?_⟩
    · intro s2 hs2
      simp only [List.head?_cons, Option.some.injEq] at hs2
      subst hs2
      exact hv.offEq
    · cases rest with
      | nil => exact List.chain'_singleton _
      | cons b rest2 =>
        refine List.Chain'.cons ?_ ih2
        have hb := ih1 b (by simp)
        have := hv.pos
        exact ⟨e, len, e + len, hv.offEq, hv.lenEq, hb, by omega, rfl, hlink b (by simp)⟩
    · simp only [List.map_cons, List.sum_cons, List.getD_eq_getElem?_getD, hv.lenEq,
        Option.getD_some]
      simp only [List.getD_eq_getElem?_getD] at ih3
      omega
    · refine List.Pairwise.cons ?_ ih4
      intro b hb
      obtain ⟨eb, lb, hvb, hge, _⟩ := ht.tiles_mem hb
      have := hv.pos
      simp only [List.getD_eq_getElem?_getD, hv.offEq, hvb.offEq, Option.getD_some]
      omega

/-- C1: after any sequence of `AddNode` and `AddEdge` calls followed by `Finalize`, the splits
`s₁,…,sₖ` listed in `nodeLookup[id]` start at offset 0, have strictly increasing offsets, each
split ends where the next one starts and has it as an out-neighbour, and their lengths sum to
`originalNodeSize[id]`. -/
theorem splits_tile_original (calls : List BuildCall) (wordSize : Int) (doComponents : Bool)
    (gF : AlignmentGraph) (h : buildFinal calls wordSize doComponents = some gF) (id : Int)
    (splits : List Nat) (hs : gF.nodeLookup.lookup id = some splits) :
    (∀ s, splits.head? = some s → gF.nodeOffset[s]? = some 0) ∧
    List.Pairwise (fun a b => gF.nodeOffset.getD a 0 < gF.nodeOffset.getD b 0) splits ∧
    List.Chain' (Continues gF) splits ∧
    gF.originalNodeSize.lookup id =
      some (splits.map (fun s => gF.nodeLength.getD s 0)).sum := by
  obtain ⟨_, size, hsize, ht⟩ := tiles_final h hs
  obtain ⟨h1, h2, h3, h4⟩ := ht.facts
  refine ⟨h1, h4, h2, ?_⟩
  rw [hsize]
  congr 1
  omega

/-- Two original nodes, the second with a breakpoint and an ambiguity code, and three edges. -/
def demoCalls : List BuildCall :=
  [.addNode 2 "ACGTACGT".toList "n2" false [0, 8],
   .addNode 4 "ACNGT".toList "n4" false [0, 2, 5],
   .addEdge 2 4 0, .addEdge 4 2 0, .addEdge 4 4 2]

/-- The finalized graph of `demoCalls`. -/
def demoGraph : AlignmentGraph :=
  { nodeLength := [8, 2, 3]
    nodeLookup := [(2, [0]), (4, [1, 2])]
    originalNodeSize := [(2, 8), (4, 5)]
    originalNodeName := [(2, "n2"), (4, "n4")]
    nodeOffset := [0, 0, 2]
    nodeIDs := [2, 4, 4]
    inNeighbors := [[2], [0], [1, 2]]
    outNeighbors := [[1], [2], [0, 2]]
    reverse := [false, false, false]
    linearizable := [false, false, false]
    ambiguousNodes := []
    nodeSequences := [[58596, 0], [4, 0]]
    ambiguousNodeSequences := [{ A := 1, C := 1, G := 3, T := 5 }]
    componentNumber := [0, 0, 0]
    firstAmbiguous := 2
    finalized := true }

theorem demo_buildFinal : buildFinal demoCalls 64 true = some demoGraph := by
  decide

theorem splits_tile_original_witness :
    buildFinal demoCalls 64 true = some demoGraph ∧
    demoGraph.nodeLookup.lookup 4 = some [1, 2] ∧
    ((∀ s, [1, 2].head? = some s → demoGraph.nodeOffset[s]? = some 0) ∧
    List.Pairwise (fun a b => demoGraph.nodeOffset.getD a 0 < demoGraph.nodeOffset.getD b 0)
      [1, 2] ∧
    List.Chain' (Continues demoGraph) [1, 2] ∧
    demoGraph.originalNodeSize.lookup 4 =
      some ([1, 2].map (fun s => demoGraph.nodeLength.getD s 0)).sum) :=
  ⟨demo_buildFinal, by decide,
    splits_tile_original demoCalls 64 true demoGraph demo_buildFinal 4 [1, 2] (by decide)⟩

open AlignmentGraph

/-! ## C4 and C5: reading back the bases of an original node -/

theorem runCalls_append : ∀ (a b : List BuildCall) (g : AlignmentGraph),
    runCalls (a ++ b) g = (runCalls a g).bind (runCalls b)
  | [], b, g => by simp [runCalls]
  | c :: a, b, g => by
    simp only [List.cons_append, runCalls, bind_eq_optionBind]
    cases hc : c.run g with
    | none => simp
    | some g1 => simp [runCalls_append a b g1]

theorem forall₂_mapsTo_exists {ren l l2 : List Nat} (h : List.Forall₂ (MapsTo ren) l l2)
    {v : Nat} (hv : v ∈ l2) : ∃ s ∈ l, MapsTo ren s v := by
  induction h with
  | nil => simp at hv
  | @cons x y xs ys hxy _ ih =>
    rcases List.mem_cons.mp hv with rfl | hv
    · exact ⟨x, by simp, hxy⟩
    · obtain ⟨s, hs, hm⟩ := ih hv
      exact ⟨s, by simp [hs], hm⟩

/-- When `AddNode` is called with sequence `seq` for an original id that is not in the graph
yet, then after any further calls and `Finalize` every split of that id reads back, at every
position, as the canonical letter of the base of `seq` it covers. -/
theorem nodeSequences_final {pre post : List BuildCall} {id : Int} {seq : List Char}
    {name : String} {rev : Bool} {bps : List Nat} {wordSize : Int} {doComponents : Bool}
    {g0 gF : AlignmentGraph} (hpre : build pre = some g0)
    (hfresh : g0.nodeLookup.lookup id = none)
    (h : buildFinal (pre ++ BuildCall.addNode id seq name rev bps :: post) wordSize
      doComponents = some gF) :
    (seq ≠ [] → ∃ splits, gF.nodeLookup.lookup id = some splits ∧
      Tiles gF id 0 splits seq.length) ∧
    ∀ splits, gF.nodeLookup.lookup id = some splits → ∀ v ∈ splits, ∀ off len p c,
      gF.nodeOffset[v]? = some off → gF.nodeLength[v]? = some len → p < len →
      seq[off + p]? = some c → gF.NodeSequences v p = some (canonical c) := by
  obtain ⟨g, ren, g1, comp, hg, hb, hren, -, -, -⟩ := buildFinal_spec h
  -- split the build at the call that adds the node
  unfold build at hg hpre
  rw [runCalls_append, hpre] at hg
  simp only [Option.some_bind, runCalls, bind_eq_optionBind] at hg
  obtain ⟨ga, hga, hg⟩ := Option.bind_eq_some.mp hg
  simp only [BuildCall.run] at hga
  have hb0 : Built g0 := (runCalls_built pre _ g0 built_empty hpre).1
  obtain ⟨hba, -, -, hcontent, hsome, hsize⟩ := AddNode_fresh hb0 hfresh hga
  obtain ⟨-, hgrows, hkeeps⟩ := runCalls_built post ga g hba hg
  have hfacts : seq ≠ [] → ∃ la, ga.nodeLookup.lookup id = some la ∧
      g.nodeLookup.lookup id = some la ∧ Tiles ga id 0 la seq.length ∧
      Tiles g id 0 la seq.length ∧ Content g seq la := by
    intro hne
    obtain ⟨la, hla⟩ := Option.ne_none_iff_exists'.mp (hsome hne)
    obtain ⟨_, _, ht⟩ := hba.tiles id la hla
    have hta := ht seq.length hsize
    refine ⟨la, hla, hkeeps id la hla, hta, hta.tiles_mono hgrows, ?_⟩
    refine (hcontent la hla).content_mono hgrows hba.basic ?_
    intro s hs
    obtain ⟨es, ls, hv, -, -⟩ := hta.tiles_mem hs
    exact (List.getElem?_eq_some.mp hv.lenEq).1
  constructor
  · intro hne
    obtain ⟨la, -, hl, -, ht, -⟩ := hfacts hne
    obtain ⟨l2, hl2, hall⟩ := hren.look id la hl
    exact ⟨l2, hl2, ht.renumbered hren hall⟩
  · intro splits hs v hv off len p c hoff hlen hp hc
    have hne : seq ≠ [] := by
      rintro rfl
      simp at hc
    obtain ⟨la, -, hl, -, ht, hcont⟩ := hfacts hne
    obtain ⟨l, hl0, hall⟩ := hren.lookBack id splits hs
    rw [hl] at hl0
    cases Option.some.inj hl0
    obtain ⟨s, hs1, hm⟩ := forall₂_mapsTo_exists hall hv
    obtain ⟨es, ls, hvs, -, -⟩ := ht.tiles_mem hs1
    have ho2 := hren.off s v es hm hvs.offEq
    have hl2 := hren.len s v ls hm hvs.lenEq
    rw [hoff] at ho2
    rw [hlen] at hl2
    cases Option.some.inj ho2
    cases Option.some.inj hl2
    exact hren.stored s v p (canonical c) len hm hvs.lenEq hp hvs.bound
      (hcont s hs1 off len p c hvs.offEq hvs.lenEq hp hc)

theorem Tiles.cover {g : AlignmentGraph} {id : Int} {e0 e1 : Nat} {l : List Nat}
    (h : Tiles g id e0 l e1) {o : Nat} (h0 : e0 ≤ o) (h1 : o < e1) :
    ∃ s ∈ l, ∃ es ls, VertexAt g id s es ls ∧ es ≤ o ∧ o < es + ls := by
  induction h with
  | nil e => omega
  | @cons e len e1 s rest hv _ _ ih =>
    by_cases ho : o < e + len
    · exact ⟨s, by simp, e, len, hv, h0, ho⟩
    · obtain ⟨s2, hs2, es, ls, hv2, h2, h3⟩ := ih (by omega) h1
      exact ⟨s2, by simp [hs2], es, ls, hv2, h2, h3⟩

theorem canonical_of_definite {c : Char} (h : isDefinite c = true) :
    canonical c ∈ ['A', 'C', 'G', 'T'] := by
  simp only [isDefinite, decide_eq_true_eq, List.mem_cons, List.mem_singleton,
    List.not_mem_nil, or_false] at h
  unfold canonical
  rcases h with h | h | h | h | h <;> rw [h] <;> decide

/-- C4: when an original node is added with a definite DNA string `seq` (letters `A`, `C`,
`G`, `T`, `U` in either case), then whatever other nodes and edges are added before and after
it, after `Finalize` every position `o < len(seq)` is covered by a split `v` of that node, and
for every such split `NodeSequences(v, o - offset[v])` is the upper-case of `seq[o]` with `U`
read as `T`, one of `A`, `C`, `G`, `T`. -/
theorem definite_bases_round_trip (pre post : List BuildCall) (id : Int) (seq : List Char)
    (name : String) (rev : Bool) (bps : List Nat) (wordSize : Int) (doComponents : Bool)
    (g0 gF : AlignmentGraph) (hpre : build pre = some g0)
    (hfresh : g0.nodeLookup.lookup id = none) (hdef : ∀ c ∈ seq, isDefinite c = true)
    (h : buildFinal (pre ++ BuildCall.addNode id seq name rev bps :: post) wordSize
      doComponents = some gF)
    (o : Nat) (ho : o < seq.length) :
    ∃ splits, gF.nodeLookup.lookup id = some splits ∧
      (∃ v ∈ splits, ∃ off len, gF.nodeOffset[v]? = some off ∧ gF.nodeLength[v]? = some len ∧
        off ≤ o ∧ o < off + len) ∧
      ∀ v ∈ splits, ∀ off len, gF.nodeOffset[v]? = some off → gF.nodeLength[v]? = some len →
        off ≤ o → o < off + len →
        gF.NodeSequences v (o - off) = some (canonical seq[o]) ∧
        canonical seq[o] ∈ ['A', 'C', 'G', 'T'] := by
  obtain ⟨h1, h2⟩ := nodeSequences_final hpre hfresh h
  have hne : seq ≠ [] := by
    rintro rfl
    simp at ho
  obtain ⟨splits, hs, ht⟩ := h1 hne
  refine ⟨splits, hs, ?_, ?_⟩
  · obtain ⟨v, hv, es, ls, hvx, h3, h4⟩ := ht.cover (Nat.zero_le o) ho
    exact ⟨v, hv, es, ls, hvx.offEq, hvx.lenEq, h3, h4⟩
  · intro v hv off len hoff hlen hle hlt
    refine ⟨?_, canonical_of_definite (hdef _ (List.getElem_mem _))⟩
    refine h2 splits hs v hv off len (o - off) seq[o] hoff hlen (by omega) ?_
    have e : off + (o - off) = o := by omega
    rw [e]
    exact List.getElem?_eq_getElem ho

theorem definite_bases_round_trip_witness :
    build [] = some AlignmentGraph.empty ∧
    AlignmentGraph.empty.nodeLookup.lookup 2 = none ∧
    (∀ c ∈ "ACGTACGT".toList, isDefinite c = true) ∧
    buildFinal ([] ++ BuildCall.addNode 2 "ACGTACGT".toList "n2" false [0, 8] ::
      demoCalls.tail) 64 true = some demoGraph ∧
    ∃ splits, demoGraph.nodeLookup.lookup 2 = some splits ∧
      (∃ v ∈ splits, ∃ off len, demoGraph.nodeOffset[v]? = some off ∧
        demoGraph.nodeLength[v]? = some len ∧ off ≤ 3 ∧ 3 < off + len) ∧
      ∀ v ∈ splits, ∀ off len, demoGraph.nodeOffset[v]? = some off →
        demoGraph.nodeLength[v]? = some len → off ≤ 3 → 3 < off + len →
        demoGraph.NodeSequences v (3 - off) = some (canonical 'T') ∧
        canonical 'T' ∈ ['A', 'C', 'G', 'T'] :=
  ⟨rfl, rfl, by decide, demo_buildFinal,
    definite_bases_round_trip [] demoCalls.tail 2 "ACGTACGT".toList "n2" false [0, 8] 64 true
      AlignmentGraph.empty demoGraph rfl rfl (by decide) demo_buildFinal 3 (by decide)⟩

/-- C5: for every split `v` of an added original node whose part of the input sequence
contains at least one IUPAC ambiguity code, after `Finalize` (whatever else is in the graph)
`NodeSequences(v, p)` returns for every `p < length[v]` the upper-case letter of the input
character at that position, with `U` read as `T`. -/
theorem ambiguous_split_reads_back (pre post : List BuildCall) (id : Int) (seq : List Char)
    (name : String) (rev : Bool) (bps : List Nat) (wordSize : Int) (doComponents : Bool)
    (g0 gF : AlignmentGraph) (hpre : build pre = some g0)
    (hfresh : g0.nodeLookup.lookup id = none)
    (h : buildFinal (pre ++ BuildCall.addNode id seq name rev bps :: post) wordSize
      doComponents = some gF)
    (splits : List Nat) (hs : gF.nodeLookup.lookup id = some splits) (v : Nat)
    (hv : v ∈ splits) (off len : Nat) (hoff : gF.nodeOffset[v]? = some off)
    (hlen : gF.nodeLength[v]? = some len)
    (hamb : ∃ q c, q < len ∧ seq[off + q]? = some c ∧ isAmbiguityCode c = true)
    (p : Nat) (hp : p < len) :
    ∃ c, seq[off + p]? = some c ∧ gF.NodeSequences v p = some (canonical c) := by
  obtain ⟨h1, h2⟩ := nodeSequences_final hpre hfresh h
  have hne : seq ≠ [] := by
    rintro rfl
    obtain ⟨q, c, _, hc, _⟩ := hamb
    simp at hc
  obtain ⟨splits2, hs2, ht⟩ := h1 hne
  rw [hs] at hs2
  cases Option.some.inj hs2
  obtain ⟨es, ls, hvx, -, hend⟩ := ht.tiles_mem hv
  have e1 := hvx.offEq
  have e2 := hvx.lenEq
  rw [hoff] at e1
  rw [hlen] at e2
  cases Option.some.inj e1
  cases Option.some.inj e2
  have hlt : off + p < seq.length := by omega
  exact ⟨seq[off + p], List.getElem?_eq_getElem hlt,
    h2 splits hs v hv off len p _ hoff hlen hp (List.getElem?_eq_getElem hlt)⟩

/-- The finalized graph of the node `"ACNGT"` (id 4) with one definite neighbour. -/
def ambiguousDemo : AlignmentGraph :=
  { nodeLength := [4, 5]
    nodeLookup := [(4, [1]), (2, [0])]
    originalNodeSize := [(4, 5), (2, 4)]
    originalNodeName := [(4, "n4"), (2, "n2")]
    nodeOffset := [0, 0]
    nodeIDs := [2, 4]
    inNeighbors := [[1], []]
    outNeighbors := [[], [0]]
    reverse := [false, false]
    linearizable := [false, false]
    ambiguousNodes := []
    nodeSequences := [[228, 0]]
    ambiguousNodeSequences := [{ A := 5, C := 6, G := 12, T := 20 }]
    componentNumber := []
    firstAmbiguous := 1
    finalized := true }

theorem ambiguous_split_reads_back_witness :
    build [] = some AlignmentGraph.empty ∧
    AlignmentGraph.empty.nodeLookup.lookup 4 = none ∧
    buildFinal ([] ++ BuildCall.addNode 4 "ACNGT".toList "n4" false [0, 5] ::
      [.addNode 2 "ACGT".toList "n2" false [0, 4], .addEdge 4 2 0]) 64 false =
      some ambiguousDemo ∧
    ambiguousDemo.nodeLookup.lookup 4 = some [1] ∧ 1 ∈ [1] ∧
    ambiguousDemo.nodeOffset[1]? = some 0 ∧ ambiguousDemo.nodeLength[1]? = some 5 ∧
    (∃ q c, q < 5 ∧ "ACNGT".toList[0 + q]? = some c ∧ isAmbiguityCode c = true) ∧ 2 < 5 ∧
    ∃ c, "ACNGT".toList[0 + 2]? = some c ∧ ambiguousDemo.NodeSequences 1 2 = some (canonical c) :=
  ⟨rfl, rfl, by decide, by decide, by decide, by decide, by decide, ⟨2, 'N', by decide⟩,
    by decide,
    ambiguous_split_reads_back [] [.addNode 2 "ACGT".toList "n2" false [0, 4], .addEdge 4 2 0]
      4 "ACNGT".toList "n4" false [0, 5] 64 false AlignmentGraph.empty ambiguousDemo rfl rfl
      (by decide) [1] (by decide) 1 (by decide) 0 5 (by decide) (by decide)
      ⟨2, 'N', by decide⟩ 2 (by decide)⟩

open AlignmentGraph

/-! ## C6: `GetUnitigNode` -/

/-- The boundaries of a tiling: `B i` is the offset at which the `i`-th split starts, and
`B l.length` the end of the last one. -/
theorem Tiles.bounds {g : AlignmentGraph} {id : Int} {e0 e1 : Nat} {l : List Nat}
    (h : Tiles g id e0 l e1) :
    ∃ B : Nat → Nat, B 0 = e0 ∧ B l.length = e1 ∧
      ∀ i, i < l.length → ∃ s, l[i]? = some s ∧ VertexAt g id s (B i) (B (i + 1) - B i) ∧
        B i < B (i + 1) := by
  induction h with
  | nil e => exact ⟨fun _ => e, rfl, rfl, by simp⟩
  | @cons e len e1 s rest hv _ _ ih =>
    obtain ⟨B, hB0, hBk, hB⟩ := ih
    refine ⟨fun i => match i with | 0 => e | i + 1 => B i, rfl, by simpa using hBk, ?_⟩
    intro i hi
    cases i with
    | zero =>
      have := hv.pos
      refine ⟨s, by simp, ?_, by simp only; omega⟩
      simp only [hB0]
      have e2 : e + len - e = len := by omega
      rw [e2]
      exact hv
    | succ i =>
      simp only [List.length_cons] at hi
      obtain ⟨s2, hs2, hv2, hlt⟩ := hB i (by omega)
      exact ⟨s2, by simpa using hs2, hv2, hlt⟩

theorem bounds_mono {B : Nat → Nat} {k : Nat} (hB : ∀ i, i < k → B i < B (i + 1)) :
    ∀ j i, i ≤ j → j ≤ k → B i ≤ B j
  | 0, i, hij, _ => by
    have : i = 0 := by omega
    subst this
    exact Nat.le_refl _
  | j + 1, i, hij, hjk => by
    by_cases h : i = j + 1
    · subst h
      exact Nat.le_refl _
    · have h1 := bounds_mono hB j i (by omega) (by omega)
      have h2 := hB j (by omega)
      omega

/-- What is known about the splits `nodes` of one original node in `g`: the `i`-th split
starts at `B i` and ends at `B (i+1)`. -/
structure Bounded (g : AlignmentGraph) (nodes : List Nat) (B : Nat → Nat) : Prop where
  step : ∀ i, i < nodes.length → B i < B (i + 1)
  off : ∀ i, i < nodes.length → ∃ s, nodes[i]? = some s ∧ g.nodeOffset[s]? = some (B i) ∧
    g.nodeLength[s]? = some (B (i + 1) - B i)
  small : ∀ i, i ≤ nodes.length → B i < 2 ^ 64

theorem scanForward_spec {g : AlignmentGraph} {nodes : List Nat} {B : Nat → Nat} {o : Nat}
    (hb : Bounded g nodes B) :
    ∀ (fuel index : Nat), index < nodes.length → nodes.length ≤ fuel + index →
      ∃ index1, scanForward g nodes o fuel index = some index1 ∧ index ≤ index1 ∧
        index1 < nodes.length ∧ (index1 = nodes.length - 1 ∨ o < B (index1 + 1)) ∧
        (B index ≤ o → B index1 ≤ o) ∧ (o < B index → index1 = index)
  | 0, index, h1, h2 => by omega
  | fuel + 1, index, h1, h2 => by
    simp only [scanForward]
    by_cases hlt : index < nodes.length - 1
    · rw [if_pos hlt]
      obtain ⟨s, hs, hoff, hlen⟩ := hb.off index h1
      have hstep := hb.step index h1
      have hsm := hb.small (index + 1) (by omega)
      simp only [bind_eq_optionBind, hs, Option.some_bind, hoff, NodeLength, hlen]
      have hsum : (B index + (B (index + 1) - B index)) % 2 ^ 64 = B (index + 1) := by
        rw [Nat.mod_eq_of_lt] <;> omega
      rw [hsum]
      by_cases hle : B (index + 1) ≤ o
      · rw [if_pos hle]
        obtain ⟨i1, hi1, h3, h4, h5, h6, h7⟩ :=
          scanForward_spec hb fuel (index + 1) (by omega) (by omega)
        refine ⟨i1, hi1, by omega, h4, h5, fun _ => h6 hle, ?_⟩
        intro hcontra
        omega
      · rw [if_neg hle]
        exact ⟨index, rfl, Nat.le_refl _, h1, Or.inr (by omega), fun h => h, fun _ => rfl⟩
    · rw [if_neg hlt]
      exact ⟨index, rfl, Nat.le_refl _, h1, Or.inl (by omega), fun h => h, fun _ => rfl⟩

theorem scanBackward_spec {g : AlignmentGraph} {nodes : List Nat} {B : Nat → Nat} {o : Nat}
    (hb : Bounded g nodes B) (h0 : B 0 ≤ o) :
    ∀ (index : Nat), index < nodes.length →
      ∃ index2, scanBackward g nodes o index = some index2 ∧ index2 ≤ index ∧
        B index2 ≤ o ∧ (index2 < index → o < B (index2 + 1))
  | 0, _ => ⟨0, rfl, Nat.le_refl _, h0, fun h => by omega⟩
  | index + 1, h1 => by
    obtain ⟨s, hs, hoff, hlen⟩ := hb.off (index + 1) h1
    simp only [scanBackward, bind_eq_optionBind, hs, Option.some_bind, hoff]
    by_cases hgt : B (index + 1) > o
    · rw [if_pos hgt]
      obtain ⟨i2, hi2, h3, h4, h5⟩ := scanBackward_spec hb h0 index (by omega)
      refine ⟨i2, hi2, by omega, h4, ?_⟩
      intro _
      by_cases heq : i2 = index
      · subst heq
        exact hgt
      · exact h5 (by omega)
    · rw [if_neg hgt]
      exact ⟨index + 1, rfl, Nat.le_refl _, by omega, fun h => by omega⟩

/-- C6: on a finalized graph, for every original id in `nodeLookup` and every offset `o`
below `originalNodeSize[id]`, `GetUnitigNode(id, o)` returns, whatever the value of the initial
index estimate, a split `s` of that id with `offset[s] ≤ o < offset[s] + length[s]`; in
particular both assertions at its end pass. -/
theorem getUnitigNode_covers (calls : List BuildCall) (wordSize : Int) (doComponents : Bool)
    (gF : AlignmentGraph) (h : buildFinal calls wordSize doComponents = some gF) (id : Int)
    (nodes : List Nat) (hn : gF.nodeLookup.lookup id = some nodes) (size : Nat)
    (hsz : gF.originalNodeSize.lookup id = some size) (o : Nat) (ho : o < size) (guess : Nat) :
    ∃ s off len, gF.GetUnitigNode id o guess = some s ∧ s ∈ nodes ∧
      gF.nodeOffset[s]? = some off ∧ gF.nodeLength[s]? = some len ∧ off ≤ o ∧ o < off + len := by
  obtain ⟨hne, size2, hsz2, ht⟩ := tiles_final h hn
  rw [hsz] at hsz2
  cases Option.some.inj hsz2
  obtain ⟨B, hB0, hBk, hB⟩ := ht.bounds
  have hpos : 0 < nodes.length := List.length_pos.mpr hne
  have hbd : Bounded gF nodes B := by
    refine ⟨fun i hi => (hB i hi).choose_spec.2.2, ?_, ?_⟩
    · intro i hi
      obtain ⟨s, hs, hv, _⟩ := hB i hi
      exact ⟨s, hs, hv.offEq, hv.lenEq⟩
    · intro i hi
      by_cases hik : i < nodes.length
      · obtain ⟨s, hs, hv, _⟩ := hB i hik
        have := hv.small
        omega
      · have : i = nodes.length := by omega
        subst this
        obtain ⟨s, hs, hv, hlt⟩ := hB (nodes.length - 1) (by omega)
        have e : nodes.length - 1 + 1 = nodes.length := by omega
        rw [e] at hv hlt
        have h1 := hv.small
        have h2 := hv.bound
        omega
  have hidx0 : (if guess ≥ nodes.length then nodes.length - 1 else guess) < nodes.length := by
    split <;> omega
  obtain ⟨i1, hi1, h3, h4, h5, h6, h7⟩ :=
    scanForward_spec (o := o) hbd nodes.length _ hidx0 (by omega)
  obtain ⟨i2, hi2, h8, h9, h10⟩ := scanBackward_spec hbd (by omega : B 0 ≤ o) i1 h4
  obtain ⟨s, hs, hoff, hlen⟩ := hbd.off i2 (by omega)
  have hstep := hbd.step i2 (by omega)
  have hsm := hbd.small (i2 + 1) (by omega)
  have hend : o < B (i2 + 1) := by
    by_cases hlt : i2 < i1
    · exact h10 hlt
    · have heq : i2 = i1 := by omega
      subst heq
      rcases h5 with h5 | h5
      · have e : i2 + 1 = nodes.length := by omega
        rw [e, hBk]
        exact ho
      · exact h5
  refine ⟨s, B i2, B (i2 + 1) - B i2, ?_, List.getElem?_mem hs, hoff, hlen, h9, by omega⟩
  have hsum : (B i2 + (B (i2 + 1) - B i2)) % 2 ^ 64 = B (i2 + 1) := by
    rw [Nat.mod_eq_of_lt] <;> omega
  have hne2 : i2 ≠ nodes.length := by omega
  simp only [GetUnitigNode, bind_eq_optionBind, hn, Option.some_bind, hpos, gt_iff_lt,
    decide_True, assert_true, hsz, hi1, hi2, ne_eq, hne2, not_false_eq_true, hs, hoff, h9,
    NodeLength, hlen, hsum, hend]

theorem getUnitigNode_covers_witness :
    buildFinal demoCalls 64 true = some demoGraph ∧
    demoGraph.nodeLookup.lookup 4 = some [1, 2] ∧
    demoGraph.originalNodeSize.lookup 4 = some 5 ∧ 3 < 5 ∧
    ∃ s off len, demoGraph.GetUnitigNode 4 3 7 = some s ∧ s ∈ [1, 2] ∧
      demoGraph.nodeOffset[s]? = some off ∧ demoGraph.nodeLength[s]? = some len ∧ off ≤ 3 ∧
      3 < off + len :=
  ⟨demo_buildFinal, by decide, by decide, by decide,
    getUnitigNode_covers demoCalls 64 true demoGraph demo_buildFinal 4 [1, 2] (by decide) 5
      (by decide) 3 (by decide) 7⟩

open AlignmentGraph

/-! ## C7: `findLinearizable` -/

/-- After `Finalize` no vertex is flagged linearizable: `findLinearizable` marks the start
vertex of every walk as checked before the walk, and the first iteration of the walk leaves
through the branch for a checked vertex. -/
theorem linearizable_final {calls : List BuildCall} {wordSize : Int} {doComponents : Bool}
    {gF : AlignmentGraph} (h : buildFinal calls wordSize doComponents = some gF) :
    gF.linearizable = List.replicate gF.nodeLength.length false := by
  obtain ⟨g, ren, g1, comp, -, -, -, rfl, -, -⟩ := buildFinal_spec h
  rfl

/-- The number of in-neighbours of `v`. -/
def inDegree (g : AlignmentGraph) (v : Nat) : Nat := (g.inNeighbors.getD v []).length

/-- The vertex reached from `v` by `k` steps backward along unique in-edges, when every vertex
left on the way has in-degree 1 and no step enters `start`. -/
def walkBack (g : AlignmentGraph) (start : Nat) : Nat → Nat → Option Nat
  | 0, v => some v
  | k + 1, v =>
    match g.inNeighbors.getD v [] with
    | [u] => if u = start then none else walkBack g start k u
    | _ => none

/-- The two-vertex chain `0 → 1`: two original nodes of one base each and the edge between
them. -/
def chainCalls : List BuildCall :=
  [.addNode 2 "A".toList "a" false [0, 1], .addNode 4 "C".toList "c" false [0, 1],
   .addEdge 2 4 0]

/-- The finalized graph of `chainCalls`. -/
def chainGraph : AlignmentGraph :=
  { nodeLength := [1, 1]
    nodeLookup := [(2, [0]), (4, [1])]
    originalNodeSize := [(2, 1), (4, 1)]
    originalNodeName := [(2, "a"), (4, "c")]
    nodeOffset := [0, 0]
    nodeIDs := [2, 4]
    inNeighbors := [[], [0]]
    outNeighbors := [[1], []]
    reverse := [false, false]
    linearizable := [false, false]
    ambiguousNodes := []
    nodeSequences := [[0, 0], [1, 0]]
    ambiguousNodeSequences := []
    componentNumber := []
    firstAmbiguous := 2
    finalized := true }

theorem chain_buildFinal : buildFinal chainCalls 64 false = some chainGraph := by
  decide

/-- C7 (the code at the failing input): in the finalized two-vertex chain `0 → 1`, vertex 1
has in-degree 1 and the backward walk from it reaches vertex 0, of in-degree 0, in one step,
yet `findLinearizable` has left vertex 1 not linearizable. -/
theorem chain_not_linearizable :
    buildFinal chainCalls 64 false = some chainGraph ∧ inDegree chainGraph 1 = 1 ∧
    walkBack chainGraph 1 1 1 = some 0 ∧ inDegree chainGraph 0 ≠ 1 ∧
    chainGraph.linearizable[1]? = some false := by
  decide

open AlignmentGraph

/-! ## C9 and C10: `traceToAlignment` -/

/-- The forward trace of the `k` positions `(v, i, i)`, `i = 0..k-1`, inside the split `v`. -/
def insideTrace (v k : Nat) : List MatrixPosition :=
  (List.range k).map (fun i => ⟨v, i, i⟩)

/-- Two trace positions lie on splits of the same original node and the same strand. -/
def sameOriginal (g : AlignmentGraph) (a b : MatrixPosition) : Bool :=
  decide (g.nodeIDs[a.node]? = g.nodeIDs[b.node]?) &&
  decide (g.reverse[a.node]? = g.reverse[b.node]?)

/-- The number of maximal runs of consecutive trace positions whose splits have the same
original node and the same strand. -/
def maximalRuns (g : AlignmentGraph) : List MatrixPosition → Nat
  | [] => 0
  | [_] => 1
  | a :: b :: rest => (if sameOriginal g a b then 0 else 1) + maximalRuns g (b :: rest)

/-- The trace moves from position `a` to a position `b` on another split, and the split of `b`
has another original node, or another strand, or its offset is not `SPLIT_NODE_SIZE` after (in
a reverse trace: before) the offset of the split of `a`. -/
def startsMapping (g : AlignmentGraph) (reverse : Bool) (a b : MatrixPosition) : Bool :=
  decide (b.node ≠ a.node) &&
  (decide (g.nodeIDs.getD b.node 0 ≠ g.nodeIDs.getD a.node 0) ||
   decide (g.reverse.getD b.node false ≠ g.reverse.getD a.node false) ||
   decide ((g.nodeOffset.getD b.node 0 + (if reverse then SPLIT_NODE_SIZE else 0)) % 2 ^ 64 ≠
     (g.nodeOffset.getD a.node 0 + (if reverse then 0 else SPLIT_NODE_SIZE)) % 2 ^ 64))

/-- The number of adjacent pairs of trace positions at which `startsMapping` holds. -/
def mappingStarts (g : AlignmentGraph) (reverse : Bool) : List MatrixPosition → Nat
  | a :: b :: rest =>
    (if startsMapping g reverse a b then 1 else 0) + mappingStarts g reverse (b :: rest)
  | _ => 0

/-- One original node `ACGT` in a single split. -/
def singleCalls : List BuildCall := [.addNode 2 "ACGT".toList "n" false [0, 4]]

/-- One original node `ACGT` cut at its middle into the splits 0 and 1. -/
def cutCalls : List BuildCall := [.addNode 2 "ACGT".toList "n" false [0, 2, 4]]

/-- The trace that walks along both splits of `cutCalls`. -/
def cutTrace : List MatrixPosition := [⟨0, 0, 0⟩, ⟨0, 1, 1⟩, ⟨1, 0, 2⟩, ⟨1, 1, 3⟩]


/-- The finalized graph of `singleCalls`. -/
def singleGraph : AlignmentGraph :=
  { nodeLength := [4]
    nodeLookup := [(2, [0])]
    originalNodeSize := [(2, 4)]
    originalNodeName := [(2, "n")]
    nodeOffset := [0]
    nodeIDs := [2]
    inNeighbors := [[]]
    outNeighbors := [[]]
    reverse := [false]
    linearizable := [false]
    ambiguousNodes := []
    nodeSequences := [[228, 0]]
    ambiguousNodeSequences := []
    componentNumber := []
    firstAmbiguous := 1
    finalized := true }

/-- The finalized graph of `cutCalls`. -/
def cutGraph : AlignmentGraph :=
  { nodeLength := [2, 2]
    nodeLookup := [(2, [0, 1])]
    originalNodeSize := [(2, 4)]
    originalNodeName := [(2, "n")]
    nodeOffset := [0, 2]
    nodeIDs := [2, 2]
    inNeighbors := [[], [0]]
    outNeighbors := [[1], []]
    reverse := [false, false]
    linearizable := [false, false]
    ambiguousNodes := []
    nodeSequences := [[4, 0], [14, 0]]
    ambiguousNodeSequences := []
    componentNumber := []
    firstAmbiguous := 2
    finalized := true }

/-- The alignment that `traceToAlignment` returns for `cutTrace` on `cutGraph`. -/
def cutItem : AlignmentItem :=
  { alignment :=
      { name := "read", score := 0, sequence := "ACGT".toList
        path := [{ position := { node_id := 2, offset := 0, is_reverse := false }
                   rank := 0
                   edit := [{ from_length := 2, to_length := 1, sequence := "C".toList }] },
                 { position := { node_id := 2, offset := 2, is_reverse := false }
                   rank := 1
                   edit := [{ from_length := 2, to_length := 2, sequence := "GT".toList }] }] }
    cellsProcessed := 0
    elapsedMilliseconds := SIZE_MAX
    alignmentStart := 0
    alignmentEnd := 3 }

theorem toInt32_of_bounds {x : Int} (h0 : -(2 ^ 31) ≤ x) (h1 : x < 2 ^ 31) : toInt32 x = x := by
  unfold toInt32
  omega

theorem assert_bind_eq_some {β : Type} {c : Bool} {f : Unit → Option β} {b : β} :
    (assert c).bind f = some b ↔ c = true ∧ f () = some b := by
  cases c <;> simp [assert]

/-- The edit `flushEdit` returns and the conditions under which it returns. -/
theorem flushEdit_eq_some_iff {sequence : List Char} {reverse final : Bool} {st : TraceState}
    {e : Edit} :
    flushEdit sequence reverse final st = some e ↔
      st.btBeforeNode.seqPos ≤ st.btNodeEnd.seqPos ∧
      (st.btNodeEnd.seqPos ≠ st.btBeforeNode.seqPos →
        st.btBeforeNode.seqPos < (sequence.length + 2 ^ 64 - 1) % 2 ^ 64 ∧
        st.btBeforeNode.seqPos + 1 ≤ sequence.length) ∧
      (if reverse then (st.btNodeStart.nodeOffset + 1) % 2 ^ 64 ≥ st.btNodeEnd.nodeOffset
        else if final then st.btNodeEnd.nodeOffset ≥ st.btNodeStart.nodeOffset
        else (st.btNodeEnd.nodeOffset + 1) % 2 ^ 64 ≥ st.btNodeStart.nodeOffset) ∧
      e = { from_length :=
              if reverse then
                toInt32 (st.edit.from_length + st.btNodeStart.nodeOffset
                  - st.btNodeEnd.nodeOffset + 1)
              else
                toInt32 (st.edit.from_length + st.btNodeEnd.nodeOffset
                  - st.btNodeStart.nodeOffset + 1)
            to_length :=
              toInt32 (st.edit.to_length + st.btNodeEnd.seqPos - st.btBeforeNode.seqPos)
            sequence := st.edit.sequence ++
              (sequence.drop (st.btBeforeNode.seqPos + 1)).take
                (st.btNodeEnd.seqPos - st.btBeforeNode.seqPos) } := by
  unfold flushEdit
  by_cases hne : st.btNodeEnd.seqPos ≠ st.btBeforeNode.seqPos
  · cases reverse <;> cases final <;>
      simp [hne, substr, assert_bind_eq_some, Option.bind_eq_some] <;>
      intro _ <;> constructor <;>
      first
        | (rintro ⟨h1, a, ⟨h2, rfl⟩, h3, rfl⟩; exact ⟨⟨h1, h2⟩, h3, rfl⟩)
        | (rintro ⟨⟨h1, h2⟩, h3, rfl⟩; exact ⟨h1, _, ⟨h2, rfl⟩, h3, rfl⟩)
  · have heq : st.btNodeEnd.seqPos = st.btBeforeNode.seqPos := not_not.mp hne
    cases reverse <;> cases final <;>
      simp [heq, assert_bind_eq_some, Option.bind_eq_some] <;>
      intro _ <;> exact eq_comm

theorem traceLoop_inside (g : AlignmentGraph) (sequence : List Char) (reverse : Bool)
    (first : MatrixPosition) :
    ∀ (rest : List MatrixPosition) (prev : MatrixPosition) (st : TraceState),
      (∀ p ∈ rest, p.node = st.currentNode) →
      traceLoop g sequence reverse first rest prev st =
        some { st with btNodeEnd := rest.getLast?.getD st.btNodeEnd } := by
  intro rest
  induction rest with
  | nil => intro prev st _; rfl
  | cons cur rest ih =>
    intro prev st hall
    have hc : cur.node = st.currentNode := hall cur (List.mem_cons_self _ _)
    have hstep : traceStep g sequence reverse first prev cur st =
        some { st with btNodeEnd := cur } := by
      unfold traceStep
      rw [if_pos hc]
    simp only [traceLoop, bind_eq_optionBind, hstep, Option.some_bind]
    rw [ih cur { st with btNodeEnd := cur } (fun p hp => hall p (List.mem_cons_of_mem _ hp))]
    cases rest with
    | nil => rfl
    | cons b rest =>
      obtain ⟨l, hl⟩ : ∃ l, (b :: rest).getLast? = some l :=
        ⟨(b :: rest).getLast (by simp), List.getLast?_eq_getLast _ (by simp)⟩
      simp only [List.getLast?_cons_cons, hl, Option.getD_some]

theorem getLast?_cons_getD {α : Type} (a : α) (l : List α) :
    (a :: l).getLast? = some (l.getLast?.getD a) := by
  cases l with
  | nil => rfl
  | cons b rest =>
    obtain ⟨x, hx⟩ : ∃ x, (b :: rest).getLast? = some x :=
      ⟨(b :: rest).getLast (by simp), List.getLast?_eq_getLast _ (by simp)⟩
    simp only [List.getLast?_cons_cons, hx, Option.getD_some]

/-- A trace that stays on the split of its first position gives one mapping with one edit, the
edit of the flush after the loop. -/
theorem traceToAlignment_inside {g : AlignmentGraph} {seq_id : String} {sequence : List Char}
    {score : Int} {first : MatrixPosition} {rest : List MatrixPosition} {cellsProcessed : Nat}
    {reverse : Bool} {id : Int} {r : Bool} {e : Edit}
    (hid : g.nodeIDs[first.node]? = some id) (hr : g.reverse[first.node]? = some r)
    (hnode : ∀ p ∈ rest, p.node = first.node)
    (hflush : flushEdit sequence reverse true
      { done := []
        position :=
          { node_id := id, offset := first.nodeOffset, is_reverse := if reverse then !r else r }
        rank := 0
        edit := { from_length := 0, to_length := 0, sequence := [] }
        currentNode := first.node
        currentNodeId := id
        btNodeStart := first
        btNodeEnd := rest.getLast?.getD first
        btBeforeNode := first } = some e) :
    traceToAlignment g seq_id sequence score (first :: rest) cellsProcessed reverse =
      some { alignment :=
               { name := seq_id, score := score, sequence := sequence
                 path := [{ position :=
                              { node_id := id, offset := first.nodeOffset
                                is_reverse := if reverse then !r else r }
                            rank := 0
                            edit := [e] }] }
             cellsProcessed := cellsProcessed
             elapsedMilliseconds := SIZE_MAX
             alignmentStart := first.seqPos
             alignmentEnd := (rest.getLast?.getD first).seqPos } := by
  have hall : ∀ p ∈ first :: rest, p.node = first.node := by
    intro p hp
    rcases List.mem_cons.mp hp with rfl | hp
    · rfl
    · exact hnode p hp
  have hlast := getLast?_cons_getD first rest
  simp only [traceToAlignment, bind_eq_optionBind, hid, Option.some_bind, strandOf, hr,
    pure_eq_some]
  rw [traceLoop_inside g sequence reverse first (first :: rest) first _ hall]
  simp only [Option.some_bind, hlast, Option.getD_some, hflush, List.nil_append]

theorem insideTrace_succ (v k : Nat) :
    insideTrace v (k + 1) = ⟨v, 0, 0⟩ :: (List.range k).map (fun i => ⟨v, i + 1, i + 1⟩) := by
  simp [insideTrace, List.range_succ_eq_map, Function.comp_def]

theorem insideTrace_getLast (v k : Nat) :
    (insideTrace v (k + 1)).getLast? = some ⟨v, k, k⟩ := by
  simp [insideTrace, List.range_succ]

theorem insideTrace_node (v k : Nat) : ∀ p ∈ insideTrace v k, p.node = v := by
  intro p hp
  simp only [insideTrace, List.mem_map] at hp
  obtain ⟨i, _, rfl⟩ := hp
  rfl

/-- C9 (amended): for every graph, every split `v` with original node `id` and strand `r`, and
every forward trace of `k >= 1` positions `(v, i, i)`, `i = 0..k-1`, over a query of at least
`k` bases, `traceToAlignment` returns exactly one mapping, anchored at `(id, 0, r)`, holding
exactly one edit; its `from_length` and `to_length` are `k` and `k - 1` as stored in the `int32`
fields, which for `k < 2^31` (so for all positions inside one split) are `k` and `k - 1`
themselves, and its literal is the query without its first base, cut to `k - 1` bases. -/
theorem single_split_trace (g : AlignmentGraph) (seq_id : String) (sequence : List Char)
    (score : Int) (cellsProcessed v k : Nat) (id : Int) (r : Bool)
    (hk : 1 ≤ k) (hlen : k ≤ sequence.length) (hsz : sequence.length < 2 ^ 64)
    (hid : g.nodeIDs[v]? = some id) (hr : g.reverse[v]? = some r) :
    traceToAlignment g seq_id sequence score (insideTrace v k) cellsProcessed false =
      some { alignment :=
               { name := seq_id, score := score, sequence := sequence
                 path := [{ position := { node_id := id, offset := 0, is_reverse := r }
                            rank := 0
                            edit := [{ from_length := toInt32 k, to_length := toInt32 (k - 1)
                                       sequence := (sequence.drop 1).take (k - 1) }] }] }
             cellsProcessed := cellsProcessed
             elapsedMilliseconds := SIZE_MAX
             alignmentStart := 0
             alignmentEnd := k - 1 } ∧
    (k < 2 ^ 31 → toInt32 k = k ∧ toInt32 (k - 1) = k - 1) := by
  refine ⟨?_, fun hk31 => ⟨toInt32_of_bounds (by omega) (by omega),
    toInt32_of_bounds (by omega) (by omega)⟩⟩
  obtain ⟨k, rfl⟩ : ∃ j, k = j + 1 := ⟨k - 1, by omega⟩
  have hlast : ((List.range k).map (fun i => (⟨v, i + 1, i + 1⟩ : MatrixPosition))).getLast?.getD
      ⟨v, 0, 0⟩ = ⟨v, k, k⟩ := by
    have := insideTrace_getLast v k
    rw [insideTrace_succ, getLast?_cons_getD] at this
    exact Option.some.inj this
  have hnode : ∀ p ∈ (List.range k).map (fun i => (⟨v, i + 1, i + 1⟩ : MatrixPosition)),
      p.node = v := by
    intro p hp
    simp only [List.mem_map] at hp
    obtain ⟨i, _, rfl⟩ := hp
    rfl
  have h1 : (sequence.length + 2 ^ 64 - 1) % 2 ^ 64 = sequence.length - 1 := by
    have : sequence.length + 2 ^ 64 - 1 = (sequence.length - 1) + 2 ^ 64 := by omega
    rw [this, Nat.add_mod_right, Nat.mod_eq_of_lt (by omega)]
  rw [insideTrace_succ]
  have hflush : flushEdit sequence false true
      { done := []
        position := { node_id := id, offset := 0, is_reverse := if false then !r else r }
        rank := 0
        edit := { from_length := 0, to_length := 0, sequence := [] }
        currentNode := v
        currentNodeId := id
        btNodeStart := ⟨v, 0, 0⟩
        btNodeEnd := ((List.range k).map
          (fun i => (⟨v, i + 1, i + 1⟩ : MatrixPosition))).getLast?.getD ⟨v, 0, 0⟩
        btBeforeNode := ⟨v, 0, 0⟩ } =
      some { from_length := toInt32 ((k + 1 : Nat) : Int)
             to_length := toInt32 (((k + 1 : Nat) : Int) - 1)
             sequence := (sequence.drop 1).take (k + 1 - 1) } := by
    rw [hlast, flushEdit_eq_some_iff]
    refine ⟨Nat.zero_le _, fun hne => ?_, Nat.zero_le _, ?_⟩
    · have hk0 : k ≠ 0 := hne
      exact ⟨by rw [h1]; show 0 < sequence.length - 1; omega,
        by show 0 + 1 ≤ sequence.length; omega⟩
    · simp only [Bool.false_eq_true, if_false, List.nil_append, Nat.sub_zero,
        Nat.add_sub_cancel, Nat.zero_add]
      have e1 : (0 : Int) + (k : Int) - ((0 : Nat) : Int) + 1 = ((k + 1 : Nat) : Int) := by
        push_cast
        ring
      have e2 : (0 : Int) + (k : Int) - ((0 : Nat) : Int) = ((k + 1 : Nat) : Int) - 1 := by
        push_cast
        ring
      rw [e1, e2]
  have hrun := @traceToAlignment_inside g seq_id sequence score ⟨v, 0, 0⟩ _ cellsProcessed false
    id r _ hid hr hnode hflush
  rw [hlast] at hrun
  simpa using hrun

theorem single_split_trace_witness :
    (traceToAlignment singleGraph "read" "ACGT".toList 0 (insideTrace 0 4) 0 false =
      some { alignment :=
               { name := "read", score := 0, sequence := "ACGT".toList
                 path := [{ position := { node_id := 2, offset := 0, is_reverse := false }
                            rank := 0
                            edit := [{ from_length := toInt32 (4 : Nat)
                                       to_length := toInt32 ((4 : Nat) - 1)
                                       sequence := ("ACGT".toList.drop 1).take (4 - 1) }] }] }
             cellsProcessed := 0
             elapsedMilliseconds := SIZE_MAX
             alignmentStart := 0
             alignmentEnd := 4 - 1 } ∧
      (4 < 2 ^ 31 → toInt32 (4 : Nat) = (4 : Nat) ∧ toInt32 ((4 : Nat) - 1) = (4 : Nat) - 1)) ∧
    traceToAlignment singleGraph "read" "ACGT".toList 0 (insideTrace 0 4) 0 false =
      some { alignment :=
               { name := "read", score := 0, sequence := "ACGT".toList
                 path := [{ position := { node_id := 2, offset := 0, is_reverse := false }
                            rank := 0
                            edit := [{ from_length := 4, to_length := 3
                                       sequence := "CGT".toList }] }] }
             cellsProcessed := 0
             elapsedMilliseconds := SIZE_MAX
             alignmentStart := 0
             alignmentEnd := 3 } :=
  ⟨single_split_trace singleGraph "read" "ACGT".toList 0 0 0 4 2 false (by decide) (by decide)
    (by decide) (by decide) (by decide), by decide⟩

/-- C9 (as stated, at the scenario): on the finalized graph of the single node `ACGT` the
forward trace `[(0,0,0),(0,1,1),(0,2,2),(0,3,3)]` with query `ACGT` gives one mapping with one
edit whose `from_length` is 4 and whose `to_length` is 3, with literal `CGT`; the `to_length`
is not 4. -/
theorem single_split_to_length :
    buildFinal singleCalls 64 false = some singleGraph ∧
    insideTrace 0 4 = [⟨0, 0, 0⟩, ⟨0, 1, 1⟩, ⟨0, 2, 2⟩, ⟨0, 3, 3⟩] ∧
    (traceToAlignment singleGraph "read" "ACGT".toList 0
        [⟨0, 0, 0⟩, ⟨0, 1, 1⟩, ⟨0, 2, 2⟩, ⟨0, 3, 3⟩] 0 false).map
      (fun item => item.alignment.path) =
      some [{ position := { node_id := 2, offset := 0, is_reverse := false }
              rank := 0
              edit := [{ from_length := 4, to_length := 3, sequence := "CGT".toList }] }] ∧
    ¬ ∃ item m e,
      traceToAlignment singleGraph "read" "ACGT".toList 0
        [⟨0, 0, 0⟩, ⟨0, 1, 1⟩, ⟨0, 2, 2⟩, ⟨0, 3, 3⟩] 0 false = some item ∧
      item.alignment.path = [m] ∧ m.edit = [e] ∧ e.from_length = 4 ∧ e.to_length = 4 := by
  have hrun : traceToAlignment singleGraph "read" "ACGT".toList 0
      [⟨0, 0, 0⟩, ⟨0, 1, 1⟩, ⟨0, 2, 2⟩, ⟨0, 3, 3⟩] 0 false =
      some { alignment :=
               { name := "read", score := 0, sequence := "ACGT".toList
                 path := [{ position := { node_id := 2, offset := 0, is_reverse := false }
                            rank := 0
                            edit := [{ from_length := 4, to_length := 3
                                       sequence := "CGT".toList }] }] }
             cellsProcessed := 0
             elapsedMilliseconds := SIZE_MAX
             alignmentStart := 0
             alignmentEnd := 3 } := by decide
  refine ⟨by decide, by decide, by rw [hrun]; rfl, ?_⟩
  rintro ⟨item, m, e, hitem, hpath, hedit, -, hto⟩
  rw [hrun] at hitem
  cases hitem
  cases hpath
  cases hedit
  cases hto

theorem opensMapping_spec {g : AlignmentGraph} {reverse : Bool} {id : Int}
    {prev cur : MatrixPosition} {b : Bool}
    (hid : g.nodeIDs[prev.node]? = some id) (hne : cur.node ≠ prev.node)
    (h : opensMapping g reverse id prev.node cur.node = some b) :
    b = startsMapping g reverse prev cur ∧
    ∃ idCur, g.nodeIDs[cur.node]? = some idCur ∧ (b = false → idCur = id) := by
  unfold opensMapping at h
  rw [bind_eq_optionBind] at h
  obtain ⟨idCur, hcur, h⟩ := Option.bind_eq_some.mp h
  by_cases hc : idCur ≠ id
  · rw [if_pos hc] at h
    cases h
    refine ⟨?_, idCur, hcur, fun hb => by cases hb⟩
    simp [startsMapping, hne, hcur, hid, hc]
  · rw [if_neg hc, bind_eq_optionBind] at h
    have hc' : idCur = id := not_not.mp hc
    obtain ⟨revCur, hrc, h⟩ := Option.bind_eq_some.mp h
    rw [bind_eq_optionBind] at h
    obtain ⟨revPrev, hrp, h⟩ := Option.bind_eq_some.mp h
    by_cases hr : revCur ≠ revPrev
    · rw [if_pos hr] at h
      cases h
      refine ⟨?_, idCur, hcur, fun hb => by cases hb⟩
      simp [startsMapping, hne, hrc, hrp, hr]
    · rw [if_neg hr, bind_eq_optionBind] at h
      have hr' : revCur = revPrev := not_not.mp hr
      obtain ⟨offCur, hoc, h⟩ := Option.bind_eq_some.mp h
      rw [bind_eq_optionBind] at h
      obtain ⟨offPrev, hop, h⟩ := Option.bind_eq_some.mp h
      rw [pure_eq_some] at h
      cases h
      refine ⟨?_, idCur, hcur, fun _ => hc'⟩
      simp [startsMapping, hne, hcur, hid, hrc, hrp, hoc, hop, hc', hr']

theorem traceStep_count {g : AlignmentGraph} {sequence : List Char} {reverse : Bool}
    {first prev cur : MatrixPosition} {st st1 : TraceState}
    (hid : g.nodeIDs[st.currentNode]? = some st.currentNodeId)
    (hprev : st.currentNode = prev.node)
    (h : traceStep g sequence reverse first prev cur st = some st1) :
    g.nodeIDs[st1.currentNode]? = some st1.currentNodeId ∧ st1.currentNode = cur.node ∧
    st1.done.length = st.done.length + (if startsMapping g reverse prev cur then 1 else 0) := by
  unfold traceStep at h
  by_cases hc : cur.node = st.currentNode
  · rw [if_pos hc] at h
    cases h
    refine ⟨hid, hc.symm, ?_⟩
    have : startsMapping g reverse prev cur = false := by
      simp [startsMapping, hc, hprev]
    simp [this]
  · rw [if_neg hc, bind_eq_optionBind] at h
    obtain ⟨_, -, h⟩ := Option.bind_eq_some.mp h
    rw [bind_eq_optionBind] at h
    obtain ⟨edit1, -, h⟩ := Option.bind_eq_some.mp h
    rw [bind_eq_optionBind] at h
    obtain ⟨opens, hopen, h⟩ := Option.bind_eq_some.mp h
    rw [hprev] at hopen hid
    obtain ⟨hb, idCur, hcur, hsame⟩ := opensMapping_spec hid (by rw [← hprev]; exact hc) hopen
    cases opens with
    | true =>
      rw [if_pos rfl, bind_eq_optionBind] at h
      obtain ⟨idCur', hcur', h⟩ := Option.bind_eq_some.mp h
      rw [bind_eq_optionBind] at h
      obtain ⟨offCur, -, h⟩ := Option.bind_eq_some.mp h
      rw [bind_eq_optionBind] at h
      obtain ⟨strand, -, h⟩ := Option.bind_eq_some.mp h
      rw [pure_eq_some] at h
      cases h
      refine ⟨hcur', rfl, ?_⟩
      simp [← hb]
    | false =>
      rw [if_neg (by simp), pure_eq_some] at h
      cases h
      refine ⟨?_, rfl, ?_⟩
      · show g.nodeIDs[cur.node]? = some st.currentNodeId
        rw [hcur, hsame rfl]
      · simp [← hb]

theorem traceLoop_count {g : AlignmentGraph} {sequence : List Char} {reverse : Bool}
    {first : MatrixPosition} :
    ∀ (rest : List MatrixPosition) (prev : MatrixPosition) (st st1 : TraceState),
      g.nodeIDs[st.currentNode]? = some st.currentNodeId → st.currentNode = prev.node →
      traceLoop g sequence reverse first rest prev st = some st1 →
      st1.done.length = st.done.length + mappingStarts g reverse (prev :: rest) := by
  intro rest
  induction rest with
  | nil =>
    intro prev st st1 _ _ h
    cases h
    rfl
  | cons cur rest ih =>
    intro prev st st1 hid hprev h
    simp only [traceLoop, bind_eq_optionBind] at h
    obtain ⟨st2, hstep, h⟩ := Option.bind_eq_some.mp h
    obtain ⟨hid2, hcur2, hlen2⟩ := traceStep_count hid hprev hstep
    rw [ih cur st2 st1 hid2 hcur2 h, hlen2]
    simp only [mappingStarts]
    omega

theorem startsMapping_self (g : AlignmentGraph) (reverse : Bool) (a : MatrixPosition) :
    startsMapping g reverse a a = false := by
  simp [startsMapping]

/-- C10 (amended): whenever `traceToAlignment` returns on a non-empty trace, the number of
mappings of the returned path is one more than the number of adjacent trace positions at which
the split changes and the new split has another original node, or another strand, or an offset
that is not `SPLIT_NODE_SIZE` after (reverse trace: before) the previous split's offset. -/
theorem mappings_count (g : AlignmentGraph) (seq_id : String) (sequence : List Char)
    (score : Int) (trace : List MatrixPosition) (cellsProcessed : Nat) (reverse : Bool)
    (item : AlignmentItem) (hne : trace ≠ [])
    (h : traceToAlignment g seq_id sequence score trace cellsProcessed reverse = some item) :
    item.alignment.path.length = 1 + mappingStarts g reverse trace := by
  cases trace with
  | nil => exact absurd rfl hne
  | cons first rest =>
    simp only [traceToAlignment, bind_eq_optionBind] at h
    obtain ⟨id, hid, h⟩ := Option.bind_eq_some.mp h
    obtain ⟨strand, -, h⟩ := Option.bind_eq_some.mp h
    obtain ⟨st, hloop, h⟩ := Option.bind_eq_some.mp h
    obtain ⟨edit1, -, h⟩ := Option.bind_eq_some.mp h
    obtain ⟨last, -, h⟩ := Option.bind_eq_some.mp h
    rw [pure_eq_some] at h
    cases h
    have hcount := traceLoop_count (first :: rest) first _ st hid rfl hloop
    simp only [List.length_append, List.length_singleton, hcount, List.length_nil]
    simp only [mappingStarts, startsMapping_self]
    simp
    omega

theorem mappings_count_witness :
    cutTrace ≠ [] ∧
    traceToAlignment cutGraph "read" "ACGT".toList 0 cutTrace 0 false = some cutItem ∧
    cutItem.alignment.path.length = 1 + mappingStarts cutGraph false cutTrace :=
  ⟨by decide, by decide,
    mappings_count cutGraph "read" "ACGT".toList 0 cutTrace 0 false cutItem (by decide)
      (by decide)⟩

/-- C10 (as stated, at a concrete input): in the finalized graph of the node `ACGT` cut at its
middle, both splits have the original node 2 and the forward strand, so the four positions of
the trace along them form one maximal run, yet the returned path has two mappings. -/
theorem cut_node_two_mappings :
    buildFinal cutCalls 64 false = some cutGraph ∧
    maximalRuns cutGraph cutTrace = 1 ∧
    (traceToAlignment cutGraph "read" "ACGT".toList 0 cutTrace 0 false).map
      (fun item => item.alignment.path) =
      some [{ position := { node_id := 2, offset := 0, is_reverse := false }
              rank := 0
              edit := [{ from_length := 2, to_length := 1, sequence := "C".toList }] },
            { position := { node_id := 2, offset := 2, is_reverse := false }
              rank := 1
              edit := [{ from_length := 2, to_length := 2, sequence := "GT".toList }] }] := by
  decide

/-! ## C2 and C3: `doComponentOrder` -/

/-- The entry `x` of a `size_t` table, `SIZE_MAX` outside the table. -/
def valueAt (l : List Nat) (x : Nat) : Nat := l.getD x SIZE_MAX

/-- The entry `x` of a flag table, `false` outside the table. -/
def flagAt (l : List Bool) (x : Nat) : Bool := l.getD x false

/-- The out-neighbours of the vertex `x`, none outside the table. -/
def outsOf (outs : List (List Nat)) (x : Nat) : List Nat := outs.getD x []

/-- There is an edge from `u` to `w`. -/
def Edge (outs : List (List Nat)) (u w : Nat) : Prop := w ∈ outsOf outs u

/-- The vertex `w` is reachable from `u` along out-edges. -/
def Reach (outs : List (List Nat)) : Nat → Nat → Prop := Relation.ReflTransGen (Edge outs)

/-- The out-neighbour table has one entry per vertex and names only vertices. -/
structure WellFormed (outs : List (List Nat)) (total : Nat) : Prop where
  len : outs.length = total
  bound : ∀ u w, Edge outs u w → w < total

theorem valueAt_set {l : List Nat} {v : Nat} (a x : Nat) (hv : v < l.length) :
    valueAt (l.set v a) x = if x = v then a else valueAt l x := by
  unfold valueAt
  rw [List.getD_eq_getElem?_getD, List.getD_eq_getElem?_getD, List.getElem?_set]
  by_cases h : v = x
  · subst h
    simp [hv]
  · rw [if_neg h, if_neg (fun e => h e.symm)]

theorem flagAt_set {l : List Bool} {v : Nat} (a : Bool) (x : Nat) (hv : v < l.length) :
    flagAt (l.set v a) x = if x = v then a else flagAt l x := by
  unfold flagAt
  rw [List.getD_eq_getElem?_getD, List.getD_eq_getElem?_getD, List.getElem?_set]
  by_cases h : v = x
  · subst h
    simp [hv]
  · rw [if_neg h, if_neg (fun e => h e.symm)]

theorem getElem?_valueAt {l : List Nat} {x : Nat} (h : x < l.length) :
    l[x]? = some (valueAt l x) := by
  unfold valueAt
  rw [List.getD_eq_getElem?_getD, List.getElem?_eq_getElem h]
  rfl

theorem getElem?_flagAt {l : List Bool} {x : Nat} (h : x < l.length) :
    l[x]? = some (flagAt l x) := by
  unfold flagAt
  rw [List.getD_eq_getElem?_getD, List.getElem?_eq_getElem h]
  rfl

theorem getElem?_outsOf {outs : List (List Nat)} {x : Nat} (h : x < outs.length) :
    outs[x]? = some (outsOf outs x) := by
  unfold outsOf
  rw [List.getD_eq_getElem?_getD, List.getElem?_eq_getElem h]
  rfl

theorem valueAt_of_ge {l : List Nat} {x : Nat} (h : l.length ≤ x) : valueAt l x = SIZE_MAX := by
  unfold valueAt
  rw [List.getD_eq_getElem?_getD, List.getElem?_eq_none h]
  rfl

theorem lt_of_valueAt_ne {l : List Nat} {x : Nat} (h : valueAt l x ≠ SIZE_MAX) :
    x < l.length := by
  by_contra hx
  exact h (valueAt_of_ge (Nat.le_of_not_lt hx))

theorem lt_of_flagAt {l : List Bool} {x : Nat} (h : flagAt l x = true) : x < l.length := by
  by_contra hx
  unfold flagAt at h
  rw [List.getD_eq_getElem?_getD, List.getElem?_eq_none (Nat.le_of_not_lt hx)] at h
  simp at h

theorem Edge.source_lt {outs : List (List Nat)} {u w : Nat} (h : Edge outs u w) : u < outs.length := by
  by_contra hx
  unfold Edge outsOf at h
  rw [List.getD_eq_getElem?_getD, List.getElem?_eq_none (Nat.le_of_not_lt hx)] at h
  simp at h

theorem edge_of_getElem? {outs : List (List Nat)} {u w p : Nat}
    (h : (outsOf outs u)[p]? = some w) : Edge outs u w :=
  List.getElem?_mem h

theorem count_set_max : ∀ {l : List Nat} {v a : Nat}, l[v]? = some SIZE_MAX → a ≠ SIZE_MAX →
    (l.set v a).count SIZE_MAX + 1 = l.count SIZE_MAX
  | [], v, a, h, _ => by simp at h
  | x :: xs, 0, a, h, ha => by
    simp only [List.getElem?_cons_zero, Option.some.injEq] at h
    subst h
    simp [List.count_cons, ha]
  | x :: xs, v + 1, a, h, ha => by
    simp only [List.getElem?_cons_succ] at h
    have ih := count_set_max h ha
    simp only [List.set_cons_succ, List.count_cons]
    omega

/-- The facts about the live part of the search: `H` lists the heads of the segments of `stack`,
newest first, each with the number of its out-edges that have been looked at. The tables are
`index` (`I`), `lowlink` (`L`) and `onStack` (`O`). -/
structure Heads (outs : List (List Nat)) (H : List (Nat × Nat)) (I L : List Nat)
    (O : List Bool) : Prop where
  sorted : H.Pairwise (fun a b => valueAt I b.1 < valueAt I a.1)
  live : ∀ h ∈ H, flagAt O h.1 = true ∧ h.2 ≤ (outsOf outs h.1).length
  link : H.Chain' (fun a b => (outsOf outs b.1)[b.2]? = some a.1)
  low : ∀ a ∈ H.map Prod.fst, valueAt L a ≤ valueAt I a ∧
    ∃ z, flagAt O z = true ∧ valueAt I z = valueAt L a ∧ Reach outs a z
  down : ∀ a ∈ H.map Prod.fst, ∀ x, flagAt O x = true → valueAt I a ≤ valueAt I x →
    Reach outs a x
  up : ∀ x, flagAt O x = true → ∃ a ∈ H.map Prod.fst, valueAt I a ≤ valueAt I x ∧ Reach outs x a
  scanned : ∀ x, flagAt O x = true → ∀ p y, (∀ s, (x, s) ∈ H → p < s) →
    (outsOf outs x)[p]? = some y →
    valueAt I y ≠ SIZE_MAX ∧
    (flagAt O y = true → ∀ a ∈ H.map Prod.fst, valueAt I a ≤ valueAt I x →
      ∃ b ∈ H.map Prod.fst, valueAt I a ≤ valueAt I b ∧ valueAt L b ≤ valueAt I y)

/-- The facts about the vertices that have been given a component number in the table `C`:
no edge leads from one of them to a vertex without number or with a greater number, and two
vertices with the same number reach each other. -/
structure Done (outs : List (List Nat)) (C : List Nat) : Prop where
  order : ∀ x y, valueAt C x ≠ SIZE_MAX → Edge outs x y →
    valueAt C y ≠ SIZE_MAX ∧ valueAt C y ≤ valueAt C x
  same : ∀ x y, valueAt C x ≠ SIZE_MAX → valueAt C x = valueAt C y → Reach outs x y

/-- The facts about the tables of `doComponentOrder` that do not depend on the edges. -/
structure Tables (total : Nat) (st : ComponentState) : Prop where
  lenIndex : st.index.length = total
  lenLow : st.lowlink.length = total
  lenOn : st.onStack.length = total
  lenComp : st.componentNumber.length = total
  count : st.index.count SIZE_MAX + st.i = total
  idxLt : ∀ x, valueAt st.index x ≠ SIZE_MAX → valueAt st.index x < st.i
  idxInj : ∀ x y, valueAt st.index x ≠ SIZE_MAX → valueAt st.index x = valueAt st.index y →
    x = y
  fresh : ∀ x, valueAt st.index x = SIZE_MAX →
    valueAt st.lowlink x = SIZE_MAX ∧ flagAt st.onStack x = false ∧
    valueAt st.componentNumber x = SIZE_MAX
  onIff : ∀ x, flagAt st.onStack x = true ↔ x ∈ st.stack
  sorted : st.stack.Pairwise (fun a b => valueAt st.index b < valueAt st.index a)
  compIff : ∀ x, valueAt st.componentNumber x ≠ SIZE_MAX ↔
    (valueAt st.index x ≠ SIZE_MAX ∧ flagAt st.onStack x = false)
  compLt : ∀ x, valueAt st.componentNumber x ≠ SIZE_MAX →
    valueAt st.componentNumber x < st.nextComponent
  cnt : st.nextComponent + st.stack.length ≤ st.i
  roots : ∀ x, x < st.checknode → valueAt st.index x ≠ SIZE_MAX
  checkLe : st.checknode ≤ total

theorem Tables.visited {total : Nat} {st : ComponentState} (h : Tables total st) {x : Nat}
    (hx : flagAt st.onStack x = true) : valueAt st.index x ≠ SIZE_MAX := by
  intro e
  have := (h.fresh x e).2.1
  rw [hx] at this
  cases this

theorem Heads.fst_distinct {outs : List (List Nat)} {H : List (Nat × Nat)} {I L : List Nat}
    {O : List Bool} (h : Heads outs H I L O) : (H.map Prod.fst).Nodup := by
  rw [List.Nodup, List.pairwise_map]
  exact h.sorted.imp (fun hab e => by rw [e] at hab; exact Nat.lt_irrefl _ hab)

theorem Heads.top_max {outs : List (List Nat)} {v k : Nat} {P : List (Nat × Nat)}
    {I L : List Nat} {O : List Bool} (h : Heads outs ((v, k) :: P) I L O) {a : Nat}
    (ha : a ∈ ((v, k) :: P).map Prod.fst) : valueAt I a ≤ valueAt I v := by
  simp only [List.map_cons, List.mem_cons, List.mem_map] at ha
  rcases ha with rfl | ⟨b, hb, rfl⟩
  · exact Nat.le_refl _
  · exact Nat.le_of_lt ((List.pairwise_cons.mp h.sorted).1 b hb)

theorem Heads.cursor_eq {outs : List (List Nat)} {v k : Nat} {P : List (Nat × Nat)}
    {I L : List Nat} {O : List Bool} (h : Heads outs ((v, k) :: P) I L O) {s : Nat}
    (hs : (v, s) ∈ (v, k) :: P) : s = k := by
  rcases List.mem_cons.mp hs with e | hs
  · exact (Prod.mk.inj e).2
  · exact absurd ((List.pairwise_cons.mp h.sorted).1 _ hs) (Nat.lt_irrefl _)

theorem Heads.head_live {outs : List (List Nat)} {H : List (Nat × Nat)} {I L : List Nat}
    {O : List Bool} (h : Heads outs H I L O) {a : Nat} (ha : a ∈ H.map Prod.fst) :
    flagAt O a = true := by
  obtain ⟨b, hb, rfl⟩ := List.mem_map.mp ha
  exact (h.live b hb).1

/-- The invariant `Heads` after the vertex `w`, which had no index, has been given the index
and lowlink `i` and pushed on the stack. -/
theorem Heads.heads_push {outs : List (List Nat)} {H : List (Nat × Nat)} {I L : List Nat}
    {O : List Bool} (h : Heads outs H I L O) {w i : Nat}
    (hw : w < I.length) (hwL : w < L.length) (hwO : w < O.length)
    (hfresh : valueAt I w = SIZE_MAX)
    (hvis : ∀ x, flagAt O x = true → valueAt I x ≠ SIZE_MAX)
    (hlt : ∀ x, valueAt I x ≠ SIZE_MAX → valueAt I x < i)
    (hlink : ∀ t ∈ H.head?, (outsOf outs t.1)[t.2]? = some w) :
    Heads outs ((w, 0) :: H) (I.set w i) (L.set w i) (O.set w true) := by
  have hIw : valueAt (I.set w i) w = i := by rw [valueAt_set _ _ hw, if_pos rfl]
  have hI : ∀ x, x ≠ w → valueAt (I.set w i) x = valueAt I x := fun x hx => by
    rw [valueAt_set _ _ hw, if_neg hx]
  have hLw : valueAt (L.set w i) w = i := by rw [valueAt_set _ _ hwL, if_pos rfl]
  have hL : ∀ x, x ≠ w → valueAt (L.set w i) x = valueAt L x := fun x hx => by
    rw [valueAt_set _ _ hwL, if_neg hx]
  have hOw : flagAt (O.set w true) w = true := by rw [flagAt_set _ _ hwO, if_pos rfl]
  have hO : ∀ x, x ≠ w → flagAt (O.set w true) x = flagAt O x := fun x hx => by
    rw [flagAt_set _ _ hwO, if_neg hx]
  have hne : ∀ x, flagAt O x = true → x ≠ w := fun x hx e => hvis x hx (e ▸ hfresh)
  have hold : ∀ x, flagAt (O.set w true) x = true → x ≠ w → flagAt O x = true :=
    fun x hx hxw => by rw [hO x hxw] at hx; exact hx
  have hhead : ∀ a ∈ H.map Prod.fst, a ≠ w := fun a ha => hne a (h.head_live ha)
  refine ⟨?_, ?_, ?_, ?_, ?_, ?_, ?_⟩
  · refine List.pairwise_cons.mpr ⟨fun b hb => ?_, ?_⟩
    · have hb1 := List.mem_map_of_mem Prod.fst hb
      show valueAt (I.set w i) b.1 < valueAt (I.set w i) w
      rw [hIw, hI _ (hhead _ hb1)]
      exact hlt _ (hvis _ (h.head_live hb1))
    · refine h.sorted.imp_of_mem (fun {a b} ha hb hab => ?_)
      rw [hI _ (hhead _ (List.mem_map_of_mem Prod.fst ha)),
        hI _ (hhead _ (List.mem_map_of_mem Prod.fst hb))]
      exact hab
  · intro b hb
    rcases List.mem_cons.mp hb with rfl | hb
    · exact ⟨hOw, Nat.zero_le _⟩
    · have := h.live b hb
      exact ⟨by rw [hO _ (hne _ this.1)]; exact this.1, this.2⟩
  · exact List.chain'_cons'.mpr ⟨hlink, h.link⟩
  · intro a ha
    simp only [List.map_cons, List.mem_cons] at ha
    rcases ha with rfl | ha
    · exact ⟨by rw [hLw, hIw], a, hOw, by rw [hLw, hIw], Relation.ReflTransGen.refl⟩
    · have haw := hhead a ha
      obtain ⟨h1, z, hz, hz2, hz3⟩ := h.low a ha
      rw [hL a haw, hI a haw]
      exact ⟨h1, z, by rw [hO z (hne z hz)]; exact hz, by rw [hI z (hne z hz)]; exact hz2, hz3⟩
  · intro a ha x hx hle
    simp only [List.map_cons, List.mem_cons] at ha
    by_cases hxw : x = w
    · subst hxw
      rcases ha with rfl | ha
      · exact Relation.ReflTransGen.refl
      · cases H with
        | nil => simp at ha
        | cons t rest =>
          obtain ⟨tv, tk⟩ := t
          have ht := hlink (tv, tk) (by simp)
          have hat : Reach outs a tv :=
            h.down a ha tv (h.live (tv, tk) (List.mem_cons_self _ _)).1 (h.top_max ha)
          exact hat.tail (edge_of_getElem? ht)
    · have hxO := hold x hx hxw
      rcases ha with rfl | ha
      · exfalso
        rw [hIw, hI x hxw] at hle
        exact absurd (hlt x (hvis x hxO)) (Nat.not_lt.mpr hle)
      · rw [hI a (hhead a ha), hI x hxw] at hle
        exact h.down a ha x hxO hle
  · intro x hx
    by_cases hxw : x = w
    · subst hxw
      exact ⟨x, List.mem_cons_self _ _, Nat.le_refl _, Relation.ReflTransGen.refl⟩
    · obtain ⟨a, ha, hle, hr⟩ := h.up x (hold x hx hxw)
      refine ⟨a, List.mem_cons_of_mem _ ha, ?_, hr⟩
      rw [hI a (hhead a ha), hI x hxw]
      exact hle
  · intro x hx p y hcond hy
    by_cases hxw : x = w
    · subst hxw
      exact absurd (hcond 0 (List.mem_cons_self _ _)) (Nat.not_lt_zero _)
    · have hxO := hold x hx hxw
      obtain ⟨h1, h2⟩ := h.scanned x hxO p y
        (fun s hs => hcond s (List.mem_cons_of_mem _ hs)) hy
      have hyw : y ≠ w := fun e => h1 (e ▸ hfresh)
      refine ⟨by rw [hI y hyw]; exact h1, fun hyO a ha hle => ?_⟩
      simp only [List.map_cons, List.mem_cons] at ha
      rcases ha with rfl | ha
      · exfalso
        rw [hIw, hI x hxw] at hle
        exact absurd (hlt x (hvis x hxO)) (Nat.not_lt.mpr hle)
      · rw [hI a (hhead a ha), hI x hxw] at hle
        obtain ⟨b, hb, hab, hby⟩ := h2 (hold y hyO hyw) a ha hle
        refine ⟨b, List.mem_cons_of_mem _ hb, ?_, ?_⟩
        · rw [hI a (hhead a ha), hI b (hhead b hb)]
          exact hab
        · rw [hL b (hhead b hb), hI y hyw]
          exact hby

/-- The invariant `Heads` after the newest head `v` has looked at its out-edge number `k`,
which leads to the indexed vertex `w`, and has lowered its lowlink to `m`. -/
theorem Heads.advance {outs : List (List Nat)} {v k : Nat} {P : List (Nat × Nat)}
    {I L : List Nat} {O : List Bool} (h : Heads outs ((v, k) :: P) I L O) {w m : Nat}
    (hv : v < L.length) (hw : (outsOf outs v)[k]? = some w) (hwI : valueAt I w ≠ SIZE_MAX)
    (hm : m ≤ valueAt L v)
    (hz : ∃ z, flagAt O z = true ∧ valueAt I z = m ∧ Reach outs v z)
    (hwm : flagAt O w = true → m ≤ valueAt I w) :
    Heads outs ((v, k + 1) :: P) I (L.set v m) O := by
  have hLv : valueAt (L.set v m) v = m := by rw [valueAt_set _ _ hv, if_pos rfl]
  have hL : ∀ x, x ≠ v → valueAt (L.set v m) x = valueAt L x := fun x hx => by
    rw [valueAt_set _ _ hv, if_neg hx]
  have hLle : ∀ x, valueAt (L.set v m) x ≤ valueAt L x := fun x => by
    by_cases hx : x = v
    · rw [hx, hLv]; exact hm
    · rw [hL x hx]
  have hnd := h.fst_distinct
  simp only [List.map_cons, List.nodup_cons] at hnd
  have hPv : ∀ a ∈ P.map Prod.fst, a ≠ v := fun a ha e => hnd.1 (e ▸ ha)
  have hs := List.pairwise_cons.mp h.sorted
  have hk : k < (outsOf outs v).length := (List.getElem?_eq_some.mp hw).1
  refine ⟨List.pairwise_cons.mpr ⟨hs.1, hs.2⟩, ?_, ?_, ?_, h.down, h.up, ?_⟩
  · intro b hb
    rcases List.mem_cons.mp hb with rfl | hb
    · exact ⟨(h.live (v, k) (List.mem_cons_self _ _)).1, hk⟩
    · exact h.live b (List.mem_cons_of_mem _ hb)
  · have := List.chain'_cons'.mp h.link
    exact List.chain'_cons'.mpr ⟨this.1, this.2⟩
  · intro a ha
    simp only [List.map_cons, List.mem_cons] at ha
    rcases ha with rfl | ha
    · rw [hLv]
      exact ⟨Nat.le_trans hm (h.low a (List.mem_cons_self _ _)).1, hz⟩
    · rw [hL a (hPv a ha)]
      exact h.low a (List.mem_cons_of_mem _ ha)
  · intro x hx p y hcond hy
    by_cases hnew : x = v ∧ p = k
    · obtain ⟨rfl, hpk⟩ := hnew
      rw [hpk, hw] at hy
      cases Option.some.inj hy
      refine ⟨hwI, fun hwO a ha hle => ⟨x, List.mem_cons_self _ _, hle, ?_⟩⟩
      rw [hLv]
      exact hwm hwO
    · have hold : ∀ s, (x, s) ∈ (v, k) :: P → p < s := by
        intro s hs
        rcases List.mem_cons.mp hs with e | hs
        · obtain ⟨hxv, hsk⟩ := Prod.mk.inj e
          have hlt := hcond (k + 1) (hxv ▸ List.mem_cons_self _ _)
          have hpk : p ≠ k := fun e => hnew ⟨hxv, e⟩
          omega
        · exact hcond s (List.mem_cons_of_mem _ hs)
      obtain ⟨h1, h2⟩ := h.scanned x hx p y hold hy
      refine ⟨h1, fun hyO a ha hle => ?_⟩
      obtain ⟨b, hb, hab, hby⟩ := h2 hyO a ha hle
      exact ⟨b, hb, hab, Nat.le_trans (hLle b) hby⟩

/-- The invariant `Heads` after the segment of the newest head `c`, which has seen all its
out-edges and has a lowlink below its index, has been joined to the segment of the head `v`
below it, whose lowlink is lowered to that of `c`. -/
theorem Heads.join {outs : List (List Nat)} {c lc v k : Nat} {P : List (Nat × Nat)}
    {I L : List Nat} {O : List Bool} (h : Heads outs ((c, lc) :: (v, k) :: P) I L O)
    (hv : v < L.length) (hlc : (outsOf outs c).length ≤ lc)
    (hlow : valueAt L c < valueAt I c) :
    Heads outs ((v, k) :: P) I (L.set v (min (valueAt L v) (valueAt L c))) O := by
  have hLv : valueAt (L.set v (min (valueAt L v) (valueAt L c))) v =
      min (valueAt L v) (valueAt L c) := by rw [valueAt_set _ _ hv, if_pos rfl]
  have hL : ∀ x, x ≠ v → valueAt (L.set v (min (valueAt L v) (valueAt L c))) x = valueAt L x :=
    fun x hx => by rw [valueAt_set _ _ hv, if_neg hx]
  have hLle : ∀ x, valueAt (L.set v (min (valueAt L v) (valueAt L c))) x ≤ valueAt L x :=
    fun x => by
      by_cases hx : x = v
      · rw [hx, hLv]; exact Nat.min_le_left _ _
      · rw [hL x hx]
  have hs := List.pairwise_cons.mp h.sorted
  have hs2 := List.pairwise_cons.mp hs.2
  have hvc : valueAt I v < valueAt I c := hs.1 (v, k) (List.mem_cons_self _ _)
  have hnd := h.fst_distinct
  simp only [List.map_cons, List.nodup_cons, List.mem_cons, not_or] at hnd
  have hPv : ∀ a ∈ P.map Prod.fst, a ≠ v := fun a ha e => hnd.2.1 (e ▸ ha)
  have hlinks := List.chain'_cons'.mp h.link
  have hedge : Edge outs v c := edge_of_getElem? (hlinks.1 (v, k) (by simp))
  have hvO : flagAt O v = true := (h.live (v, k) (by simp)).1
  have hsub : ∀ a, a ∈ ((v, k) :: P).map Prod.fst → a ∈ ((c, lc) :: (v, k) :: P).map Prod.fst :=
    fun a ha => by
      simp only [List.map_cons, List.mem_cons] at ha ⊢
      exact Or.inr ha
  have hleV : ∀ a, a ∈ ((v, k) :: P).map Prod.fst → valueAt I a ≤ valueAt I v := by
    intro a ha
    simp only [List.map_cons, List.mem_cons, List.mem_map] at ha
    rcases ha with rfl | ⟨b, hb, rfl⟩
    · exact Nat.le_refl _
    · exact Nat.le_of_lt (hs2.1 b hb)
  have hcv : Reach outs c v := by
    obtain ⟨_, z, hz, hz2, hz3⟩ := h.low c (by simp)
    obtain ⟨a, ha, hle, hr⟩ := h.up z hz
    have hac : a ≠ c := fun e => by
      rw [e, hz2] at hle
      exact absurd hlow (Nat.not_lt.mpr hle)
    have ha2 : a ∈ ((v, k) :: P).map Prod.fst := by
      simp only [List.map_cons, List.mem_cons] at ha ⊢
      rcases ha with e | ha
      · exact absurd e hac
      · exact ha
    exact (hz3.trans hr).trans (h.down a ha v hvO (hleV a ha2))
  refine ⟨hs.2, fun b hb => h.live b (List.mem_cons_of_mem _ hb), hlinks.2, ?_,
    fun a ha => h.down a (hsub a ha), ?_, ?_⟩
  · intro a ha
    by_cases hav : a = v
    · subst hav
      rw [hLv]
      obtain ⟨h1, z, hz, hz2, hz3⟩ := h.low a (hsub a ha)
      refine ⟨Nat.le_trans (Nat.min_le_left _ _) h1, ?_⟩
      by_cases hmin : valueAt L a ≤ valueAt L c
      · rw [Nat.min_eq_left hmin]
        exact ⟨z, hz, hz2, hz3⟩
      · rw [Nat.min_eq_right (Nat.le_of_not_le hmin)]
        obtain ⟨_, z, hz, hz2, hz3⟩ := h.low c (by simp)
        exact ⟨z, hz, hz2, (Relation.ReflTransGen.single hedge).trans hz3⟩
    · rw [hL a hav]
      exact h.low a (hsub a ha)
  · intro x hx
    obtain ⟨a, ha, hle, hr⟩ := h.up x hx
    by_cases hac : a = c
    · subst hac
      exact ⟨v, by simp, Nat.le_trans (Nat.le_of_lt hvc) hle, hr.trans hcv⟩
    · refine ⟨a, ?_, hle, hr⟩
      simp only [List.map_cons, List.mem_cons] at ha ⊢
      rcases ha with e | ha
      · exact absurd e hac
      · exact ha
  · intro x hx p y hcond hy
    have hold : ∀ s, (x, s) ∈ (c, lc) :: (v, k) :: P → p < s := by
      intro s hs
      rcases List.mem_cons.mp hs with e | hs
      · obtain ⟨rfl, rfl⟩ := Prod.mk.inj e
        exact Nat.lt_of_lt_of_le (List.getElem?_eq_some.mp hy).1 hlc
      · exact hcond s hs
    obtain ⟨h1, h2⟩ := h.scanned x hx p y hold hy
    refine ⟨h1, fun hyO a ha hle => ?_⟩
    obtain ⟨b, hb, hab, hby⟩ := h2 hyO a (hsub a ha) hle
    by_cases hbc : b = c
    · subst hbc
      refine ⟨v, by simp, hleV a ha, ?_⟩
      rw [hLv]
      exact Nat.le_trans (Nat.min_le_right _ _) hby
    · refine ⟨b, ?_, hab, Nat.le_trans (hLle b) hby⟩
      simp only [List.map_cons, List.mem_cons] at hb ⊢
      rcases hb with e | hb
      · exact absurd e hbc
      · exact hb

/-- The invariant `Heads` after the segment of the newest head `v`, which has seen all its
out-edges and whose lowlink is its index, has been popped from the stack; and what is known
about the popped vertices: no edge leaves them to a vertex that stays on the stack or has no
index, and they reach each other through `v`. -/
theorem Heads.heads_pop {outs : List (List Nat)} {v lv : Nat} {P : List (Nat × Nat)}
    {I L : List Nat} {O O2 : List Bool} (h : Heads outs ((v, lv) :: P) I L O)
    (hlv : (outsOf outs v).length ≤ lv) (hlow : valueAt L v = valueAt I v)
    (hO2 : ∀ x, flagAt O2 x = true ↔ (flagAt O x = true ∧ valueAt I x < valueAt I v)) :
    Heads outs P I L O2 ∧
    (∀ x, flagAt O x = true → valueAt I v ≤ valueAt I x →
      Reach outs x v ∧ Reach outs v x ∧
      ∀ y, Edge outs x y → valueAt I y ≠ SIZE_MAX ∧
        (flagAt O y = true → valueAt I v ≤ valueAt I y)) := by
  have hs := List.pairwise_cons.mp h.sorted
  have hlinks := List.chain'_cons'.mp h.link
  have hvO : flagAt O v = true := (h.live (v, lv) (by simp)).1
  have hsub : ∀ a, a ∈ P.map Prod.fst → a ∈ ((v, lv) :: P).map Prod.fst :=
    fun a ha => by
      simp only [List.map_cons, List.mem_cons]
      exact Or.inr ha
  have hPlt : ∀ a, a ∈ P.map Prod.fst → valueAt I a < valueAt I v := by
    intro a ha
    obtain ⟨b, hb, rfl⟩ := List.mem_map.mp ha
    exact hs.1 b hb
  have hdrop : ∀ a, a ∈ ((v, lv) :: P).map Prod.fst → valueAt I a < valueAt I v →
      a ∈ P.map Prod.fst := by
    intro a ha hlt
    simp only [List.map_cons, List.mem_cons] at ha
    rcases ha with rfl | ha
    · exact absurd hlt (Nat.lt_irrefl _)
    · exact ha
  refine ⟨⟨hs.2, ?_, hlinks.2, ?_, ?_, ?_, ?_⟩, ?_⟩
  · intro b hb
    have := h.live b (List.mem_cons_of_mem _ hb)
    exact ⟨(hO2 _).mpr ⟨this.1, hs.1 b hb⟩, this.2⟩
  · intro a ha
    obtain ⟨h1, z, hz, hz2, hz3⟩ := h.low a (hsub a ha)
    exact ⟨h1, z, (hO2 z).mpr ⟨hz, by rw [hz2]; exact Nat.lt_of_le_of_lt h1 (hPlt a ha)⟩,
      hz2, hz3⟩
  · intro a ha x hx hle
    exact h.down a (hsub a ha) x ((hO2 x).mp hx).1 hle
  · intro x hx
    obtain ⟨hxO, hxlt⟩ := (hO2 x).mp hx
    obtain ⟨a, ha, hle, hr⟩ := h.up x hxO
    exact ⟨a, hdrop a ha (Nat.lt_of_le_of_lt hle hxlt), hle, hr⟩
  · intro x hx p y hcond hy
    obtain ⟨hxO, hxlt⟩ := (hO2 x).mp hx
    have hold : ∀ s, (x, s) ∈ (v, lv) :: P → p < s := by
      intro s hs
      rcases List.mem_cons.mp hs with e | hs
      · obtain ⟨rfl, rfl⟩ := Prod.mk.inj e
        exact absurd hxlt (Nat.lt_irrefl _)
      · exact hcond s hs
    obtain ⟨h1, h2⟩ := h.scanned x hxO p y hold hy
    refine ⟨h1, fun hyO a ha hle => ?_⟩
    obtain ⟨hyO1, hylt⟩ := (hO2 y).mp hyO
    obtain ⟨b, hb, hab, hby⟩ := h2 hyO1 a (hsub a ha) hle
    refine ⟨b, hdrop b hb ?_, hab, hby⟩
    by_contra hge
    have hbv : b = v := by
      simp only [List.map_cons, List.mem_cons] at hb
      rcases hb with e | hb
      · exact e
      · exact absurd (hPlt b hb) hge
    rw [hbv, hlow] at hby
    exact absurd hylt (Nat.not_lt.mpr hby)
  · intro x hxO hle
    have hxv : Reach outs x v := by
      obtain ⟨a, ha, hle2, hr⟩ := h.up x hxO
      exact hr.trans (h.down a ha v hvO (h.top_max ha))
    refine ⟨hxv, h.down v (by simp) x hxO hle, ?_⟩
    intro y hy
    obtain ⟨p, hp⟩ := List.mem_iff_getElem?.mp hy
    have hold : ∀ s, (x, s) ∈ (v, lv) :: P → p < s := by
      intro s hs
      rcases List.mem_cons.mp hs with e | hs
      · obtain ⟨rfl, rfl⟩ := Prod.mk.inj e
        exact Nat.lt_of_lt_of_le (List.getElem?_eq_some.mp hp).1 hlv
      · exact absurd (hPlt x (List.mem_map_of_mem Prod.fst hs)) (Nat.not_lt.mpr hle)
    obtain ⟨h1, h2⟩ := h.scanned x hxO p y hold hp
    refine ⟨h1, fun hyO => ?_⟩
    obtain ⟨b, hb, hab, hby⟩ := h2 hyO v (by simp) hle
    have hbv : b = v := by
      simp only [List.map_cons, List.mem_cons] at hb
      rcases hb with e | hb
      · exact e
      · exact absurd (hPlt b hb) (Nat.not_lt.mpr hab)
    rw [hbv, hlow] at hby
    exact hby

/-- With no head left, no vertex is on the stack. -/
theorem Heads.none_live {outs : List (List Nat)} {I L : List Nat} {O : List Bool}
    (h : Heads outs [] I L O) (x : Nat) : flagAt O x = false := by
  cases hx : flagAt O x with
  | false => rfl
  | true =>
    obtain ⟨a, ha, _⟩ := h.up x hx
    simp at ha

/-- A lone head has its index as lowlink. -/
theorem Heads.lone {outs : List (List Nat)} {v k : Nat} {I L : List Nat} {O : List Bool}
    (h : Heads outs [(v, k)] I L O) : valueAt L v = valueAt I v := by
  obtain ⟨h1, z, hz, hz2, _⟩ := h.low v (by simp)
  obtain ⟨a, ha, hle, _⟩ := h.up z hz
  simp only [List.map_cons, List.map_nil, List.mem_singleton] at ha
  subst ha
  omega

theorem heads_init (outs : List (List Nat)) (I L : List Nat) (total : Nat) :
    Heads outs [] I L (List.replicate total false) := by
  have hO : ∀ x, flagAt (List.replicate total false) x = false := by
    intro x
    unfold flagAt
    rw [List.getD_eq_getElem?_getD]
    by_cases hx : x < total
    · rw [List.getElem?_replicate_of_lt hx]; rfl
    · rw [List.getElem?_eq_none (by simpa using hx)]; rfl
  refine ⟨List.Pairwise.nil, by simp, List.chain'_nil, by simp, by simp, ?_, ?_⟩
  · intro x hx
    rw [hO x] at hx
    cases hx
  · intro x hx
    rw [hO x] at hx
    cases hx

/-- The state after `index[v] = i; lowlink[v] = i; i += 1; stack.push_back(v);
onStack[v] = true;` in `case 0`. -/
def pushed (st : ComponentState) (v : Nat) : ComponentState :=
  { st with index := st.index.set v st.i, lowlink := st.lowlink.set v st.i, i := st.i + 1
            stack := v :: st.stack, onStack := st.onStack.set v true }

theorem Tables.unvisited_pos {total : Nat} {st : ComponentState} (h : Tables total st) {v : Nat}
    (hv : v < total) (hfresh : valueAt st.index v = SIZE_MAX) : st.i < total := by
  have hmem : SIZE_MAX ∈ st.index := by
    have := getElem?_valueAt (l := st.index) (x := v) (by rw [h.lenIndex]; exact hv)
    rw [hfresh] at this
    exact List.getElem?_mem this
  have := List.count_pos_iff.mpr hmem
  have := h.count
  omega

theorem Tables.tables_push {total : Nat} {st : ComponentState} (h : Tables total st) {v c : Nat}
    (hv : v < total) (hfresh : valueAt st.index v = SIZE_MAX) (htotal : total ≤ SIZE_MAX)
    (hc : c ≤ total) (hroots : ∀ x, x < c → x ≠ v → valueAt st.index x ≠ SIZE_MAX) :
    Tables total (pushed { st with checknode := c } v) := by
  have hi : st.i < total := h.unvisited_pos hv hfresh
  have hiM : st.i ≠ SIZE_MAX := by omega
  have hvI : v < st.index.length := by rw [h.lenIndex]; exact hv
  have hvL : v < st.lowlink.length := by rw [h.lenLow]; exact hv
  have hvO : v < st.onStack.length := by rw [h.lenOn]; exact hv
  have hIv : valueAt (st.index.set v st.i) v = st.i := by rw [valueAt_set _ _ hvI, if_pos rfl]
  have hI : ∀ x, x ≠ v → valueAt (st.index.set v st.i) x = valueAt st.index x := fun x hx => by
    rw [valueAt_set _ _ hvI, if_neg hx]
  have hL : ∀ x, x ≠ v → valueAt (st.lowlink.set v st.i) x = valueAt st.lowlink x :=
    fun x hx => by rw [valueAt_set _ _ hvL, if_neg hx]
  have hOv : flagAt (st.onStack.set v true) v = true := by rw [flagAt_set _ _ hvO, if_pos rfl]
  have hO : ∀ x, x ≠ v → flagAt (st.onStack.set v true) x = flagAt st.onStack x :=
    fun x hx => by rw [flagAt_set _ _ hvO, if_neg hx]
  have hne : ∀ x, valueAt st.index x ≠ SIZE_MAX → x ≠ v := fun x hx e => hx (e ▸ hfresh)
  have hstack : ∀ x ∈ st.stack, valueAt st.index x ≠ SIZE_MAX :=
    fun x hx => h.visited ((h.onIff x).mpr hx)
  refine ⟨?_, ?_, ?_, h.lenComp, ?_, ?_, ?_, ?_, ?_, ?_, ?_, h.compLt, ?_, ?_, hc⟩
  · show (st.index.set v st.i).length = total
    rw [List.length_set]; exact h.lenIndex
  · show (st.lowlink.set v st.i).length = total
    rw [List.length_set]; exact h.lenLow
  · show (st.onStack.set v true).length = total
    rw [List.length_set]; exact h.lenOn
  · show (st.index.set v st.i).count SIZE_MAX + (st.i + 1) = total
    have h1 := count_set_max (l := st.index) (v := v) (a := st.i)
      (by rw [getElem?_valueAt hvI, hfresh]) hiM
    have := h.count
    omega
  · intro x hx
    show valueAt (st.index.set v st.i) x < st.i + 1
    by_cases hxv : x = v
    · rw [hxv, hIv]; exact Nat.lt_succ_self _
    · have hx2 : valueAt (st.index.set v st.i) x ≠ SIZE_MAX := hx
      rw [hI x hxv] at hx2 ⊢
      exact Nat.lt_succ_of_lt (h.idxLt x hx2)
  · intro x y hx hxy
    have hx2 : valueAt (st.index.set v st.i) x ≠ SIZE_MAX := hx
    have hxy2 : valueAt (st.index.set v st.i) x = valueAt (st.index.set v st.i) y := hxy
    by_cases hxv : x = v
    · by_cases hyv : y = v
      · rw [hxv, hyv]
      · exfalso
        rw [hxv, hIv, hI y hyv] at hxy2
        have := h.idxLt y (by rw [← hxy2]; exact hiM)
        omega
    · rw [hI x hxv] at hx2 hxy2
      by_cases hyv : y = v
      · exfalso
        rw [hyv, hIv] at hxy2
        have := h.idxLt x hx2
        omega
      · rw [hI y hyv] at hxy2
        exact h.idxInj x y hx2 hxy2
  · intro x hx
    have hx2 : valueAt (st.index.set v st.i) x = SIZE_MAX := hx
    have hxv : x ≠ v := fun e => by rw [e, hIv] at hx2; exact hiM hx2
    rw [hI x hxv] at hx2
    show valueAt (st.lowlink.set v st.i) x = SIZE_MAX ∧
      flagAt (st.onStack.set v true) x = false ∧ valueAt st.componentNumber x = SIZE_MAX
    rw [hL x hxv, hO x hxv]
    exact h.fresh x hx2
  · intro x
    show flagAt (st.onStack.set v true) x = true ↔ x ∈ v :: st.stack
    by_cases hxv : x = v
    · rw [hxv, hOv]; simp
    · rw [hO x hxv, h.onIff x, List.mem_cons]
      exact ⟨Or.inr, fun hh => hh.resolve_left hxv⟩
  · show (v :: st.stack).Pairwise
      (fun a b => valueAt (st.index.set v st.i) b < valueAt (st.index.set v st.i) a)
    refine List.pairwise_cons.mpr ⟨fun b hb => ?_, ?_⟩
    · rw [hIv, hI b (hne b (hstack b hb))]
      exact h.idxLt b (hstack b hb)
    · refine h.sorted.imp_of_mem (fun {a b} ha hb hab => ?_)
      rw [hI a (hne a (hstack a ha)), hI b (hne b (hstack b hb))]
      exact hab
  · intro x
    show valueAt st.componentNumber x ≠ SIZE_MAX ↔
      (valueAt (st.index.set v st.i) x ≠ SIZE_MAX ∧ flagAt (st.onStack.set v true) x = false)
    by_cases hxv : x = v
    · rw [hxv, hIv, hOv, (h.fresh v hfresh).2.2]
      simp
    · rw [hI x hxv, hO x hxv]
      exact h.compIff x
  · show st.nextComponent + (v :: st.stack).length ≤ st.i + 1
    have := h.cnt
    simp only [List.length_cons]
    omega
  · intro x hx
    show valueAt (st.index.set v st.i) x ≠ SIZE_MAX
    by_cases hxv : x = v
    · rw [hxv, hIv]; exact hiM
    · rw [hI x hxv]
      exact hroots x hx hxv

theorem Tables.setLow {total : Nat} {st : ComponentState} (h : Tables total st) {v : Nat}
    (m : Nat) (hv : valueAt st.index v ≠ SIZE_MAX) :
    Tables total { st with lowlink := st.lowlink.set v m } := by
  have hvL : v < st.lowlink.length := by
    rw [h.lenLow, ← h.lenIndex]; exact lt_of_valueAt_ne hv
  refine ⟨h.lenIndex, ?_, h.lenOn, h.lenComp, h.count, h.idxLt, h.idxInj, ?_, h.onIff, h.sorted,
    h.compIff, h.compLt, h.cnt, h.roots, h.checkLe⟩
  · show (st.lowlink.set v m).length = total
    rw [List.length_set]; exact h.lenLow
  · intro x hx
    have hxv : x ≠ v := fun e => hv (e ▸ hx)
    show valueAt (st.lowlink.set v m) x = SIZE_MAX ∧ _
    rw [valueAt_set _ _ hvL, if_neg hxv]
    exact h.fresh x hx

theorem Tables.setCallStack {total : Nat} {st : ComponentState} (h : Tables total st)
    (cs : List (Nat × Nat × Nat)) : Tables total { st with callStack := cs } :=
  ⟨h.lenIndex, h.lenLow, h.lenOn, h.lenComp, h.count, h.idxLt, h.idxInj, h.fresh, h.onIff,
    h.sorted, h.compIff, h.compLt, h.cnt, h.roots, h.checkLe⟩

theorem Tables.setCheck {total : Nat} {st : ComponentState} (h : Tables total st) {c : Nat}
    (hc : c ≤ total) (hroots : ∀ x, x < c → valueAt st.index x ≠ SIZE_MAX) :
    Tables total { st with checknode := c } :=
  ⟨h.lenIndex, h.lenLow, h.lenOn, h.lenComp, h.count, h.idxLt, h.idxInj, h.fresh, h.onIff,
    h.sorted, h.compIff, h.compLt, h.cnt, hroots, hc⟩

/-- The loop that pops a component: when `v` is on the stack, everything above `v` and `v`
itself are taken off, marked not on the stack and given the number `nc`. -/
theorem popLoop_spec (v nc : Nat) : ∀ (stack : List Nat) (O : List Bool) (C : List Nat),
    v ∈ stack → (∀ x ∈ stack, x < O.length ∧ x < C.length) →
    ∃ above rest O2 C2, popLoop v nc stack O C = some (rest, O2, C2) ∧
      stack = above ++ v :: rest ∧ O2.length = O.length ∧ C2.length = C.length ∧
      (∀ x, flagAt O2 x = if x ∈ above ∨ x = v then false else flagAt O x) ∧
      (∀ x, valueAt C2 x = if x ∈ above ∨ x = v then nc else valueAt C x)
  | [], _, _, hv, _ => by simp at hv
  | w :: rest0, O, C, hv, hlt => by
    obtain ⟨hwO, hwC⟩ := hlt w (List.mem_cons_self _ _)
    simp only [popLoop, bind_eq_optionBind, setAt_of_lt false hwO, setAt_of_lt nc hwC, Option.some_bind]
    by_cases hwv : w = v
    · subst hwv
      rw [if_neg (by simp)]
      refine ⟨[], rest0, O.set w false, C.set w nc, rfl, rfl, by simp, by simp, ?_, ?_⟩
      · intro x
        rw [flagAt_set _ _ hwO]
        simp
      · intro x
        rw [valueAt_set _ _ hwC]
        simp
    · rw [if_pos hwv]
      have hv2 : v ∈ rest0 := by
        rcases List.mem_cons.mp hv with e | hv
        · exact absurd e.symm hwv
        · exact hv
      obtain ⟨above, rest, O2, C2, hrun, hsplit, hO2, hC2, hflag, hval⟩ :=
        popLoop_spec v nc rest0 (O.set w false) (C.set w nc) hv2
          (fun x hx => by
            simpa using hlt x (List.mem_cons_of_mem _ hx))
      refine ⟨w :: above, rest, O2, C2, hrun, by rw [hsplit]; rfl, by simpa using hO2,
        by simpa using hC2, ?_, ?_⟩
      · intro x
        rw [hflag x, flagAt_set _ _ hwO]
        by_cases hxw : x = w
        · subst hxw
          simp
        · simp [hxw]
      · intro x
        rw [hval x, valueAt_set _ _ hwC]
        by_cases hxw : x = w
        · subst hxw
          simp
        · simp [hxw]

/-- The invariant `Done` after a set `Pd` of vertices without number has been given the fresh
number `nc`. -/
theorem Done.done_pop {outs : List (List Nat)} {C C2 : List Nat} (h : Done outs C) {nc : Nat}
    (Pd : Nat → Prop)
    (hC2 : ∀ x, (Pd x → valueAt C2 x = nc) ∧ (¬ Pd x → valueAt C2 x = valueAt C x))
    (hnew : ∀ x, Pd x → valueAt C x = SIZE_MAX) (hnc : nc ≠ SIZE_MAX)
    (hlt : ∀ x, valueAt C x ≠ SIZE_MAX → valueAt C x < nc)
    (hclosed : ∀ x, Pd x → ∀ y, Edge outs x y → Pd y ∨ valueAt C y ≠ SIZE_MAX)
    (hreach : ∀ x y, Pd x → Pd y → Reach outs x y) : Done outs C2 := by
  have hold : ∀ x, valueAt C x ≠ SIZE_MAX → ¬ Pd x := fun x hx hp => hx (hnew x hp)
  refine ⟨?_, ?_⟩
  · intro x y hx hxy
    by_cases hpx : Pd x
    · rw [(hC2 x).1 hpx]
      rcases hclosed x hpx y hxy with hpy | hy
      · rw [(hC2 y).1 hpy]
        exact ⟨hnc, Nat.le_refl _⟩
      · rw [(hC2 y).2 (hold y hy)]
        exact ⟨hy, Nat.le_of_lt (hlt y hy)⟩
    · rw [(hC2 x).2 hpx] at hx ⊢
      obtain ⟨h1, h2⟩ := h.order x y hx hxy
      rw [(hC2 y).2 (hold y h1)]
      exact ⟨h1, h2⟩
  · intro x y hx hxy
    by_cases hpx : Pd x
    · by_cases hpy : Pd y
      · exact hreach x y hpx hpy
      · exfalso
        rw [(hC2 x).1 hpx, (hC2 y).2 hpy] at hxy
        have := hlt y (by rw [← hxy]; exact hnc)
        omega
    · rw [(hC2 x).2 hpx] at hx hxy
      by_cases hpy : Pd y
      · exfalso
        rw [(hC2 y).1 hpy] at hxy
        have := hlt x hx
        omega
      · rw [(hC2 y).2 hpy] at hxy
        exact h.same x y hx hxy

/-- The vertices that the pop of the component of `v` takes off the stack. -/
def Popped (st : ComponentState) (v x : Nat) : Prop :=
  flagAt st.onStack x = true ∧ valueAt st.index v ≤ valueAt st.index x

theorem Tables.popped_iff {total : Nat} {st : ComponentState} (h : Tables total st) {v : Nat}
    {above rest : List Nat} (hsplit : st.stack = above ++ v :: rest) (x : Nat) :
    (x ∈ above ∨ x = v) ↔ Popped st v x := by
  have hs := h.sorted
  rw [hsplit, List.pairwise_append] at hs
  obtain ⟨_, hs2, hs3⟩ := hs
  have hs4 := List.pairwise_cons.mp hs2
  constructor
  · rintro (hx | rfl)
    · exact ⟨(h.onIff x).mpr (by rw [hsplit]; simp [hx]),
        Nat.le_of_lt (hs3 x hx v (List.mem_cons_self _ _))⟩
    · exact ⟨(h.onIff x).mpr (by rw [hsplit]; simp), Nat.le_refl _⟩
  · rintro ⟨hxO, hle⟩
    have hx := (h.onIff x).mp hxO
    rw [hsplit, List.mem_append, List.mem_cons] at hx
    rcases hx with hx | hx | hx
    · exact Or.inl hx
    · exact Or.inr hx
    · exact absurd (hs4.1 x hx) (Nat.not_lt.mpr hle)

theorem Tables.tables_pop {total : Nat} {st : ComponentState} (h : Tables total st) {v : Nat}
    {above rest : List Nat} {O2 : List Bool} {C2 : List Nat}
    (hsplit : st.stack = above ++ v :: rest) (htotal : total ≤ SIZE_MAX)
    (hO2 : O2.length = st.onStack.length) (hC2 : C2.length = st.componentNumber.length)
    (hflag : ∀ x, flagAt O2 x = if x ∈ above ∨ x = v then false else flagAt st.onStack x)
    (hval : ∀ x, valueAt C2 x =
      if x ∈ above ∨ x = v then st.nextComponent else valueAt st.componentNumber x) :
    Tables total { st with stack := rest, onStack := O2, componentNumber := C2
                           nextComponent := st.nextComponent + 1 } ∧
    st.nextComponent ≠ SIZE_MAX := by
  have hp := fun x => h.popped_iff hsplit x
  have hcnt := h.cnt
  have hcount := h.count
  rw [hsplit, List.length_append, List.length_cons] at hcnt
  have hnc : st.nextComponent ≠ SIZE_MAX := by omega
  have hs := h.sorted
  rw [hsplit, List.pairwise_append] at hs
  obtain ⟨_, hs2, hs3⟩ := hs
  have hs4 := List.pairwise_cons.mp hs2
  refine ⟨⟨h.lenIndex, h.lenLow, by rw [← h.lenOn]; exact hO2, by rw [← h.lenComp]; exact hC2,
    h.count, h.idxLt, h.idxInj, ?_, ?_, hs4.2, ?_, ?_, ?_, h.roots, h.checkLe⟩, hnc⟩
  · intro x hx
    have hx2 : valueAt st.index x = SIZE_MAX := hx
    obtain ⟨h1, h2, h3⟩ := h.fresh x hx2
    have hnp : ¬ (x ∈ above ∨ x = v) := fun hpx => by
      have := ((hp x).mp hpx).1
      rw [h2] at this
      cases this
    show valueAt st.lowlink x = SIZE_MAX ∧ flagAt O2 x = false ∧ valueAt C2 x = SIZE_MAX
    rw [hflag x, hval x, if_neg hnp, if_neg hnp]
    exact ⟨h1, h2, h3⟩
  · intro x
    show flagAt O2 x = true ↔ x ∈ rest
    rw [hflag x]
    constructor
    · intro hx
      by_cases hpx : x ∈ above ∨ x = v
      · rw [if_pos hpx] at hx; cases hx
      · rw [if_neg hpx] at hx
        have := (h.onIff x).mp hx
        rw [hsplit, List.mem_append, List.mem_cons] at this
        rcases this with h1 | h1 | h1
        · exact absurd (Or.inl h1) hpx
        · exact absurd (Or.inr h1) hpx
        · exact h1
    · intro hx
      have hlt := hs4.1 x hx
      have hnp : ¬ (x ∈ above ∨ x = v) := fun hpx =>
        absurd hlt (Nat.not_lt.mpr ((hp x).mp hpx).2)
      rw [if_neg hnp]
      exact (h.onIff x).mpr (by rw [hsplit]; simp [hx])
  · intro x
    show valueAt C2 x ≠ SIZE_MAX ↔ (valueAt st.index x ≠ SIZE_MAX ∧ flagAt O2 x = false)
    rw [hflag x, hval x]
    by_cases hpx : x ∈ above ∨ x = v
    · rw [if_pos hpx, if_pos hpx]
      exact ⟨fun _ => ⟨h.visited ((hp x).mp hpx).1, rfl⟩, fun _ => hnc⟩
    · rw [if_neg hpx, if_neg hpx]
      exact h.compIff x
  · intro x hx
    have hx2 : valueAt C2 x ≠ SIZE_MAX := hx
    show valueAt C2 x < st.nextComponent + 1
    rw [hval x] at hx2 ⊢
    by_cases hpx : x ∈ above ∨ x = v
    · rw [if_pos hpx]; exact Nat.lt_succ_self _
    · rw [if_neg hpx] at hx2 ⊢
      exact Nat.lt_succ_of_lt (h.compLt x hx2)
  · show st.nextComponent + 1 + rest.length ≤ st.i
    omega

/-- The code at `endloop` when the lowlink of `v` is its index: the component of `v` is popped
and numbered, and all invariants are kept with `v` removed from the heads. -/
theorem endLoop_pop {outs : List (List Nat)} {total : Nat} {st : ComponentState} {v lv : Nat}
    {P : List (Nat × Nat)} (ht : Tables total st) (hd : Done outs st.componentNumber)
    (hh : Heads outs ((v, lv) :: P) st.index st.lowlink st.onStack)
    (hlv : (outsOf outs v).length ≤ lv) (htotal : total ≤ SIZE_MAX)
    (hlow : valueAt st.lowlink v = valueAt st.index v) :
    ∃ st2, endLoop v st = some st2 ∧ st2.callStack = st.callStack ∧ st2.index = st.index ∧
      st2.lowlink = st.lowlink ∧ Tables total st2 ∧ Done outs st2.componentNumber ∧
      Heads outs P st2.index st2.lowlink st2.onStack ∧ flagAt st2.onStack v = false := by
  have hvO : flagAt st.onStack v = true := (hh.live (v, lv) (List.mem_cons_self _ _)).1
  have hv : v < total := by rw [← ht.lenOn]; exact lt_of_flagAt hvO
  have hstack : ∀ x ∈ st.stack, x < st.onStack.length ∧ x < st.componentNumber.length := by
    intro x hx
    have := lt_of_flagAt ((ht.onIff x).mpr hx)
    rw [ht.lenOn] at this
    rw [ht.lenOn, ht.lenComp]
    exact ⟨this, this⟩
  obtain ⟨above, rest, O2, C2, hrun, hsplit, hO2, hC2, hflag, hval⟩ :=
    popLoop_spec v st.nextComponent st.stack st.onStack st.componentNumber
      ((ht.onIff v).mp hvO) hstack
  obtain ⟨ht2, hnc⟩ := ht.tables_pop hsplit htotal hO2 hC2 hflag hval
  have hp := fun x => ht.popped_iff hsplit x
  refine ⟨{ st with stack := rest, onStack := O2, componentNumber := C2,
                      nextComponent := st.nextComponent + 1 }, ?_, rfl, rfl, rfl, ht2, ?_, ?_, ?_⟩
  · unfold endLoop
    simp only [bind_eq_optionBind, getElem?_valueAt (show v < st.lowlink.length by
      rw [ht.lenLow]; exact hv), getElem?_valueAt (show v < st.index.length by
      rw [ht.lenIndex]; exact hv), Option.some_bind, hlow, if_true, hrun, pure_eq_some]
  · have hO2iff : ∀ x, flagAt O2 x = true ↔
        (flagAt st.onStack x = true ∧ valueAt st.index x < valueAt st.index v) := by
      intro x
      rw [hflag x]
      by_cases hpx : x ∈ above ∨ x = v
      · rw [if_pos hpx]
        have := ((hp x).mp hpx).2
        constructor
        · intro hf; cases hf
        · rintro ⟨_, hlt⟩; omega
      · rw [if_neg hpx]
        constructor
        · intro hx
          refine ⟨hx, ?_⟩
          by_contra hge
          exact hpx ((hp x).mpr ⟨hx, Nat.le_of_not_lt hge⟩)
        · exact fun hx => hx.1
    obtain ⟨_, hfacts⟩ := hh.heads_pop hlv hlow hO2iff
    refine hd.done_pop (Popped st v) (fun x => ?_) (fun x hx => ?_) hnc ht.compLt
      (fun x hx y hxy => ?_) (fun x y hx hy => ?_)
    · show (Popped st v x → valueAt C2 x = st.nextComponent) ∧
        (¬ Popped st v x → valueAt C2 x = valueAt st.componentNumber x)
      rw [hval x]
      constructor
      · intro hpx; rw [if_pos ((hp x).mpr hpx)]
      · intro hpx; rw [if_neg (fun hh => hpx ((hp x).mp hh))]
    · by_contra hne
      have := ((ht.compIff x).mp hne).2
      rw [hx.1] at this
      cases this
    · obtain ⟨_, _, hedges⟩ := hfacts x hx.1 hx.2
      obtain ⟨hy1, hy2⟩ := hedges y hxy
      cases hyO : flagAt st.onStack y with
      | true => exact Or.inl ⟨hyO, hy2 hyO⟩
      | false => exact Or.inr ((ht.compIff y).mpr ⟨hy1, hyO⟩)
    · exact (hfacts x hx.1 hx.2).1.trans (hfacts y hy.1 hy.2).2.1
  · have hO2iff : ∀ x, flagAt O2 x = true ↔
        (flagAt st.onStack x = true ∧ valueAt st.index x < valueAt st.index v) := by
      intro x
      rw [hflag x]
      by_cases hpx : x ∈ above ∨ x = v
      · rw [if_pos hpx]
        have := ((hp x).mp hpx).2
        constructor
        · intro hf; cases hf
        · rintro ⟨_, hlt⟩; omega
      · rw [if_neg hpx]
        constructor
        · intro hx
          refine ⟨hx, ?_⟩
          by_contra hge
          exact hpx ((hp x).mpr ⟨hx, Nat.le_of_not_lt hge⟩)
        · exact fun hx => hx.1
    exact (hh.heads_pop hlv hlow hO2iff).1
  · show flagAt O2 v = false
    rw [hflag v, if_pos (Or.inr rfl)]

/-- The code at `endloop` when the lowlink of `v` is below its index: nothing changes. -/
theorem endLoop_keep {total : Nat} {st : ComponentState} {v : Nat} (ht : Tables total st)
    (hv : v < total) (hlow : valueAt st.lowlink v ≠ valueAt st.index v) :
    endLoop v st = some st := by
  unfold endLoop
  simp only [bind_eq_optionBind, getElem?_valueAt (show v < st.lowlink.length by
    rw [ht.lenLow]; exact hv), getElem?_valueAt (show v < st.index.length by
    rw [ht.lenIndex]; exact hv), Option.some_bind, hlow, if_false]

/-- The call-stack entries `(v, 2, neighborI)` of the vertices whose out-edges are being
looked at, newest first. -/
def frames (P : List (Nat × Nat)) : List (Nat × Nat × Nat) := P.map (fun h => (h.1, 2, h.2))

/-- The number of vertices without index. -/
def unvisited (st : ComponentState) : Nat := st.index.count SIZE_MAX

/-- The shapes of the state of `doComponentOrder` between two iterations of its main loop,
with a bound on the number of iterations still to come: no vertex is live (`idle`), the vertex
`w` is about to be entered from `v` (`call`), or the search has just left the vertex `c` and is
about to return to `v`, with `c` still on the stack (`retOn`) or popped (`retOff`). -/
inductive Config (outs : List (List Nat)) (total : Nat) (st : ComponentState) : Nat → Prop
  | idle (hcs : st.callStack = [])
      (hh : Heads outs [] st.index st.lowlink st.onStack) :
      Config outs total st (2 * unvisited st)
  | call (w v k : Nat) (P : List (Nat × Nat))
      (hcs : st.callStack = (w, 0, 0) :: frames ((v, k) :: P))
      (hh : Heads outs ((v, k) :: P) st.index st.lowlink st.onStack)
      (hw : (outsOf outs v)[k]? = some w) (hfresh : valueAt st.index w = SIZE_MAX) :
      Config outs total st (2 * unvisited st + P.length + 1)
  | retOn (c v k : Nat) (P : List (Nat × Nat))
      (hcs : st.callStack = frames ((v, k) :: P))
      (hh : Heads outs ((c, (outsOf outs c).length) :: (v, k) :: P)
        st.index st.lowlink st.onStack)
      (hlow : valueAt st.lowlink c < valueAt st.index c) :
      Config outs total st (2 * unvisited st + P.length + 2)
  | retOff (c v k : Nat) (P : List (Nat × Nat))
      (hcs : st.callStack = frames ((v, k) :: P))
      (hh : Heads outs ((v, k) :: P) st.index st.lowlink st.onStack)
      (hc : (outsOf outs v)[k]? = some c) (hcI : valueAt st.index c ≠ SIZE_MAX)
      (hcO : flagAt st.onStack c = false)
      (hlow : valueAt st.index v < valueAt st.lowlink c)
      (hlowM : valueAt st.lowlink c ≠ SIZE_MAX) :
      Config outs total st (2 * unvisited st + P.length + 2)

theorem set_valueAt_self {l : List Nat} {v : Nat} (hv : v < l.length) :
    l.set v (valueAt l v) = l := by
  apply List.ext_getElem?
  intro n
  rw [List.getElem?_set]
  by_cases h : v = n
  · subst h
    simp [hv, getElem?_valueAt hv]
  · rw [if_neg h]

/-- The scan of the out-edges of the newest head `v` from its edge number `k` on: it returns,
keeps the invariants and ends in one of the shapes of `Config`. -/
theorem startLoop_spec {outs : List (List Nat)} {total : Nat} (hwf : WellFormed outs total)
    (htotal : total ≤ SIZE_MAX) {v : Nat} {P : List (Nat × Nat)} :
    ∀ (fuel k : Nat) (st : ComponentState), Tables total st → Done outs st.componentNumber →
      st.callStack = frames P → Heads outs ((v, k) :: P) st.index st.lowlink st.onStack →
      (outsOf outs v).length + 1 ≤ fuel + k →
      ∃ st2 m, startLoop outs v fuel k st = some st2 ∧ Tables total st2 ∧
        Done outs st2.componentNumber ∧ Config outs total st2 m ∧
        m ≤ 2 * unvisited st + P.length + 1
  | 0, k, st, _, _, _, hh, hfuel => by
    have := (hh.live (v, k) (List.mem_cons_self _ _)).2
    simp only at this
    omega
  | fuel + 1, k, st, ht, hd, hcs, hh, hfuel => by
    have hlive := hh.live (v, k) (List.mem_cons_self _ _)
    have hvO : flagAt st.onStack v = true := hlive.1
    have hkle : k ≤ (outsOf outs v).length := hlive.2
    have hv : v < total := by rw [← ht.lenOn]; exact lt_of_flagAt hvO
    have hvI : valueAt st.index v ≠ SIZE_MAX := ht.visited hvO
    have houts : outs[v]? = some (outsOf outs v) := getElem?_outsOf (by rw [hwf.len]; exact hv)
    have hvL : v < st.lowlink.length := by rw [ht.lenLow]; exact hv
    unfold startLoop
    simp only [bind_eq_optionBind, houts, Option.some_bind]
    by_cases hk : k ≥ (outsOf outs v).length
    · rw [if_pos hk]
      have hkeq : k = (outsOf outs v).length := Nat.le_antisymm hkle hk
      by_cases hlow : valueAt st.lowlink v = valueAt st.index v
      · obtain ⟨st2, hrun, hcs2, hI2, hL2, ht2, hd2, hh2, hvO2⟩ :=
          endLoop_pop ht hd hh hk htotal hlow
        have hu : unvisited st2 = unvisited st := by unfold unvisited; rw [hI2]
        cases P with
        | nil =>
          refine ⟨st2, _, hrun, ht2, hd2, Config.idle (by rw [hcs2, hcs]; rfl) hh2, ?_⟩
          rw [hu]
          omega
        | cons t P2 =>
          obtain ⟨v2, k2⟩ := t
          have hlinks := List.chain'_cons'.mp hh.link
          have hs := List.pairwise_cons.mp hh.sorted
          refine ⟨st2, _, hrun, ht2, hd2,
            Config.retOff v v2 k2 P2 (by rw [hcs2, hcs]) hh2 (hlinks.1 (v2, k2) (by simp))
              (by rw [hI2]; exact hvI) hvO2 ?_ ?_, ?_⟩
          · rw [hI2, hL2, hlow]
            exact hs.1 (v2, k2) (List.mem_cons_self _ _)
          · rw [hL2, hlow]
            exact hvI
          · rw [hu]
            simp only [List.length_cons]
            omega
      · rw [endLoop_keep ht hv hlow]
        cases P with
        | nil => exact absurd hh.lone hlow
        | cons t P2 =>
          obtain ⟨v2, k2⟩ := t
          refine ⟨st, _, rfl, ht, hd, Config.retOn v v2 k2 P2 hcs (hkeq ▸ hh) ?_, ?_⟩
          · have := (hh.low v (by simp)).1
            omega
          · simp only [List.length_cons]
            omega
    · rw [if_neg hk]
      have hklt : k < (outsOf outs v).length := Nat.lt_of_not_le hk
      have hwk : (outsOf outs v)[k]? = some (outsOf outs v)[k] := List.getElem?_eq_getElem hklt
      generalize (outsOf outs v)[k] = w at hwk
      have hw : w < total := hwf.bound v w (edge_of_getElem? hwk)
      have hwI : w < st.index.length := by rw [ht.lenIndex]; exact hw
      have hwL : w < st.lowlink.length := by rw [ht.lenLow]; exact hw
      have hwO : w < st.onStack.length := by rw [ht.lenOn]; exact hw
      simp only [assert_of_true (decide_eq_true hklt), hwk, Option.some_bind,
        getElem?_valueAt hwI]
      by_cases hfresh : valueAt st.index w = SIZE_MAX
      · obtain ⟨h1, h2, _⟩ := ht.fresh w hfresh
        rw [if_pos hfresh]
        simp only [bind_eq_optionBind, getElem?_valueAt hwL, getElem?_flagAt hwO, h1, h2,
          Option.some_bind, assert_of_true (decide_eq_true rfl), Bool.not_false,
          assert_of_true rfl]
        refine ⟨_, _, rfl, ht.setCallStack _, hd,
          Config.call w v k P (by rw [hcs]; rfl) hh hwk hfresh, ?_⟩
        show 2 * unvisited st + P.length + 1 ≤ _
        exact Nat.le_refl _
      · rw [if_neg hfresh]
        simp only [bind_eq_optionBind, getElem?_flagAt hwO, Option.some_bind]
        by_cases hon : flagAt st.onStack w = true
        · rw [if_pos hon]
          simp only [bind_eq_optionBind, getElem?_valueAt hvL, Option.some_bind,
            setAt_of_lt _ hvL]
          have hz : ∃ z, flagAt st.onStack z = true ∧
              valueAt st.index z = min (valueAt st.lowlink v) (valueAt st.index w) ∧
              Reach outs v z := by
            by_cases hmin : valueAt st.lowlink v ≤ valueAt st.index w
            · rw [Nat.min_eq_left hmin]
              exact (hh.low v (by simp)).2
            · rw [Nat.min_eq_right (Nat.le_of_not_le hmin)]
              exact ⟨w, hon, rfl, Relation.ReflTransGen.single (edge_of_getElem? hwk)⟩
          have hh2 := hh.advance hvL hwk hfresh (Nat.min_le_left _ _) hz
            (fun _ => Nat.min_le_right _ _)
          obtain ⟨st2, m, hrun, ht2, hd2, hc2, hm⟩ :=
            startLoop_spec hwf htotal fuel (k + 1)
              { st with lowlink :=
                  (st.lowlink.set v (min (valueAt st.lowlink v) (valueAt st.index w))) }
              (ht.setLow _ hvI) hd hcs hh2 (by omega)
          exact ⟨st2, m, hrun, ht2, hd2, hc2, hm⟩
        · rw [if_neg hon]
          have hoff : flagAt st.onStack w = false := by
            cases hf : flagAt st.onStack w with
            | true => exact absurd hf hon
            | false => rfl
          have hh2 := hh.advance hvL hwk hfresh (Nat.le_refl _) (hh.low v (by simp)).2
            (fun hf => absurd hf hon)
          rw [set_valueAt_self hvL] at hh2
          exact startLoop_spec hwf htotal fuel (k + 1) st ht hd hcs hh2 (by omega)

theorem unvisited_pushed {total : Nat} {st : ComponentState} (ht : Tables total st) {w : Nat}
    (hw : w < total) (hfresh : valueAt st.index w = SIZE_MAX) (htotal : total ≤ SIZE_MAX) :
    unvisited (pushed st w) + 1 = unvisited st := by
  have hi := ht.unvisited_pos hw hfresh
  have hwI : w < st.index.length := by rw [ht.lenIndex]; exact hw
  exact count_set_max (by rw [getElem?_valueAt hwI, hfresh]) (by omega)

/-- The `case 0` of the `switch` for a vertex `w` without index, entered from the newest head
(or as a new root when there is no head); `c` is the value of `checknode`. -/
theorem switchState_zero {outs : List (List Nat)} {total : Nat} (hwf : WellFormed outs total)
    (htotal : total ≤ SIZE_MAX) {w n c : Nat} {P : List (Nat × Nat)} {st : ComponentState}
    (ht : Tables total st) (hd : Done outs st.componentNumber) (hcs : st.callStack = frames P)
    (hh : Heads outs P st.index st.lowlink st.onStack) (hw : w < total)
    (hfresh : valueAt st.index w = SIZE_MAX)
    (hlink : ∀ t ∈ P.head?, (outsOf outs t.1)[t.2]? = some w) (hn : n = 0)
    (hc : c ≤ total) (hroots : ∀ x, x < c → x ≠ w → valueAt st.index x ≠ SIZE_MAX) :
    ∃ st2 m, switchState outs w 0 n { st with checknode := c } = some st2 ∧ Tables total st2 ∧
      Done outs st2.componentNumber ∧ Config outs total st2 m ∧
      m + 1 ≤ 2 * unvisited st + P.length := by
  subst hn
  have hwI : w < st.index.length := by rw [ht.lenIndex]; exact hw
  have hwL : w < st.lowlink.length := by rw [ht.lenLow]; exact hw
  have hwO : w < st.onStack.length := by rw [ht.lenOn]; exact hw
  obtain ⟨h1, h2, _⟩ := ht.fresh w hfresh
  have hh2 : Heads outs ((w, 0) :: P) (pushed { st with checknode := c } w).index
      (pushed { st with checknode := c } w).lowlink
      (pushed { st with checknode := c } w).onStack :=
    hh.heads_push hwI hwL hwO hfresh (fun x hx => ht.visited hx) ht.idxLt hlink
  obtain ⟨st2, m, hrun, ht2, hd2, hc2, hm⟩ :=
    startLoop_spec hwf htotal ((outs.getD w []).length + 1 - 0) 0
      (pushed { st with checknode := c } w)
      (ht.tables_push hw hfresh htotal hc hroots) hd hcs hh2 (by unfold outsOf; omega)
  refine ⟨st2, m, ?_, ht2, hd2, hc2, ?_⟩
  · unfold switchState
    simp only [if_true, bind_eq_optionBind, getElem?_valueAt hwI, getElem?_valueAt hwL,
      getElem?_flagAt hwO, hfresh, h1, h2, Option.some_bind, assert_of_true (decide_eq_true rfl),
      Bool.not_false, assert_of_true rfl, setAt_of_lt _ hwI, setAt_of_lt _ hwL,
      setAt_of_lt _ hwO, enterLoop]
    exact hrun
  · have h3 := unvisited_pushed ht hw hfresh htotal
    have h4 : unvisited (pushed { st with checknode := c } w) = unvisited (pushed st w) := rfl
    omega

/-- The `case 2` of the `switch`: the search returns to the head `v` from its out-neighbour
number `k`. -/
theorem switchState_two {outs : List (List Nat)} {total : Nat} (hwf : WellFormed outs total)
    (htotal : total ≤ SIZE_MAX) {v k c : Nat} {P : List (Nat × Nat)} {st : ComponentState}
    (ht : Tables total st) (hd : Done outs st.componentNumber) (hcs : st.callStack = frames P)
    (hc : (outsOf outs v)[k]? = some c) (hv : valueAt st.index v ≠ SIZE_MAX)
    (hcI : valueAt st.index c ≠ SIZE_MAX) (hcL : valueAt st.lowlink c ≠ SIZE_MAX)
    (hh : Heads outs ((v, k + 1) :: P) st.index
      (st.lowlink.set v (min (valueAt st.lowlink v) (valueAt st.lowlink c))) st.onStack) :
    ∃ st2 m, switchState outs v 2 k st = some st2 ∧ Tables total st2 ∧
      Done outs st2.componentNumber ∧ Config outs total st2 m ∧
      m ≤ 2 * unvisited st + P.length + 1 := by
  have hvt : v < total := by rw [← ht.lenIndex]; exact lt_of_valueAt_ne hv
  have hct : c < total := by rw [← ht.lenIndex]; exact lt_of_valueAt_ne hcI
  have hvL : v < st.lowlink.length := by rw [ht.lenLow]; exact hvt
  have hcIl : c < st.index.length := by rw [ht.lenIndex]; exact hct
  have hcLl : c < st.lowlink.length := by rw [ht.lenLow]; exact hct
  have houts : outs[v]? = some (outsOf outs v) := getElem?_outsOf (by rw [hwf.len]; exact hvt)
  have hklt : k < (outsOf outs v).length := (List.getElem?_eq_some.mp hc).1
  obtain ⟨st2, m, hrun, ht2, hd2, hc2, hm⟩ :=
    startLoop_spec hwf htotal ((outs.getD v []).length + 1 - (k + 1)) (k + 1)
      { st with lowlink :=
          (st.lowlink.set v (min (valueAt st.lowlink v) (valueAt st.lowlink c))) }
      (ht.setLow _ hv) hd hcs hh (by unfold outsOf at hklt ⊢; omega)
  refine ⟨st2, m, ?_, ht2, hd2, hc2, hm⟩
  unfold switchState
  simp only [show (2 : Nat) ≠ 0 by decide, show (2 : Nat) ≠ 1 by decide, if_false, if_true,
    bind_eq_optionBind, houts, Option.some_bind, assert_of_true (decide_eq_true hklt), hc,
    getElem?_valueAt hcIl, getElem?_valueAt hcLl, getElem?_valueAt hvL,
    assert_of_true (decide_eq_true hcI), assert_of_true (decide_eq_true hcL),
    setAt_of_lt _ hvL, enterLoop]
  exact hrun

theorem scanLoop_spec {index : List Nat} {total : Nat} (hlen : index.length = total) :
    ∀ (fuel c : Nat), c ≤ total → total - c ≤ fuel →
      ∃ c1, scanLoop index total fuel c = some c1 ∧ c ≤ c1 ∧ c1 ≤ total ∧
        (∀ x, c ≤ x → x < c1 → valueAt index x ≠ SIZE_MAX) ∧
        (c1 < total → valueAt index c1 = SIZE_MAX)
  | 0, c, hc, hfuel => by
    have hct : c = total := by omega
    refine ⟨c, ?_, Nat.le_refl _, hc, fun x h1 h2 => by omega, fun h => by omega⟩
    simp [scanLoop, hct]
  | fuel + 1, c, hc, hfuel => by
    unfold scanLoop
    by_cases hlt : c < total
    · rw [if_pos hlt]
      simp only [bind_eq_optionBind, getElem?_valueAt (show c < index.length by omega),
        Option.some_bind]
      by_cases hidx : valueAt index c ≠ SIZE_MAX
      · rw [if_pos hidx]
        obtain ⟨c1, hrun, h1, h2, h3, h4⟩ := scanLoop_spec hlen fuel (c + 1) hlt (by omega)
        refine ⟨c1, hrun, by omega, h2, fun x hx1 hx2 => ?_, h4⟩
        by_cases hxc : x = c
        · rw [hxc]; exact hidx
        · exact h3 x (by omega) hx2
      · rw [if_neg hidx]
        exact ⟨c, rfl, Nat.le_refl _, hc, fun x h1 h2 => by omega,
          fun _ => not_not.mp hidx⟩
    · rw [if_neg hlt]
      exact ⟨c, rfl, Nat.le_refl _, hc, fun x h1 h2 => by omega, fun h => absurd h hlt⟩

theorem componentLoop_nil {outs : List (List Nat)} {total fuel : Nat} {st : ComponentState}
    (h : st.callStack = []) :
    componentLoop outs total (fuel + 1) st =
      (scanLoop st.index total (total - st.checknode) st.checknode).bind (fun checknode1 =>
        if checknode1 = total then some { st with checknode := checknode1 }
        else (switchState outs checknode1 0 0
            { st with checknode := checknode1 + 1, callStack := [] }).bind
          (componentLoop outs total fuel)) := by
  rw [componentLoop]
  simp only [h, bind_eq_optionBind]

theorem componentLoop_cons {outs : List (List Nat)} {total fuel : Nat} {st : ComponentState}
    {v state n : Nat} {rest : List (Nat × Nat × Nat)} (h : st.callStack = (v, state, n) :: rest) :
    componentLoop outs total (fuel + 1) st =
      (switchState outs v state n { st with callStack := rest }).bind
        (componentLoop outs total fuel) := by
  rw [componentLoop]
  simp only [h, bind_eq_optionBind]

/-- The main loop of `doComponentOrder` returns from every state of one of the shapes of
`Config` when the fuel exceeds the bound of the shape, with every vertex indexed and numbered
and the stack empty. -/
theorem componentLoop_spec {outs : List (List Nat)} {total : Nat} (hwf : WellFormed outs total)
    (htotal : total ≤ SIZE_MAX) :
    ∀ (fuel : Nat) (st : ComponentState) (m : Nat), Tables total st →
      Done outs st.componentNumber → Config outs total st m → m < fuel →
      ∃ st2, componentLoop outs total fuel st = some st2 ∧ Tables total st2 ∧
        Done outs st2.componentNumber ∧ st2.stack = [] ∧
        ∀ x, x < total → valueAt st2.index x ≠ SIZE_MAX
  | 0, _, _, _, _, _, hm => by omega
  | fuel + 1, st, m, ht, hd, hc, hm => by
    cases hc with
    | idle hcs hh =>
      rw [componentLoop_nil hcs]
      obtain ⟨c1, hrun, h1, h2, h3, h4⟩ :=
        scanLoop_spec ht.lenIndex (total - st.checknode) st.checknode ht.checkLe (Nat.le_refl _)
      have hroots : ∀ x, x < c1 → valueAt st.index x ≠ SIZE_MAX := fun x hx => by
        by_cases hxc : x < st.checknode
        · exact ht.roots x hxc
        · exact h3 x (by omega) hx
      rw [hrun, Option.some_bind]
      by_cases hc1 : c1 = total
      · rw [if_pos hc1]
        refine ⟨_, rfl, ht.setCheck h2 hroots, hd, ?_, fun x hx => hroots x (by omega)⟩
        show st.stack = []
        apply List.eq_nil_iff_forall_not_mem.mpr
        intro x hx
        have := (ht.onIff x).mpr hx
        rw [hh.none_live x] at this
        cases this
      · rw [if_neg hc1]
        have hlt : c1 < total := by omega
        obtain ⟨st1, m1, hrun1, ht2, hd2, hc2, hm1⟩ :=
          switchState_zero (P := []) (n := 0) (c := c1 + 1) hwf htotal (ht.setCallStack [])
            hd rfl hh hlt (h4 hlt) (by simp) rfl hlt
            (fun x hx hxc => hroots x (by omega))
        have hrun2 : switchState outs c1 0 0
            { st with checknode := c1 + 1, callStack := [] } = some st1 := hrun1
        rw [hrun2, Option.some_bind]
        exact componentLoop_spec hwf htotal fuel st1 m1 ht2 hd2 hc2 (by
          have : unvisited { st with callStack := [] } = unvisited st := rfl
          simp only [List.length_nil] at hm1
          omega)
    | call w v k P hcs hh hw hfresh =>
      rw [componentLoop_cons hcs]
      have hwt : w < total := hwf.bound v w (edge_of_getElem? hw)
      obtain ⟨st1, m1, hrun1, ht2, hd2, hc2, hm1⟩ :=
        switchState_zero (P := (v, k) :: P) (n := 0) (c := st.checknode) hwf htotal
          (ht.setCallStack (frames ((v, k) :: P))) hd rfl hh hwt hfresh
          (by simpa using hw) rfl ht.checkLe (fun x hx _ => ht.roots x hx)
      have hrun2 : switchState outs w 0 0 { st with callStack := frames ((v, k) :: P) } =
          some st1 := hrun1
      rw [hrun2, Option.some_bind]
      exact componentLoop_spec hwf htotal fuel st1 m1 ht2 hd2 hc2 (by
        have : unvisited { st with callStack := frames ((v, k) :: P) } = unvisited st := rfl
        simp only [List.length_cons] at hm1
        omega)
    | retOn c v k P hcs hh hlow =>
      have hcs2 : st.callStack = (v, 2, k) :: frames P := hcs
      rw [componentLoop_cons hcs2]
      have hlinks := List.chain'_cons'.mp hh.link
      have hc : (outsOf outs v)[k]? = some c := hlinks.1 (v, k) (by simp)
      have hvO : flagAt st.onStack v = true := (hh.live (v, k) (by simp)).1
      have hcO : flagAt st.onStack c = true :=
        (hh.live (c, (outsOf outs c).length) (List.mem_cons_self _ _)).1
      have hvI := ht.visited hvO
      have hcI := ht.visited hcO
      have hvL : v < st.lowlink.length := by
        rw [ht.lenLow, ← ht.lenIndex]; exact lt_of_valueAt_ne hvI
      have hjoin := hh.join hvL (Nat.le_refl _) hlow
      have hz := (hjoin.low v (by simp)).2
      have hLv : valueAt (st.lowlink.set v (min (valueAt st.lowlink v) (valueAt st.lowlink c))) v
          = min (valueAt st.lowlink v) (valueAt st.lowlink c) := by
        rw [valueAt_set _ _ hvL, if_pos rfl]
      rw [hLv] at hz
      have hadv := hjoin.advance (m := min (valueAt st.lowlink v) (valueAt st.lowlink c))
        (by rw [List.length_set]; exact hvL) hc hcI (by rw [hLv]) hz
        (fun _ => Nat.le_trans (Nat.min_le_right _ _) (Nat.le_of_lt hlow))
      rw [List.set_set] at hadv
      obtain ⟨st1, m1, hrun1, ht2, hd2, hc2, hm1⟩ :=
        switchState_two (P := P) hwf htotal (ht.setCallStack (frames P)) hd rfl hc hvI hcI
          (by
            show valueAt st.lowlink c ≠ SIZE_MAX
            have h1 := ht.idxLt c hcI
            have h2 := ht.count
            omega) hadv
      rw [hrun1, Option.some_bind]
      exact componentLoop_spec hwf htotal fuel st1 m1 ht2 hd2 hc2 (by
        have : unvisited { st with callStack := frames P } = unvisited st := rfl
        omega)
    | retOff c v k P hcs hh hc hcI hcO hlow hlowM =>
      have hcs2 : st.callStack = (v, 2, k) :: frames P := hcs
      rw [componentLoop_cons hcs2]
      have hvO : flagAt st.onStack v = true := (hh.live (v, k) (by simp)).1
      have hvI := ht.visited hvO
      have hvL : v < st.lowlink.length := by
        rw [ht.lenLow, ← ht.lenIndex]; exact lt_of_valueAt_ne hvI
      have hle := (hh.low v (by simp)).1
      have hmin : min (valueAt st.lowlink v) (valueAt st.lowlink c) = valueAt st.lowlink v :=
        Nat.min_eq_left (by omega)
      have hadv := hh.advance (m := valueAt st.lowlink v) hvL hc hcI (Nat.le_refl _)
        (hh.low v (by simp)).2 (fun hf => by rw [hcO] at hf; cases hf)
      rw [← hmin] at hadv
      obtain ⟨st1, m1, hrun1, ht2, hd2, hc2, hm1⟩ :=
        switchState_two (P := P) hwf htotal (ht.setCallStack (frames P)) hd rfl hc hvI hcI
          hlowM hadv
      rw [hrun1, Option.some_bind]
      exact componentLoop_spec hwf htotal fuel st1 m1 ht2 hd2 hc2 (by
        have : unvisited { st with callStack := frames P } = unvisited st := rfl
        omega)

theorem valueAt_replicate (total x : Nat) :
    valueAt (List.replicate total SIZE_MAX) x = SIZE_MAX := by
  unfold valueAt
  rw [List.getD_eq_getElem?_getD]
  by_cases hx : x < total
  · rw [List.getElem?_replicate_of_lt hx]; rfl
  · rw [List.getElem?_eq_none (by simpa using hx)]; rfl

theorem flagAt_replicate (total x : Nat) :
    flagAt (List.replicate total false) x = false := by
  unfold flagAt
  rw [List.getD_eq_getElem?_getD]
  by_cases hx : x < total
  · rw [List.getElem?_replicate_of_lt hx]; rfl
  · rw [List.getElem?_eq_none (by simpa using hx)]; rfl

theorem componentInit_eq (total : Nat) :
    componentInit total [] =
      { callStack := [], i := 0, index := List.replicate total SIZE_MAX
        lowlink := List.replicate total SIZE_MAX, onStack := List.replicate total false
        stack := [], checknode := 0, nextComponent := 0
        componentNumber := List.replicate total SIZE_MAX } := by
  simp [componentInit, resize_nil]

theorem tables_init (total : Nat) : Tables total (componentInit total []) := by
  rw [componentInit_eq]
  refine ⟨by simp, by simp, by simp, by simp, by simp, ?_, ?_, ?_, ?_, List.Pairwise.nil, ?_, ?_,
    Nat.le_refl _, ?_, Nat.zero_le _⟩
  · intro x hx
    exact absurd (valueAt_replicate total x) hx
  · intro x y hx
    exact absurd (valueAt_replicate total x) hx
  · intro x _
    exact ⟨valueAt_replicate total x, flagAt_replicate total x, valueAt_replicate total x⟩
  · intro x
    show flagAt (List.replicate total false) x = true ↔ x ∈ []
    rw [flagAt_replicate]
    simp
  · intro x
    show valueAt (List.replicate total SIZE_MAX) x ≠ SIZE_MAX ↔ _
    rw [valueAt_replicate]
    constructor
    · intro h; exact absurd rfl h
    · rintro ⟨h, _⟩
      exact h
  · intro x hx
    exact absurd (valueAt_replicate total x) hx
  · intro x hx
    exact absurd hx (Nat.not_lt_zero _)

theorem done_init (outs : List (List Nat)) (total : Nat) :
    Done outs (componentInit total []).componentNumber := by
  rw [componentInit_eq]
  exact ⟨fun x y hx => absurd (valueAt_replicate total x) hx,
    fun x y hx => absurd (valueAt_replicate total x) hx⟩

theorem config_init (outs : List (List Nat)) (total : Nat) :
    Config outs total (componentInit total []) (2 * total) := by
  have h : Config outs total (componentInit total []) (2 * unvisited (componentInit total [])) :=
    Config.idle (by rw [componentInit_eq]) (by rw [componentInit_eq]; exact heads_init outs _ _ total)
  have hu : unvisited (componentInit total []) = total := by
    rw [componentInit_eq]
    simp [unvisited]
  rw [hu] at h
  exact h

theorem valueAt_cons_succ (c : Nat) (rest : List Nat) (x : Nat) :
    valueAt (c :: rest) (x + 1) = valueAt rest x := rfl

theorem flipLoop_spec (last : Nat) : ∀ (C : List Nat),
    (∀ x, x < C.length → valueAt C x ≠ SIZE_MAX ∧ valueAt C x ≤ last) →
    ∃ R, flipLoop last C = some R ∧ R.length = C.length ∧
      ∀ x, x < C.length → R[x]? = some (last - valueAt C x)
  | [], _ => ⟨[], rfl, rfl, fun x hx => absurd hx (Nat.not_lt_zero _)⟩
  | c :: rest, h => by
    obtain ⟨h1, h2⟩ := h 0 (by simp)
    have h1' : c ≠ SIZE_MAX := h1
    have h2' : c ≤ last := h2
    obtain ⟨R, hrun, hlen, hval⟩ := flipLoop_spec last rest (fun x hx => by
      have := h (x + 1) (by simpa using hx)
      rwa [valueAt_cons_succ] at this)
    refine ⟨(last - c) :: R, ?_, by simp [hlen], ?_⟩
    · simp only [flipLoop, bind_eq_optionBind, assert_of_true (decide_eq_true h1'),
        assert_of_true (decide_eq_true h2'), Option.some_bind, hrun, pure_eq_some]
    · intro x hx
      cases x with
      | zero =>
        rw [List.getElem?_cons_zero]
        rfl
      | succ x =>
        rw [List.getElem?_cons_succ, valueAt_cons_succ]
        exact hval x (by simpa using hx)

/-- The vertices `u` and `w` lie on a common cycle or are equal. -/
def SameComponent (outs : List (List Nat)) (u w : Nat) : Prop :=
  Reach outs u w ∧ Reach outs w u

theorem Done.reach {outs : List (List Nat)} {C : List Nat} (h : Done outs C) {u w : Nat}
    (hu : valueAt C u ≠ SIZE_MAX) (hr : Reach outs u w) :
    valueAt C w ≠ SIZE_MAX ∧ valueAt C w ≤ valueAt C u := by
  induction hr with
  | refl => exact ⟨hu, Nat.le_refl _⟩
  | tail _ hyz ih =>
    obtain ⟨h1, h2⟩ := h.order _ _ ih.1 hyz
    exact ⟨h1, Nat.le_trans h2 ih.2⟩

/-- What `doComponentOrder` computes on a well-formed out-neighbour table of fewer than `2^64`
vertices: it returns, every vertex has a number, no edge leads to a smaller number, and two
vertices have the same number exactly when each is reachable from the other. -/
theorem componentOrder_spec {outs : List (List Nat)} {total : Nat}
    (hwf : WellFormed outs total) (htotal : total ≤ SIZE_MAX) :
    ∃ comp, componentOrder outs total [] = some comp ∧ comp.length = total ∧
      (∀ u w, Edge outs u w → ∃ a b, comp[u]? = some a ∧ comp[w]? = some b ∧ a ≤ b) ∧
      (∀ u w, u < total → w < total → (comp[u]? = comp[w]? ↔ SameComponent outs u w)) := by
  obtain ⟨st, hrun, ht, hd, hstack, hvis⟩ :=
    componentLoop_spec hwf htotal (2 * total + 1) (componentInit total []) (2 * total)
      (tables_init total) (done_init outs total) (config_init outs total) (Nat.lt_succ_self _)
  have hoff : ∀ x, flagAt st.onStack x = false := fun x => by
    cases hx : flagAt st.onStack x with
    | false => rfl
    | true =>
      have := (ht.onIff x).mp hx
      rw [hstack] at this
      cases this
  have hassigned : ∀ x, x < total → valueAt st.componentNumber x ≠ SIZE_MAX :=
    fun x hx => (ht.compIff x).mpr ⟨hvis x hx, hoff x⟩
  have hnc : st.nextComponent ≤ SIZE_MAX := by
    have h1 := ht.cnt
    have h2 := ht.count
    omega
  have hlast : ∀ x, x < st.componentNumber.length →
      valueAt st.componentNumber x ≠ SIZE_MAX ∧
      valueAt st.componentNumber x ≤ (st.nextComponent + 2 ^ 64 - 1) % 2 ^ 64 := by
    intro x hx
    rw [ht.lenComp] at hx
    have h1 := hassigned x hx
    have h2 := ht.compLt x h1
    refine ⟨h1, ?_⟩
    have h3 : st.nextComponent + 2 ^ 64 - 1 = (st.nextComponent - 1) + 2 ^ 64 := by omega
    have h4 : st.nextComponent - 1 < 2 ^ 64 := by
      unfold SIZE_MAX at hnc
      omega
    rw [h3, Nat.add_mod_right, Nat.mod_eq_of_lt h4]
    omega
  obtain ⟨R, hflip, hlen, hval⟩ := flipLoop_spec _ st.componentNumber hlast
  rw [ht.lenComp] at hlen hval
  refine ⟨R, ?_, hlen, ?_, ?_⟩
  · simp only [componentOrder, bind_eq_optionBind, hrun, Option.some_bind, hstack,
      List.length_nil, decide_True, assert_true, hflip]
  · intro u w huw
    have hu : u < total := by rw [← hwf.len]; exact huw.source_lt
    have hw : w < total := hwf.bound u w huw
    refine ⟨_, _, hval u hu, hval w hw, ?_⟩
    have := (hd.order u w (hassigned u hu) huw).2
    omega
  · intro u w hu hw
    rw [hval u hu, hval w hw]
    have hu1 := (hlast u (by rw [ht.lenComp]; exact hu)).2
    have hw1 := (hlast w (by rw [ht.lenComp]; exact hw)).2
    constructor
    · intro h
      have heq : valueAt st.componentNumber u = valueAt st.componentNumber w := by
        have := Option.some.inj h
        omega
      exact ⟨hd.same u w (hassigned u hu) heq, hd.same w u (hassigned w hw) heq.symm⟩
    · rintro ⟨h1, h2⟩
      have h3 := (hd.reach (hassigned u hu) h1).2
      have h4 := (hd.reach (hassigned w hw) h2).2
      congr 1
      omega

open AlignmentGraph

/-- The out-neighbour table after the renumbering of `Finalize` is well-formed. -/
theorem Renumbered.wellFormed {g g2 : AlignmentGraph} {ren : List Nat}
    (h : Renumbered g g2 ren) : WellFormed g2.outNeighbors g.nodeLength.length := by
  refine ⟨h.outLen, fun u w huw => ?_⟩
  have hu : u < g2.outNeighbors.length := huw.source_lt
  exact h.edges u _ (getElem?_outsOf hu) w huw

/-- On a graph of fewer than `2^64` vertices on which `Finalize` returns without the component
order, it returns with the component order too. -/
theorem Finalize_components {g g0 : AlignmentGraph} {wordSize : Int} (hb : Built g)
    (h : g.Finalize wordSize false = some g0) (hsize : g.nodeLength.length ≤ SIZE_MAX) :
    ∃ gF, g.Finalize wordSize true = some gF := by
  simp only [Finalize, bind_eq_optionBind] at h ⊢
  obtain ⟨u1, h1, h⟩ := Option.bind_eq_some.mp h
  obtain ⟨g1, hg1, h⟩ := Option.bind_eq_some.mp h
  obtain ⟨g3, hg3, h⟩ := Option.bind_eq_some.mp h
  obtain ⟨u2, h2, h⟩ := Option.bind_eq_some.mp h
  obtain ⟨u3, h3, h⟩ := Option.bind_eq_some.mp h
  obtain ⟨ren, hren, hlin, hcomp, -, -, -, -⟩ := RenumberAmbiguousToEnd_spec hb hg1
  have hfl := findLinearizable_spec (g := { g1 with ambiguousNodes := [] })
    (by simp only; rw [hren.innLen, hren.total]) hlin
  rw [hfl] at hg3
  cases Option.some.inj hg3
  simp only [Bool.false_eq_true, if_false, Option.some_bind] at h
  obtain ⟨u4, h4, h⟩ := Option.bind_eq_some.mp h
  obtain ⟨comp, hrun, _⟩ := componentOrder_spec hren.wellFormed hsize
  rw [← hren.total] at hrun
  rw [h1, Option.some_bind, hg1, Option.some_bind, hfl, Option.some_bind, h2, Option.some_bind,
    h3, Option.some_bind]
  simp only [if_true, doComponentOrder, bind_eq_optionBind, pure_eq_some, hcomp, hrun,
    Option.some_bind]
  exact ⟨_, by rw [h4]; rfl⟩

/-- On a call sequence that gives a finalized graph of fewer than `2^64` vertices without the
component order, `Finalize` returns with the component order too. -/
theorem buildFinal_components {calls : List BuildCall} {wordSize : Int} {g0 : AlignmentGraph}
    (h : buildFinal calls wordSize false = some g0) (hsize : g0.nodeLength.length < 2 ^ 64) :
    ∃ gF, buildFinal calls wordSize true = some gF := by
  obtain ⟨g, ren, g1, comp, hg, hb, hren, -, -, -⟩ := buildFinal_spec h
  simp only [buildFinal, bind_eq_optionBind, hg, Option.some_bind] at h ⊢
  refine Finalize_components hb h ?_
  rw [← hren.total]
  unfold SIZE_MAX
  omega

/-- What the component order of a finalized graph of fewer than `2^64` vertices satisfies:
every vertex has a number, no edge leads to a smaller number, and two vertices have the same
number exactly when each is reachable from the other. -/
theorem components_final {calls : List BuildCall} {wordSize : Int} {gF : AlignmentGraph}
    (h : buildFinal calls wordSize true = some gF) (hsize : gF.nodeLength.length < 2 ^ 64) :
    gF.componentNumber.length = gF.nodeLength.length ∧
    (∀ u w, Edge gF.outNeighbors u w →
      ∃ a b, gF.componentNumber[u]? = some a ∧ gF.componentNumber[w]? = some b ∧ a ≤ b) ∧
    (∀ u w, u < gF.nodeLength.length → w < gF.nodeLength.length →
      (gF.componentNumber[u]? = gF.componentNumber[w]? ↔ SameComponent gF.outNeighbors u w)) := by
  obtain ⟨g, ren, g1, comp, hg, hb, hren, hgF, hN, hrun⟩ := buildFinal_spec h
  have hle : g.nodeLength.length ≤ SIZE_MAX := by
    rw [← hren.total]
    unfold SIZE_MAX
    omega
  obtain ⟨comp2, hrun2, hlen, hedge, hsame⟩ := componentOrder_spec hren.wellFormed hle
  have hrun1 := hrun rfl
  have houts : gF.outNeighbors = g1.outNeighbors := by rw [hgF]; rfl
  have hcompF : gF.componentNumber = comp := by rw [hgF]; rfl
  rw [← houts, hN, hrun2] at hrun1
  cases Option.some.inj hrun1
  rw [hcompF, hren.total]
  exact ⟨hlen, hedge, hsame⟩

/-- C2: after `Finalize` with the component order enabled, on every finalized graph (of fewer
than `2^64` vertices) and for every edge `u → v`, both vertices have a component number and
the number of `u` is at most the number of `v`. -/
theorem component_order_respects_edges (calls : List BuildCall) (wordSize : Int)
    (gF : AlignmentGraph) (h : buildFinal calls wordSize true = some gF)
    (hsize : gF.nodeLength.length < 2 ^ 64) (u v : Nat) (huv : Edge gF.outNeighbors u v) :
    ∃ a b, gF.componentNumber[u]? = some a ∧ gF.componentNumber[v]? = some b ∧ a ≤ b :=
  (components_final h hsize).2.1 u v huv

/-- The graph with the cycle `A → B → C → A` and the further edge `A → D`; the vertices are
numbered `A = 0`, `B = 1`, `C = 2`, `D = 3`. -/
def cycleCalls : List BuildCall :=
  [.addNode 2 "A".toList "A" false [0, 1], .addNode 4 "C".toList "B" false [0, 1],
   .addNode 6 "G".toList "C" false [0, 1], .addNode 8 "T".toList "D" false [0, 1],
   .addEdge 2 4 0, .addEdge 4 6 0, .addEdge 6 2 0, .addEdge 2 8 0]

/-- The finalized graph of `cycleCalls`, with its component order. -/
def cycleGraph : AlignmentGraph :=
  { nodeLength := [1, 1, 1, 1]
    nodeLookup := [(2, [0]), (4, [1]), (6, [2]), (8, [3])]
    originalNodeSize := [(2, 1), (4, 1), (6, 1), (8, 1)]
    originalNodeName := [(2, "A"), (4, "B"), (6, "C"), (8, "D")]
    nodeOffset := [0, 0, 0, 0]
    nodeIDs := [2, 4, 6, 8]
    inNeighbors := [[2], [0], [1], [0]]
    outNeighbors := [[1, 3], [2], [0], []]
    reverse := [false, false, false, false]
    linearizable := [false, false, false, false]
    ambiguousNodes := []
    nodeSequences := [[0, 0], [1, 0], [2, 0], [3, 0]]
    ambiguousNodeSequences := []
    componentNumber := [0, 0, 0, 1]
    firstAmbiguous := 4
    finalized := true }

theorem cycle_buildFinal : buildFinal cycleCalls 64 true = some cycleGraph := by
  decide

theorem component_order_respects_edges_witness :
    buildFinal cycleCalls 64 true = some cycleGraph ∧ Edge cycleGraph.outNeighbors 0 3 ∧
    ∃ a b, cycleGraph.componentNumber[0]? = some a ∧ cycleGraph.componentNumber[3]? = some b ∧
      a ≤ b :=
  ⟨cycle_buildFinal, by unfold Edge; decide,
    component_order_respects_edges cycleCalls 64 cycleGraph cycle_buildFinal (by decide) 0 3
      (by unfold Edge; decide)⟩

/-- C3: in every finalized graph (of fewer than `2^64` vertices) with the component order, two
vertices have the same component number if and only if each is reachable from the other along
out-edges; and on the graph `A → B`, `B → C`, `C → A`, `A → D` the numbers are 0 for `A`, `B`
and `C` and 1 for `D`, so there are exactly two components and that of `A`, `B`, `C` is the
smaller. -/
theorem same_component_iff :
    (∀ (calls : List BuildCall) (wordSize : Int) (gF : AlignmentGraph),
      buildFinal calls wordSize true = some gF → gF.nodeLength.length < 2 ^ 64 →
      ∀ u v, u < gF.nodeLength.length → v < gF.nodeLength.length →
        (gF.componentNumber[u]? = gF.componentNumber[v]? ↔
          SameComponent gF.outNeighbors u v)) ∧
    (buildFinal cycleCalls 64 true).map (fun g => (g.outNeighbors, g.componentNumber)) =
      some ([[1, 3], [2], [0], []], [0, 0, 0, 1]) := by
  refine ⟨fun calls wordSize gF h hsize u v hu hv => (components_final h hsize).2.2 u v hu hv, ?_⟩
  rw [cycle_buildFinal]
  rfl

theorem same_component_iff_witness :
    buildFinal cycleCalls 64 true = some cycleGraph ∧
    (cycleGraph.componentNumber[0]? = cycleGraph.componentNumber[2]? ↔
      SameComponent cycleGraph.outNeighbors 0 2) ∧
    (cycleGraph.componentNumber[0]? = cycleGraph.componentNumber[3]? ↔
      SameComponent cycleGraph.outNeighbors 0 3) :=
  ⟨cycle_buildFinal,
    same_component_iff.1 cycleCalls 64 cycleGraph cycle_buildFinal (by decide) 0 2 (by decide)
      (by decide),
    same_component_iff.1 cycleCalls 64 cycleGraph cycle_buildFinal (by decide) 0 3 (by decide)
      (by decide)⟩

open AlignmentGraph

/-! ## C11, C12 and C13: `mergeAlignments` and the empty alignment -/

/-- C11 (amended): for two alignments that have not failed, with non-empty paths whose boundary
positions agree, whose boundary node ids are keys of `nodeLookup` with non-empty split lists and
whose scores have a representable sum, `mergeAlignments` returns the mappings of `first`
followed by those of `second` without its first one, the sum of the scores, and the sums of
`cellsProcessed` and of `elapsedMilliseconds` modulo `2^64`. -/
theorem merge_shared_boundary (g : AlignmentGraph) (first second : AlignmentItem)
    (mf ms : Mapping) (lf ls : List Nat)
    (hff : first.alignmentFailed = false) (hsf : second.alignmentFailed = false)
    (hlast : first.alignment.path.getLast? = some mf)
    (hhead : second.alignment.path.head? = some ms)
    (hpos : posEqual mf.position ms.position = true)
    (hlf : g.nodeLookup.lookup (toInt32 mf.position.node_id) = some lf) (hlfne : lf ≠ [])
    (hls : g.nodeLookup.lookup (toInt32 ms.position.node_id) = some ls) (hlsne : ls ≠ [])
    (hlo : -(2 ^ 31) ≤ first.alignment.score + second.alignment.score)
    (hhi : first.alignment.score + second.alignment.score < 2 ^ 31) :
    ∃ item, mergeAlignments g first second = some item ∧
      item.alignment.path = first.alignment.path ++ second.alignment.path.tail ∧
      item.alignment.score = first.alignment.score + second.alignment.score ∧
      item.cellsProcessed = (first.cellsProcessed + second.cellsProcessed) % 2 ^ 64 ∧
      item.elapsedMilliseconds =
        (first.elapsedMilliseconds + second.elapsedMilliseconds) % 2 ^ 64 := by
  have hfne : first.alignment.path.length ≠ 0 := by
    intro h
    rw [List.length_eq_zero.mp h] at hlast
    simp at hlast
  have hsne : second.alignment.path.length ≠ 0 := by
    intro h
    rw [List.length_eq_zero.mp h] at hhead
    simp at hhead
  have hlast2 : first.alignment.path[first.alignment.path.length - 1]? = some mf := by
    rw [← List.getLast?_eq_getElem?]; exact hlast
  have hhead2 : second.alignment.path[0]? = some ms := by
    rw [← List.head?_eq_getElem?]; exact hhead
  obtain ⟨a, ha⟩ : ∃ a, lf.getLast? = some a :=
    ⟨lf.getLast hlfne, List.getLast?_eq_getLast _ hlfne⟩
  obtain ⟨b, hb⟩ : ∃ b, ls[0]? = some b := by
    cases ls with
    | nil => exact absurd rfl hlsne
    | cons b rest => exact ⟨b, by simp⟩
  refine ⟨{ alignment :=
               { name := first.alignment.name,
                 score := first.alignment.score + second.alignment.score,
                 sequence := first.alignment.sequence,
                 path := first.alignment.path ++ second.alignment.path.drop 1 },
             cellsProcessed := (first.cellsProcessed + second.cellsProcessed) % 2 ^ 64,
             elapsedMilliseconds :=
               (first.elapsedMilliseconds + second.elapsedMilliseconds) % 2 ^ 64,
             alignmentStart := 0,
             alignmentEnd := 0 }, ?_, ?_, rfl, rfl, rfl⟩
  · unfold mergeAlignments
    simp only [hff, hsf, Bool.not_false, Bool.or_self, assert_true, bind_eq_optionBind,
      Option.some_bind, Bool.false_eq_true, if_false, hfne, hsne,
      assert_of_true (decide_eq_true (And.intro hlo hhi)), hlast2, hhead2, hlf, ha, hls, hb,
      hpos, if_true, pure_eq_some]
  · simp

/-- The alignment that `traceToAlignment` returns on `singleGraph` for the trace through its
only split. -/
def singleItem : AlignmentItem :=
  { alignment :=
      { name := "read", score := 0, sequence := "ACGT".toList
        path := [{ position := { node_id := 2, offset := 0, is_reverse := false }
                   rank := 0
                   edit := [{ from_length := 4, to_length := 3, sequence := "CGT".toList }] }] }
    cellsProcessed := 0
    elapsedMilliseconds := SIZE_MAX
    alignmentStart := 0
    alignmentEnd := 3 }

theorem single_item_trace :
    traceToAlignment singleGraph "read" "ACGT".toList 0 (insideTrace 0 4) 0 false =
      some singleItem := by
  decide

theorem merge_shared_boundary_witness :
    ∃ item, mergeAlignments singleGraph singleItem singleItem = some item ∧
      item.alignment.path = singleItem.alignment.path ++ singleItem.alignment.path.tail ∧
      item.alignment.score = singleItem.alignment.score + singleItem.alignment.score ∧
      item.cellsProcessed = (singleItem.cellsProcessed + singleItem.cellsProcessed) % 2 ^ 64 ∧
      item.elapsedMilliseconds =
        (singleItem.elapsedMilliseconds + singleItem.elapsedMilliseconds) % 2 ^ 64 :=
  merge_shared_boundary singleGraph singleItem singleItem
    { position := { node_id := 2, offset := 0, is_reverse := false }, rank := 0,
      edit := [{ from_length := 4, to_length := 3, sequence := "CGT".toList }] }
    { position := { node_id := 2, offset := 0, is_reverse := false }, rank := 0,
      edit := [{ from_length := 4, to_length := 3, sequence := "CGT".toList }] }
    [0] [0] (by decide) (by decide) (by decide) (by decide) (by decide) (by decide) (by decide)
    (by decide) (by decide) (by decide) (by decide)

/-- C11 (as stated, at a concrete input): merging the alignment that `traceToAlignment` returns
on `singleGraph` with itself, the boundary positions agree, and the `elapsedMilliseconds` of
the result is `2^64 - 2`, not the sum `2 * (2^64 - 1)` of the two values. -/
theorem merge_elapsed_wraps :
    traceToAlignment singleGraph "read" "ACGT".toList 0 (insideTrace 0 4) 0 false =
      some singleItem ∧
    singleItem.alignmentFailed = false ∧
    (mergeAlignments singleGraph singleItem singleItem).map
      (fun item => item.elapsedMilliseconds) = some 18446744073709551614 ∧
    singleItem.elapsedMilliseconds + singleItem.elapsedMilliseconds = 36893488147419103230 := by
  decide

/-- C12 (amended): when not both sides have failed, `mergeAlignments` returns `second` if
`first` has failed, else `first` if `second` has failed, else `second` if the path of `first`
has no mapping, else `first` if the path of `second` has no mapping; the returned side is
unchanged. -/
theorem merge_returns_other_side (g : AlignmentGraph) (first second : AlignmentItem)
    (h : first.alignmentFailed = false ∨ second.alignmentFailed = false) :
    (first.alignmentFailed = true → mergeAlignments g first second = some second) ∧
    (first.alignmentFailed = false → second.alignmentFailed = true →
      mergeAlignments g first second = some first) ∧
    (first.alignmentFailed = false → second.alignmentFailed = false →
      first.alignment.path = [] → mergeAlignments g first second = some second) ∧
    (first.alignmentFailed = false → second.alignmentFailed = false →
      first.alignment.path ≠ [] → second.alignment.path = [] →
      mergeAlignments g first second = some first) := by
  refine ⟨fun hf => ?_, fun hf hs => ?_, fun hf hs hp => ?_, fun hf hs hp hq => ?_⟩
  · have hs : second.alignmentFailed = false := by
      rcases h with h | h
      · rw [hf] at h; cases h
      · exact h
    simp [mergeAlignments, hf, hs]
  · simp [mergeAlignments, hf, hs]
  · simp [mergeAlignments, hf, hs, hp]
  · have hp2 : first.alignment.path.length ≠ 0 := fun e => hp (List.length_eq_zero.mp e)
    simp [mergeAlignments, hf, hs, hp2, hq]

theorem merge_returns_other_side_witness :
    (emptyAlignment 0 0).alignmentFailed = true ∧ singleItem.alignmentFailed = false ∧
    mergeAlignments singleGraph (emptyAlignment 0 0) singleItem = some singleItem ∧
    mergeAlignments singleGraph singleItem (emptyAlignment 0 0) = some singleItem :=
  ⟨by decide, by decide,
    (merge_returns_other_side singleGraph (emptyAlignment 0 0) singleItem
      (Or.inr (by decide))).1 (by decide),
    (merge_returns_other_side singleGraph singleItem (emptyAlignment 0 0)
      (Or.inl (by decide))).2.1 (by decide) (by decide)⟩

/-- C12 (as stated, at a concrete input): when both sides are the failed sentinel, the first
assertion of `mergeAlignments` fails and no side is returned. -/
theorem merge_both_failed :
    (emptyAlignment 0 0).alignmentFailed = true ∧
    mergeAlignments singleGraph (emptyAlignment 0 0) (emptyAlignment 0 0) = none := by
  decide

/-- C13: for every graph, query, score and `cellsProcessed`, `traceToAlignment` on an empty
trace returns `emptyAlignment(0, cellsProcessed)`: an item with no mappings, the maximum
representable score (so that it counts as failed), the given `cellsProcessed` and elapsed
time 0. -/
theorem empty_trace_empty_alignment (g : AlignmentGraph) (seq_id : String)
    (sequence : List Char) (score : Int) (cellsProcessed : Nat) (reverse : Bool) :
    traceToAlignment g seq_id sequence score [] cellsProcessed reverse =
      some (emptyAlignment 0 cellsProcessed) ∧
    (emptyAlignment 0 cellsProcessed).alignment.path = [] ∧
    (emptyAlignment 0 cellsProcessed).alignment.score = 2 ^ 31 - 1 ∧
    (emptyAlignment 0 cellsProcessed).cellsProcessed = cellsProcessed ∧
    (emptyAlignment 0 cellsProcessed).elapsedMilliseconds = 0 ∧
    (emptyAlignment 0 cellsProcessed).alignmentFailed = true := by
  refine ⟨rfl, rfl, rfl, rfl, rfl, ?_⟩
  simp [AlignmentItem.alignmentFailed, emptyAlignment]

open AlignmentGraph

/-! ## C14 and C15: `GetReversePosition` -/

theorem nat_xor_one (m : Nat) : m ^^^ 1 = if m % 2 = 0 then m + 1 else m - 1 := by
  have h1 : (1 : Nat) = Nat.bit true 0 := rfl
  conv_lhs => rw [← Nat.bit_decomp m, h1, Nat.xor_bit]
  have hm := Nat.bit_decomp m
  cases hb : m.bodd with
  | false =>
    rw [hb] at hm
    simp only [Nat.bit_false] at hm
    simp only [Bool.bne_true, Bool.not_false, Nat.xor_zero, Nat.bit_true]
    have : m % 2 = 0 := by omega
    rw [if_pos this]
    omega
  | true =>
    rw [hb] at hm
    simp only [Nat.bit_true] at hm
    simp only [Bool.bne_true, Bool.not_true, Nat.xor_zero, Nat.bit_false]
    have : ¬ m % 2 = 0 := by omega
    rw [if_neg this]
    omega

/-- The id that `GetReversePosition` computes: the id with its low bit flipped, except for a
negative odd id, which is mapped to the even id above it. -/
theorem reverse_id_eq (id : Int) :
    (if Int.tmod id 2 = 0 then (Int.tdiv id 2) * 2 + 1 else (Int.tdiv id 2) * 2) =
      if id < 0 ∧ Int.tmod id 2 ≠ 0 then id + 1 else Int.xor id 1 := by
  cases id with
  | ofNat m =>
    have h1 : Int.tmod (Int.ofNat m) 2 = ((m % 2 : Nat) : Int) := rfl
    have h2 : Int.tdiv (Int.ofNat m) 2 = ((m / 2 : Nat) : Int) := rfl
    have h3 : Int.xor (Int.ofNat m) 1 = ((m ^^^ 1 : Nat) : Int) := rfl
    have h4 : Int.ofNat m = (m : Int) := rfl
    rw [h1, h2, h3, nat_xor_one, h4]
    by_cases hm : m % 2 = 0
    · have hc : ((m % 2 : Nat) : Int) = 0 := by rw [hm]; rfl
      rw [if_pos hc, if_neg (fun h => h.2 hc), if_pos hm]
      push_cast
      omega
    · have hc : ¬ ((m % 2 : Nat) : Int) = 0 := by
        intro h
        exact hm (by exact_mod_cast h)
      have hneg : ¬ ((m : Int) < 0) := by omega
      rw [if_neg hc, if_neg (fun h => hneg h.1), if_neg hm]
      have : 1 ≤ m := by omega
      push_cast [this]
      omega
  | negSucc m =>
    have h1 : Int.tmod (Int.negSucc m) 2 = -(((m + 1) % 2 : Nat) : Int) := rfl
    have h2 : Int.tdiv (Int.negSucc m) 2 = -(((m + 1) / 2 : Nat) : Int) := rfl
    have h3 : Int.xor (Int.negSucc m) 1 = Int.negSucc (m ^^^ 1) := rfl
    have h4 : Int.negSucc m < 0 := Int.negSucc_lt_zero m
    have h5 : Int.negSucc m = -((m : Int) + 1) := Int.negSucc_eq m
    rw [h1, h2, h3, nat_xor_one]
    by_cases hm : (m + 1) % 2 = 0
    · have hm2 : ¬ m % 2 = 0 := by omega
      have hc : -(((m + 1) % 2 : Nat) : Int) = 0 := by rw [hm]; rfl
      rw [if_pos hc, if_neg (fun h => h.2 hc), if_neg hm2, Int.negSucc_eq]
      have : 1 ≤ m := by omega
      push_cast [this]
      omega
    · have hm2 : m % 2 = 0 := by omega
      have hne : -(((m + 1) % 2 : Nat) : Int) ≠ 0 := by
        have : (m + 1) % 2 = 1 := by omega
        rw [this]
        decide
      rw [if_neg hne, if_pos ⟨h4, hne⟩, h5]
      push_cast
      omega

/-- C15 (amended): for every id that is a key of `nodeLookup` and of `originalNodeSize` and is
not negative and odd, and every offset `o` below the original size, `GetReversePosition`
returns the id with its low bit flipped (`id XOR 1`) and the offset `size - o - 1`. -/
theorem reverse_position_flips (g : AlignmentGraph) (id : Int) (o size : Nat) (l : List Nat)
    (hl : g.nodeLookup.lookup id = some l) (hs : g.originalNodeSize.lookup id = some size)
    (ho : o < size) (hid : 0 ≤ id ∨ Int.tmod id 2 = 0) :
    g.GetReversePosition id o = some (Int.xor id 1, size - o - 1) := by
  have hnew : size - o - 1 < size := by omega
  have hcond : ¬ (id < 0 ∧ Int.tmod id 2 ≠ 0) := by
    rintro ⟨h1, h2⟩
    rcases hid with h | h
    · omega
    · exact h2 h
  have hrev := (reverse_id_eq id).trans (if_neg hcond)
  simp only [GetReversePosition, bind_eq_optionBind, hl, hs, Option.isSome_some, assert_true,
    Option.some_bind, assert_of_true (decide_eq_true ho), assert_of_true (decide_eq_true hnew),
    pure_eq_some, hrev]

/-- The graph with one original node 6 of 100 bases. -/
def hundredCalls : List BuildCall := [.addNode 6 (List.replicate 100 'A') "n" false [0, 100]]

theorem reverse_position_flips_witness :
    ∃ g, build hundredCalls = some g ∧ g.GetReversePosition 6 10 = some (Int.xor 6 1, 100 - 10 - 1) ∧
      (Int.xor 6 1, 100 - 10 - 1) = ((7 : Int), 89) := by
  have hrun : (build hundredCalls).isSome = true := by decide
  obtain ⟨g, hg⟩ := Option.isSome_iff_exists.mp hrun
  have hl : (build hundredCalls).bind (fun g => g.nodeLookup.lookup 6) = some [0, 1] := by decide
  have hs : (build hundredCalls).bind (fun g => g.originalNodeSize.lookup 6) = some 100 := by
    decide
  rw [hg] at hl hs
  exact ⟨g, hg, reverse_position_flips g 6 10 100 [0, 1] hl hs (by decide) (Or.inl (by decide)),
    by decide⟩


/-- C15 (as stated, at a concrete input): in the graph with the single original node `-1`,
`GetReversePosition(-1, 0)` returns the id `0`, while `-1 XOR 1` is `-2`. -/
theorem reverse_position_negative_odd :
    (build [.addNode (-1) "A".toList "n" false [0, 1]]).bind
      (fun g => g.GetReversePosition (-1) 0) = some (0, 0) ∧
    Int.xor (-1) 1 = -2 := by
  decide

theorem int_xor_one_nonneg {id : Int} (h : 0 ≤ id) :
    0 ≤ Int.xor id 1 ∧ Int.xor (Int.xor id 1) 1 = id := by
  cases id with
  | ofNat m =>
    have h3 : Int.xor (Int.ofNat m) 1 = Int.ofNat (m ^^^ 1) := rfl
    have h4 : Int.xor (Int.ofNat (m ^^^ 1)) 1 = Int.ofNat ((m ^^^ 1) ^^^ 1) := rfl
    rw [h3, h4]
    refine ⟨Int.ofNat_nonneg _, ?_⟩
    rw [Nat.xor_assoc, Nat.xor_self, Nat.xor_zero]
  | negSucc m => exact absurd h (by simp [Int.negSucc_lt_zero])

/-- C14 (amended): for every non-negative id that is a key of `nodeLookup` and
`originalNodeSize`, whose reverse-complement id `id XOR 1` is a key too with the same original
size, and every offset `o` below that size, `GetReversePosition` applied twice returns
`(id, o)`. -/
theorem reverse_position_involution (g : AlignmentGraph) (id : Int) (o size : Nat)
    (l l2 : List Nat) (hid : 0 ≤ id)
    (hl : g.nodeLookup.lookup id = some l) (hs : g.originalNodeSize.lookup id = some size)
    (hl2 : g.nodeLookup.lookup (Int.xor id 1) = some l2)
    (hs2 : g.originalNodeSize.lookup (Int.xor id 1) = some size) (ho : o < size) :
    ∃ r o2, g.GetReversePosition id o = some (r, o2) ∧
      g.GetReversePosition r o2 = some (id, o) := by
  obtain ⟨hnn, hback⟩ := int_xor_one_nonneg hid
  have hcond : ∀ x : Int, 0 ≤ x → ¬ (x < 0 ∧ Int.tmod x 2 ≠ 0) := fun x hx h => by omega
  have hrev1 := (reverse_id_eq id).trans (if_neg (hcond id hid))
  have hrev2 := (reverse_id_eq (Int.xor id 1)).trans (if_neg (hcond _ hnn))
  have ho2 : size - o - 1 < size := by omega
  have ho3 : size - (size - o - 1) - 1 < size := by omega
  have ho4 : size - (size - o - 1) - 1 = o := by omega
  refine ⟨Int.xor id 1, size - o - 1, ?_, ?_⟩
  · simp only [GetReversePosition, bind_eq_optionBind, hl, hs, Option.isSome_some, assert_true,
      Option.some_bind, assert_of_true (decide_eq_true ho), assert_of_true (decide_eq_true ho2),
      pure_eq_some, hrev1]
  · simp only [GetReversePosition, bind_eq_optionBind, hl2, hs2, Option.isSome_some,
      assert_true, Option.some_bind, assert_of_true (decide_eq_true ho2),
      assert_of_true (decide_eq_true ho3), assert_of_true (decide_eq_true ho), pure_eq_some,
      hrev2, hback, ho4]

/-- The graph with the original nodes 6 and 7, of 100 bases each. -/
def pairCalls : List BuildCall :=
  [.addNode 6 (List.replicate 100 'A') "n" false [0, 100],
   .addNode 7 (List.replicate 100 'T') "n" true [0, 100]]

theorem reverse_position_involution_witness :
    ∃ g, build pairCalls = some g ∧
      ∃ r o2, g.GetReversePosition 6 10 = some (r, o2) ∧
        g.GetReversePosition r o2 = some (6, 10) := by
  have hrun : (build pairCalls).isSome = true := by decide
  obtain ⟨g, hg⟩ := Option.isSome_iff_exists.mp hrun
  have hl : (build pairCalls).bind (fun g => g.nodeLookup.lookup 6) = some [0, 1] := by decide
  have hs : (build pairCalls).bind (fun g => g.originalNodeSize.lookup 6) = some 100 := by
    decide
  have hl2 : (build pairCalls).bind (fun g => g.nodeLookup.lookup (Int.xor 6 1)) =
      some [2, 3] := by decide
  have hs2 : (build pairCalls).bind (fun g => g.originalNodeSize.lookup (Int.xor 6 1)) =
      some 100 := by decide
  rw [hg] at hl hs hl2 hs2
  exact ⟨g, hg, reverse_position_involution g 6 10 100 [0, 1] [2, 3] (by decide) hl hs hl2 hs2
    (by decide)⟩

/-- The graph with the original nodes `-4`, `-3` and `-2`, of one base each. -/
def negativeCalls : List BuildCall :=
  [.addNode (-4) "A".toList "n" false [0, 1], .addNode (-3) "T".toList "n" true [0, 1],
   .addNode (-2) "C".toList "n" false [0, 1]]

/-- C14 (as stated, at a concrete input): in the graph with the original nodes `-4`, `-3` and
`-2`, all of size 1, `GetReversePosition(-3, 0)` is `(-2, 0)` and `GetReversePosition(-2, 0)` is
`(-1, 0)`, not `(-3, 0)`; both `-2` and `-3 XOR 1 = -4` are present with the size of `-3`. -/
theorem reverse_position_negative :
    (build negativeCalls).bind (fun g => g.GetReversePosition (-3) 0) = some (-2, 0) ∧
    (build negativeCalls).bind (fun g => g.GetReversePosition (-2) 0) = some (-1, 0) ∧
    Int.xor (-3) 1 = -4 ∧
    (build negativeCalls).map (fun g => g.originalNodeSize) =
      some [(-4, 1), (-3, 1), (-2, 1)] ∧
    (build negativeCalls).map (fun g => g.nodeLookup) =
      some [(-4, [0]), (-3, [1]), (-2, [2])] := by
  decide

open AlignmentGraph

/-! ## C16 and C17: the neighbour tables -/

theorem getD_nonempty_lt {vec : List (List Nat)} {u x : Nat} (h : x ∈ vec.getD u []) :
    u < vec.length := by
  by_contra hge
  rw [List.getD_eq_getElem?_getD, List.getElem?_eq_none (Nat.le_of_not_lt hge)] at h
  simp at h

theorem consistent_of_neighbors {g : AlignmentGraph} {n : Nat} (hn : Neighbors g)
    (hout : g.outNeighbors.length = n)
    (hedges : ∀ (u : Nat) (l : List Nat), g.outNeighbors[u]? = some l → ∀ w ∈ l, w < n) :
    (∀ (u v : Nat) (outs ins : List Nat), g.outNeighbors[u]? = some outs →
      g.inNeighbors[v]? = some ins → (v ∈ outs ↔ u ∈ ins)) ∧
    (∀ (u : Nat) (outs : List Nat), g.outNeighbors[u]? = some outs → ∀ v ∈ outs, v < n) ∧
    (∀ (v : Nat) (ins : List Nat), g.inNeighbors[v]? = some ins → ∀ u ∈ ins, u < n) := by
  refine ⟨?_, hedges, ?_⟩
  · intro u v outs ins ho hi
    have := hn.mirror u v
    rw [getD_of_getElem? ho, getD_of_getElem? hi] at this
    exact this
  · intro v ins hi u hu
    have hmem : v ∈ g.outNeighbors.getD u [] := by
      rw [hn.mirror u v, getD_of_getElem? hi]
      exact hu
    rw [← hout]
    exact getD_nonempty_lt hmem

theorem nodup_of_neighbors {g : AlignmentGraph} (hn : Neighbors g) :
    (∀ (u : Nat) (outs : List Nat), g.outNeighbors[u]? = some outs → outs.Nodup) ∧
    (∀ (v : Nat) (ins : List Nat), g.inNeighbors[v]? = some ins → ins.Nodup) := by
  constructor
  · intro u outs ho
    have := hn.nodupOut u
    rw [getD_of_getElem? ho] at this
    exact this
  · intro v ins hi
    have := hn.nodupIn v
    rw [getD_of_getElem? hi] at this
    exact this

theorem Finalize_renumbered {g gF : AlignmentGraph} {wordSize : Int} {doComponents : Bool}
    (hb : Built g) (h : g.Finalize wordSize doComponents = some gF) :
    ∃ ren, Renumbered g gF ren := by
  obtain ⟨ren, g1, comp, hren, rfl, -, -, -⟩ := Finalize_spec hb h
  exact ⟨ren, hren.finalizedFrom comp⟩

/-- The builder state of `demoCalls`, before `Finalize`. -/
def demoBuilt : AlignmentGraph :=
  { nodeLength := [8, 2, 3]
    nodeLookup := [(2, [0]), (4, [1, 2])]
    originalNodeSize := [(2, 8), (4, 5)]
    originalNodeName := [(2, "n2"), (4, "n4")]
    nodeOffset := [0, 0, 2]
    nodeIDs := [2, 4, 4]
    inNeighbors := [[2], [0], [1, 2]]
    outNeighbors := [[1], [2], [0, 2]]
    reverse := [false, false, false]
    linearizable := []
    ambiguousNodes := [false, false, true]
    nodeSequences := [[58596, 0], [4, 0]]
    ambiguousNodeSequences := [{ A := 1, C := 1, G := 3, T := 5 }]
    componentNumber := []
    firstAmbiguous := SIZE_MAX
    finalized := false }

theorem demo_build : build demoCalls = some demoBuilt := by
  decide

theorem demo_finalize : demoBuilt.Finalize 64 true = some demoGraph := by
  decide

/-- C16: in every state reached from the empty graph by `AddNode` and `AddEdgeNodeId` calls,
and in every graph `Finalize` returns for such a state, both neighbour tables have one list
per split vertex, `v` is in `outNeighbors[u]` exactly when `u` is in `inNeighbors[v]`, and
every index stored in either table is below the number `N` of split vertices. -/
theorem neighbours_mutually_consistent (calls : List BuildCall) (g : AlignmentGraph)
    (hg : build calls = some g) :
    (g.outNeighbors.length = g.nodeLength.length ∧
      g.inNeighbors.length = g.nodeLength.length ∧
      (∀ (u v : Nat) (outs ins : List Nat), g.outNeighbors[u]? = some outs →
        g.inNeighbors[v]? = some ins → (v ∈ outs ↔ u ∈ ins)) ∧
      (∀ (u : Nat) (outs : List Nat), g.outNeighbors[u]? = some outs →
        ∀ v ∈ outs, v < g.nodeLength.length) ∧
      (∀ (v : Nat) (ins : List Nat), g.inNeighbors[v]? = some ins →
        ∀ u ∈ ins, u < g.nodeLength.length)) ∧
    ∀ (wordSize : Int) (doComponents : Bool) (gF : AlignmentGraph),
      g.Finalize wordSize doComponents = some gF →
      gF.outNeighbors.length = gF.nodeLength.length ∧
      gF.inNeighbors.length = gF.nodeLength.length ∧
      (∀ (u v : Nat) (outs ins : List Nat), gF.outNeighbors[u]? = some outs →
        gF.inNeighbors[v]? = some ins → (v ∈ outs ↔ u ∈ ins)) ∧
      (∀ (u : Nat) (outs : List Nat), gF.outNeighbors[u]? = some outs →
        ∀ v ∈ outs, v < gF.nodeLength.length) ∧
      (∀ (v : Nat) (ins : List Nat), gF.inNeighbors[v]? = some ins →
        ∀ u ∈ ins, u < gF.nodeLength.length) := by
  have hb := build_built hg
  constructor
  · exact ⟨hb.basic.out, hb.basic.inn,
      consistent_of_neighbors hb.basic.nbrs hb.basic.out hb.basic.edges⟩
  · intro wordSize doComponents gF hF
    obtain ⟨ren, hren⟩ := Finalize_renumbered hb hF
    have hout : gF.outNeighbors.length = gF.nodeLength.length := by
      rw [hren.outLen, hren.total]
    have hin : gF.inNeighbors.length = gF.nodeLength.length := by
      rw [hren.innLen, hren.total]
    refine ⟨hout, hin, consistent_of_neighbors hren.nbrs hout ?_⟩
    rw [hren.total]
    exact hren.edges

theorem neighbours_mutually_consistent_witness :
    build demoCalls = some demoBuilt ∧ demoBuilt.Finalize 64 true = some demoGraph ∧
    (demoBuilt.outNeighbors.length = demoBuilt.nodeLength.length ∧
      demoBuilt.inNeighbors.length = demoBuilt.nodeLength.length ∧
      (∀ (u v : Nat) (outs ins : List Nat), demoBuilt.outNeighbors[u]? = some outs →
        demoBuilt.inNeighbors[v]? = some ins → (v ∈ outs ↔ u ∈ ins)) ∧
      (∀ (u : Nat) (outs : List Nat), demoBuilt.outNeighbors[u]? = some outs →
        ∀ v ∈ outs, v < demoBuilt.nodeLength.length) ∧
      (∀ (v : Nat) (ins : List Nat), demoBuilt.inNeighbors[v]? = some ins →
        ∀ u ∈ ins, u < demoBuilt.nodeLength.length)) ∧
    ∀ (wordSize : Int) (doComponents : Bool) (gF : AlignmentGraph),
      demoBuilt.Finalize wordSize doComponents = some gF →
      gF.outNeighbors.length = gF.nodeLength.length ∧
      gF.inNeighbors.length = gF.nodeLength.length ∧
      (∀ (u v : Nat) (outs ins : List Nat), gF.outNeighbors[u]? = some outs →
        gF.inNeighbors[v]? = some ins → (v ∈ outs ↔ u ∈ ins)) ∧
      (∀ (u : Nat) (outs : List Nat), gF.outNeighbors[u]? = some outs →
        ∀ v ∈ outs, v < gF.nodeLength.length) ∧
      (∀ (v : Nat) (ins : List Nat), gF.inNeighbors[v]? = some ins →
        ∀ u ∈ ins, u < gF.nodeLength.length) :=
  ⟨demo_build, demo_finalize, neighbours_mutually_consistent demoCalls demoBuilt demo_build⟩

/-- The calls of `demoCalls` followed by two edges that are already in the graph. -/
def repeatedCalls : List BuildCall := demoCalls ++ [.addEdge 2 4 0, .addEdge 4 4 2]

theorem repeated_build : build repeatedCalls = some demoBuilt := by
  decide

/-- C17: in every state reached from the empty graph by `AddNode` and `AddEdgeNodeId` calls
(repeated `AddEdgeNodeId` calls with the same arguments included), and in every graph
`Finalize` returns for such a state, no list of `outNeighbors` and no list of `inNeighbors`
holds the same index twice. -/
theorem neighbour_lists_duplicate_free (calls : List BuildCall) (g : AlignmentGraph)
    (hg : build calls = some g) :
    ((∀ (u : Nat) (outs : List Nat), g.outNeighbors[u]? = some outs → outs.Nodup) ∧
      (∀ (v : Nat) (ins : List Nat), g.inNeighbors[v]? = some ins → ins.Nodup)) ∧
    ∀ (wordSize : Int) (doComponents : Bool) (gF : AlignmentGraph),
      g.Finalize wordSize doComponents = some gF →
      (∀ (u : Nat) (outs : List Nat), gF.outNeighbors[u]? = some outs → outs.Nodup) ∧
      (∀ (v : Nat) (ins : List Nat), gF.inNeighbors[v]? = some ins → ins.Nodup) := by
  have hb := build_built hg
  constructor
  · exact nodup_of_neighbors hb.basic.nbrs
  · intro wordSize doComponents gF hF
    obtain ⟨ren, hren⟩ := Finalize_renumbered hb hF
    exact nodup_of_neighbors hren.nbrs

theorem neighbour_lists_duplicate_free_witness :
    build repeatedCalls = some demoBuilt ∧ demoBuilt.Finalize 64 true = some demoGraph ∧
    ((∀ (u : Nat) (outs : List Nat), demoBuilt.outNeighbors[u]? = some outs → outs.Nodup) ∧
      (∀ (v : Nat) (ins : List Nat), demoBuilt.inNeighbors[v]? = some ins → ins.Nodup)) ∧
    ∀ (wordSize : Int) (doComponents : Bool) (gF : AlignmentGraph),
      demoBuilt.Finalize wordSize doComponents = some gF →
      (∀ (u : Nat) (outs : List Nat), gF.outNeighbors[u]? = some outs → outs.Nodup) ∧
      (∀ (v : Nat) (ins : List Nat), gF.inNeighbors[v]? = some ins → ins.Nodup) :=
  ⟨repeated_build, demo_finalize,
    neighbour_lists_duplicate_free repeatedCalls demoBuilt repeated_build⟩

/-! ## C18: the definite vertices come first -/

theorem not_definite_of_ambiguityCode {c : Char} (h : isAmbiguityCode c = true) :
    isDefinite c = false := by
  simp only [isAmbiguityCode, decide_eq_true_eq, List.mem_cons, List.mem_singleton,
    List.not_mem_nil, or_false] at h
  simp only [isDefinite, decide_eq_false_iff_not]
  rcases h with h | h | h | h | h | h | h | h | h | h | h <;> rw [h] <;> decide

/-- C18: when `AddNode` is called with a non-empty sequence `seq` for an original id that is
not in the graph yet, then after any further calls and `Finalize`: `firstAmbiguous` is the number of
splits that were stored as definite (the number of unflagged vertices before `Finalize`, which
is the size of `nodeSequences`), the sizes of `nodeSequences` and `ambiguousNodeSequences` add
up to the number of split vertices, every split of the id that covers only letters `A`, `C`,
`G`, `T`, `U` has an index below `firstAmbiguous`, and every split of the id that covers an
ambiguity code has an index of at least `firstAmbiguous`. -/
theorem definite_before_ambiguous (pre post : List BuildCall) (id : Int) (seq : List Char)
    (name : String) (rev : Bool) (bps : List Nat) (wordSize : Int) (doComponents : Bool)
    (g0 gF : AlignmentGraph) (hpre : build pre = some g0)
    (hfresh : g0.nodeLookup.lookup id = none) (hne : seq ≠ [])
    (h : buildFinal (pre ++ BuildCall.addNode id seq name rev bps :: post) wordSize
      doComponents = some gF) :
    (∃ g, build (pre ++ BuildCall.addNode id seq name rev bps :: post) = some g ∧
      gF.firstAmbiguous = g.ambiguousNodes.count false) ∧
    gF.firstAmbiguous = gF.nodeSequences.length ∧
    gF.nodeSequences.length + gF.ambiguousNodeSequences.length = gF.nodeLength.length ∧
    ∀ splits, gF.nodeLookup.lookup id = some splits → ∀ v ∈ splits, ∀ off len,
      gF.nodeOffset[v]? = some off → gF.nodeLength[v]? = some len →
      ((∀ p c, p < len → seq[off + p]? = some c → isDefinite c = true) →
        v < gF.firstAmbiguous) ∧
      ((∃ p c, p < len ∧ seq[off + p]? = some c ∧ isAmbiguityCode c = true) →
        gF.firstAmbiguous ≤ v) := by
  obtain ⟨g, ren, g1, comp, hg, hb, hren, -, -, -⟩ := buildFinal_spec h
  have hsum := count_false_add_count_true g.ambiguousNodes
  refine ⟨⟨g, hg, hren.first⟩, ?_, ?_, ?_⟩
  · rw [hren.first, hren.seqs]
  · rw [hren.seqs, hren.aseqs, hren.total, ← hb.basic.amb]
    exact hsum
  -- split the build at the call that adds the node
  unfold build at hg hpre
  rw [runCalls_append, hpre] at hg
  simp only [Option.some_bind, runCalls, bind_eq_optionBind] at hg
  obtain ⟨ga, hga, hg⟩ := Option.bind_eq_some.mp hg
  simp only [BuildCall.run] at hga
  have hb0 : Built g0 := (runCalls_built pre _ g0 built_empty hpre).1
  obtain ⟨hba, -, -, -, hsome, hsize, hflags⟩ := AddNode_fresh_all hb0 hfresh hga
  obtain ⟨-, hgrows, hkeeps⟩ := runCalls_built post ga g hba hg
  intro splits hs v hv off len hoff hlen
  obtain ⟨l, hl, hall⟩ := hren.lookBack id splits hs
  obtain ⟨s, hs1, hm⟩ := forall₂_mapsTo_exists hall hv
  -- the entry of the id has not changed since the call
  have hla : ga.nodeLookup.lookup id = some l := by
    cases hlook : ga.nodeLookup.lookup id with
    | none => exact absurd hlook (hsome hne)
    | some la =>
      have := hkeeps id la hlook
      rw [hl] at this
      rw [Option.some.inj this]
  obtain ⟨_, _, ht⟩ := hba.tiles id l hla
  have hta := ht seq.length hsize
  have hlt : ∀ x ∈ l, x < ga.nodeLength.length := by
    intro x hx
    obtain ⟨es, ls, hvx, -, -⟩ := hta.tiles_mem hx
    exact (List.getElem?_eq_some.mp hvx.lenEq).1
  have hfl := (hflags l hla).flags_mono hgrows hba.basic hlt
  obtain ⟨es, ls, hvs, -, -⟩ := (hta.tiles_mono hgrows).tiles_mem hs1
  have ho2 := hren.off s v es hm hvs.offEq
  have hl2 := hren.len s v ls hm hvs.lenEq
  rw [hoff] at ho2
  rw [hlen] at hl2
  cases Option.some.inj ho2
  cases Option.some.inj hl2
  obtain ⟨hfalse, htrue⟩ := hfl s hs1 off len hvs.offEq hvs.lenEq
  have hslt : s < g.ambiguousNodes.length := by
    rw [hb.basic.amb]
    exact (List.getElem?_eq_some.mp hvs.lenEq).1
  have hget : g.ambiguousNodes[s]? = some g.ambiguousNodes[s] := List.getElem?_eq_getElem hslt
  rw [hren.first]
  cases hflag : g.ambiguousNodes[s] with
  | false =>
    rw [hflag] at hget
    refine ⟨fun _ => hren.low s v hm hget, ?_⟩
    rintro ⟨p, c, hp, hc, hcode⟩
    have := hfalse hget p c hp hc
    rw [not_definite_of_ambiguityCode hcode] at this
    cases this
  | true =>
    rw [hflag] at hget
    refine ⟨?_, fun _ => hren.high s v hm hget⟩
    intro hdef
    obtain ⟨p, c, hp, hc, hcode⟩ := htrue hget
    have := hdef p c hp hc
    rw [not_definite_of_ambiguityCode hcode] at this
    cases this

theorem definite_before_ambiguous_witness :
    build [] = some AlignmentGraph.empty ∧
    AlignmentGraph.empty.nodeLookup.lookup 4 = none ∧ "ACNGT".toList ≠ [] ∧
    buildFinal ([] ++ BuildCall.addNode 4 "ACNGT".toList "n4" false [0, 5] ::
      [.addNode 2 "ACGT".toList "n2" false [0, 4], .addEdge 4 2 0]) 64 false =
      some ambiguousDemo ∧
    (∃ g, build ([] ++ BuildCall.addNode 4 "ACNGT".toList "n4" false [0, 5] ::
        [.addNode 2 "ACGT".toList "n2" false [0, 4], .addEdge 4 2 0]) = some g ∧
      ambiguousDemo.firstAmbiguous = g.ambiguousNodes.count false) ∧
    ambiguousDemo.firstAmbiguous = ambiguousDemo.nodeSequences.length ∧
    ambiguousDemo.nodeSequences.length + ambiguousDemo.ambiguousNodeSequences.length =
      ambiguousDemo.nodeLength.length ∧
    ∀ splits, ambiguousDemo.nodeLookup.lookup 4 = some splits → ∀ v ∈ splits, ∀ off len,
      ambiguousDemo.nodeOffset[v]? = some off → ambiguousDemo.nodeLength[v]? = some len →
      ((∀ p c, p < len → "ACNGT".toList[off + p]? = some c → isDefinite c = true) →
        v < ambiguousDemo.firstAmbiguous) ∧
      ((∃ p c, p < len ∧ "ACNGT".toList[off + p]? = some c ∧ isAmbiguityCode c = true) →
        ambiguousDemo.firstAmbiguous ≤ v) :=
  ⟨rfl, rfl, by decide, by decide,
    definite_before_ambiguous [] [.addNode 2 "ACGT".toList "n2" false [0, 4], .addEdge 4 2 0]
      4 "ACNGT".toList "n4" false [0, 5] 64 false AlignmentGraph.empty ambiguousDemo rfl rfl
      (by decide) (by decide)⟩

/-! ## C20: `AddNode` for an id that is already in the graph -/

open AlignmentGraph

/-! ## C19: the lengths of the split vertices -/

theorem encodeStep_total {st : EncodeState} {i : Nat} {ch : Char} (hi : i < 64)
    (hlen : st.normalSeq.length = CHUNKS_IN_NODE) (hch : (switchArm ch).isSome = true) :
    ∃ st1, encodeStep st i ch = some st1 ∧ st1.normalSeq.length = CHUNKS_IN_NODE := by
  obtain ⟨arm, harm⟩ := Option.isSome_iff_exists.mp hch
  have hchunk : i / BP_IN_CHUNK < CHUNKS_IN_NODE := by
    unfold BP_IN_CHUNK CHUNKS_IN_NODE
    omega
  simp only [encodeStep, bind_eq_optionBind, assert_of_true (decide_eq_true hchunk),
    Option.some_bind, harm, pure_eq_some]
  cases hn : arm.normal with
  | none => exact ⟨_, rfl, hlen⟩
  | some code =>
    have hget : st.normalSeq[i / BP_IN_CHUNK]? = some st.normalSeq[i / BP_IN_CHUNK] :=
      List.getElem?_eq_getElem (by rw [hlen]; exact hchunk)
    simp only [hget, Option.some_bind]
    exact ⟨_, rfl, by simp [hlen]⟩

theorem encodeLoop_total : ∀ (piece : List Char) (i : Nat) (st : EncodeState),
    i + piece.length ≤ 64 → st.normalSeq.length = CHUNKS_IN_NODE →
    (∀ c ∈ piece, (switchArm c).isSome = true) → ∃ enc, encodeLoop piece i st = some enc
  | [], _, st, _, _, _ => ⟨st, rfl⟩
  | ch :: rest, i, st, hi, hlen, hch => by
    simp only [List.length_cons] at hi
    obtain ⟨st1, hst1, hlen1⟩ := encodeStep_total (i := i) (by omega) hlen
      (hch ch (List.mem_cons_self _ _))
    simp only [encodeLoop, bind_eq_optionBind, hst1, Option.some_bind]
    exact encodeLoop_total rest (i + 1) st1 (by omega) hlen1
      (fun c hc => hch c (List.mem_cons_of_mem _ hc))

theorem AddNodeSplit_total {g : AlignmentGraph} (hb : Basic g) (nodeId : Int) (offset : Nat)
    {piece : List Char} (rev : Bool) (hlen : piece.length ≤ 64)
    (hch : ∀ c ∈ piece, (switchArm c).isSome = true) :
    ∃ enc, g.AddNodeSplit nodeId offset piece rev =
      some (appendSplit g nodeId (intOffset offset) piece.length rev enc) := by
  obtain ⟨enc, henc⟩ := encodeLoop_total piece 0 encodeInit (by omega) rfl hch
  refine ⟨enc, ?_⟩
  have h1 : decide (g.firstAmbiguous = SIZE_MAX) = true := decide_eq_true hb.first
  have h2 : (!g.finalized) = true := by rw [hb.fin]; rfl
  have h3 : decide (piece.length ≤ SPLIT_NODE_SIZE) = true := decide_eq_true hlen
  have h4 : decide (piece.length ≤ 64) = true := decide_eq_true hlen
  simp only [AlignmentGraph.AddNodeSplit, bind_eq_optionBind, assert_of_true h1,
    assert_of_true h2, assert_of_true h3, assert_of_true h4, Option.some_bind, henc,
    List.length_append, List.length_singleton, hb.ids, hb.inn, hb.out, decide_True,
    assert_true]
  rfl

theorem intOffset_small {o : Nat} (h : o < 2 ^ 31) : intOffset o = o := by
  unfold intOffset
  have h1 : o % 2 ^ 32 = o := Nat.mod_eq_of_lt (by omega)
  rw [h1, if_pos h]

theorem pushBackAt_total (vec : List (List Nat)) (i x : Nat) (hi : i < vec.length) :
    ∃ r, pushBackAt vec i x = some r := by
  unfold pushBackAt
  rw [List.getElem?_eq_getElem hi]
  exact ⟨_, rfl⟩

theorem addStride_of_split {g g1 : AlignmentGraph} {nodeId : Int} {seq piece : List Char}
    {rev : Bool} {offset size : Nat} (hsize : 0 < size)
    (hpiece : substr seq offset size = some piece)
    (hsplit : g.AddNodeSplit nodeId offset piece rev = some g1)
    (hlink : 0 < offset → 2 ≤ g1.outNeighbors.length ∧
      g1.outNeighbors.length = g1.inNeighbors.length ∧
      g1.nodeIDs.length = g1.outNeighbors.length ∧
      g1.nodeOffset.length = g1.outNeighbors.length ∧
      ∃ (i : Int) (a b : Nat), g1.nodeIDs[g1.outNeighbors.length - 2]? = some i ∧
        g1.nodeIDs[g1.outNeighbors.length - 1]? = some i ∧
        g1.nodeOffset[g1.outNeighbors.length - 2]? = some a ∧
        g1.nodeLength[g1.outNeighbors.length - 2]? = some b ∧
        g1.nodeOffset[g1.outNeighbors.length - 1]? = some ((a + b) % 2 ^ 64)) :
    ∃ g2, g.addStride nodeId seq rev offset size = some g2 := by
  have h0 : decide (size > 0) = true := decide_eq_true hsize
  simp only [AlignmentGraph.addStride, bind_eq_optionBind, assert_of_true h0, Option.some_bind,
    hpiece, hsplit]
  by_cases hpos : offset > 0
  · obtain ⟨h2, hin, hids, hoff, i, a, b, hi1, hi2, ha, hb, hc⟩ := hlink hpos
    obtain ⟨outs, houts⟩ := pushBackAt_total g1.outNeighbors
      (g1.outNeighbors.length - 2) (g1.outNeighbors.length - 1) (by omega)
    obtain ⟨ins, hins⟩ := pushBackAt_total g1.inNeighbors
      (g1.inNeighbors.length - 1) (g1.inNeighbors.length - 2) (by omega)
    have e1 : decide (g1.outNeighbors.length ≥ 2) = true := decide_eq_true h2
    have e2 : decide (g1.outNeighbors.length = g1.inNeighbors.length) = true :=
      decide_eq_true hin
    have e3 : decide (g1.nodeIDs.length = g1.outNeighbors.length) = true := decide_eq_true hids
    have e4 : decide (g1.nodeOffset.length = g1.outNeighbors.length) = true :=
      decide_eq_true hoff
    simp only [if_pos hpos, assert_of_true e1, assert_of_true e2, assert_of_true e3,
      assert_of_true e4, Option.some_bind, hi1, hi2, ha, hb, hc, decide_True, assert_true,
      houts, hins]
    exact ⟨_, rfl⟩
  · simp only [if_neg hpos]
    exact ⟨_, rfl⟩

theorem addStride_total {g0 g : AlignmentGraph} {id0 : Int} {seq : List Char} (rev : Bool)
    {o size bpEnd : Nat} (hp : Progress g0 g id0 seq o) (ho : o < bpEnd)
    (hend : bpEnd ≤ seq.length)
    (hsize : size = if bpEnd - o < SPLIT_NODE_SIZE then bpEnd - o else SPLIT_NODE_SIZE)
    (hch : ∀ c ∈ seq, (switchArm c).isSome = true) (hsmall : seq.length ≤ 2 ^ 31) :
    ∃ g2, g.addStride id0 seq rev o size = some g2 := by
  have hsz : 0 < size ∧ size ≤ 64 := by
    rw [hsize]
    unfold SPLIT_NODE_SIZE
    split <;> omega
  have hpiece : substr seq o size = some ((seq.drop o).take size) := by
    unfold substr
    rw [if_pos (by omega)]
  have hplen : ((seq.drop o).take size).length ≤ 64 := by
    rw [List.length_take]
    omega
  have hpch : ∀ c ∈ (seq.drop o).take size, (switchArm c).isSome = true := fun c hc =>
    hch c (List.mem_of_mem_drop (List.mem_of_mem_take hc))
  obtain ⟨enc, hsplit⟩ := AddNodeSplit_total hp.basic id0 o rev hplen hpch
  refine addStride_of_split hsz.1 hpiece hsplit ?_
  intro hpos
  rcases hp.cur with ⟨hbad, -⟩ | ⟨l, hl, htiles, hlast, hN, -, -⟩
  · omega
  obtain ⟨ea, la, hva, hsumo⟩ := htiles.last hlast
  have hb := hp.basic
  have hio : intOffset o = o := intOffset_small (by omega)
  have e2 : g.nodeLength.length + 1 - 2 = g.nodeLength.length - 1 := by omega
  simp only [appendSplit, List.length_append, List.length_singleton, hb.out, hb.inn, hb.ids,
    hb.off, Nat.add_sub_cancel, e2, hio]
  refine ⟨by omega, trivial, trivial, trivial, id0, ea, la, ?_, ?_, ?_, ?_, ?_⟩
  · rw [List.getElem?_append_left (by rw [hb.ids]; omega)]
    exact hva.idsEq
  · rw [← hb.ids]
    exact getElem?_length_append _ _
  · rw [List.getElem?_append_left (by rw [hb.off]; omega)]
    exact hva.offEq
  · rw [List.getElem?_append_left (by omega)]
    exact hva.lenEq
  · rw [← hb.off, getElem?_length_append, hsumo, Nat.mod_eq_of_lt (by omega)]

theorem strideLoop_total (g0 : AlignmentGraph) {id0 : Int} {seq : List Char} (rev : Bool)
    {bpEnd : Nat} (hend : bpEnd ≤ seq.length)
    (hch : ∀ c ∈ seq, (switchArm c).isSome = true) (hsmall : seq.length ≤ 2 ^ 31) :
    ∀ (fuel o : Nat) (g : AlignmentGraph), bpEnd - o ≤ fuel →
      (o < bpEnd → Progress g0 g id0 seq o) →
      ∃ g2, strideLoop id0 seq rev bpEnd fuel o g = some g2
  | 0, o, g, hfuel, _ => by
    simp only [strideLoop]
    rw [if_neg (by omega)]
    exact ⟨g, rfl⟩
  | fuel + 1, o, g, hfuel, h1 => by
    simp only [strideLoop]
    by_cases hlt : o < bpEnd
    · rw [if_pos hlt]
      obtain ⟨g1, hg1⟩ := addStride_total rev (h1 hlt) hlt hend rfl hch hsmall
      have hp1 := addStride_progress (h1 hlt) hlt hend rfl hg1
      simp only [bind_eq_optionBind, hg1, Option.some_bind]
      refine strideLoop_total g0 rev hend hch hsmall fuel (o + SPLIT_NODE_SIZE) g1 ?_ ?_
      · unfold SPLIT_NODE_SIZE
        omega
      · intro hlt2
        have e : (if bpEnd - o < SPLIT_NODE_SIZE then bpEnd - o else SPLIT_NODE_SIZE) =
            SPLIT_NODE_SIZE := by
          rw [if_neg]
          omega
        rw [e] at hp1
        exact hp1
    · rw [if_neg hlt]
      exact ⟨g, rfl⟩

theorem breakpointLoop_total (g0 : AlignmentGraph) {id0 : Int} {seq : List Char} (rev : Bool)
    (hch : ∀ c ∈ seq, (switchArm c).isSome = true) (hsmall : seq.length ≤ 2 ^ 31) :
    ∀ (bps : List Nat) (g : AlignmentGraph) (b0 : Nat), (∀ b ∈ bps, b ≤ seq.length) →
      List.Chain' (fun a b => a ≤ b) bps → bps.head? = some b0 → Progress g0 g id0 seq b0 →
      ∃ g2, breakpointLoop id0 seq rev bps g = some g2
  | [], g, _, _, _, _, _ => ⟨g, rfl⟩
  | [_], g, _, _, _, _, _ => ⟨g, rfl⟩
  | bpPrev :: bpCur :: rest, g, b0, hle, hsorted, hhead, hp => by
    simp only [List.head?_cons, Option.some.injEq] at hhead
    subst hhead
    have hle2 : ∀ b ∈ bpCur :: rest, b ≤ seq.length := fun b hb => hle b (by simp [hb])
    obtain ⟨hstep, hsorted2⟩ := List.chain'_cons.mp hsorted
    simp only [breakpointLoop]
    by_cases heq : bpCur = bpPrev
    · rw [if_pos heq]
      subst heq
      exact breakpointLoop_total g0 rev hch hsmall (bpCur :: rest) g bpCur hle2 hsorted2
        (by simp) hp
    · rw [if_neg heq]
      have hgt : decide (bpCur > bpPrev) = true := decide_eq_true (by omega)
      have hend := hle bpCur (by simp)
      obtain ⟨g1, hg1⟩ := strideLoop_total g0 rev hend hch hsmall (bpCur - bpPrev) bpPrev g
        (Nat.le_refl _) (fun _ => hp)
      have hp1 := strideLoop_progress hend (bpCur - bpPrev) bpPrev g g1
        (fun _ => hp) (fun hge => by omega) hg1
      simp only [bind_eq_optionBind, assert_of_true hgt, Option.some_bind, hg1]
      exact breakpointLoop_total g0 rev hch hsmall (bpCur :: rest) g1 bpCur hle2 hsorted2
        (by simp) hp1

theorem AddNode_total {g : AlignmentGraph} (hb : Built g) (id0 : Int) {seq : List Char}
    (name : String) (rev : Bool) {bps : List Nat} (h2 : 2 ≤ bps.length)
    (h0 : bps[0]? = some 0) (hsorted : List.Chain' (fun a b => a ≤ b) bps)
    (hlast : bps.getLast? = some seq.length)
    (hch : ∀ c ∈ seq, (switchArm c).isSome = true) (hsmall : seq.length ≤ 2 ^ 31) :
    ∃ g2, g.AddNode id0 seq name rev bps = some g2 := by
  have e1 : decide (g.firstAmbiguous = SIZE_MAX) = true := decide_eq_true hb.basic.first
  have e2 : (!g.finalized) = true := by rw [hb.basic.fin]; rfl
  have e3 : decide (bps.length ≥ 2) = true := decide_eq_true h2
  have e4 : decide (bps[0]? = some 0) = true := decide_eq_true h0
  have e5 : decide (bps.getLast? = some seq.length) = true := decide_eq_true hlast
  simp only [AlignmentGraph.AddNode, bind_eq_optionBind, assert_of_true e1, assert_of_true e2,
    assert_of_true e3, assert_of_true e4, assert_of_true e5, Option.some_bind]
  cases hfresh : g.nodeLookup.lookup id0 with
  | some l =>
    simp only [Option.isSome_some, if_true]
    exact ⟨g, rfl⟩
  | none =>
    simp only [Option.isSome_none, Bool.false_eq_true, if_false]
    have hb1 : Basic { g with
        originalNodeSize := mapAssign g.originalNodeSize id0 seq.length
        originalNodeName := mapAssign g.originalNodeName id0 name } := by
      obtain ⟨h1, h2, h3, h4, h5, h6, h7, h8, h9, h10, h11, h12, h13, h14, h15⟩ := hb.basic
      exact ⟨h1, h2, h3, h4, h5, h6, h7, h8, h9, h10, h11, h12, h13,
        ⟨h14.mirror, h14.nodupOut, h14.nodupIn⟩, h15⟩
    have hp0 : Progress _ { g with
        originalNodeSize := mapAssign g.originalNodeSize id0 seq.length
        originalNodeName := mapAssign g.originalNodeName id0 name } id0 seq 0 :=
      ⟨hb1, Grows.grows_refl _, fun _ _ => rfl, rfl, Or.inl ⟨rfl, hfresh⟩⟩
    have hhead : bps.head? = some 0 := by
      cases bps with
      | nil => simp at h0
      | cons b rest => simpa using h0
    exact breakpointLoop_total _ rev hch hsmall bps _ 0
      (le_last_of_sorted bps seq.length hsorted hlast) hsorted hhead hp0

/-- C19: in every state reached from the empty graph by `AddNode` and `AddEdgeNodeId` calls
and for every further `AddNode` call: (1) every stride of the call hands the split helper
between 1 and `SPLIT_NODE_SIZE` letters, whatever the sequence, so the helper's assertion on
the size holds; (2) whenever the call returns, every split vertex of the graph has a length
between 1 and `SPLIT_NODE_SIZE`; (3) the call returns when the breakpoints start at 0, do not
decrease and end at the length of the sequence, every letter has an arm in the helper's
`switch`, and the offsets fit the helper's `int` parameter. -/
theorem split_lengths_bounded (calls : List BuildCall) (g : AlignmentGraph)
    (hg : build calls = some g) (id : Int) (seq : List Char) (name : String) (rev : Bool)
    (bps : List Nat) :
    (∀ bpEnd offset, offset < bpEnd → bpEnd ≤ seq.length →
      ∃ piece, substr seq offset
          (if bpEnd - offset < SPLIT_NODE_SIZE then bpEnd - offset else SPLIT_NODE_SIZE) =
          some piece ∧
        1 ≤ piece.length ∧ piece.length ≤ SPLIT_NODE_SIZE) ∧
    (∀ g2, g.AddNode id seq name rev bps = some g2 →
      ∀ (v len : Nat), g2.nodeLength[v]? = some len → 1 ≤ len ∧ len ≤ SPLIT_NODE_SIZE) ∧
    (2 ≤ bps.length → bps[0]? = some 0 → List.Chain' (fun a b => a ≤ b) bps →
      bps.getLast? = some seq.length → (∀ c ∈ seq, (switchArm c).isSome = true) →
      seq.length ≤ 2 ^ 31 → ∃ g2, g.AddNode id seq name rev bps = some g2) := by
  have hb := build_built hg
  refine ⟨?_, ?_, ?_⟩
  · intro bpEnd offset hlt hend
    refine ⟨_, by unfold substr; rw [if_pos (by omega)], ?_, ?_⟩
    · rw [List.length_take, List.length_drop]
      unfold SPLIT_NODE_SIZE
      split <;> omega
    · rw [List.length_take, List.length_drop]
      unfold SPLIT_NODE_SIZE
      split <;> omega
  · intro g2 h2
    exact (run_built hb (c := BuildCall.addNode id seq name rev bps) h2).1.basic.lens
  · intro h2 h0 hsorted hlast hch hsmall
    exact AddNode_total hb id name rev h2 h0 hsorted hlast hch hsmall

/-- The lengths of the split vertices after `AddNode(6, "AA...A", "n", false, {0, 100})` on
the graph of `demoCalls`, for a sequence of 100 letters: two further splits, of 64 and 36
letters. -/
def longNodeLengths : List Nat := [8, 2, 3, 64, 36]

theorem split_lengths_bounded_witness :
    build demoCalls = some demoBuilt ∧
    (demoBuilt.AddNode 6 (List.replicate 100 'A') "n" false [0, 100]).map
      (fun g2 => g2.nodeLength) = some longNodeLengths ∧
    (∀ bpEnd offset, offset < bpEnd → bpEnd ≤ (List.replicate 100 'A').length →
      ∃ piece, substr (List.replicate 100 'A') offset
          (if bpEnd - offset < SPLIT_NODE_SIZE then bpEnd - offset else SPLIT_NODE_SIZE) =
          some piece ∧
        1 ≤ piece.length ∧ piece.length ≤ SPLIT_NODE_SIZE) ∧
    (∀ g2, demoBuilt.AddNode 6 (List.replicate 100 'A') "n" false [0, 100] = some g2 →
      ∀ (v len : Nat), g2.nodeLength[v]? = some len → 1 ≤ len ∧ len ≤ SPLIT_NODE_SIZE) ∧
    (2 ≤ [0, 100].length → [0, 100][0]? = some 0 → List.Chain' (fun a b => a ≤ b) [0, 100] →
      [0, 100].getLast? = some (List.replicate 100 'A').length →
      (∀ c ∈ List.replicate 100 'A', (switchArm c).isSome = true) →
      (List.replicate 100 'A').length ≤ 2 ^ 31 →
      ∃ g2, demoBuilt.AddNode 6 (List.replicate 100 'A') "n" false [0, 100] = some g2) :=
  ⟨demo_build, by decide,
    split_lengths_bounded demoCalls demoBuilt demo_build 6 (List.replicate 100 'A') "n" false
      [0, 100]⟩

open AlignmentGraph

/-! ## C28: `findLinearizable` returns on every graph -/

/-- The sizes of the state of `findLinearizable` between two iterations of its outer loop. -/
structure LinearSized (total : Nat) (st : LinearState) : Prop where
  stack : st.stack = []
  lin : st.linearizable.length = total
  chk : st.checked.length = total
  ons : st.onStack.length = total

/-- The walk of `findLinearizable` from its start vertex: `checked[node]` has just been set, so
the first iteration of the `while (true)` loop takes the branch `if (checked[stack.back()])`,
whose tail is `closeChain`. -/
theorem walkLoop_start {inNeighbors : List (List Nat)} {total node fuel : Nat}
    {st : LinearState} (ins : List Nat) (htotal : 1 ≤ total)
    (hins : inNeighbors[node]? = some ins) (hdeg : ins.length = 1)
    (hstack : st.stack = [node]) (hchk : st.checked[node]? = some true) :
    walkLoop inNeighbors total node (fuel + 1) st = closeChain inNeighbors st := by
  have h1 : decide (st.stack.length ≤ total) = true := by
    rw [hstack]
    exact decide_eq_true htotal
  have hlast : st.stack.getLast? = some node := by rw [hstack]; rfl
  have hne : ¬ ins.length ≠ 1 := fun h => h hdeg
  simp only [walkLoop, bind_eq_optionBind, assert_of_true h1, Option.some_bind, hlast, hins,
    if_neg hne, hchk, if_true]

theorem linearizableStep_sized {inNeighbors : List (List Nat)} {total node : Nat}
    {st : LinearState} (hin : inNeighbors.length = total) (hnode : node < total)
    (h : LinearSized total st) :
    ∃ st1, linearizableStep inNeighbors total st node = some st1 ∧ LinearSized total st1 := by
  obtain ⟨hs, hl, hc, ho⟩ := h
  have hc1 : node < st.checked.length := by omega
  have hin1 : node < inNeighbors.length := by omega
  simp only [linearizableStep, bind_eq_optionBind, pure_eq_some]
  rw [List.getElem?_eq_getElem hc1, List.getElem?_eq_getElem hin1]
  simp only [Option.some_bind]
  by_cases hck : st.checked[node] = true
  · simp only [hck, if_true]
    exact ⟨st, rfl, ⟨hs, hl, hc, ho⟩⟩
  · simp only [hck]
    rw [setAt_of_lt true hc1]
    simp only [Option.some_bind, Bool.false_eq_true, if_false]
    by_cases hdeg : inNeighbors[node].length ≠ 1
    · rw [if_pos hdeg]
      refine ⟨_, rfl, ⟨hs, hl, ?_, ho⟩⟩
      simp [hc]
    · have hdeg1 : inNeighbors[node].length = 1 := by omega
      rw [if_neg hdeg]
      have ho1 : node < st.onStack.length := by omega
      rw [setAt_of_lt true ho1]
      simp only [hdeg1, hs, List.length_nil, decide_True, assert_true, Option.some_bind,
        List.nil_append]
      rw [walkLoop_start inNeighbors[node] (by omega)
        (List.getElem?_eq_getElem hin1) hdeg1 rfl (by simp [List.getElem?_set, hc1])]
      simp only [closeChain, bind_eq_optionBind, pure_eq_some, List.length_singleton,
        Nat.sub_self, markLoop, Option.some_bind, List.getLast?_singleton]
      have hl1 : node < st.linearizable.length := by omega
      rw [setAt_of_lt false hl1]
      have hc2 : node < (st.checked.set node true).length := by simp; omega
      rw [setAt_of_lt true hc2]
      have ho2 : node < (st.onStack.set node true).length := by simp; omega
      rw [setAt_of_lt false ho2]
      simp only [Option.some_bind]
      refine ⟨_, rfl, ⟨rfl, ?_, ?_, ?_⟩⟩
      · simp [hl]
      · simp [hc]
      · simp [ho]

theorem linearizableLoop_sized {inNeighbors : List (List Nat)} {total : Nat}
    (hin : inNeighbors.length = total) :
    ∀ (count node : Nat) (st : LinearState), node + count ≤ total → LinearSized total st →
      ∃ st1, linearizableLoop inNeighbors total count node st = some st1 ∧
        LinearSized total st1
  | 0, _, st, _, h => ⟨st, rfl, h⟩
  | count + 1, node, st, hle, h => by
    obtain ⟨st1, h1, hi1⟩ := linearizableStep_sized hin (by omega : node < total) h
    obtain ⟨st2, h2, hi2⟩ := linearizableLoop_sized hin count (node + 1) st1 (by omega) hi1
    refine ⟨st2, ?_, hi2⟩
    simp only [linearizableLoop, bind_eq_optionBind, h1, Option.some_bind, h2]

/-- The scan `for (size_t i = stack.size(); i > 0; i--) if (stack[i] == neighbor) ...` of the
on-stack branch starts with the read `stack[stack.size()]`, one past the end; the branch is
only safe because it is never entered. -/
theorem unwindLoop_reads_end (neighbor : Nat) (st : LinearState) (h : st.stack ≠ []) :
    unwindLoop neighbor st.stack.length st = none := by
  obtain ⟨n, hn⟩ : ∃ n, st.stack.length = n + 1 :=
    ⟨st.stack.length - 1, by have := List.length_pos.mpr h; omega⟩
  rw [hn]
  simp only [unwindLoop, bind_eq_optionBind]
  rw [List.getElem?_eq_none (by omega)]
  rfl

/-- C28: on every graph whose in-neighbour table has one list per split vertex, with any
in-neighbour lists (cycles of vertices of in-degree 1 included), `findLinearizable` returns:
no read or write of `stack`, `checked`, `onStack`, `linearizable` or `inNeighbors` is out of
range, no assertion fails and the `while (true)` loop ends. It changes only `linearizable`,
which gets one flag per vertex. The walk from a start vertex always leaves the loop in its
first iteration, through the branch `if (checked[stack.back()])`, so the scan of the on-stack
branch is never executed. -/
theorem findLinearizable_in_range (g : AlignmentGraph)
    (hin : g.inNeighbors.length = g.nodeLength.length) :
    (∃ lin, g.findLinearizable = some { g with linearizable := lin } ∧
      lin.length = g.nodeLength.length) ∧
    ∀ (node fuel : Nat) (st : LinearState) (ins : List Nat), node < g.nodeLength.length →
      g.inNeighbors[node]? = some ins → ins.length = 1 → st.stack = [node] →
      st.checked[node]? = some true →
      walkLoop g.inNeighbors g.nodeLength.length node (fuel + 1) st =
        closeChain g.inNeighbors st := by
  constructor
  · have hsized : LinearSized g.nodeLength.length
        { linearizable := resize g.linearizable g.nodeLength.length false
          checked := resize [] g.nodeLength.length false
          stack := []
          onStack := resize [] g.nodeLength.length false } := by
      refine ⟨rfl, ?_, ?_, ?_⟩
      · simp [resize]
        omega
      · simp
      · simp
    obtain ⟨st1, h1, hi1⟩ :=
      linearizableLoop_sized hin g.nodeLength.length 0 _ (by omega) hsized
    refine ⟨st1.linearizable, ?_, hi1.lin⟩
    simp only [AlignmentGraph.findLinearizable, bind_eq_optionBind, h1, Option.some_bind,
      pure_eq_some]
  · intro node fuel st ins hnode hins hdeg hstack hchk
    exact walkLoop_start ins (by omega) hins hdeg hstack hchk

theorem findLinearizable_in_range_witness :
    cycleGraph.inNeighbors.length = cycleGraph.nodeLength.length ∧
    cycleGraph.inNeighbors = [[2], [0], [1], [0]] ∧
    cycleGraph.findLinearizable = some cycleGraph ∧
    (∃ lin, cycleGraph.findLinearizable = some { cycleGraph with linearizable := lin } ∧
      lin.length = cycleGraph.nodeLength.length) ∧
    ∀ (node fuel : Nat) (st : LinearState) (ins : List Nat),
      node < cycleGraph.nodeLength.length →
      cycleGraph.inNeighbors[node]? = some ins → ins.length = 1 → st.stack = [node] →
      st.checked[node]? = some true →
      walkLoop cycleGraph.inNeighbors cycleGraph.nodeLength.length node (fuel + 1) st =
        closeChain cycleGraph.inNeighbors st :=
  ⟨by decide, by decide, by decide, findLinearizable_in_range cycleGraph (by decide)⟩

open AlignmentGraph

/-! ## C25: the mappings of a merged alignment -/

/-- The alignment that `traceToAlignment` returns on `demoGraph` for four positions in the
split of node 2. -/
def demoItemA : AlignmentItem :=
  { alignment :=
      { name := "read", score := 0, sequence := "ACGT".toList
        path := [{ position := { node_id := 2, offset := 0, is_reverse := false }
                   rank := 0
                   edit := [{ from_length := 4, to_length := 3, sequence := "CGT".toList }] }] }
    cellsProcessed := 0
    elapsedMilliseconds := SIZE_MAX
    alignmentStart := 0
    alignmentEnd := 3 }

/-- The alignment that `traceToAlignment` returns on `demoGraph` for two positions in the first
split of node 4. -/
def demoItemB : AlignmentItem :=
  { alignment :=
      { name := "read", score := 0, sequence := "ACGT".toList
        path := [{ position := { node_id := 4, offset := 0, is_reverse := false }
                   rank := 0
                   edit := [{ from_length := 2, to_length := 1, sequence := "C".toList }] }] }
    cellsProcessed := 0
    elapsedMilliseconds := SIZE_MAX
    alignmentStart := 0
    alignmentEnd := 1 }

theorem demo_items :
    traceToAlignment demoGraph "read" "ACGT".toList 0 (insideTrace 0 4) 0 false =
      some demoItemA ∧
    traceToAlignment demoGraph "read" "ACGT".toList 0 (insideTrace 1 2) 0 false =
      some demoItemB := by
  decide

open AlignmentGraph

/-! ## C24, C26 and C27: the query bases consumed by the edits -/

/-- The sum of `to_length` over all edits of all mappings of a path. -/
def toLengths (path : List Mapping) : Int :=
  (path.map (fun m => (m.edit.map Edit.to_length).sum)).sum

/-- The literal sequences of all edits of a path, concatenated in path order. -/
def literals (path : List Mapping) : List Char :=
  (path.map (fun m => (m.edit.map Edit.sequence).flatten)).flatten

theorem toLengths_snoc (path : List Mapping) (p : Position) (r : Nat) (e : Edit) :
    toLengths (path ++ [{ position := p, rank := r, edit := [e] }]) =
      toLengths path + e.to_length := by
  simp [toLengths]

theorem literals_snoc (path : List Mapping) (p : Position) (r : Nat) (e : Edit) :
    literals (path ++ [{ position := p, rank := r, edit := [e] }]) =
      literals path ++ e.sequence := by
  simp [literals]

theorem toLengths_append (a b : List Mapping) : toLengths (a ++ b) = toLengths a + toLengths b := by
  simp [toLengths]

/-- What `flushEdit` returns: `to_length` is the 32-bit value of the old `to_length` plus the
number of query positions between `btBeforeNode` and `btNodeEnd`, and the literal grows by the
bases `substr` delivers for them. -/
theorem flushEdit_eq_some {sequence : List Char} {reverse final : Bool} {st : TraceState}
    {e : Edit} (h : flushEdit sequence reverse final st = some e) :
    st.btBeforeNode.seqPos ≤ st.btNodeEnd.seqPos ∧
    e.to_length =
      toInt32 (st.edit.to_length + st.btNodeEnd.seqPos - st.btBeforeNode.seqPos) ∧
    e.sequence = st.edit.sequence ++ (sequence.drop (st.btBeforeNode.seqPos + 1)).take
      (st.btNodeEnd.seqPos - st.btBeforeNode.seqPos) := by
  obtain ⟨h1, _, _, rfl⟩ := flushEdit_eq_some_iff.mp h
  exact ⟨h1, rfl, rfl⟩

/-- The state of the loop of `traceToAlignment` in terms of the query: the literals written so
far are the query bases after `first.seqPos` up to `btBeforeNode.seqPos`. -/
structure TraceInv (sequence : List Char) (first : MatrixPosition) (st : TraceState) :
    Prop where
  start : first.seqPos ≤ st.btBeforeNode.seqPos
  literal : literals st.done ++ st.edit.sequence =
    (sequence.drop (first.seqPos + 1)).take (st.btBeforeNode.seqPos - first.seqPos)
  single : ∀ m ∈ st.done, ∃ e, m.edit = [e]

theorem take_drop_join (sequence : List Char) {a b c : Nat} (hab : a ≤ b) (hbc : b ≤ c) :
    (sequence.drop (a + 1)).take (b - a) ++ (sequence.drop (b + 1)).take (c - b) =
      (sequence.drop (a + 1)).take (c - a) := by
  have e1 : c - a = (b - a) + (c - b) := by omega
  rw [e1, List.take_add, List.drop_drop]
  have e2 : a + 1 + (b - a) = b + 1 := by omega
  rw [e2]

/-- The edit after a flush continues the invariant, whether it stays the current edit or is
closed into the list of finished mappings. -/
theorem TraceInv.inv_flush {sequence : List Char} {first : MatrixPosition} {st : TraceState}
    {reverse final : Bool} {e : Edit} (hinv : TraceInv sequence first st)
    (h : flushEdit sequence reverse final st = some e) :
    first.seqPos ≤ st.btNodeEnd.seqPos ∧
    literals st.done ++ e.sequence =
      (sequence.drop (first.seqPos + 1)).take (st.btNodeEnd.seqPos - first.seqPos) := by
  obtain ⟨hge, -, hseq⟩ := flushEdit_eq_some h
  have h1 := hinv.start
  refine ⟨by omega, ?_⟩
  rw [hseq, ← List.append_assoc, hinv.literal]
  exact take_drop_join sequence h1 hge

theorem traceStep_inv {g : AlignmentGraph} {sequence : List Char} {reverse : Bool}
    {first prev cur : MatrixPosition} {st st1 : TraceState}
    (hinv : TraceInv sequence first st)
    (h : traceStep g sequence reverse first prev cur st = some st1) :
    TraceInv sequence first st1 ∧ st1.btNodeEnd = cur ∧
    (st1.btBeforeNode = st.btBeforeNode ∨ st1.btBeforeNode = st.btNodeEnd) := by
  unfold traceStep at h
  by_cases hc : cur.node = st.currentNode
  · rw [if_pos hc] at h
    cases Option.some.inj h
    exact ⟨⟨hinv.start, hinv.literal, hinv.single⟩, rfl, Or.inl rfl⟩
  · rw [if_neg hc] at h
    simp only [bind_eq_optionBind] at h
    obtain ⟨_, _, h⟩ := Option.bind_eq_some.mp h
    obtain ⟨edit1, hflush, h⟩ := Option.bind_eq_some.mp h
    obtain ⟨opens, _, h⟩ := Option.bind_eq_some.mp h
    obtain ⟨hstart, hlit⟩ := hinv.inv_flush hflush
    cases opens with
    | true =>
      simp only [if_true, bind_eq_optionBind, pure_eq_some] at h
      obtain ⟨idCur, _, h⟩ := Option.bind_eq_some.mp h
      obtain ⟨offCur, _, h⟩ := Option.bind_eq_some.mp h
      obtain ⟨strand, _, h⟩ := Option.bind_eq_some.mp h
      cases Option.some.inj h
      refine ⟨⟨hstart, ?_, ?_⟩, rfl, Or.inr rfl⟩
      · simp only [literals_snoc, List.append_nil]
        exact hlit
      · intro m hm
        rcases List.mem_append.mp hm with hm | hm
        · exact hinv.single m hm
        · simp only [List.mem_singleton] at hm
          subst hm
          exact ⟨edit1, rfl⟩
    | false =>
      simp only [Bool.false_eq_true, if_false, pure_eq_some] at h
      cases Option.some.inj h
      exact ⟨⟨hstart, hlit, hinv.single⟩, rfl, Or.inr rfl⟩

theorem traceLoop_inv {g : AlignmentGraph} {sequence : List Char} {reverse : Bool}
    {first : MatrixPosition} :
    ∀ (rest : List MatrixPosition) (prev : MatrixPosition) (st st1 : TraceState),
      TraceInv sequence first st →
      traceLoop g sequence reverse first rest prev st = some st1 →
      TraceInv sequence first st1 ∧ st1.btNodeEnd = rest.getLast?.getD st.btNodeEnd
  | [], _, st, st1, hinv, h => by
    cases Option.some.inj h
    exact ⟨hinv, rfl⟩
  | cur :: rest, prev, st, st1, hinv, h => by
    simp only [traceLoop, bind_eq_optionBind] at h
    obtain ⟨st2, hstep, h⟩ := Option.bind_eq_some.mp h
    obtain ⟨hinv2, hend2, -⟩ := traceStep_inv hinv hstep
    obtain ⟨hinv1, hend1⟩ := traceLoop_inv rest cur st2 st1 hinv2 h
    refine ⟨hinv1, ?_⟩
    rw [hend1, hend2]
    have := getLast?_cons_getD cur rest
    rw [this]
    rfl

/-- The path `traceToAlignment` returns, in terms of the query. -/
theorem traceToAlignment_path {g : AlignmentGraph} {seq_id : String} {sequence : List Char}
    {score : Int} {first : MatrixPosition} {rest : List MatrixPosition} {cellsProcessed : Nat}
    {reverse : Bool} {item : AlignmentItem}
    (h : traceToAlignment g seq_id sequence score (first :: rest) cellsProcessed reverse =
      some item) :
    ∃ last, (first :: rest).getLast? = some last ∧ first.seqPos ≤ last.seqPos ∧
      literals item.alignment.path =
        (sequence.drop (first.seqPos + 1)).take (last.seqPos - first.seqPos) ∧
      (∀ m ∈ item.alignment.path, ∃ e, m.edit = [e]) ∧
      item.alignmentStart = first.seqPos ∧ item.alignmentEnd = last.seqPos := by
  simp only [traceToAlignment, bind_eq_optionBind] at h
  obtain ⟨id, _, h⟩ := Option.bind_eq_some.mp h
  obtain ⟨strand, _, h⟩ := Option.bind_eq_some.mp h
  obtain ⟨st, hloop, h⟩ := Option.bind_eq_some.mp h
  obtain ⟨edit1, hflush, h⟩ := Option.bind_eq_some.mp h
  obtain ⟨last, hlast, h⟩ := Option.bind_eq_some.mp h
  rw [pure_eq_some] at h
  cases Option.some.inj h
  have hinit : TraceInv sequence first
      { done := []
        position := { node_id := id, offset := first.nodeOffset, is_reverse := strand }
        rank := 0
        edit := { from_length := 0, to_length := 0, sequence := [] }
        currentNode := first.node
        currentNodeId := id
        btNodeStart := first
        btNodeEnd := first
        btBeforeNode := first } := by
    refine ⟨Nat.le_refl _, ?_, ?_⟩
    · simp [literals]
    · intro m hm
      simp at hm
  obtain ⟨hinv, hend⟩ := traceLoop_inv (first :: rest) first _ st hinit hloop
  rw [hlast] at hend
  simp only [Option.getD_some] at hend
  obtain ⟨hstart, hlit⟩ := hinv.inv_flush hflush
  rw [hend] at hstart hlit
  refine ⟨last, hlast, hstart, ?_, ?_, rfl, rfl⟩
  · simp only [literals_snoc]
    exact hlit
  · intro m hm
    rcases List.mem_append.mp hm with hm | hm
    · exact hinv.single m hm
    · simp only [List.mem_singleton] at hm
      subst hm
      exact ⟨edit1, rfl⟩

/-- The state of the loop of `traceToAlignment` on a trace whose positions are fewer than `2^31`
query positions after the first: the `to_length` values written so far add up to the number of
query positions from `first.seqPos` to `btBeforeNode.seqPos`, and no sum has left the range of
the 32-bit field. -/
structure TraceSum (first : MatrixPosition) (st : TraceState) : Prop where
  start : first.seqPos ≤ st.btBeforeNode.seqPos
  total : toLengths st.done + st.edit.to_length =
    (st.btBeforeNode.seqPos : Int) - first.seqPos
  doneNonneg : 0 ≤ toLengths st.done
  curNonneg : 0 ≤ st.edit.to_length
  endBound : st.btNodeEnd.seqPos < first.seqPos + 2 ^ 31

theorem TraceSum.sum_flush {sequence : List Char} {first : MatrixPosition} {st : TraceState}
    {reverse final : Bool} {e : Edit} (hinv : TraceSum first st)
    (h : flushEdit sequence reverse final st = some e) :
    first.seqPos ≤ st.btNodeEnd.seqPos ∧
    toLengths st.done + e.to_length = (st.btNodeEnd.seqPos : Int) - first.seqPos ∧
    0 ≤ e.to_length := by
  obtain ⟨hge, hto, -⟩ := flushEdit_eq_some h
  have h1 := hinv.start
  have h2 := hinv.total
  have h3 := hinv.doneNonneg
  have h4 := hinv.curNonneg
  have h5 := hinv.endBound
  have hfit : toInt32 (st.edit.to_length + st.btNodeEnd.seqPos - st.btBeforeNode.seqPos) =
      st.edit.to_length + st.btNodeEnd.seqPos - st.btBeforeNode.seqPos :=
    toInt32_of_bounds (by omega) (by omega)
  rw [hfit] at hto
  refine ⟨by omega, by omega, by omega⟩

theorem traceStep_sum {g : AlignmentGraph} {sequence : List Char} {reverse : Bool}
    {first prev cur : MatrixPosition} {st st1 : TraceState} (hinv : TraceSum first st)
    (hcur : cur.seqPos < first.seqPos + 2 ^ 31)
    (h : traceStep g sequence reverse first prev cur st = some st1) : TraceSum first st1 := by
  unfold traceStep at h
  by_cases hc : cur.node = st.currentNode
  · rw [if_pos hc] at h
    cases Option.some.inj h
    exact ⟨hinv.start, hinv.total, hinv.doneNonneg, hinv.curNonneg, hcur⟩
  · rw [if_neg hc] at h
    simp only [bind_eq_optionBind] at h
    obtain ⟨_, _, h⟩ := Option.bind_eq_some.mp h
    obtain ⟨edit1, hflush, h⟩ := Option.bind_eq_some.mp h
    obtain ⟨opens, _, h⟩ := Option.bind_eq_some.mp h
    obtain ⟨hstart, htotal, hnn⟩ := hinv.sum_flush hflush
    have h3 := hinv.doneNonneg
    cases opens with
    | true =>
      simp only [if_true, bind_eq_optionBind, pure_eq_some] at h
      obtain ⟨idCur, _, h⟩ := Option.bind_eq_some.mp h
      obtain ⟨offCur, _, h⟩ := Option.bind_eq_some.mp h
      obtain ⟨strand, _, h⟩ := Option.bind_eq_some.mp h
      cases Option.some.inj h
      refine ⟨hstart, ?_, ?_, Int.le_refl 0, hcur⟩
      · simp only [toLengths_snoc]
        omega
      · simp only [toLengths_snoc]
        omega
    | false =>
      simp only [Bool.false_eq_true, if_false, pure_eq_some] at h
      cases Option.some.inj h
      exact ⟨hstart, htotal, h3, hnn, hcur⟩

theorem traceLoop_sum {g : AlignmentGraph} {sequence : List Char} {reverse : Bool}
    {first : MatrixPosition} :
    ∀ (rest : List MatrixPosition) (prev : MatrixPosition) (st st1 : TraceState),
      TraceSum first st → (∀ p ∈ rest, p.seqPos < first.seqPos + 2 ^ 31) →
      traceLoop g sequence reverse first rest prev st = some st1 → TraceSum first st1
  | [], _, st, st1, hinv, _, h => by
    cases Option.some.inj h
    exact hinv
  | cur :: rest, prev, st, st1, hinv, hspan, h => by
    simp only [traceLoop, bind_eq_optionBind] at h
    obtain ⟨st2, hstep, h⟩ := Option.bind_eq_some.mp h
    exact traceLoop_sum rest cur st2 st1
      (traceStep_sum hinv (hspan cur (List.mem_cons_self _ _)) hstep)
      (fun p hp => hspan p (List.mem_cons_of_mem _ hp)) h

/-- C26 (amended): whenever `traceToAlignment` returns on a non-empty trace whose positions are
all fewer than `2^31` query positions after the first one, the `to_length` values of all edits
of all mappings of the returned path add up to the query position of the last trace element
minus that of the first (which is not after it), and this is `alignmentEnd` minus
`alignmentStart` of the returned item; the query base at the first trace position is not
counted. -/
theorem to_lengths_sum (g : AlignmentGraph) (seq_id : String) (sequence : List Char)
    (score : Int) (first : MatrixPosition) (rest : List MatrixPosition) (cellsProcessed : Nat)
    (reverse : Bool) (item : AlignmentItem)
    (hspan : ∀ p ∈ rest, p.seqPos < first.seqPos + 2 ^ 31)
    (h : traceToAlignment g seq_id sequence score (first :: rest) cellsProcessed reverse =
      some item) :
    ∃ last, (first :: rest).getLast? = some last ∧ first.seqPos ≤ last.seqPos ∧
      toLengths item.alignment.path = (last.seqPos : Int) - first.seqPos ∧
      item.alignmentStart = first.seqPos ∧ item.alignmentEnd = last.seqPos ∧
      toLengths item.alignment.path = (item.alignmentEnd : Int) - item.alignmentStart := by
  obtain ⟨last, hlast, hle, -, -, hs, he⟩ := traceToAlignment_path h
  have htotal : toLengths item.alignment.path = (last.seqPos : Int) - first.seqPos := by
    simp only [traceToAlignment, bind_eq_optionBind] at h
    obtain ⟨id, _, h⟩ := Option.bind_eq_some.mp h
    obtain ⟨strand, _, h⟩ := Option.bind_eq_some.mp h
    obtain ⟨st, hloop, h⟩ := Option.bind_eq_some.mp h
    obtain ⟨edit1, hflush, h⟩ := Option.bind_eq_some.mp h
    obtain ⟨last2, hlast2, h⟩ := Option.bind_eq_some.mp h
    rw [pure_eq_some] at h
    cases Option.some.inj h
    rw [hlast] at hlast2
    cases Option.some.inj hlast2
    have hinit : TraceSum first
        { done := []
          position := { node_id := id, offset := first.nodeOffset, is_reverse := strand }
          rank := 0
          edit := { from_length := 0, to_length := 0, sequence := [] }
          currentNode := first.node
          currentNodeId := id
          btNodeStart := first
          btNodeEnd := first
          btBeforeNode := first } := by
      refine ⟨Nat.le_refl _, ?_, ?_, Int.le_refl 0, ?_⟩
      · simp [toLengths]
      · simp [toLengths]
      · show first.seqPos < first.seqPos + 2 ^ 31
        omega
    have hall : ∀ p ∈ first :: rest, p.seqPos < first.seqPos + 2 ^ 31 := by
      intro p hp
      rcases List.mem_cons.mp hp with rfl | hp
      · omega
      · exact hspan p hp
    have hsum := traceLoop_sum (first :: rest) first _ st hinit hall hloop
    obtain ⟨-, hend⟩ := @traceLoop_inv g sequence reverse first (first :: rest) first _ st
      ⟨Nat.le_refl _, by simp [literals], by intro m hm; simp at hm⟩ hloop
    rw [hlast] at hend
    simp only [Option.getD_some] at hend
    obtain ⟨-, htot, -⟩ := hsum.sum_flush hflush
    rw [hend] at htot
    simp only [toLengths_snoc]
    exact htot
  exact ⟨last, hlast, hle, htotal, hs, he, by rw [hs, he]; exact htotal⟩

theorem to_lengths_sum_witness :
    (∀ p ∈ cutTrace.tail, p.seqPos < (⟨0, 0, 0⟩ : MatrixPosition).seqPos + 2 ^ 31) ∧
    traceToAlignment cutGraph "read" "ACGT".toList 0 (⟨0, 0, 0⟩ :: cutTrace.tail) 0 false =
      some cutItem ∧
    cutItem.alignment.path.map (fun m => m.edit.map Edit.to_length) = [[1], [2]] ∧
    ∃ last, ((⟨0, 0, 0⟩ : MatrixPosition) :: cutTrace.tail).getLast? = some last ∧
      (⟨0, 0, 0⟩ : MatrixPosition).seqPos ≤ last.seqPos ∧
      toLengths cutItem.alignment.path =
        (last.seqPos : Int) - (⟨0, 0, 0⟩ : MatrixPosition).seqPos ∧
      cutItem.alignmentStart = (⟨0, 0, 0⟩ : MatrixPosition).seqPos ∧
      cutItem.alignmentEnd = last.seqPos ∧
      toLengths cutItem.alignment.path =
        (cutItem.alignmentEnd : Int) - cutItem.alignmentStart :=
  ⟨by decide, by decide, by decide,
    to_lengths_sum cutGraph "read" "ACGT".toList 0 ⟨0, 0, 0⟩ cutTrace.tail 0 false cutItem
      (by decide) (by decide)⟩

/-- The alignment that `traceToAlignment` returns for the two positions `(0, 0, 0)` and
`(0, 1, 2^32)` on the single node `ACGT`. -/
def wrappedItem : AlignmentItem :=
  { alignment :=
      { name := "read", score := 0, sequence := "ACGT".toList
        path := [{ position := { node_id := 2, offset := 0, is_reverse := false }
                   rank := 0
                   edit := [{ from_length := 2, to_length := 0, sequence := "CGT".toList }] }] }
    cellsProcessed := 0
    elapsedMilliseconds := SIZE_MAX
    alignmentStart := 0
    alignmentEnd := 2 ^ 32 }

/-- A query of `2^31 + 1` bases. -/
def longQuery : List Char := List.replicate (2 ^ 31 + 1) 'A'

/-- The trace of two positions on split 0 that consumes the query bases `1..2^31`. -/
def longTrace : List MatrixPosition := [⟨0, 0, 0⟩, ⟨0, 1, 2 ^ 31⟩]

/-- The alignment that `traceToAlignment` returns for `longTrace` and `longQuery` on the single
node `ACGT`. -/
def longItem : AlignmentItem :=
  { alignment :=
      { name := "read", score := 0, sequence := longQuery
        path := [{ position := { node_id := 2, offset := 0, is_reverse := false }
                   rank := 0
                   edit := [{ from_length := 2, to_length := -(2 ^ 31)
                              sequence := (longQuery.drop 1).take (2 ^ 31) }] }] }
    cellsProcessed := 0
    elapsedMilliseconds := SIZE_MAX
    alignmentStart := 0
    alignmentEnd := 2 ^ 31 }

theorem longQuery_length : longQuery.length = 2 ^ 31 + 1 := List.length_replicate _ _

theorem longTrace_inside : ∀ p ∈ longTrace, p.seqPos < longQuery.length := by
  intro p hp
  rw [longQuery_length]
  simp only [longTrace, List.mem_cons, List.mem_singleton, List.not_mem_nil, or_false] at hp
  rcases hp with rfl | rfl
  · show 0 < 2 ^ 31 + 1
    omega
  · show 2 ^ 31 < 2 ^ 31 + 1
    omega

/-- The run of `traceToAlignment` on `longTrace`: the flush after the loop stores the low 32
bits of `2^31` in `to_length`. -/
theorem long_run :
    traceToAlignment singleGraph "read" longQuery 0 longTrace 0 false = some longItem := by
  have hlen := longQuery_length
  have hflush : flushEdit longQuery false true
      { done := []
        position := { node_id := 2, offset := (⟨0, 0, 0⟩ : MatrixPosition).nodeOffset
                      is_reverse := if false then !false else false }
        rank := 0
        edit := { from_length := 0, to_length := 0, sequence := [] }
        currentNode := (⟨0, 0, 0⟩ : MatrixPosition).node
        currentNodeId := 2
        btNodeStart := ⟨0, 0, 0⟩
        btNodeEnd := [(⟨0, 1, 2 ^ 31⟩ : MatrixPosition)].getLast?.getD ⟨0, 0, 0⟩
        btBeforeNode := ⟨0, 0, 0⟩ } =
      some { from_length := 2, to_length := -(2 ^ 31)
             sequence := (longQuery.drop 1).take (2 ^ 31) } := by
    rw [flushEdit_eq_some_iff]
    refine ⟨Nat.zero_le _, fun _ => ?_, by decide, ?_⟩
    · rw [hlen]
      exact ⟨by decide, by decide⟩
    · simp only [List.getLast?_singleton, Option.getD_some, Bool.false_eq_true, if_false,
        List.nil_append, Nat.sub_zero, Nat.zero_add]
      have e1 : toInt32 ((0 : Int) + ((1 : Nat) : Int) - ((0 : Nat) : Int) + 1) = 2 := by
        decide
      have e2 : toInt32 ((0 : Int) + ((2 ^ 31 : Nat) : Int) - ((0 : Nat) : Int)) =
          -(2 ^ 31) := by decide
      rw [e1, e2]
  exact @traceToAlignment_inside singleGraph "read" longQuery 0 ⟨0, 0, 0⟩ [⟨0, 1, 2 ^ 31⟩] 0
    false 2 false _ (by decide) (by decide) (by decide) hflush

/-- C26 (as stated, at two concrete inputs): on the finalized graph of the single node `ACGT`,
the trace `[(0,0,0), (0,1,2^32)]`, whose query positions do not decrease, is accepted with the
query `ACGT`; the only edit gets `to_length = 0`, the low 32 bits of `2^32`, so the `to_length`
values add up to 0 and not to `alignmentEnd - alignmentStart = 2^32`. With a query of `2^31 + 1`
bases and the trace `[(0,0,0), (0,1,2^31)]`, which stays inside the query, the `to_length`
values add up to `-2^31` and not to `alignmentEnd - alignmentStart = 2^31`. -/
theorem to_length_sum_wraps :
    buildFinal singleCalls 64 false = some singleGraph ∧
    traceToAlignment singleGraph "read" "ACGT".toList 0 [⟨0, 0, 0⟩, ⟨0, 1, 2 ^ 32⟩] 0 false =
      some wrappedItem ∧
    toLengths wrappedItem.alignment.path = 0 ∧
    wrappedItem.alignmentEnd - wrappedItem.alignmentStart = 2 ^ 32 ∧
    (∀ p ∈ longTrace, p.seqPos < longQuery.length) ∧
    traceToAlignment singleGraph "read" longQuery 0 longTrace 0 false = some longItem ∧
    toLengths longItem.alignment.path = -(2 ^ 31) ∧
    longItem.alignmentEnd - longItem.alignmentStart = 2 ^ 31 :=
  ⟨by decide, by decide, by decide, by decide, longTrace_inside, long_run, by decide, by decide⟩

theorem traceStep_positions {g : AlignmentGraph} {sequence : List Char} {reverse : Bool}
    {first prev cur : MatrixPosition} {st st1 : TraceState}
    (h : traceStep g sequence reverse first prev cur st = some st1) :
    st1.btNodeEnd = cur ∧
    (st1.btBeforeNode = st.btBeforeNode ∨ st1.btBeforeNode = st.btNodeEnd) := by
  unfold traceStep at h
  by_cases hc : cur.node = st.currentNode
  · rw [if_pos hc] at h
    cases Option.some.inj h
    exact ⟨rfl, Or.inl rfl⟩
  · rw [if_neg hc] at h
    simp only [bind_eq_optionBind] at h
    obtain ⟨_, _, h⟩ := Option.bind_eq_some.mp h
    obtain ⟨edit1, _, h⟩ := Option.bind_eq_some.mp h
    obtain ⟨opens, _, h⟩ := Option.bind_eq_some.mp h
    cases opens with
    | true =>
      simp only [if_true, bind_eq_optionBind, pure_eq_some] at h
      obtain ⟨idCur, _, h⟩ := Option.bind_eq_some.mp h
      obtain ⟨offCur, _, h⟩ := Option.bind_eq_some.mp h
      obtain ⟨strand, _, h⟩ := Option.bind_eq_some.mp h
      cases Option.some.inj h
      exact ⟨rfl, Or.inr rfl⟩
    | false =>
      simp only [Bool.false_eq_true, if_false, pure_eq_some] at h
      cases Option.some.inj h
      exact ⟨rfl, Or.inr rfl⟩

theorem traceLoop_within {g : AlignmentGraph} {sequence : List Char} {reverse : Bool}
    {first : MatrixPosition} {n : Nat} :
    ∀ (pre : List MatrixPosition) (prev : MatrixPosition) (st st1 : TraceState),
      st.btNodeEnd.seqPos < n → st.btBeforeNode.seqPos < n → (∀ p ∈ pre, p.seqPos < n) →
      traceLoop g sequence reverse first pre prev st = some st1 →
      st1.btNodeEnd.seqPos < n ∧ st1.btBeforeNode.seqPos < n
  | [], _, st, st1, hend, hbefore, _, h => by
    cases Option.some.inj h
    exact ⟨hend, hbefore⟩
  | cur :: rest, prev, st, st1, hend, hbefore, hpos, h => by
    simp only [traceLoop, bind_eq_optionBind] at h
    obtain ⟨st2, hstep, h⟩ := Option.bind_eq_some.mp h
    obtain ⟨hcur, hb⟩ := traceStep_positions hstep
    have hc := hpos cur (List.mem_cons_self _ _)
    refine traceLoop_within rest cur st2 st1 (by rw [hcur]; exact hc) ?_
      (fun p hp => hpos p (List.mem_cons_of_mem _ hp)) h
    rcases hb with hb | hb
    · rw [hb]; exact hbefore
    · rw [hb]; exact hend

/-- When the two trace positions a flush reads lie inside the query, its assertion
`btBeforeNode.seqPos < sequence.size() - 1` holds and `substr` delivers all the bases asked
for; the flush then returns as soon as its assertion on the node offsets holds. -/
theorem flushEdit_total {sequence : List Char} {reverse final : Bool} {st : TraceState}
    (hsz : sequence.length < 2 ^ 64) (hend : st.btNodeEnd.seqPos < sequence.length)
    (hge : st.btBeforeNode.seqPos ≤ st.btNodeEnd.seqPos)
    (hoff : if reverse then (st.btNodeStart.nodeOffset + 1) % 2 ^ 64 ≥ st.btNodeEnd.nodeOffset
      else if final then st.btNodeEnd.nodeOffset ≥ st.btNodeStart.nodeOffset
      else (st.btNodeEnd.nodeOffset + 1) % 2 ^ 64 ≥ st.btNodeStart.nodeOffset) :
    ∃ e, flushEdit sequence reverse final st = some e := by
  have hm : (sequence.length + 2 ^ 64 - 1) % 2 ^ 64 = sequence.length - 1 := by
    have : sequence.length + 2 ^ 64 - 1 = (sequence.length - 1) + 2 ^ 64 := by omega
    rw [this, Nat.add_mod_right, Nat.mod_eq_of_lt (by omega)]
  refine ⟨_, flushEdit_eq_some_iff.mpr ⟨hge, fun hne => ?_, hoff, rfl⟩⟩
  rw [hm]
  omega

/-- C27: in a run of `traceToAlignment` on a non-empty trace whose query positions all lie
inside the query (of fewer than `2^64` bases), in every state `st` the loop reaches after a
part `pre` of the trace (the whole trace included, where the flush after the loop happens):
if query bases were consumed (`btBeforeNode.seqPos < btNodeEnd.seqPos`), the assertion
`btBeforeNode.seqPos < sequence.size() - 1` holds and `substr` returns exactly the bases asked
for, which end inside the query; and the flush returns whenever its two other assertions, on
the order of the query positions and on the node offsets (evaluated in `size_t`), hold. -/
theorem query_reads_in_range (g : AlignmentGraph) (sequence : List Char) (reverse : Bool)
    (first : MatrixPosition) (rest : List MatrixPosition) (st0 : TraceState)
    (hpos : ∀ p ∈ first :: rest, p.seqPos < sequence.length)
    (hsz : sequence.length < 2 ^ 64)
    (hend0 : st0.btNodeEnd = first) (hbefore0 : st0.btBeforeNode = first) :
    ∀ (pre suf : List MatrixPosition) (prev : MatrixPosition) (st : TraceState),
      first :: rest = pre ++ suf →
      traceLoop g sequence reverse first pre prev st0 = some st →
      (st.btBeforeNode.seqPos < st.btNodeEnd.seqPos →
        st.btBeforeNode.seqPos < (sequence.length + 2 ^ 64 - 1) % 2 ^ 64 ∧
        st.btBeforeNode.seqPos + 1 + (st.btNodeEnd.seqPos - st.btBeforeNode.seqPos) ≤
          sequence.length ∧
        ∃ piece, substr sequence (st.btBeforeNode.seqPos + 1)
            (st.btNodeEnd.seqPos - st.btBeforeNode.seqPos) = some piece ∧
          piece.length = st.btNodeEnd.seqPos - st.btBeforeNode.seqPos) ∧
      ∀ final : Bool, st.btBeforeNode.seqPos ≤ st.btNodeEnd.seqPos →
        (if reverse then (st.btNodeStart.nodeOffset + 1) % 2 ^ 64 ≥ st.btNodeEnd.nodeOffset
          else if final then st.btNodeEnd.nodeOffset ≥ st.btNodeStart.nodeOffset
          else (st.btNodeEnd.nodeOffset + 1) % 2 ^ 64 ≥ st.btNodeStart.nodeOffset) →
        ∃ e, flushEdit sequence reverse final st = some e := by
  intro pre suf prev st hsplit hloop
  have hfirst := hpos first (List.mem_cons_self _ _)
  obtain ⟨hend, hbefore⟩ := traceLoop_within pre prev st0 st (by rw [hend0]; exact hfirst)
    (by rw [hbefore0]; exact hfirst)
    (fun p hp => hpos p (by rw [hsplit]; exact List.mem_append_left _ hp)) hloop
  have hm : (sequence.length + 2 ^ 64 - 1) % 2 ^ 64 = sequence.length - 1 := by
    have : sequence.length + 2 ^ 64 - 1 = (sequence.length - 1) + 2 ^ 64 := by omega
    rw [this, Nat.add_mod_right, Nat.mod_eq_of_lt (by omega)]
  constructor
  · intro hlt
    refine ⟨by rw [hm]; omega, by omega, _, by unfold substr; rw [if_pos (by omega)], ?_⟩
    rw [List.length_take, List.length_drop]
    omega
  · intro final hge hoff
    exact flushEdit_total hsz hend hge hoff

/-- The locals of `traceToAlignment` on `cutGraph` and `cutTrace` when its loop starts. -/
def cutInit : TraceState :=
  { done := []
    position := { node_id := 2, offset := 0, is_reverse := false }
    rank := 0
    edit := { from_length := 0, to_length := 0, sequence := [] }
    currentNode := 0
    currentNodeId := 2
    btNodeStart := ⟨0, 0, 0⟩
    btNodeEnd := ⟨0, 0, 0⟩
    btBeforeNode := ⟨0, 0, 0⟩ }

theorem query_reads_in_range_witness :
    (∀ p ∈ (⟨0, 0, 0⟩ : MatrixPosition) :: cutTrace.tail, p.seqPos < "ACGT".toList.length) ∧
    "ACGT".toList.length < 2 ^ 64 ∧
    ((⟨0, 0, 0⟩ : MatrixPosition) :: cutTrace.tail).getLast? = some ⟨1, 1, 3⟩ ∧
    traceToAlignment cutGraph "read" "ACGT".toList 0 (⟨0, 0, 0⟩ :: cutTrace.tail) 0 false =
      some cutItem ∧
    ∀ (pre suf : List MatrixPosition) (prev : MatrixPosition) (st : TraceState),
      (⟨0, 0, 0⟩ : MatrixPosition) :: cutTrace.tail = pre ++ suf →
      traceLoop cutGraph "ACGT".toList false ⟨0, 0, 0⟩ pre prev cutInit = some st →
      (st.btBeforeNode.seqPos < st.btNodeEnd.seqPos →
        st.btBeforeNode.seqPos < ("ACGT".toList.length + 2 ^ 64 - 1) % 2 ^ 64 ∧
        st.btBeforeNode.seqPos + 1 + (st.btNodeEnd.seqPos - st.btBeforeNode.seqPos) ≤
          "ACGT".toList.length ∧
        ∃ piece, substr "ACGT".toList (st.btBeforeNode.seqPos + 1)
            (st.btNodeEnd.seqPos - st.btBeforeNode.seqPos) = some piece ∧
          piece.length = st.btNodeEnd.seqPos - st.btBeforeNode.seqPos) ∧
      ∀ final : Bool, st.btBeforeNode.seqPos ≤ st.btNodeEnd.seqPos →
        (if false then (st.btNodeStart.nodeOffset + 1) % 2 ^ 64 ≥ st.btNodeEnd.nodeOffset
          else if final then st.btNodeEnd.nodeOffset ≥ st.btNodeStart.nodeOffset
          else (st.btNodeEnd.nodeOffset + 1) % 2 ^ 64 ≥ st.btNodeStart.nodeOffset) →
        ∃ e, flushEdit "ACGT".toList false final st = some e :=
  ⟨by decide, by decide, by decide, by decide,
    query_reads_in_range cutGraph "ACGT".toList false ⟨0, 0, 0⟩ cutTrace.tail cutInit
      (by decide) (by decide) rfl rfl⟩

open AlignmentGraph

/-! ## C21: `AddEdgeNodeId` -/

theorem findTo_skip {nodeOffset : List Nat} {x : Nat} : ∀ (l : List Nat) (dst : Nat),
    (∀ s ∈ l, ∃ o, nodeOffset[s]? = some o ∧ o ≠ x) → findTo nodeOffset x l dst = some dst
  | [], dst, _ => rfl
  | s :: rest, dst, h => by
    obtain ⟨o, ho, hne⟩ := h s (List.mem_cons_self _ _)
    simp only [findTo, bind_eq_optionBind, ho, Option.some_bind, if_neg hne]
    exact findTo_skip rest dst (fun s2 hs2 => h s2 (List.mem_cons_of_mem _ hs2))

/-- The scan of `AddEdgeNodeId` over the splits of the target node finds the split with the
given offset: the offsets of the splits of one original node are pairwise different. -/
theorem findTo_tiles {g : AlignmentGraph} {id : Int} {e0 e1 : Nat} {l : List Nat}
    (h : Tiles g id e0 l e1) {t x : Nat} (ht : t ∈ l) (hx : g.nodeOffset[t]? = some x) :
    ∀ dst, findTo g.nodeOffset x l dst = some t := by
  induction h with
  | nil e => simp at ht
  | @cons e len e1 s rest hv _ htail ih =>
    intro dst
    simp only [findTo, bind_eq_optionBind, hv.offEq, Option.some_bind]
    by_cases hrest : t ∈ rest
    · exact ih hrest _
    · have hts : t = s := by
        rcases List.mem_cons.mp ht with h1 | h1
        · exact h1
        · exact absurd h1 hrest
      subst hts
      rw [hv.offEq] at hx
      cases Option.some.inj hx
      rw [if_pos rfl]
      apply findTo_skip
      intro s2 hs2
      obtain ⟨es, ls, hv2, hge, -⟩ := htail.tiles_mem hs2
      have := hv.pos
      exact ⟨es, hv2.offEq, by omega⟩

theorem set_getElem_same {α : Type} (l : List α) (i : Nat) (h : i < l.length) :
    l.set i l[i] = l := by
  apply List.ext_getElem?
  intro j
  rw [List.getElem?_set]
  by_cases hij : i = j
  · subst hij
    simp [h]
  · simp [hij]

theorem getD_set_self {vec : List (List Nat)} {i : Nat} (hi : i < vec.length) (l : List Nat) :
    (vec.set i l).getD i [] = l := by
  rw [List.getD_eq_getElem?_getD, List.getElem?_set]
  simp [hi]

/-- C21 (amended): in every state reached by builder calls (with fewer than `2^64` split
vertices), for every `fromId` and `toId` that have an entry in `nodeLookup` and every split `t`
of `toId` whose offset is `toStartOffset`: the last split `f` of `fromId` ends at the recorded
original size, so the assertion of `AddEdgeNodeId` holds; the call returns; afterwards `t` is
in `outNeighbors[f]` and `f` is in `inNeighbors[t]`; each of the two lists is the old one, with
the new index appended when it was not in it yet; and no other neighbour list and no other
member of the graph has changed. -/
theorem addEdge_links_last_split (calls : List BuildCall) (g : AlignmentGraph)
    (hg : build calls = some g) (hN : g.nodeLength.length < 2 ^ 64) (fromId toId : Int)
    (lf lt : List Nat) (t toStartOffset : Nat)
    (hlf : g.nodeLookup.lookup fromId = some lf) (hlt : g.nodeLookup.lookup toId = some lt)
    (ht : t ∈ lt) (hoff : g.nodeOffset[t]? = some toStartOffset) :
    ∃ f offF lenF size outsF insT,
      lf.getLast? = some f ∧ g.nodeOffset[f]? = some offF ∧ g.nodeLength[f]? = some lenF ∧
      g.originalNodeSize.lookup fromId = some size ∧ offF + lenF = size ∧
      g.outNeighbors[f]? = some outsF ∧ g.inNeighbors[t]? = some insT ∧
      g.AddEdgeNodeId fromId toId toStartOffset =
        some { g with
          outNeighbors := g.outNeighbors.set f (if t ∈ outsF then outsF else outsF ++ [t])
          inNeighbors := g.inNeighbors.set t (if f ∈ insT then insT else insT ++ [f]) } ∧
      t ∈ (g.outNeighbors.set f (if t ∈ outsF then outsF else outsF ++ [t])).getD f [] ∧
      f ∈ (g.inNeighbors.set t (if f ∈ insT then insT else insT ++ [f])).getD t [] ∧
      (∀ u, u ≠ f → (g.outNeighbors.set f (if t ∈ outsF then outsF else outsF ++ [t]))[u]? =
        g.outNeighbors[u]?) ∧
      (∀ v, v ≠ t → (g.inNeighbors.set t (if f ∈ insT then insT else insT ++ [f]))[v]? =
        g.inNeighbors[v]?) := by
  have hb := build_built hg
  obtain ⟨hlfne, hsomeF, htF⟩ := hb.tiles fromId lf hlf
  obtain ⟨hltne, hsomeT, htT⟩ := hb.tiles toId lt hlt
  obtain ⟨size, hsize⟩ := Option.ne_none_iff_exists'.mp hsomeF
  obtain ⟨sizeT, hsizeT⟩ := Option.ne_none_iff_exists'.mp hsomeT
  obtain ⟨f, hf⟩ : ∃ f, lf.getLast? = some f :=
    ⟨lf.getLast hlfne, List.getLast?_eq_getLast _ hlfne⟩
  obtain ⟨offF, lenF, hvF, hsum⟩ := (htF size hsize).last hf
  obtain ⟨es, ls, hvT, -, -⟩ := (htT sizeT hsizeT).tiles_mem ht
  have hfN : f < g.nodeLength.length := (List.getElem?_eq_some.mp hvF.lenEq).1
  have htN : t < g.nodeLength.length := (List.getElem?_eq_some.mp hvT.lenEq).1
  have hfO : f < g.outNeighbors.length := by rw [hb.basic.out]; exact hfN
  have htI : t < g.inNeighbors.length := by rw [hb.basic.inn]; exact htN
  have hfind := findTo_tiles (htT sizeT hsizeT) ht hoff SIZE_MAX
  refine ⟨f, offF, lenF, size, g.outNeighbors[f], g.inNeighbors[t], hf, hvF.offEq, hvF.lenEq,
    hsize, hsum, List.getElem?_eq_getElem hfO, List.getElem?_eq_getElem htI, ?_, ?_, ?_, ?_, ?_⟩
  · have e1 : decide (g.firstAmbiguous = SIZE_MAX) = true := decide_eq_true hb.basic.first
    have e2 : (!g.finalized) = true := by rw [hb.basic.fin]; rfl
    have e3 : decide ((offF + lenF) % 2 ^ 64 = size) = true := by
      have := hvF.small
      have := hvF.bound
      exact decide_eq_true (by rw [Nat.mod_eq_of_lt (by omega)]; exact hsum)
    have e4 : decide (t ≠ SIZE_MAX) = true := by
      unfold SIZE_MAX
      exact decide_eq_true (by omega)
    simp only [AlignmentGraph.AddEdgeNodeId, bind_eq_optionBind, assert_of_true e1,
      assert_of_true e2, hlf, hlt, Option.isSome_some, assert_true, Option.some_bind, hf,
      hvF.offEq, hvF.lenEq, mapIndex_of_some hsize, assert_of_true e3, hfind,
      assert_of_true e4, List.getElem?_eq_getElem hfO, List.getElem?_eq_getElem htI]
    congr 1
    by_cases h1 : f ∈ g.inNeighbors[t] <;> by_cases h2 : t ∈ g.outNeighbors[f] <;>
      simp [h1, h2, set_getElem_same]
  · rw [getD_set_self hfO]
    split
    · assumption
    · simp
  · rw [getD_set_self htI]
    split
    · assumption
    · simp
  · intro u hu
    exact List.getElem?_set_ne (fun e => hu e.symm)
  · intro v hv
    exact List.getElem?_set_ne (fun e => hv e.symm)

/-- The state of `demoCalls` after the further call `AddEdgeNodeId(2, 4, 2)`: the edge from
vertex 0, the last split of node 2, to vertex 2, the split of node 4 at offset 2. -/
def demoLinked : AlignmentGraph :=
  { demoBuilt with
    outNeighbors := [[1, 2], [2], [0, 2]]
    inNeighbors := [[2], [0], [1, 2, 0]] }

theorem addEdge_links_last_split_witness :
    build demoCalls = some demoBuilt ∧ demoBuilt.nodeLength.length < 2 ^ 64 ∧
    demoBuilt.nodeLookup.lookup 2 = some [0] ∧ demoBuilt.nodeLookup.lookup 4 = some [1, 2] ∧
    2 ∈ [1, 2] ∧ demoBuilt.nodeOffset[2]? = some 2 ∧
    demoBuilt.AddEdgeNodeId 2 4 2 = some demoLinked ∧
    ∃ f offF lenF size outsF insT,
      [0].getLast? = some f ∧ demoBuilt.nodeOffset[f]? = some offF ∧
      demoBuilt.nodeLength[f]? = some lenF ∧
      demoBuilt.originalNodeSize.lookup 2 = some size ∧ offF + lenF = size ∧
      demoBuilt.outNeighbors[f]? = some outsF ∧ demoBuilt.inNeighbors[2]? = some insT ∧
      demoBuilt.AddEdgeNodeId 2 4 2 =
        some { demoBuilt with
          outNeighbors := demoBuilt.outNeighbors.set f
            (if 2 ∈ outsF then outsF else outsF ++ [2])
          inNeighbors := demoBuilt.inNeighbors.set 2
            (if f ∈ insT then insT else insT ++ [f]) } ∧
      2 ∈ (demoBuilt.outNeighbors.set f (if 2 ∈ outsF then outsF else outsF ++ [2])).getD f
        [] ∧
      f ∈ (demoBuilt.inNeighbors.set 2 (if f ∈ insT then insT else insT ++ [f])).getD 2 [] ∧
      (∀ u, u ≠ f →
        (demoBuilt.outNeighbors.set f (if 2 ∈ outsF then outsF else outsF ++ [2]))[u]? =
          demoBuilt.outNeighbors[u]?) ∧
      (∀ v, v ≠ 2 →
        (demoBuilt.inNeighbors.set 2 (if f ∈ insT then insT else insT ++ [f]))[v]? =
          demoBuilt.inNeighbors[v]?) :=
  ⟨demo_build, by decide, by decide, by decide, by decide, by decide, by decide,
    addEdge_links_last_split demoCalls demoBuilt demo_build (by decide) 2 4 [0] [1, 2] 2 2
      (by decide) (by decide) (by decide) (by decide)⟩

/-- The state after `AddNode(2, "", "a", false, {0, 0})` and `AddNode(4, "A", "b", false,
{0, 1})`: node 2 has its size and name recorded and no split. -/
def emptyFromGraph : AlignmentGraph :=
  { nodeLength := [1]
    nodeLookup := [(4, [0])]
    originalNodeSize := [(2, 0), (4, 1)]
    originalNodeName := [(2, "a"), (4, "b")]
    nodeOffset := [0]
    nodeIDs := [4]
    inNeighbors := [[]]
    outNeighbors := [[]]
    reverse := [false]
    linearizable := []
    ambiguousNodes := [false]
    nodeSequences := [[0, 0]]
    ambiguousNodeSequences := []
    componentNumber := []
    firstAmbiguous := SIZE_MAX
    finalized := false }

/-- C21 as stated fails: node 2 has been added with an empty sequence and node 4 has a split at
offset 0, yet `AddEdgeNodeId(2, 4, 0)` fails (its assertion `nodeLookup.count(node_id_from) > 0`
does not hold), while `AddEdgeNodeId(4, 4, 0)` returns. -/
theorem addEdge_from_empty_node :
    build [.addNode 2 [] "a" false [0, 0], .addNode 4 "A".toList "b" false [0, 1]] =
      some emptyFromGraph ∧
    emptyFromGraph.originalNodeSize.lookup 2 = some 0 ∧
    emptyFromGraph.nodeLookup.lookup 2 = none ∧
    emptyFromGraph.nodeLookup.lookup 4 = some [0] ∧
    emptyFromGraph.nodeOffset[0]? = some 0 ∧
    emptyFromGraph.AddEdgeNodeId 2 4 0 = none ∧
    (emptyFromGraph.AddEdgeNodeId 4 4 0).isSome = true :=
  ⟨by decide, by decide, by decide, by decide, by decide, by decide, by decide⟩

open AlignmentGraph

/-! ## C22: the letters `AddNode` accepts -/

theorem switchArm_of_mem {c : Char} (h : c ∈ switchLetters) : (switchArm c).isSome = true := by
  simp only [switchLetters, List.mem_cons, List.mem_singleton, List.not_mem_nil, or_false] at h
  rcases h with h | h | h | h | h | h | h | h | h | h | h | h | h | h | h | h | h | h | h | h |
    h | h | h | h | h | h | h | h | h | h | h | h <;> subst h <;> rfl

theorem switchArm_isSome_iff (c : Char) : (switchArm c).isSome = true ↔ c ∈ switchLetters := by
  constructor
  · intro h
    obtain ⟨arm, harm⟩ := Option.isSome_iff_exists.mp h
    exact switchArm_mem harm
  · exact switchArm_of_mem

theorem addStride_letters {g g2 : AlignmentGraph} {id0 : Int} {seq : List Char} {rev : Bool}
    {o size : Nat} (h : g.addStride id0 seq rev o size = some g2) :
    ∀ p c, o ≤ p → p < o + size → seq[p]? = some c → c ∈ switchLetters := by
  obtain ⟨enc, _, _, henc, hlen64, -⟩ := addStride_eq_some h
  have hinv := encodeLoop_inv ((seq.drop o).take size) [] encodeInit enc encInv_init
    (by simpa using hlen64) (by simpa using henc)
  simp only [List.nil_append] at hinv
  intro p c hop hp hc
  have hpiece : ((seq.drop o).take size)[p - o]? = some c := by
    rw [piece_getElem? seq o size (p - o) (by omega)]
    have e : o + (p - o) = p := by omega
    rw [e]
    exact hc
  obtain ⟨arm, harm⟩ := hinv.arms c (List.getElem?_mem hpiece)
  exact switchArm_mem harm

theorem strideLoop_letters {id0 : Int} {seq : List Char} {rev : Bool} {bpEnd : Nat} :
    ∀ (fuel o : Nat) (g g2 : AlignmentGraph),
      strideLoop id0 seq rev bpEnd fuel o g = some g2 →
      ∀ p c, o ≤ p → p < bpEnd → seq[p]? = some c → c ∈ switchLetters
  | 0, o, g, g2, h => by
    intro p c hop hp _
    simp only [strideLoop] at h
    split at h
    · cases h
    · omega
  | fuel + 1, o, g, g2, h => by
    intro p c hop hp hc
    simp only [strideLoop] at h
    split at h
    · simp only [bind_eq_optionBind] at h
      obtain ⟨g1, hg1, h⟩ := Option.bind_eq_some.mp h
      by_cases hin : p < o + (if bpEnd - o < SPLIT_NODE_SIZE then bpEnd - o
          else SPLIT_NODE_SIZE)
      · exact addStride_letters hg1 p c hop hin hc
      · refine strideLoop_letters fuel (o + SPLIT_NODE_SIZE) g1 g2 h p c ?_ hp hc
        split at hin <;> omega
    · omega

theorem breakpointLoop_letters {id0 : Int} {seq : List Char} {rev : Bool} :
    ∀ (bps : List Nat) (g g2 : AlignmentGraph) (b0 bl : Nat), bps.head? = some b0 →
      bps.getLast? = some bl → breakpointLoop id0 seq rev bps g = some g2 →
      ∀ p c, b0 ≤ p → p < bl → seq[p]? = some c → c ∈ switchLetters
  | [], _, _, _, _, h, _, _ => by simp at h
  | [b], g, g2, b0, bl, hhead, hlast, _ => by
    intro p c h1 h2 _
    simp only [List.head?_cons, Option.some.injEq] at hhead
    simp only [List.getLast?_singleton, Option.some.injEq] at hlast
    omega
  | bpPrev :: bpCur :: rest, g, g2, b0, bl, hhead, hlast, h => by
    intro p c h1 h2 hc
    simp only [List.head?_cons, Option.some.injEq] at hhead
    subst hhead
    rw [List.getLast?_cons_cons] at hlast
    simp only [breakpointLoop] at h
    split at h
    · rename_i heq
      exact breakpointLoop_letters (bpCur :: rest) g g2 bpCur bl (by simp) hlast h p c
        (by omega) h2 hc
    · simp only [bind_eq_optionBind] at h
      obtain ⟨_, _, h⟩ := Option.bind_eq_some.mp h
      obtain ⟨g1, hg1, h⟩ := Option.bind_eq_some.mp h
      by_cases hin : p < bpCur
      · exact strideLoop_letters _ _ g g1 hg1 p c h1 hin hc
      · exact breakpointLoop_letters (bpCur :: rest) g1 g2 bpCur bl (by simp) hlast h p c
          (by omega) h2 hc

/-- Whenever `AddNode` returns for an id that is not in `nodeLookup`, every letter of the
sequence has an arm in the `switch` of the split helper. -/
theorem AddNode_letters {g g2 : AlignmentGraph} {id0 : Int} {seq : List Char} {name : String}
    {rev : Bool} {bps : List Nat} (hfresh : g.nodeLookup.lookup id0 = none)
    (h : g.AddNode id0 seq name rev bps = some g2) : ∀ c ∈ seq, c ∈ switchLetters := by
  simp only [AlignmentGraph.AddNode, bind_eq_optionBind, hfresh, Option.isSome_none,
    Bool.false_eq_true, if_false] at h
  obtain ⟨_, _, h⟩ := Option.bind_eq_some.mp h
  obtain ⟨_, _, h⟩ := Option.bind_eq_some.mp h
  obtain ⟨_, hlen2, h⟩ := Option.bind_eq_some.mp h
  obtain ⟨_, hfirst, h⟩ := Option.bind_eq_some.mp h
  obtain ⟨_, hlast, h⟩ := Option.bind_eq_some.mp h
  simp only [assert_eq_some, decide_eq_true_eq] at hlen2 hfirst hlast
  have hhead : bps.head? = some 0 := by
    cases bps with
    | nil => simp at hfirst
    | cons b rest => simpa using hfirst
  intro c hc
  obtain ⟨p, hp⟩ := List.mem_iff_getElem?.mp hc
  exact breakpointLoop_letters bps _ g2 0 seq.length hhead hlast h p c (Nat.zero_le _)
    (List.getElem?_eq_some.mp hp).1 hp

/-- C22 (amended): in every state reached by builder calls, for an id that is not in
`nodeLookup`, breakpoints that start at 0, do not decrease and end at the length of the
sequence, and a sequence of at most `2^31` letters, `AddNode` fails exactly when the sequence
holds a character that is none of the letters `A C G T U R Y S W K M B D H V N` in either case,
and it returns on every sequence made of those letters only. Without the bound on the length,
whenever `AddNode` returns all letters of the sequence are among those. -/
theorem addNode_accepts_iupac (calls : List BuildCall) (g : AlignmentGraph)
    (hg : build calls = some g) (id : Int) (seq : List Char) (name : String) (rev : Bool)
    (bps : List Nat) (hfresh : g.nodeLookup.lookup id = none) (h2 : 2 ≤ bps.length)
    (h0 : bps[0]? = some 0) (hsorted : List.Chain' (fun a b => a ≤ b) bps)
    (hlast : bps.getLast? = some seq.length) :
    (∀ g2, g.AddNode id seq name rev bps = some g2 → ∀ c ∈ seq, c ∈ switchLetters) ∧
    (seq.length ≤ 2 ^ 31 →
      (g.AddNode id seq name rev bps = none ↔ ∃ c ∈ seq, c ∉ switchLetters) ∧
      ((∀ c ∈ seq, c ∈ switchLetters) → ∃ g2, g.AddNode id seq name rev bps = some g2)) := by
  have hb := build_built hg
  have htotal : seq.length ≤ 2 ^ 31 → (∀ c ∈ seq, c ∈ switchLetters) →
      ∃ g2, g.AddNode id seq name rev bps = some g2 := fun hsmall hall =>
    AddNode_total hb id name rev h2 h0 hsorted hlast
      (fun c hc => switchArm_of_mem (hall c hc)) hsmall
  refine ⟨fun g2 h => AddNode_letters hfresh h, fun hsmall => ⟨?_, htotal hsmall⟩⟩
  constructor
  · intro hnone
    by_contra hall
    have hall2 : ∀ c ∈ seq, c ∈ switchLetters := by
      intro c hc
      by_contra hbad
      exact hall ⟨c, hc, hbad⟩
    obtain ⟨g2, hg2⟩ := htotal hsmall hall2
    rw [hnone] at hg2
    cases hg2
  · rintro ⟨c, hc, hbad⟩
    cases hrun : g.AddNode id seq name rev bps with
    | none => rfl
    | some g2 => exact absurd (AddNode_letters hfresh hrun c hc) hbad

theorem addNode_accepts_iupac_witness :
    build demoCalls = some demoBuilt ∧ demoBuilt.nodeLookup.lookup 6 = none ∧
    2 ≤ [0, 2, 4].length ∧ [0, 2, 4][0]? = some 0 ∧
    List.Chain' (fun a b => a ≤ b) [0, 2, 4] ∧
    [0, 2, 4].getLast? = some "AcXn".toList.length ∧
    demoBuilt.AddNode 6 "AcXn".toList "n6" false [0, 2, 4] = none ∧
    (demoBuilt.AddNode 6 "AcRn".toList "n6" false [0, 2, 4]).isSome = true ∧
    (∀ g2, demoBuilt.AddNode 6 "AcXn".toList "n6" false [0, 2, 4] = some g2 →
      ∀ c ∈ "AcXn".toList, c ∈ switchLetters) ∧
    ("AcXn".toList.length ≤ 2 ^ 31 →
      (demoBuilt.AddNode 6 "AcXn".toList "n6" false [0, 2, 4] = none ↔
        ∃ c ∈ "AcXn".toList, c ∉ switchLetters) ∧
      ((∀ c ∈ "AcXn".toList, c ∈ switchLetters) →
        ∃ g2, demoBuilt.AddNode 6 "AcXn".toList "n6" false [0, 2, 4] = some g2)) :=
  ⟨demo_build, by decide, by decide, by decide, by simp, by decide, by decide, by decide,
    addNode_accepts_iupac demoCalls demoBuilt demo_build 6 "AcXn".toList "n6" false [0, 2, 4]
      (by decide) (by decide) (by decide) (by simp) (by decide)⟩

/-- C22 as stated fails: a sequence of `2^31 + 64` letters `A`, with the breakpoints
`{0, 2^31 + 64}`, is made of accepted letters only, yet `AddNode` fails on the empty graph: the
split helper takes the offset as an `int`, and the offset `2^31` of a split does not fit. -/
theorem addNode_long_sequence_fails :
    (∀ c ∈ List.replicate (2 ^ 31 + 64) 'A', c ∈ switchLetters) ∧
    [0, 2 ^ 31 + 64][0]? = some 0 ∧ List.Chain' (fun a b => a ≤ b) [0, 2 ^ 31 + 64] ∧
    [0, 2 ^ 31 + 64].getLast? = some (List.replicate (2 ^ 31 + 64) 'A').length ∧
    AlignmentGraph.empty.nodeLookup.lookup 2 = none ∧
    AlignmentGraph.empty.AddNode 2 (List.replicate (2 ^ 31 + 64) 'A') "n" false
      [0, 2 ^ 31 + 64] = none := by
  refine ⟨?_, rfl, ?_, ?_, rfl, ?_⟩
  · intro c hc
    rw [List.eq_of_mem_replicate hc]
    decide
  · exact List.Chain'.cons (Nat.zero_le _) (List.chain'_singleton _)
  · rw [List.length_replicate]
    rfl
  · cases hrun : AlignmentGraph.empty.AddNode 2 (List.replicate (2 ^ 31 + 64) 'A') "n" false
        [0, 2 ^ 31 + 64] with
    | none => rfl
    | some g2 =>
      exfalso
      obtain ⟨hb2, -, -, -, hsome, hsize⟩ := AddNode_fresh built_empty rfl hrun
      have hne : List.replicate (2 ^ 31 + 64) 'A' ≠ [] := by
        intro h
        have := congrArg List.length h
        rw [List.length_replicate] at this
        simp at this
      obtain ⟨l, hl⟩ := Option.ne_none_iff_exists'.mp (hsome hne)
      obtain ⟨hlne, -, ht⟩ := hb2.tiles 2 l hl
      obtain ⟨a, ha⟩ : ∃ a, l.getLast? = some a :=
        ⟨l.getLast hlne, List.getLast?_eq_getLast _ hlne⟩
      obtain ⟨ea, la, hv, hsum⟩ := (ht _ hsize).last ha
      rw [List.length_replicate] at hsum
      have := hv.small
      have := hv.bound
      omega

open AlignmentGraph

/-! ## The keys of `nodeLookup` -/

/-- No two entries of `nodeLookup` have the same key, as in an `unordered_map`. -/
def UniqueKeys (g : AlignmentGraph) : Prop := (g.nodeLookup.map Prod.fst).Nodup

theorem mapPushBack_keys : ∀ (m : List (Int × List Nat)) (k : Int) (x : Nat),
    (mapPushBack m k x).map Prod.fst =
      if k ∈ m.map Prod.fst then m.map Prod.fst else m.map Prod.fst ++ [k]
  | [], k, x => by simp [mapPushBack]
  | (k0, l) :: rest, k, x => by
    have ih := mapPushBack_keys rest k x
    by_cases h : k0 = k
    · simp [mapPushBack, h]
    · have h2 : ¬ k = k0 := fun e => h e.symm
      simp only [mapPushBack, if_neg h, List.map_cons, ih, List.mem_cons, h2, false_or]
      split <;> simp

theorem mapPushBack_nodup {m : List (Int × List Nat)} (h : (m.map Prod.fst).Nodup) (k : Int)
    (x : Nat) : ((mapPushBack m k x).map Prod.fst).Nodup := by
  rw [mapPushBack_keys]
  split
  · exact h
  · rename_i hk
    exact List.Nodup.append h (List.nodup_singleton k) (by simpa using hk)

theorem addStride_keys {g g2 : AlignmentGraph} {id0 : Int} {seq : List Char} {rev : Bool}
    {o size : Nat} (h : g.addStride id0 seq rev o size = some g2) (hk : UniqueKeys g) :
    UniqueKeys g2 := by
  obtain ⟨enc, _, _, _, _, hcase⟩ := addStride_eq_some h
  rcases hcase with ⟨_, rfl⟩ | ⟨_, _, rfl⟩
  · exact mapPushBack_nodup hk _ _
  · exact mapPushBack_nodup hk _ _

theorem strideLoop_keys {id0 : Int} {seq : List Char} {rev : Bool} {bpEnd : Nat} :
    ∀ (fuel o : Nat) (g g2 : AlignmentGraph),
      strideLoop id0 seq rev bpEnd fuel o g = some g2 → UniqueKeys g → UniqueKeys g2
  | 0, o, g, g2, h, hk => by
    simp only [strideLoop] at h
    split at h
    · cases h
    · cases Option.some.inj h
      exact hk
  | fuel + 1, o, g, g2, h, hk => by
    simp only [strideLoop] at h
    split at h
    · simp only [bind_eq_optionBind] at h
      obtain ⟨g1, hg1, h⟩ := Option.bind_eq_some.mp h
      exact strideLoop_keys fuel _ g1 g2 h (addStride_keys hg1 hk)
    · cases Option.some.inj h
      exact hk

theorem breakpointLoop_keys {id0 : Int} {seq : List Char} {rev : Bool} :
    ∀ (bps : List Nat) (g g2 : AlignmentGraph),
      breakpointLoop id0 seq rev bps g = some g2 → UniqueKeys g → UniqueKeys g2
  | [], g, g2, h, hk => by
    simp only [breakpointLoop] at h
    cases Option.some.inj h
    exact hk
  | [b], g, g2, h, hk => by
    simp only [breakpointLoop] at h
    cases Option.some.inj h
    exact hk
  | bpPrev :: bpCur :: rest, g, g2, h, hk => by
    simp only [breakpointLoop] at h
    split at h
    · exact breakpointLoop_keys (bpCur :: rest) g g2 h hk
    · simp only [bind_eq_optionBind] at h
      obtain ⟨_, _, h⟩ := Option.bind_eq_some.mp h
      obtain ⟨g1, hg1, h⟩ := Option.bind_eq_some.mp h
      exact breakpointLoop_keys (bpCur :: rest) g1 g2 h (strideLoop_keys _ _ g g1 hg1 hk)

theorem AddNode_keys {g g2 : AlignmentGraph} {id0 : Int} {seq : List Char} {name : String}
    {rev : Bool} {bps : List Nat} (h : g.AddNode id0 seq name rev bps = some g2)
    (hk : UniqueKeys g) : UniqueKeys g2 := by
  simp only [AlignmentGraph.AddNode, bind_eq_optionBind] at h
  obtain ⟨_, _, h⟩ := Option.bind_eq_some.mp h
  obtain ⟨_, _, h⟩ := Option.bind_eq_some.mp h
  split at h
  · cases Option.some.inj h
    exact hk
  · obtain ⟨_, _, h⟩ := Option.bind_eq_some.mp h
    obtain ⟨_, _, h⟩ := Option.bind_eq_some.mp h
    obtain ⟨_, _, h⟩ := Option.bind_eq_some.mp h
    exact breakpointLoop_keys bps _ g2 h hk

theorem AddEdgeNodeId_keys {g g2 : AlignmentGraph} {a b : Int} {startOffset : Nat}
    (h : g.AddEdgeNodeId a b startOffset = some g2) (hk : UniqueKeys g) : UniqueKeys g2 := by
  simp only [AlignmentGraph.AddEdgeNodeId, bind_eq_optionBind] at h
  obtain ⟨_, _, h⟩ := Option.bind_eq_some.mp h
  obtain ⟨_, _, h⟩ := Option.bind_eq_some.mp h
  obtain ⟨_, _, h⟩ := Option.bind_eq_some.mp h
  obtain ⟨_, _, h⟩ := Option.bind_eq_some.mp h
  obtain ⟨fromSplits, hfrom, h⟩ := Option.bind_eq_some.mp h
  obtain ⟨src, hsrc, h⟩ := Option.bind_eq_some.mp h
  obtain ⟨offFrom, hoffFrom, h⟩ := Option.bind_eq_some.mp h
  obtain ⟨lenFrom, hlenFrom, h⟩ := Option.bind_eq_some.mp h
  obtain ⟨_, _, h⟩ := Option.bind_eq_some.mp h
  obtain ⟨toSplits, hto, h⟩ := Option.bind_eq_some.mp h
  obtain ⟨dst, hdst, h⟩ := Option.bind_eq_some.mp h
  obtain ⟨_, _, h⟩ := Option.bind_eq_some.mp h
  obtain ⟨insTo, hinsTo, h⟩ := Option.bind_eq_some.mp h
  obtain ⟨outsFrom, houtsFrom, h⟩ := Option.bind_eq_some.mp h
  cases Option.some.inj h
  exact hk

theorem runCalls_keys : ∀ (calls : List BuildCall) (g g2 : AlignmentGraph), UniqueKeys g →
    runCalls calls g = some g2 → UniqueKeys g2
  | [], g, g2, hk, h => by
    cases Option.some.inj h
    exact hk
  | c :: rest, g, g2, hk, h => by
    simp only [runCalls, bind_eq_optionBind] at h
    obtain ⟨g1, hg1, h⟩ := Option.bind_eq_some.mp h
    refine runCalls_keys rest g1 g2 ?_ h
    cases c with
    | addNode nodeId sequence name reverseNode breakpoints => exact AddNode_keys hg1 hk
    | addEdge a b startOffset => exact AddEdgeNodeId_keys hg1 hk

theorem build_keys {calls : List BuildCall} {g : AlignmentGraph} (h : build calls = some g) :
    UniqueKeys g :=
  runCalls_keys calls _ g (by simp [UniqueKeys, AlignmentGraph.empty]) h

theorem lookup_of_mem_keys : ∀ {m : List (Int × List Nat)}, (m.map Prod.fst).Nodup →
    ∀ {k : Int} {l : List Nat}, (k, l) ∈ m → m.lookup k = some l
  | [], _, k, l, h => by simp at h
  | (k0, l0) :: rest, hnd, k, l, h => by
    rw [lookup_cons_eq]
    simp only [List.map_cons, List.nodup_cons] at hnd
    rcases List.mem_cons.mp h with heq | hmem
    · cases heq
      simp
    · have hne : ¬ k = k0 := by
        rintro rfl
        exact hnd.1 (List.mem_map.mpr ⟨(k, l), hmem, rfl⟩)
      simp only [hne, if_false]
      exact lookup_of_mem_keys hnd.2 hmem

/-! ## `RenumberAmbiguousToEnd` returns on every graph under construction -/

theorem renumberingLoop_total (total : Nat) : ∀ (rest pre : List Bool) (st : RenumberState),
    RenumberInv total pre st → pre.length + rest.length = total →
    ∃ st2, renumberingLoop total rest st = some st2
  | [], _, st, _, _ => ⟨st, rfl⟩
  | false :: rest, pre, st, hinv, hlen => by
    simp only [renumberingLoop]
    exact renumberingLoop_total total rest (pre ++ [false]) _ (renumberInv_snoc false hinv)
      (by simp only [List.length_append, List.length_singleton, List.length_cons,
            List.length_nil] at hlen ⊢
          omega)
  | true :: rest, pre, st, hinv, hlen => by
    have hsum := count_false_add_count_true pre
    simp only [List.length_cons] at hlen
    have h1 : st.ambiguousCount < total := by rw [hinv.amb]; omega
    have h2 : total - 1 - st.ambiguousCount ≥ st.nonAmbiguousCount := by
      rw [hinv.amb, hinv.nonAmb]
      omega
    simp only [renumberingLoop, bind_eq_optionBind, h1, h2, decide_True, assert_true,
      Option.some_bind]
    exact renumberingLoop_total total rest (pre ++ [true]) _ (renumberInv_snoc true hinv)
      (by simp only [List.length_append, List.length_singleton, List.length_cons,
            List.length_nil]
          omega)

theorem reorderLoop_total {T : Type} : ∀ (xs : List T) (rs : List Nat) (res : List T),
    xs.length ≤ rs.length → (∀ r ∈ rs, r < res.length) →
    ∃ res2, reorderLoop xs rs res = some res2
  | [], rs, res, _, _ => ⟨res, by simp [reorderLoop]⟩
  | x :: xs, [], res, hlen, _ => by simp at hlen
  | x :: xs, r :: rs, res, hlen, hlt => by
    have hr : r < res.length := hlt r (by simp)
    simp only [reorderLoop, bind_eq_optionBind, setAt, if_pos hr, Option.some_bind]
    refine reorderLoop_total xs rs _ (by simpa using hlen) ?_
    intro r2 hr2
    rw [List.length_set]
    exact hlt r2 (by simp [hr2])

theorem reorder_total {T : Type} [Inhabited T] (vec : List T) (ren : List Nat)
    (hlen : vec.length = ren.length) (hlt : ∀ r ∈ ren, r < vec.length) :
    ∃ vec2, reorder vec ren = some vec2 := by
  simp only [reorder, bind_eq_optionBind, hlen, decide_True, assert_true, Option.some_bind]
  exact reorderLoop_total vec ren _ (by omega) (by simpa [hlen] using hlt)

theorem renumber_total : ∀ (l ren : List Nat), (∀ x ∈ l, x < ren.length) →
    ∃ l2, renumber l ren = some l2
  | [], _, _ => ⟨[], rfl⟩
  | x :: rest, ren, h => by
    obtain ⟨ys, hys⟩ := renumber_total rest ren (fun y hy => h y (by simp [hy]))
    have hx : x < ren.length := h x (by simp)
    exact ⟨ren[x] :: ys, by
      simp only [renumber, bind_eq_optionBind, pure_eq_some, List.getElem?_eq_getElem hx,
        Option.some_bind, hys]⟩

theorem renumberAll_total : ∀ (vec : List (List Nat)) (ren : List Nat),
    (∀ l ∈ vec, ∀ x ∈ l, x < ren.length) → ∃ vec2, renumberAll vec ren = some vec2
  | [], _, _ => ⟨[], rfl⟩
  | l :: rest, ren, h => by
    obtain ⟨l1, hl1⟩ := renumber_total l ren (h l (by simp))
    obtain ⟨rest1, hrest1⟩ := renumberAll_total rest ren (fun l2 hl2 => h l2 (by simp [hl2]))
    exact ⟨l1 :: rest1, by
      simp only [renumberAll, bind_eq_optionBind, pure_eq_some, hl1, Option.some_bind, hrest1]⟩

theorem renumberLookup_total : ∀ (m : List (Int × List Nat)) (ren : List Nat),
    (∀ p ∈ m, ∀ x ∈ p.2, x < ren.length) → ∃ m2, renumberLookup m ren = some m2
  | [], _, _ => ⟨[], rfl⟩
  | (k, l) :: rest, ren, h => by
    obtain ⟨l1, hl1⟩ := renumber_total l ren (h (k, l) (by simp))
    obtain ⟨rest1, hrest1⟩ := renumberLookup_total rest ren
      (fun p hp => h p (by simp [hp]))
    exact ⟨(k, l1) :: rest1, by
      simp only [renumberLookup, bind_eq_optionBind, pure_eq_some, hl1, Option.some_bind,
        hrest1]⟩

/-- Every entry of the renumbered `nodeLookup` comes from an entry with the same key. -/
theorem renumberLookup_mem : ∀ (m : List (Int × List Nat)) (ren : List Nat)
    (m2 : List (Int × List Nat)), renumberLookup m ren = some m2 →
    m2.map Prod.fst = m.map Prod.fst ∧
    ∀ k l2, (k, l2) ∈ m2 → ∃ l, (k, l) ∈ m ∧ List.Forall₂ (MapsTo ren) l l2
  | [], _, m2, h => by
    simp only [renumberLookup, Option.some.injEq] at h
    subst h
    simp
  | (k, l) :: rest, ren, m2, h => by
    simp only [renumberLookup, bind_eq_optionBind, pure_eq_some] at h
    obtain ⟨l1, hl1, h⟩ := Option.bind_eq_some.mp h
    obtain ⟨rest1, hrest1, h⟩ := Option.bind_eq_some.mp h
    cases Option.some.inj h
    obtain ⟨ih1, ih2⟩ := renumberLookup_mem rest ren rest1 hrest1
    refine ⟨by simp [ih1], ?_⟩
    intro k2 l2 hmem
    rcases List.mem_cons.mp hmem with heq | hmem
    · cases heq
      exact ⟨l, by simp, renumber_spec _ _ _ hl1⟩
    · obtain ⟨l0, hl0, hall⟩ := ih2 k2 l2 hmem
      exact ⟨l0, List.mem_cons_of_mem _ hl0, hall⟩

theorem checkMirror_total {other : List (List Nat)} {i : Nat} : ∀ (l : List Nat),
    (∀ n ∈ l, i ∈ other.getD n []) → checkMirror other i l = some ()
  | [], _ => rfl
  | n :: rest, h => by
    have hn := h n (by simp)
    have hlt : n < other.length := by
      by_contra hge
      rw [List.getD_eq_getElem?_getD, List.getElem?_eq_none (Nat.le_of_not_lt hge)] at hn
      simp at hn
    have hget : other[n]? = some other[n] := List.getElem?_eq_getElem hlt
    rw [getD_of_getElem? hget] at hn
    simp only [checkMirror, bind_eq_optionBind, hget, Option.some_bind, hn, decide_True,
      assert_true]
    exact checkMirror_total rest (fun n2 hn2 => h n2 (by simp [hn2]))

theorem checkNeighbors_total {allIn allOut : List (List Nat)}
    (hmirror : ∀ u v, v ∈ allOut.getD u [] ↔ u ∈ allIn.getD v []) :
    ∀ (ins outs : List (List Nat)) (i : Nat), ins.length = outs.length →
      (∀ j l, ins[j]? = some l → allIn.getD (i + j) [] = l) →
      (∀ j l, outs[j]? = some l → allOut.getD (i + j) [] = l) →
      checkNeighbors allIn allOut ins outs i = some ()
  | [], _, _, _, _, _ => by simp [checkNeighbors]
  | insI :: insRest, [], _, hlen, _, _ => by simp at hlen
  | insI :: insRest, outsI :: outsRest, i, hlen, hin, hout => by
    have h1 : checkMirror allOut i insI = some () := by
      refine checkMirror_total insI ?_
      intro n hn
      have h0 := hin 0 insI (by simp)
      rw [Nat.add_zero] at h0
      rw [hmirror n i, h0]
      exact hn
    have h2 : checkMirror allIn i outsI = some () := by
      refine checkMirror_total outsI ?_
      intro n hn
      have h0 := hout 0 outsI (by simp)
      rw [Nat.add_zero] at h0
      rw [← hmirror i n, h0]
      exact hn
    simp only [checkNeighbors, bind_eq_optionBind, h1, h2, Option.some_bind]
    refine checkNeighbors_total hmirror insRest outsRest (i + 1) (by simpa using hlen) ?_ ?_
    · intro j l hj
      have := hin (j + 1) l (by simpa using hj)
      rw [← this]
      congr 1
      omega
    · intro j l hj
      have := hout (j + 1) l (by simpa using hj)
      rw [← this]
      congr 1
      omega

theorem checkSplits_tiles {g : AlignmentGraph} {off1 len1 : List Nat} {ids1 : List Int}
    {ren : List Nat} {id : Int}
    (hoff : ∀ s s2 x, MapsTo ren s s2 → g.nodeOffset[s]? = some x → off1[s2]? = some x)
    (hlen : ∀ s s2 x, MapsTo ren s s2 → g.nodeLength[s]? = some x → len1[s2]? = some x)
    (hids : ∀ s s2 x, MapsTo ren s s2 → g.nodeIDs[s]? = some x → ids1[s2]? = some x)
    {e0 e1 : Nat} {l : List Nat} (ht : Tiles g id e0 l e1) :
    ∀ (l2 : List Nat) (st : LookupCheck), List.Forall₂ (MapsTo ren) l l2 →
      (∀ o ∈ st.offsets, o < e0) → (st.offsets.length = 0 ∨ st.lastOffset < e0) →
      st.foundSize + (e1 - e0) < 2 ^ 64 →
      ∃ st2, checkSplits off1 len1 ids1 id l2 st = some st2 ∧
        st2.foundSize = st.foundSize + (e1 - e0) := by
  induction ht with
  | nil e =>
    intro l2 st hl _ _ _
    cases hl
    exact ⟨st, rfl, by simp⟩
  | @cons e len e1 s rest hv _ ht ih =>
    intro l2 st hl hall hlast hsmall
    cases hl with
    | @cons _ s2 _ rest2 hs hrest =>
      have hle := ht.le
      have hpos := hv.pos
      have hnot : e ∉ st.offsets := fun hmem => Nat.lt_irrefl _ (hall e hmem)
      have hgt : st.offsets.length = 0 ∨ e > st.lastOffset := hlast
      have hmod : (st.foundSize + len) % 2 ^ 64 = st.foundSize + len :=
        Nat.mod_eq_of_lt (by omega)
      obtain ⟨st2, hst2, hfound⟩ := ih rest2
        { foundSize := (st.foundSize + len) % 2 ^ 64
          offsets := st.offsets ++ [e]
          lastOffset := e } hrest
        (by
          intro o ho
          rcases List.mem_append.mp ho with ho | ho
          · have := hall o ho
            omega
          · simp only [List.mem_singleton] at ho
            omega)
        (Or.inr (by simp only; omega))
        (by simp only [hmod]; omega)
      refine ⟨st2, ?_, ?_⟩
      · simp only [checkSplits, bind_eq_optionBind, hoff s s2 e hs hv.offEq, Option.some_bind,
          hnot, not_false_eq_true, decide_True, assert_true, hgt,
          hids s s2 id hs hv.idsEq, hlen s s2 len hs hv.lenEq, if_false]
        exact hst2
      · rw [hfound]
        simp only [hmod]
        omega

theorem checkLookup_total {off1 len1 : List Nat} {ids1 : List Int} :
    ∀ (m : List (Int × List Nat)) (sizes : List (Int × Nat)),
      (∀ k l, (k, l) ∈ m → ∃ size st, sizes.lookup k = some size ∧
        checkSplits off1 len1 ids1 k l ⟨0, [], 0⟩ = some st ∧ st.foundSize = size) →
      checkLookup off1 len1 ids1 m sizes = some sizes
  | [], sizes, _ => rfl
  | (key, splits) :: rest, sizes, h => by
    obtain ⟨size, st, hsize, hst, hfound⟩ := h key splits (by simp)
    simp only [checkLookup, bind_eq_optionBind, hst, Option.some_bind, mapIndex, hsize, hfound,
      decide_True, assert_true]
    exact checkLookup_total rest sizes (fun k l hmem => h k l (by simp [hmem]))

/-- On every graph under construction `RenumberAmbiguousToEnd` returns: no assertion of it
fails and no table is read out of range. -/
theorem RenumberAmbiguousToEnd_total {g : AlignmentGraph} (hb : Built g) (hk : UniqueKeys g) :
    ∃ g2, g.RenumberAmbiguousToEnd = some g2 := by
  have hbasic := hb.basic
  have hN : g.ambiguousNodes.length = g.nodeLength.length := hbasic.amb
  have hsum := count_false_add_count_true g.ambiguousNodes
  obtain ⟨st, hst⟩ := renumberingLoop_total g.ambiguousNodes.length g.ambiguousNodes []
    ⟨[], 0, 0⟩
    ⟨rfl, rfl, rfl, by simp⟩ (by simp)
  have hinv := renumberingLoop_spec hst
  have hrenLen : st.renumbering.length = g.nodeLength.length := hinv.len.trans hN
  have ha1 : assert (decide (g.nodeSequences.length + g.ambiguousNodeSequences.length =
      g.nodeLength.length)) = some () :=
    assert_of_true (decide_eq_true (by rw [hbasic.seqs, hbasic.aseqs]; omega))
  have ha2 : assert (decide (g.inNeighbors.length = g.nodeLength.length)) = some () :=
    assert_of_true (decide_eq_true hbasic.inn)
  have ha3 : assert (decide (g.outNeighbors.length = g.nodeLength.length)) = some () :=
    assert_of_true (decide_eq_true hbasic.out)
  have ha4 : assert (decide (g.reverse.length = g.nodeLength.length)) = some () :=
    assert_of_true (decide_eq_true hbasic.rev)
  have ha5 : assert (decide (g.nodeIDs.length = g.nodeLength.length)) = some () :=
    assert_of_true (decide_eq_true hbasic.ids)
  have ha6 : assert (decide (g.ambiguousNodes.length = g.nodeLength.length)) = some () :=
    assert_of_true (decide_eq_true hN)
  have ha7 : assert (decide (g.firstAmbiguous = SIZE_MAX)) = some () :=
    assert_of_true (decide_eq_true hbasic.first)
  have ha8 : assert (!g.finalized) = some () := assert_of_true (by rw [hbasic.fin]; rfl)
  have ha9 : assert (decide (st.renumbering.length = g.ambiguousNodes.length)) = some () :=
    assert_of_true (decide_eq_true hinv.len)
  have ha10 : assert (decide (st.nonAmbiguousCount + st.ambiguousCount =
      g.ambiguousNodes.length)) = some () :=
    assert_of_true (decide_eq_true (by rw [hinv.nonAmb, hinv.amb]; exact hsum))
  have ha11 : assert (decide (st.ambiguousCount = g.ambiguousNodeSequences.length)) =
      some () :=
    assert_of_true (decide_eq_true (by rw [hinv.amb, hbasic.aseqs]))
  have ha12 : assert (decide (st.nonAmbiguousCount = g.nodeSequences.length)) = some () :=
    assert_of_true (decide_eq_true (by rw [hinv.nonAmb, hbasic.seqs]))
  simp only [RenumberAmbiguousToEnd, bind_eq_optionBind, ha1, ha2, ha3, ha4, ha5, ha6, ha7, ha8,
    hst, ha9, ha10, ha11, ha12, Option.some_bind]
  by_cases hzero : st.ambiguousCount = 0
  · rw [if_pos hzero]
    exact ⟨_, rfl⟩
  · rw [if_neg hzero]
    have hnd := renumbering_nodup hinv
    have hlt : ∀ r ∈ st.renumbering, r < g.nodeLength.length := by
      intro r hr
      obtain ⟨k, hk2⟩ := List.mem_iff_getElem?.mp hr
      obtain ⟨hk3, rfl⟩ := mapsTo_renumbering hinv hk2
      rw [← hN]
      exact newIndex_lt hk3
    obtain ⟨nodeLength1, hlen1⟩ := reorder_total g.nodeLength st.renumbering
      hrenLen.symm hlt
    obtain ⟨nodeOffset1, hoff1⟩ := reorder_total g.nodeOffset st.renumbering
      (hbasic.off.trans hrenLen.symm) (by rw [hbasic.off]; exact hlt)
    obtain ⟨nodeIDs1, hids1⟩ := reorder_total g.nodeIDs st.renumbering
      (hbasic.ids.trans hrenLen.symm) (by rw [hbasic.ids]; exact hlt)
    obtain ⟨inNeighbors1, hin1⟩ := reorder_total g.inNeighbors st.renumbering
      (hbasic.inn.trans hrenLen.symm) (by rw [hbasic.inn]; exact hlt)
    obtain ⟨outNeighbors1, hout1⟩ := reorder_total g.outNeighbors st.renumbering
      (hbasic.out.trans hrenLen.symm) (by rw [hbasic.out]; exact hlt)
    obtain ⟨reverse1, hrev1⟩ := reorder_total g.reverse st.renumbering
      (hbasic.rev.trans hrenLen.symm) (by rw [hbasic.rev]; exact hlt)
    obtain ⟨hl1, hl2⟩ := reorder_spec hnd hlen1
    obtain ⟨ho1, ho2⟩ := reorder_spec hnd hoff1
    obtain ⟨hi1, hi2⟩ := reorder_spec hnd hids1
    obtain ⟨hn1, hn2⟩ := reorder_spec hnd hin1
    obtain ⟨hu1, hu2⟩ := reorder_spec hnd hout1
    have htiles : ∀ k l, (k, l) ∈ g.nodeLookup → l ≠ [] ∧
        ∃ size, g.originalNodeSize.lookup k = some size ∧ Tiles g k 0 l size := by
      intro k l hmem
      obtain ⟨hne, hsome, ht⟩ := hb.tiles k l (lookup_of_mem_keys hk hmem)
      obtain ⟨size, hsz⟩ := Option.ne_none_iff_exists'.mp hsome
      exact ⟨hne, size, hsz, ht size hsz⟩
    obtain ⟨nodeLookup1, hlook1⟩ := renumberLookup_total g.nodeLookup st.renumbering (by
      rintro ⟨k, l⟩ hmem x hx
      obtain ⟨_, size, _, ht⟩ := htiles k l hmem
      obtain ⟨es, ls, hv, _, _⟩ := ht.tiles_mem hx
      rw [hrenLen]
      exact (List.getElem?_eq_some.mp hv.lenEq).1)
    obtain ⟨inNeighbors2, hin2⟩ := renumberAll_total inNeighbors1 st.renumbering (by
      intro l hl x hx
      obtain ⟨r, hr⟩ := List.mem_iff_getElem?.mp hl
      rcases reorder_source hnd (hrenLen.trans hbasic.inn.symm) hin1 hr with hnil | ⟨k, _, hk2⟩
      · rw [hnil] at hx
        simp at hx
      · rw [hrenLen]
        exact hbasic.inEdges k l hk2 x hx)
    obtain ⟨outNeighbors2, hout2⟩ := renumberAll_total outNeighbors1 st.renumbering (by
      intro l hl x hx
      obtain ⟨r, hr⟩ := List.mem_iff_getElem?.mp hl
      rcases reorder_source hnd (hrenLen.trans hbasic.out.symm) hout1 hr with hnil | ⟨k, _, hk2⟩
      · rw [hnil] at hx
        simp at hx
      · rw [hrenLen]
        exact hbasic.edges k l hk2 x hx)
    obtain ⟨hn3, _⟩ := renumberAll_spec _ _ _ hin2
    obtain ⟨hu3, _⟩ := renumberAll_spec _ _ _ hout2
    have hmirror : ∀ u v, v ∈ outNeighbors2.getD u [] ↔ u ∈ inNeighbors2.getD v [] := by
      intro u v
      rw [moved_mem hnd (hrenLen.trans hbasic.out.symm) hout1 hout2,
        moved_mem hnd (hrenLen.trans hbasic.inn.symm) hin1 hin2]
      constructor
      · rintro ⟨k, x, hk2, hx, hmem⟩
        exact ⟨x, k, hx, hk2, (hbasic.nbrs.mirror k x).mp hmem⟩
      · rintro ⟨k, x, hk2, hx, hmem⟩
        exact ⟨x, k, hx, hk2, (hbasic.nbrs.mirror x k).mpr hmem⟩
    have hcheck : checkNeighbors inNeighbors2 outNeighbors2 inNeighbors2 outNeighbors2 0 =
        some () :=
      checkNeighbors_total hmirror inNeighbors2 outNeighbors2 0
        (by rw [hn3, hu3, hn1, hu1, hbasic.inn, hbasic.out])
        (fun j l hj => by rw [Nat.zero_add]; exact getD_of_getElem? hj)
        (fun j l hj => by rw [Nat.zero_add]; exact getD_of_getElem? hj)
    have hmove : ∀ {T : Type} {vec vec2 : List T},
        (∀ (k : Nat) (x : T), vec[k]? = some x →
          ∃ r : Nat, st.renumbering[k]? = some r ∧ vec2[r]? = some x) →
        ∀ s s2 x, MapsTo st.renumbering s s2 → vec[s]? = some x → vec2[s2]? = some x := by
      intro T vec vec2 hspec s s2 x hm hx
      obtain ⟨r, hr, hres⟩ := hspec s x hx
      unfold MapsTo at hm
      rw [hm] at hr
      cases Option.some.inj hr
      exact hres
    have hsizes : checkLookup nodeOffset1 nodeLength1 nodeIDs1 nodeLookup1
        g.originalNodeSize = some g.originalNodeSize := by
      refine checkLookup_total nodeLookup1 g.originalNodeSize ?_
      intro k l2 hmem
      obtain ⟨l, hl, hall⟩ := (renumberLookup_mem _ _ _ hlook1).2 k l2 hmem
      obtain ⟨hne, size, hsz, ht⟩ := htiles k l hl
      obtain ⟨a, ha⟩ : ∃ a, l.getLast? = some a := by
        cases hlast : l.getLast? with
        | none => exact absurd (List.getLast?_eq_none_iff.mp hlast) hne
        | some a => exact ⟨a, rfl⟩
      obtain ⟨ea, la, hv, hsum2⟩ := ht.last ha
      have h1 := hv.small
      have h2 := hv.bound
      obtain ⟨st2, hst2, hfound⟩ := checkSplits_tiles (hmove ho2) (hmove hl2) (hmove hi2) ht
        l2 ⟨0, [], 0⟩ hall (by simp) (Or.inl rfl) (by simp only; omega)
      exact ⟨size, st2, hsz, hst2, by rw [hfound]; simp⟩
    have hb1 : assert (decide (inNeighbors1.length = outNeighbors1.length)) = some () :=
      assert_of_true (decide_eq_true (by rw [hn1, hu1, hbasic.inn, hbasic.out]))
    have hb2 : assert (decide (inNeighbors2.length = outNeighbors2.length)) = some () :=
      assert_of_true (decide_eq_true (by rw [hn3, hu3, hn1, hu1, hbasic.inn, hbasic.out]))
    simp only [bind_eq_optionBind, hlen1, hoff1, hids1, hin1, hout1, hrev1, hlook1, hb1, hin2,
      hout2, hb2, hcheck, hsizes, Option.some_bind]
    exact ⟨_, rfl⟩

/-! ## `Finalize` returns on every graph under construction -/

theorem RenumberAmbiguousToEnd_keys {g g2 : AlignmentGraph}
    (h : g.RenumberAmbiguousToEnd = some g2) :
    g2.nodeLookup.map Prod.fst = g.nodeLookup.map Prod.fst := by
  simp only [RenumberAmbiguousToEnd, bind_eq_optionBind] at h
  obtain ⟨_, _, h⟩ := Option.bind_eq_some.mp h
  obtain ⟨_, _, h⟩ := Option.bind_eq_some.mp h
  obtain ⟨_, _, h⟩ := Option.bind_eq_some.mp h
  obtain ⟨_, _, h⟩ := Option.bind_eq_some.mp h
  obtain ⟨_, _, h⟩ := Option.bind_eq_some.mp h
  obtain ⟨_, _, h⟩ := Option.bind_eq_some.mp h
  obtain ⟨_, _, h⟩ := Option.bind_eq_some.mp h
  obtain ⟨_, _, h⟩ := Option.bind_eq_some.mp h
  obtain ⟨st, hst, h⟩ := Option.bind_eq_some.mp h
  obtain ⟨_, _, h⟩ := Option.bind_eq_some.mp h
  obtain ⟨_, _, h⟩ := Option.bind_eq_some.mp h
  obtain ⟨_, _, h⟩ := Option.bind_eq_some.mp h
  obtain ⟨_, _, h⟩ := Option.bind_eq_some.mp h
  by_cases hzero : st.ambiguousCount = 0
  · rw [if_pos hzero] at h
    cases Option.some.inj h
    rfl
  · rw [if_neg hzero] at h
    obtain ⟨nodeLength1, hlen1, h⟩ := Option.bind_eq_some.mp h
    obtain ⟨nodeOffset1, hoff1, h⟩ := Option.bind_eq_some.mp h
    obtain ⟨nodeIDs1, hids1, h⟩ := Option.bind_eq_some.mp h
    obtain ⟨inNeighbors1, hin1, h⟩ := Option.bind_eq_some.mp h
    obtain ⟨outNeighbors1, hout1, h⟩ := Option.bind_eq_some.mp h
    obtain ⟨reverse1, hrev1, h⟩ := Option.bind_eq_some.mp h
    obtain ⟨nodeLookup1, hlook1, h⟩ := Option.bind_eq_some.mp h
    obtain ⟨_, _, h⟩ := Option.bind_eq_some.mp h
    obtain ⟨inNeighbors2, hin2, h⟩ := Option.bind_eq_some.mp h
    obtain ⟨outNeighbors2, hout2, h⟩ := Option.bind_eq_some.mp h
    obtain ⟨_, _, h⟩ := Option.bind_eq_some.mp h
    obtain ⟨_, _, h⟩ := Option.bind_eq_some.mp h
    obtain ⟨sizes, hsizes, h⟩ := Option.bind_eq_some.mp h
    cases Option.some.inj h
    exact (renumberLookup_mem _ _ _ hlook1).1

theorem checkIncreasing_tiles {g : AlignmentGraph} {id : Int} {e0 e1 : Nat} {l : List Nat}
    (ht : Tiles g id e0 l e1) : checkIncreasing g.nodeOffset l = some () := by
  induction ht with
  | nil e => rfl
  | @cons e len e1 s rest hv _ ht ih =>
    cases ht with
    | nil => rfl
    | @cons _ len2 _ b rs hvb hlb htb =>
      have hlt : e < e + len := by have := hv.pos; omega
      simp only [checkIncreasing, bind_eq_optionBind, hv.offEq, hvb.offEq, Option.some_bind, hlt,
        decide_True, assert_true]
      exact ih

theorem checkAllIncreasing_total {nodeOffset : List Nat} : ∀ (m : List (Int × List Nat)),
    (∀ k l, (k, l) ∈ m → checkIncreasing nodeOffset l = some ()) →
    checkAllIncreasing nodeOffset m = some ()
  | [], _ => rfl
  | (k, l) :: rest, h => by
    simp only [checkAllIncreasing, bind_eq_optionBind, h k l (by simp), Option.some_bind]
    exact checkAllIncreasing_total rest (fun k2 l2 hmem => h k2 l2 (by simp [hmem]))

/-- On every graph under construction `Finalize` returns; with the component order enabled
this holds for graphs of fewer than `2^64` vertices. -/
theorem Finalize_total {g : AlignmentGraph} (hb : Built g) (hk : UniqueKeys g) (wordSize : Int)
    (doComponents : Bool) (hsize : doComponents = true → g.nodeLength.length ≤ SIZE_MAX) :
    ∃ gF, g.Finalize wordSize doComponents = some gF := by
  have hbasic := hb.basic
  have hsum := count_false_add_count_true g.ambiguousNodes
  obtain ⟨g1, hg1⟩ := RenumberAmbiguousToEnd_total hb hk
  obtain ⟨ren, hren, hlin, hcomp, hoffLen, hidsLen, hrevLen, hseqLen⟩ :=
    RenumberAmbiguousToEnd_spec hb hg1
  have hkeys := RenumberAmbiguousToEnd_keys hg1
  have hfl := findLinearizable_spec (g := { g1 with ambiguousNodes := [] })
    (by simp only; rw [hren.innLen, hren.total]) hlin
  have hs1 : sizesAgree g = true := by
    simp only [sizesAgree, Bool.and_eq_true, decide_eq_true_eq]
    refine ⟨⟨⟨⟨?_, hbasic.inn⟩, hbasic.out⟩, hbasic.rev⟩, hbasic.ids⟩
    rw [hbasic.seqs, hbasic.aseqs, ← hbasic.amb]
    exact hsum
  have hinc : checkAllIncreasing g1.nodeOffset g1.nodeLookup = some () := by
    refine checkAllIncreasing_total _ ?_
    intro k l2 hmem
    have hk1 : (g1.nodeLookup.map Prod.fst).Nodup := by rw [hkeys]; exact hk
    obtain ⟨l, hl, hall⟩ := hren.lookBack k l2 (lookup_of_mem_keys hk1 hmem)
    obtain ⟨_, hsome, ht⟩ := hb.tiles k l hl
    obtain ⟨size, hsz⟩ := Option.ne_none_iff_exists'.mp hsome
    exact checkIncreasing_tiles ((ht size hsz).renumbered hren hall)
  simp only [Finalize, bind_eq_optionBind, hs1, assert_true, Option.some_bind, hg1, hfl]
  have hs2 : sizesAgree
      { g1 with
        ambiguousNodes := []
        linearizable := List.replicate g1.nodeLength.length false
        finalized := true } = true := by
    simp only [sizesAgree, Bool.and_eq_true, decide_eq_true_eq]
    exact ⟨⟨⟨⟨by rw [hren.total]; exact hseqLen, by rw [hren.total]; exact hren.innLen⟩,
      by rw [hren.total]; exact hren.outLen⟩, by rw [hren.total]; exact hrevLen⟩,
      by rw [hren.total]; exact hidsLen⟩
  have hs3 : assert (decide (g1.nodeOffset.length = g1.nodeLength.length)) = some () :=
    assert_of_true (decide_eq_true (by rw [hren.total]; exact hoffLen))
  simp only [hs2, assert_true, Option.some_bind, hs3]
  cases doComponents with
  | false =>
    simp only [Bool.false_eq_true, if_false, Option.some_bind, hinc]
    exact ⟨_, rfl⟩
  | true =>
    obtain ⟨comp, hrun, _⟩ := componentOrder_spec hren.wellFormed (hsize rfl)
    rw [← hren.total] at hrun
    simp only [if_true, doComponentOrder, bind_eq_optionBind, pure_eq_some, hcomp, hrun,
      Option.some_bind, hinc]
    exact ⟨_, rfl⟩

/-- Every sequence of builder calls that returns can be finalized; with the component order
enabled this holds for graphs of fewer than `2^64` vertices. -/
theorem buildFinal_total {calls : List BuildCall} {g : AlignmentGraph}
    (hg : build calls = some g) (wordSize : Int) (doComponents : Bool)
    (hsize : doComponents = true → g.nodeLength.length ≤ SIZE_MAX) :
    ∃ gF, buildFinal calls wordSize doComponents = some gF := by
  simp only [buildFinal, bind_eq_optionBind, hg, Option.some_bind]
  exact Finalize_total (build_built hg) (build_keys hg) wordSize doComponents hsize

/-! ## C23: the permutation of `RenumberAmbiguousToEnd` -/

theorem forall₂_mapsTo_map {ren l l2 : List Nat} {f : Nat → Nat}
    (hf : ∀ x y, MapsTo ren x y → y = f x) (h : List.Forall₂ (MapsTo ren) l l2) :
    l2 = l.map f := by
  induction h with
  | nil => rfl
  | @cons x y xs ys hxy _ ih => rw [List.map_cons, ← hf x y hxy, ← ih]

theorem newIndex_inj {flags : List Bool} {i j : Nat} (hi : i < flags.length)
    (hj : j < flags.length)
    (h : newIndex flags.length flags i = newIndex flags.length flags j) : i = j := by
  rcases Nat.lt_trichotomy i j with hlt | heq | hgt
  · exact absurd h (newIndex_injective hi hj hlt)
  · exact heq
  · exact absurd h.symm (newIndex_injective hj hi hgt)

theorem newIndex_surjective {flags : List Bool} {j : Nat} (hj : j < flags.length) :
    ∃ i, i < flags.length ∧ newIndex flags.length flags i = j := by
  have hinj : Function.Injective (fun i : Fin flags.length =>
      (⟨newIndex flags.length flags i.1, newIndex_lt i.2⟩ : Fin flags.length)) := by
    intro a b hab
    apply Fin.ext
    exact newIndex_inj a.2 b.2 (Fin.mk.inj_iff.mp hab)
  obtain ⟨i, hi⟩ := (Finite.injective_iff_surjective.mp hinj) ⟨j, hj⟩
  exact ⟨i.1, i.2, Fin.mk.inj_iff.mp hi⟩

/-- C23: on every graph reached by builder calls, `RenumberAmbiguousToEnd` returns, and the
graph it returns has been relabelled by the map `pi = newIndex N ambiguousNodes` on the `N`
split vertices: `pi` sends a definite vertex to the number of definite vertices before it and
an ambiguous vertex to `N - 1` minus the number of ambiguous vertices before it; `pi` is a
bijection of `[0, N)`; the length, offset, original id and strand at `pi i` are the old ones at
`i`; the in- and out-neighbour lists at `pi i` are the old lists of `i` mapped through `pi`;
and every list of `nodeLookup` is the old list mapped through `pi`. -/
theorem renumber_is_permutation (calls : List BuildCall) (g : AlignmentGraph)
    (hg : build calls = some g) :
    ∃ g2, g.RenumberAmbiguousToEnd = some g2 ∧
    (∀ i, i < g.nodeLength.length →
      (g.ambiguousNodes[i]? = some false →
        newIndex g.nodeLength.length g.ambiguousNodes i =
          (g.ambiguousNodes.take i).count false) ∧
      (g.ambiguousNodes[i]? = some true →
        newIndex g.nodeLength.length g.ambiguousNodes i =
          g.nodeLength.length - 1 - (g.ambiguousNodes.take i).count true)) ∧
    (∀ i, i < g.nodeLength.length →
      newIndex g.nodeLength.length g.ambiguousNodes i < g.nodeLength.length) ∧
    (∀ i j, i < g.nodeLength.length → j < g.nodeLength.length →
      newIndex g.nodeLength.length g.ambiguousNodes i =
        newIndex g.nodeLength.length g.ambiguousNodes j → i = j) ∧
    (∀ j, j < g.nodeLength.length → ∃ i, i < g.nodeLength.length ∧
      newIndex g.nodeLength.length g.ambiguousNodes i = j) ∧
    (∀ i, i < g.nodeLength.length →
      g2.nodeLength[newIndex g.nodeLength.length g.ambiguousNodes i]? = g.nodeLength[i]? ∧
      g2.nodeOffset[newIndex g.nodeLength.length g.ambiguousNodes i]? = g.nodeOffset[i]? ∧
      g2.nodeIDs[newIndex g.nodeLength.length g.ambiguousNodes i]? = g.nodeIDs[i]? ∧
      g2.reverse[newIndex g.nodeLength.length g.ambiguousNodes i]? = g.reverse[i]? ∧
      g2.inNeighbors[newIndex g.nodeLength.length g.ambiguousNodes i]? =
        (g.inNeighbors[i]?).map
          (List.map (newIndex g.nodeLength.length g.ambiguousNodes)) ∧
      g2.outNeighbors[newIndex g.nodeLength.length g.ambiguousNodes i]? =
        (g.outNeighbors[i]?).map
          (List.map (newIndex g.nodeLength.length g.ambiguousNodes))) ∧
    (∀ id, g2.nodeLookup.lookup id =
      (g.nodeLookup.lookup id).map
        (List.map (newIndex g.nodeLength.length g.ambiguousNodes))) := by
  have hb := build_built hg
  have hN : g.ambiguousNodes.length = g.nodeLength.length := hb.basic.amb
  obtain ⟨g2, h⟩ := RenumberAmbiguousToEnd_total hb (build_keys hg)
  obtain ⟨ren, hren, -⟩ := RenumberAmbiguousToEnd_spec hb h
  refine ⟨g2, h, ?_, ?_, ?_, ?_, ?_, ?_⟩
  · intro i _
    constructor
    · intro hf
      unfold newIndex
      rw [List.getD_eq_getElem?_getD, hf]
      simp
    · intro hf
      unfold newIndex
      rw [List.getD_eq_getElem?_getD, hf]
      simp
  · intro i hi
    rw [← hN] at hi ⊢
    exact newIndex_lt hi
  · intro i j hi hj hij
    rw [← hN] at hi hj hij
    exact newIndex_inj hi hj hij
  · intro j hj
    rw [← hN] at hj ⊢
    exact newIndex_surjective hj
  · intro i hi
    obtain ⟨s2, hm⟩ := hren.dom i hi
    have hs2 := hren.index i s2 hm
    subst hs2
    have h1 : i < g.nodeOffset.length := by rw [hb.basic.off]; exact hi
    have h2 : i < g.nodeIDs.length := by rw [hb.basic.ids]; exact hi
    have h3 : i < g.reverse.length := by rw [hb.basic.rev]; exact hi
    have h4 : i < g.inNeighbors.length := by rw [hb.basic.inn]; exact hi
    have h5 : i < g.outNeighbors.length := by rw [hb.basic.out]; exact hi
    refine ⟨?_, ?_, ?_, ?_, ?_, ?_⟩
    · rw [List.getElem?_eq_getElem hi]
      exact hren.len i _ _ hm (List.getElem?_eq_getElem hi)
    · rw [List.getElem?_eq_getElem h1]
      exact hren.off i _ _ hm (List.getElem?_eq_getElem h1)
    · rw [List.getElem?_eq_getElem h2]
      exact hren.ids i _ _ hm (List.getElem?_eq_getElem h2)
    · rw [List.getElem?_eq_getElem h3]
      exact hren.rev i _ _ hm (List.getElem?_eq_getElem h3)
    · obtain ⟨l2, hl2, hall⟩ := hren.inns i _ _ hm (List.getElem?_eq_getElem h4)
      rw [List.getElem?_eq_getElem h4, hl2, forall₂_mapsTo_map hren.index hall]
      rfl
    · obtain ⟨l2, hl2, hall⟩ := hren.outs i _ _ hm (List.getElem?_eq_getElem h5)
      rw [List.getElem?_eq_getElem h5, hl2, forall₂_mapsTo_map hren.index hall]
      rfl
  · intro id
    cases hl : g.nodeLookup.lookup id with
    | none =>
      cases hl2 : g2.nodeLookup.lookup id with
      | none => rfl
      | some l2 =>
        obtain ⟨l, hl0, -⟩ := hren.lookBack id l2 hl2
        rw [hl] at hl0
        cases hl0
    | some l =>
      obtain ⟨l2, hl2, hall⟩ := hren.look id l hl
      rw [hl2, forall₂_mapsTo_map hren.index hall]
      rfl

/-- Three original nodes, the first and the third with an ambiguity code, and two edges. -/
def mixedCalls : List BuildCall :=
  [.addNode 4 "ACNGT".toList "n4" false [0, 5], .addNode 2 "ACGT".toList "n2" false [0, 4],
   .addNode 6 "NN".toList "n6" false [0, 2], .addEdge 4 2 0, .addEdge 4 6 0]

/-- The builder state of `mixedCalls`. -/
def mixedBuilt : AlignmentGraph :=
  { nodeLength := [5, 4, 2]
    nodeLookup := [(4, [0]), (2, [1]), (6, [2])]
    originalNodeSize := [(4, 5), (2, 4), (6, 2)]
    originalNodeName := [(4, "n4"), (2, "n2"), (6, "n6")]
    nodeOffset := [0, 0, 0]
    nodeIDs := [4, 2, 6]
    inNeighbors := [[], [0], [0]]
    outNeighbors := [[1, 2], [], []]
    reverse := [false, false, false]
    linearizable := []
    ambiguousNodes := [true, false, true]
    nodeSequences := [[228, 0]]
    ambiguousNodeSequences :=
      [{ A := 5, C := 6, G := 12, T := 20 }, { A := 3, C := 3, G := 3, T := 3 }]
    componentNumber := []
    firstAmbiguous := SIZE_MAX
    finalized := false }

/-- The graph `RenumberAmbiguousToEnd` makes of `mixedBuilt`: vertex 0 has moved to 2, vertex 1
to 0 and vertex 2 to 1. -/
def mixedRenumbered : AlignmentGraph :=
  { nodeLength := [4, 2, 5]
    nodeLookup := [(4, [2]), (2, [0]), (6, [1])]
    originalNodeSize := [(4, 5), (2, 4), (6, 2)]
    originalNodeName := [(4, "n4"), (2, "n2"), (6, "n6")]
    nodeOffset := [0, 0, 0]
    nodeIDs := [2, 6, 4]
    inNeighbors := [[2], [2], []]
    outNeighbors := [[], [], [0, 1]]
    reverse := [false, false, false]
    linearizable := []
    ambiguousNodes := [true, false, true]
    nodeSequences := [[228, 0]]
    ambiguousNodeSequences :=
      [{ A := 3, C := 3, G := 3, T := 3 }, { A := 5, C := 6, G := 12, T := 20 }]
    componentNumber := []
    firstAmbiguous := 1
    finalized := false }

theorem mixed_build : build mixedCalls = some mixedBuilt := by
  decide

theorem mixed_renumber : mixedBuilt.RenumberAmbiguousToEnd = some mixedRenumbered := by
  decide

theorem renumber_is_permutation_witness :
    build mixedCalls = some mixedBuilt ∧
    mixedBuilt.RenumberAmbiguousToEnd = some mixedRenumbered ∧
    (List.range 3).map (newIndex mixedBuilt.nodeLength.length mixedBuilt.ambiguousNodes) =
      [2, 0, 1] ∧
    ∃ g2, mixedBuilt.RenumberAmbiguousToEnd = some g2 ∧
    (∀ i, i < mixedBuilt.nodeLength.length →
      (mixedBuilt.ambiguousNodes[i]? = some false →
        newIndex mixedBuilt.nodeLength.length mixedBuilt.ambiguousNodes i =
          (mixedBuilt.ambiguousNodes.take i).count false) ∧
      (mixedBuilt.ambiguousNodes[i]? = some true →
        newIndex mixedBuilt.nodeLength.length mixedBuilt.ambiguousNodes i =
          mixedBuilt.nodeLength.length - 1 - (mixedBuilt.ambiguousNodes.take i).count true)) ∧
    (∀ i, i < mixedBuilt.nodeLength.length →
      newIndex mixedBuilt.nodeLength.length mixedBuilt.ambiguousNodes i <
        mixedBuilt.nodeLength.length) ∧
    (∀ i j, i < mixedBuilt.nodeLength.length → j < mixedBuilt.nodeLength.length →
      newIndex mixedBuilt.nodeLength.length mixedBuilt.ambiguousNodes i =
        newIndex mixedBuilt.nodeLength.length mixedBuilt.ambiguousNodes j → i = j) ∧
    (∀ j, j < mixedBuilt.nodeLength.length → ∃ i, i < mixedBuilt.nodeLength.length ∧
      newIndex mixedBuilt.nodeLength.length mixedBuilt.ambiguousNodes i = j) ∧
    (∀ i, i < mixedBuilt.nodeLength.length →
      g2.nodeLength[
          newIndex mixedBuilt.nodeLength.length mixedBuilt.ambiguousNodes i]? =
        mixedBuilt.nodeLength[i]? ∧
      g2.nodeOffset[
          newIndex mixedBuilt.nodeLength.length mixedBuilt.ambiguousNodes i]? =
        mixedBuilt.nodeOffset[i]? ∧
      g2.nodeIDs[
          newIndex mixedBuilt.nodeLength.length mixedBuilt.ambiguousNodes i]? =
        mixedBuilt.nodeIDs[i]? ∧
      g2.reverse[
          newIndex mixedBuilt.nodeLength.length mixedBuilt.ambiguousNodes i]? =
        mixedBuilt.reverse[i]? ∧
      g2.inNeighbors[
          newIndex mixedBuilt.nodeLength.length mixedBuilt.ambiguousNodes i]? =
        (mixedBuilt.inNeighbors[i]?).map
          (List.map (newIndex mixedBuilt.nodeLength.length mixedBuilt.ambiguousNodes)) ∧
      g2.outNeighbors[
          newIndex mixedBuilt.nodeLength.length mixedBuilt.ambiguousNodes i]? =
        (mixedBuilt.outNeighbors[i]?).map
          (List.map (newIndex mixedBuilt.nodeLength.length mixedBuilt.ambiguousNodes))) ∧
    (∀ id, g2.nodeLookup.lookup id =
      (mixedBuilt.nodeLookup.lookup id).map
        (List.map (newIndex mixedBuilt.nodeLength.length mixedBuilt.ambiguousNodes))) :=
  ⟨mixed_build, mixed_renumber, by decide,
    renumber_is_permutation mixedCalls mixedBuilt mixed_build⟩

end GraphAligner
